import Mathlib

/-!
# GPH: a primal heuristic engine for mixed-integer programs

A shallow embedding of the feasibility utilities (`core/Common.h`), the search
orchestrator (`core/Heuristic.cpp`), the rounding heuristics
(`methods/MinLockRounding.cpp`, `methods/BoundSolution.cpp`), the selection rule
of coefficient diving (`methods/CoefDiving.h`) and the MPS reader with its sparse
matrix transpose (`core/MPSReader.cpp`).

Conventions of the embedding:

* `double` values are exact rationals (`ℚ`): no rounding error, no NaN, no
  infinities. `std::numeric_limits<double>::max()` is a parameter `dblMax`.
* `std::vector` is `List`; a read `v[i]` is `v.getD i 0`, a write is `List.set`.
* `int` and `size_t` counters and indices are `Nat`; an `int` that may hold the
  sentinel `-1` is `Int`.
* a `for` loop over `0 .. n-1` is a structural recursion over `List.range n`.
* `std::string` is `String`, an input stream is the list of its lines, and the
  library routines `std::stod`, `std::stof` are parameters. Where the single
  precision of `std::stof` matters the conversions are `stodDecimal` and
  `stofDecimal`, the roundings of a decimal value to `double` and to `float`; where
  its exception matters the parameter has values in `Option`, `none` for a throw.
-/

namespace GPH

/-! ## Data model -/

/-- CSR storage of `SparseMatrix`: row `r` owns the positions
`rowStart[r] .. rowStart[r+1]-1` of `indices` and `coefficients`. -/
structure SparseMatrix where
  nrows : Nat
  ncols : Nat
  rowStart : List Nat
  indices : List Nat
  coefficients : List ℚ
deriving DecidableEq, Repr

/-- The `Stats` record of a MIP. -/
structure Stats where
  nbin : Nat
  nint : Nat
  ncont : Nat
deriving DecidableEq, Repr

/-- Modelled from the spec: the class `MIP` (header `MIP.h`), with the fields
filled by `mpsreader::makeMip` and the locks and statistics of the data model. -/
structure MIP where
  constMatrix : SparseMatrix
  constMatrixT : SparseMatrix
  lhs : List ℚ
  rhs : List ℚ
  lb : List ℚ
  ub : List ℚ
  objective : List ℚ
  integer : List Bool
  downLocks : List Nat
  upLocks : List Nat
  stats : Stats
deriving DecidableEq, Repr

/-- Modelled from the spec: `MIP::getNCols`, the column count of the row-major matrix. -/
def MIP.getNCols (mip : MIP) : Nat := mip.constMatrix.ncols

/-- Modelled from the spec: `MIP::getNRows`, the row count of the row-major matrix. -/
def MIP.getNRows (mip : MIP) : Nat := mip.constMatrix.nrows

/-- A `VectorView`: the `(coefs, indices, size)` triple of one row of a CSR matrix; the
two pointers are the arrays from the start of the row on. -/
structure VectorView where
  coefs : List ℚ
  indices : List Nat
  size : Nat
deriving DecidableEq, Repr

/-- The view of row `i` of a CSR matrix: `size = rowStart[i+1] - rowStart[i]`
entries starting at `rowStart[i]`. -/
def SparseMatrix.getRow (m : SparseMatrix) (i : Nat) : VectorView :=
  let start := m.rowStart.getD i 0
  let size := m.rowStart.getD (i + 1) 0 - start
  { coefs := m.coefficients.drop start
    indices := m.indices.drop start
    size := size }

/-- Modelled from the spec: `MIP::getRow`, a row of the row-major matrix. -/
def MIP.getRow (mip : MIP) (row : Nat) : VectorView := mip.constMatrix.getRow row

/-- Modelled from the spec: `MIP::getCol`, a row of the column-major matrix. -/
def MIP.getCol (mip : MIP) (col : Nat) : VectorView := mip.constMatrixT.getRow col

/-- Modelled from the spec: `MIP::getColSize`, the number of rows a column is in. -/
def MIP.getColSize (mip : MIP) (col : Nat) : Nat := (mip.getCol col).size

/-! ## `checkFeasibility` and `getNViolated` (core/Common.h) -/

/-- The inner loop of both feasibility routines:
`for (id = 0; id < size; ++id) activity += coefs[id] * sol[indices[id]]`,
starting from `activity = 0`. -/
def rowActivity (view : VectorView) (sol : List ℚ) : ℚ :=
  (List.range view.size).foldl
    (fun activity id => activity + view.coefs.getD id 0 * sol.getD (view.indices.getD id 0) 0) 0

/-- The test `sol[colid] > ub[colid] + boundtol || sol[colid] < lb[colid] - boundtol`. -/
def boundViolated (mip : MIP) (sol : List ℚ) (boundtol : ℚ) (colid : Nat) : Bool :=
  decide (sol.getD colid 0 > mip.ub.getD colid 0 + boundtol) ||
    decide (sol.getD colid 0 < mip.lb.getD colid 0 - boundtol)

/-- The test `colid < st.nbin + st.nint && !Num::isFeasInt(sol[colid])`, compiled in
only when the template parameter `LP` is false. -/
def intViolated (LP : Bool) (isFeasInt : ℚ → Bool) (mip : MIP) (sol : List ℚ)
    (colid : Nat) : Bool :=
  !LP && (decide (colid < mip.stats.nbin + mip.stats.nint) && !isFeasInt (sol.getD colid 0))

/-- The test `activity > rhs[rowid] + constol || activity < lhs[rowid] - constol`
on the activity of row `rowid`. -/
def rowViolated (mip : MIP) (sol : List ℚ) (constol : ℚ) (rowid : Nat) : Bool :=
  let activity := rowActivity (mip.getRow rowid) sol
  decide (activity > mip.rhs.getD rowid 0 + constol) ||
    decide (activity < mip.lhs.getD rowid 0 - constol)

/-- The column loop of `checkFeasibility`, over the remaining column ids:
`false` stands for the early `return false`. -/
def checkFeasibility.colLoop (LP : Bool) (isFeasInt : ℚ → Bool) (mip : MIP) (sol : List ℚ)
    (boundtol : ℚ) : List Nat → Bool
  | [] => true
  | colid :: rest =>
    if boundViolated mip sol boundtol colid then false
    else if intViolated LP isFeasInt mip sol colid then false
    else checkFeasibility.colLoop LP isFeasInt mip sol boundtol rest

/-- The row loop of `checkFeasibility`, over the remaining row ids. -/
def checkFeasibility.rowLoop (mip : MIP) (sol : List ℚ) (constol : ℚ) : List Nat → Bool
  | [] => true
  | rowid :: rest =>
    if rowViolated mip sol constol rowid then false
    else checkFeasibility.rowLoop mip sol constol rest

/-- `checkFeasibility<REAL, LP>(mip, sol, boundtol, constol)`. `Num::isFeasInt`
(header `Numerics.h`) is a parameter. -/
def checkFeasibility (LP : Bool) (isFeasInt : ℚ → Bool) (mip : MIP) (sol : List ℚ)
    (boundtol constol : ℚ) : Bool :=
  if checkFeasibility.colLoop LP isFeasInt mip sol boundtol (List.range mip.getNCols) then
    checkFeasibility.rowLoop mip sol constol (List.range mip.getNRows)
  else false

/-- The column loop of `getNViolated`: the two tests of a column each add one
to `ninfeas`. -/
def getNViolated.colLoop (LP : Bool) (isFeasInt : ℚ → Bool) (mip : MIP) (sol : List ℚ)
    (boundtol : ℚ) : List Nat → Nat → Nat
  | [], ninfeas => ninfeas
  | colid :: rest, ninfeas =>
    let n1 := if boundViolated mip sol boundtol colid then ninfeas + 1 else ninfeas
    let n2 := if intViolated LP isFeasInt mip sol colid then n1 + 1 else n1
    getNViolated.colLoop LP isFeasInt mip sol boundtol rest n2

/-- The row loop of `getNViolated`. -/
def getNViolated.rowLoop (mip : MIP) (sol : List ℚ) (constol : ℚ) : List Nat → Nat → Nat
  | [], ninfeas => ninfeas
  | rowid :: rest, ninfeas =>
    getNViolated.rowLoop mip sol constol rest
      (if rowViolated mip sol constol rowid then ninfeas + 1 else ninfeas)

/-- `getNViolated<REAL, LP>(mip, sol, boundtol, constol)`; the counter `ninfeas`
is a natural number (it is at most `2 * ncols + nrows`). -/
def getNViolated (LP : Bool) (isFeasInt : ℚ → Bool) (mip : MIP) (sol : List ℚ)
    (boundtol constol : ℚ) : Nat :=
  getNViolated.rowLoop mip sol constol (List.range mip.getNRows)
    (getNViolated.colLoop LP isFeasInt mip sol boundtol (List.range mip.getNCols) 0)

/-- The activity of a row as the spec writes it: the sum of `A[r,k] * sol[k]`
over the stored entries of the row. -/
def rowSum (view : VectorView) (sol : List ℚ) : ℚ :=
  ((List.range view.size).map
    (fun id => view.coefs.getD id 0 * sol.getD (view.indices.getD id 0) 0)).sum

/-! ## Numerics and the solution activities -/

/-- The tolerance-aware predicates and roundings of `Num` (header `Numerics.h`), taken
as parameters of the rounding heuristics. -/
structure Num where
  isIntegral : ℚ → Bool
  isFeasInt : ℚ → Bool
  floor : ℚ → ℚ
  ceil : ℚ → ℚ
  isFeasGE : ℚ → ℚ → Bool
  isFeasLE : ℚ → ℚ → Bool
  isInf : ℚ → Bool
  isMinusInf : ℚ → Bool
  isFeasEQ : ℚ → ℚ → Bool

/-- The value `1e30` that stands for an infinite bound or side. -/
def infval : ℚ := 10 ^ 30

/-- The C library `round`: to the nearest integer, halfway cases away from zero. -/
def cround (x : ℚ) : ℚ :=
  if 0 ≤ x then ((Rat.floor (x + 1/2) : ℤ) : ℚ) else ((Rat.ceil (x - 1/2) : ℤ) : ℚ)

/-- Modelled from the spec: `Numerics.h` as section 4.1 describes it, with
`feastol = inttol = 1e-6`: `isIntegral(x)` iff `|x - round(x)| <= inttol`, `floor(x)` is
`round(x)` when `isIntegral(x)` and the mathematical floor otherwise, `ceil` symmetric,
`isFeasGE(a,b)` iff `a >= b - feastol`, `isFeasLE(a,b)` iff `a <= b + feastol`,
`isInf(x)` iff `x >= infval`, `isMinusInf(x)` iff `x <= -infval`, with `infval = 1e30`,
`isFeasEQ(a,b)` iff `|a - b| <= feastol`. -/
def specNum : Num :=
  { isIntegral := fun x => decide (|x - cround x| ≤ 1/1000000)
    isFeasInt := fun x => decide (|x - cround x| ≤ 1/1000000)
    floor := fun x =>
      if |x - cround x| ≤ 1/1000000 then cround x else ((Rat.floor x : ℤ) : ℚ)
    ceil := fun x =>
      if |x - cround x| ≤ 1/1000000 then cround x else ((Rat.ceil x : ℤ) : ℚ)
    isFeasGE := fun a b => decide (a ≥ b - 1/1000000)
    isFeasLE := fun a b => decide (a ≤ b + 1/1000000)
    isInf := fun x => decide (x ≥ infval)
    isMinusInf := fun x => decide (x ≤ -infval)
    isFeasEQ := fun a b => decide (|a - b| ≤ 1/1000000) }

/-- The result of `updateSolActivity`: the returned change of the number of violated
rows and the three containers it updates in place. -/
structure ActivityUpdate where
  nviolated : Int
  activity : List ℚ
  violatedRows : List Nat
  isviolated : List Bool
deriving DecidableEq, Repr

/-- Modelled from the spec: one pass of the loop of `updateSolActivity` (its body is in
`Common.cpp`), section 4.5: `activity[r] += a * delta`, then the violation state of the row
is recomputed; a row that becomes violated has its bit set, is pushed and counts `+1`, a
row that becomes feasible has its bit cleared and counts `-1`. -/
def updateSolActivity.step (num : Num) (lhs rhs : List ℚ) (view : VectorView) (delta : ℚ)
    (u : ActivityUpdate) (id : Nat) : ActivityUpdate :=
  let row := view.indices.getD id 0
  let coef := view.coefs.getD id 0
  let act := u.activity.getD row 0 + coef * delta
  let activity := u.activity.set row act
  let violated := !num.isFeasGE act (lhs.getD row 0) || !num.isFeasLE act (rhs.getD row 0)
  if violated && !u.isviolated.getD row false then
    { nviolated := u.nviolated + 1, activity := activity,
      violatedRows := u.violatedRows ++ [row], isviolated := u.isviolated.set row true }
  else if !violated && u.isviolated.getD row false then
    { nviolated := u.nviolated - 1, activity := activity,
      violatedRows := u.violatedRows, isviolated := u.isviolated.set row false }
  else { u with activity := activity }

/-- Modelled from the spec: `updateSolActivity(activity, colview, lhs, rhs, delta,
violatedRows, isviolated)`, the loop over the rows of the column. -/
def updateSolActivity (num : Num) (activity : List ℚ) (view : VectorView) (lhs rhs : List ℚ)
    (delta : ℚ) (violatedRows : List Nat) (isviolated : List Bool) : ActivityUpdate :=
  (List.range view.size).foldl (updateSolActivity.step num lhs rhs view delta)
    { nviolated := 0, activity := activity, violatedRows := violatedRows,
      isviolated := isviolated }

/-- Modelled from the spec: `computeSolActivities(mip, sol)`, the product `A * sol`. -/
def computeSolActivities (mip : MIP) (sol : List ℚ) : List ℚ :=
  (List.range mip.getNRows).map (fun row => rowActivity (mip.getRow row) sol)

/-- Modelled from the spec: `getFractional(sol, ninteger)`, the indices `c < ninteger`
with `!isIntegral(sol[c])`, ascending. -/
def getFractional (num : Num) (sol : List ℚ) (ninteger : Nat) : List Nat :=
  (List.range ninteger).filter (fun c => !num.isIntegral (sol.getD c 0))

/-! ## The LP solver interface -/

/-- Modelled from the spec: the status of an `LPResult` (header `LPSolver.h`). -/
inductive LPStatus where
  | OPTIMAL
  | INFEASIBLE
  | UNBOUNDED
  | OTHER
deriving DecidableEq, Repr

/-- Modelled from the spec: the record `LPResult` (header `LPSolver.h`). -/
structure LPResult where
  status : LPStatus
  obj : ℚ
  primalSolution : List ℚ
  dualSolution : List ℚ
deriving DecidableEq, Repr

/-- A call on the `LPSolver` interface made by a heuristic. -/
inductive SolverCall where
  | clone
  | changeBounds (col : Nat) (lb ub : ℚ)
  | changeAllBounds (lb ub : List ℚ)
  | solve
  | solveDual
deriving DecidableEq, Repr

/-- The LP solver as a heuristic sees it: the result of a `solve()` is a function of the
calls made so far on the solver. -/
abbrev SolverOracle := List SolverCall → LPResult

/-! ## `MinLockRounding::search` (methods/MinLockRounding.cpp) -/

/-- The working data of one column rounding: the candidate `solution`, its maintained
activities, the work list `violatedRows` with the membership bits `isviolated`, the
counter `nviolated` and the number `ncontchanges` of moves of continuous columns. -/
structure RoundState where
  solution : List ℚ
  solActivity : List ℚ
  violatedRows : List Nat
  isviolated : List Bool
  nviolated : Int
  ncontchanges : Nat
deriving DecidableEq, Repr

/-- The statement `nviolated += updateSolActivity(solActivity, mip.getCol(col), lhs, rhs,
delta, violatedRows, isviolated)`. -/
def RoundState.update (num : Num) (mip : MIP) (st : RoundState) (col : Nat) (delta : ℚ) :
    RoundState :=
  let u := updateSolActivity num st.solActivity (mip.getCol col) mip.lhs mip.rhs delta
    st.violatedRows st.isviolated
  { st with
    solActivity := u.activity, violatedRows := u.violatedRows, isviolated := u.isviolated,
    nviolated := st.nviolated + u.nviolated }

/-- The `switch (ordering)` of `search`: the fractional list sorted with the comparator
of the ordering. `sort` stands for `std::sort`. -/
def sortFractional (sort : (Nat → Nat → Bool) → List Nat → List Nat) (mip : MIP)
    (ordering : Nat) (fractional : List Nat) : List Nat :=
  match ordering with
  | 0 => sort (fun left right =>
      decide (min (mip.downLocks.getD left 0) (mip.upLocks.getD left 0) <
        min (mip.downLocks.getD right 0) (mip.upLocks.getD right 0))) fractional
  | 1 => sort (fun left right =>
      decide (max (mip.downLocks.getD left 0) (mip.upLocks.getD left 0) <
        max (mip.downLocks.getD right 0) (mip.upLocks.getD right 0))) fractional
  | 2 => sort (fun left right => decide (mip.getColSize left < mip.getColSize right)) fractional
  | 3 => sort (fun left right => decide (mip.getColSize left > mip.getColSize right)) fractional
  | _ => fractional

/-- The new value a repair move gives to column `ncol` (coefficient `ncoef` in the
violated row `row`): lines 139-182 of `search`. -/
def repairValue (num : Num) (mip : MIP) (lb ub : List ℚ) (row ncol : Nat) (ncoef : ℚ)
    (st : RoundState) : ℚ :=
  let oldnval := st.solution.getD ncol 0
  let act := st.solActivity.getD row 0
  if !num.isFeasGE act (mip.lhs.getD row 0) then
    if mip.integer.getD ncol false then
      if ncoef > 0 then num.ceil oldnval else num.floor oldnval
    else
      if ncoef > 0 then
        oldnval + min ((mip.lhs.getD row 0 - act) / ncoef) (ub.getD ncol 0 - oldnval)
      else
        oldnval + max ((mip.lhs.getD row 0 - act) / ncoef) (lb.getD ncol 0 - oldnval)
  else
    if mip.integer.getD ncol false then
      if ncoef > 0 then num.floor oldnval else num.ceil oldnval
    else
      if ncoef > 0 then
        oldnval + max ((mip.rhs.getD row 0 - act) / ncoef) (lb.getD ncol 0 - oldnval)
      else
        oldnval + min ((mip.rhs.getD row 0 - act) / ncoef) (ub.getD ncol 0 - oldnval)

/-- The statements of a repair pass that follow the choice of the new value: the write
`solution[ncol] = ...` and, when the value moved by more than `1e-6`, the count of the
move of a continuous column and the update of the activities. -/
def moveColumn (num : Num) (mip : MIP) (ncol : Nat) (newval : ℚ) (st : RoundState) :
    RoundState :=
  if |(st.solution.set ncol newval).getD ncol 0 - st.solution.getD ncol 0| > 1/1000000 then
    RoundState.update num mip
      { st with
        solution := st.solution.set ncol newval
        ncontchanges :=
          if !mip.integer.getD ncol false then st.ncontchanges + 1 else st.ncontchanges }
      ncol ((st.solution.set ncol newval).getD ncol 0 - st.solution.getD ncol 0)
  else { st with solution := st.solution.set ncol newval }

/-- The test `Num::isFeasGE(solActivity[row], lhs[row]) && Num::isFeasLE(solActivity[row],
rhs[row])`. -/
def rowWithinTol (num : Num) (mip : MIP) (row : Nat) (st : RoundState) : Bool :=
  num.isFeasGE (st.solActivity.getD row 0) (mip.lhs.getD row 0) &&
    num.isFeasLE (st.solActivity.getD row 0) (mip.rhs.getD row 0)

/-- One pass of the loop `for (k = 0; k < rowsize; ++k)` of the repair of `row`. The
boolean is true when the pass ends in `row_corrected = true; break`. -/
def repairColumn (num : Num) (mip : MIP) (lb ub : List ℚ) (row k : Nat) (st : RoundState) :
    RoundState × Bool :=
  if mip.integer.getD ((mip.getRow row).indices.getD k 0) false &&
      num.isIntegral (st.solution.getD ((mip.getRow row).indices.getD k 0) 0) then (st, false)
  else
    (moveColumn num mip ((mip.getRow row).indices.getD k 0)
        (repairValue num mip lb ub row ((mip.getRow row).indices.getD k 0)
          ((mip.getRow row).coefs.getD k 0) st) st,
      rowWithinTol num mip row
        (moveColumn num mip ((mip.getRow row).indices.getD k 0)
          (repairValue num mip lb ub row ((mip.getRow row).indices.getD k 0)
            ((mip.getRow row).coefs.getD k 0) st) st))

/-- The loop `for (k = 0; k < rowsize; ++k)` over the remaining positions of the row;
the boolean is the final `row_corrected`. -/
def repairRow (num : Num) (mip : MIP) (lb ub : List ℚ) (row : Nat) :
    List Nat → RoundState → RoundState × Bool
  | [], st => (st, false)
  | k :: rest, st =>
    if (repairColumn num mip lb ub row k st).2 then repairColumn num mip lb ub row k st
    else repairRow num mip lb ub row rest (repairColumn num mip lb ub row k st).1

/-- The repair of the row `violatedRows[j]`: the work list is cleared and the columns
of the row are tried in turn. The boolean is `row_corrected`. -/
def repairAt (num : Num) (mip : MIP) (lb ub : List ℚ) (st : RoundState) (j : Nat) :
    RoundState × Bool :=
  repairRow num mip lb ub (st.violatedRows.getD j 0)
    (List.range (mip.getRow (st.violatedRows.getD j 0)).size) { st with violatedRows := [] }

/-- The repair loop `for (j = 0; j < violatedRows.size() && ncontchanges <= 2 * ncont;
++j)`. The loop bound moves with the work list, so the recursion is on a step budget;
`none` means the budget ran out. -/
def repairRows (num : Num) (mip : MIP) (lb ub : List ℚ) :
    Nat → Nat → RoundState → Option RoundState
  | 0, _, _ => none
  | fuel + 1, j, st =>
    if j < st.violatedRows.length ∧ st.ncontchanges ≤ 2 * mip.stats.ncont then
      if !st.isviolated.getD (st.violatedRows.getD j 0) false then
        repairRows num mip lb ub fuel (j + 1) st
      else if !(repairAt num mip lb ub st j).2 then some (repairAt num mip lb ub st j).1
      else repairRows num mip lb ub fuel (j + 1) (repairAt num mip lb ub st j).1
    else some st

/-- An upper bound on the size of every row view of a CSR matrix: the largest entry of
`rowStart`. -/
def SparseMatrix.sizeBound (m : SparseMatrix) : Nat := m.rowStart.foldl max 0

/-- A step budget that the repair loop cannot exhaust: the work list never holds more
than `sizeBound Aᵀ + sizeBound A * sizeBound Aᵀ` rows and `j` grows with every pass. -/
def repairFuel (mip : MIP) : Nat :=
  mip.constMatrixT.sizeBound + mip.constMatrix.sizeBound * mip.constMatrixT.sizeBound + 1

/-- The largest number of entries of a row of a CSR matrix: the largest size
`rowStart[i + 1] - rowStart[i]` of a row view. The views of the indices from
`rowStart.size() - 1` on are empty, so the indices below `rowStart.size()` are enough. -/
def SparseMatrix.maxRowSize (m : SparseMatrix) : Nat :=
  ((List.range m.rowStart.length).map (fun i => (m.getRow i).size)).foldl max 0

/-- The outcome of the loop over the fractional columns of one ordering: `failed` is
true when the loop ended in `feasible = false; break`. -/
structure RoundOutcome where
  failed : Bool
  solution : List ℚ
  solActivity : List ℚ
deriving DecidableEq, Repr

/-- The rounding of the fractional column `col`: `solution[col]` becomes its floor when
`downLocks[col] < upLocks[col]` and its ceil otherwise, and the activities are updated
from fresh `violatedRows`, `isviolated` and `nviolated = 0`. -/
def roundStart (num : Num) (mip : MIP) (solution solActivity : List ℚ) (col : Nat) :
    RoundState :=
  RoundState.update num mip
    { solution :=
        if mip.downLocks.getD col 0 < mip.upLocks.getD col 0 then
          solution.set col (num.floor (solution.getD col 0))
        else solution.set col (num.ceil (solution.getD col 0))
      solActivity := solActivity, violatedRows := [],
      isviolated := List.replicate mip.getNRows false, nviolated := 0, ncontchanges := 0 }
    col
    ((if mip.downLocks.getD col 0 < mip.upLocks.getD col 0 then
        solution.set col (num.floor (solution.getD col 0))
      else solution.set col (num.ceil (solution.getD col 0))).getD col 0 - solution.getD col 0)

/-- The loop `for (i = 0; i < fractional.size(); ++i)` of `search`, over the remaining
columns `fracPermutation[i]`. -/
def roundColumns (num : Num) (mip : MIP) (lb ub : List ℚ) :
    List Nat → List ℚ → List ℚ → Option RoundOutcome
  | [], solution, solActivity =>
    some { failed := false, solution := solution, solActivity := solActivity }
  | col :: rest, solution, solActivity =>
    if num.isIntegral (solution.getD col 0) then
      roundColumns num mip lb ub rest solution solActivity
    else if (roundStart num mip solution solActivity col).nviolated = 0 then
      roundColumns num mip lb ub rest (roundStart num mip solution solActivity col).solution
        (roundStart num mip solution solActivity col).solActivity
    else
      match repairRows num mip lb ub (repairFuel mip) 0
          (roundStart num mip solution solActivity col) with
      | none => none
      | some st2 =>
        if st2.nviolated > 0 then
          some { failed := true, solution := st2.solution, solActivity := st2.solActivity }
        else roundColumns num mip lb ub rest st2.solution st2.solActivity

/-- The variables of `search` that live across the orderings: the flag `feasible`, the
calls `pool.add(sol, cost)` made so far and the calls made on the LP solver (the local
solver exists once `clone` has been called). -/
structure SearchState where
  feasible : Bool
  added : List (List ℚ × ℚ)
  solverCalls : List SolverCall
deriving DecidableEq, Repr

/-- The loop `for (i = 0; i < ncols; ++i) cost += objective[i] * solution[i]`. -/
def objectiveCost (objective solution : List ℚ) (ncols : Nat) : ℚ :=
  (List.range ncols).foldl (fun cost i => cost + objective.getD i 0 * solution.getD i 0) 0

/-- The loop that fixes every integer column of the local solver to its rounded value. -/
def fixIntegerColumns (mip : MIP) (solution : List ℚ) (calls : List SolverCall) :
    List SolverCall :=
  (List.range mip.getNCols).foldl
    (fun cs col =>
      if mip.integer.getD col false then
        cs ++ [SolverCall.changeBounds col (solution.getD col 0) (solution.getD col 0)]
      else cs) calls

/-- The calls made on the local solver up to its `solve()`: the clone, made once
(`if (!localsolver) localsolver = lpsolver->clone()`), the bound changes of earlier
orderings, and the fixing of every integer column to its rounded value. -/
def localSolverCalls (mip : MIP) (solution : List ℚ) (s : SearchState) : List SolverCall :=
  fixIntegerColumns mip solution
    (if s.solverCalls = [] then [SolverCall.clone] else s.solverCalls)

/-- The block `if (feasible) { ... }` that ends the body of the `do` loop. -/
def recordOrdering (oracle : SolverOracle) (mip : MIP) (solution : List ℚ)
    (s : SearchState) : SearchState :=
  if s.feasible then
    if mip.stats.ncont = 0 then
      { s with added := s.added ++ [(solution, objectiveCost mip.objective solution mip.getNCols)] }
    else if (oracle (localSolverCalls mip solution s)).status = LPStatus.OPTIMAL then
      { s with
        added := s.added ++ [((oracle (localSolverCalls mip solution s)).primalSolution,
          (oracle (localSolverCalls mip solution s)).obj)]
        solverCalls := localSolverCalls mip solution s ++ [SolverCall.solve] }
    else { s with solverCalls := localSolverCalls mip solution s ++ [SolverCall.solve] }
  else s

/-- The columns `fracPermutation[i]` for `i < fractional.size()`. -/
def orderedColumns (sort : (Nat → Nat → Bool) → List Nat → List Nat) (mip : MIP)
    (ordering : Nat) (fractional : List Nat) : List Nat :=
  (List.range fractional.length).map
    (fun i => (sortFractional sort mip ordering fractional).getD i 0)

/-- The rounding of one ordering, restarted from the LP solution and its activities. -/
def tryOrdering (num : Num) (sort : (Nat → Nat → Bool) → List Nat → List Nat) (mip : MIP)
    (lb ub : List ℚ) (result : LPResult) (solAct : List ℚ) (fractional : List Nat)
    (ordering : Nat) : Option RoundOutcome :=
  roundColumns num mip lb ub (orderedColumns sort mip ordering fractional)
    result.primalSolution solAct

/-- The body of the `do` loop of `search` for one value of `ordering`. -/
def search.body (num : Num) (sort : (Nat → Nat → Bool) → List Nat → List Nat)
    (oracle : SolverOracle) (mip : MIP) (lb ub : List ℚ) (result : LPResult)
    (solAct : List ℚ) (fractional : List Nat) (ordering : Nat) (s : SearchState) :
    Option SearchState :=
  match tryOrdering num sort mip lb ub result solAct fractional ordering with
  | none => none
  | some out =>
    some (recordOrdering oracle mip out.solution
      { s with feasible := if out.failed then false else s.feasible })

/-- The loop `do { ... ++ordering; } while (ordering < 4 && feasible)` over the remaining
values of `ordering`. -/
def search.doWhile (num : Num) (sort : (Nat → Nat → Bool) → List Nat → List Nat)
    (oracle : SolverOracle) (mip : MIP) (lb ub : List ℚ) (result : LPResult)
    (solAct : List ℚ) (fractional : List Nat) : List Nat → SearchState → Option SearchState
  | [], s => some s
  | ordering :: rest, s =>
    match search.body num sort oracle mip lb ub result solAct fractional ordering s with
    | none => none
    | some s2 =>
      if s2.feasible then
        search.doWhile num sort oracle mip lb ub result solAct fractional rest s2
      else some s2

/-- `MinLockRounding::search(mip, lb, ub, activities, result, solAct, fractional, lpsolver,
pool)`: the calls `pool.add` and the calls on the LP solver it makes. -/
def MinLockRounding.search (num : Num) (sort : (Nat → Nat → Bool) → List Nat → List Nat)
    (oracle : SolverOracle) (mip : MIP) (lb ub : List ℚ) (result : LPResult)
    (solAct : List ℚ) (fractional : List Nat) : Option SearchState :=
  search.doWhile num sort oracle mip lb ub result solAct fractional [0, 1, 2, 3]
    { feasible := true, added := [], solverCalls := [] }

/-! ## `BoundSolution` (methods/BoundSolution.cpp) -/

/-- The record `Activity` of a row: minimum and maximum activity and the numbers of
infinite contributions. -/
structure Activity where
  min : ℚ
  max : ℚ
  ninfmin : Int
  ninfmax : Int
deriving DecidableEq, Repr

/-- The working copies of a trial: `locallb`, `localub` and `local_activities`. -/
structure TrialBounds where
  lb : List ℚ
  ub : List ℚ
  activities : List Activity
deriving DecidableEq, Repr

/-- The propagation kernel `propagate(mip, lb, ub, activities, col, oldlb, oldub)` (header
`Propagation.h`), a parameter: it returns its verdict and the updated working copies. -/
abbrev Propagate := MIP → TrialBounds → Nat → ℚ → ℚ → Bool × TrialBounds

/-- The statement `localub[col] = locallb[col]`. -/
def TrialBounds.fixToLower (b : TrialBounds) (col : Nat) : TrialBounds :=
  { b with ub := b.ub.set col (b.lb.getD col 0) }

/-- The statement `locallb[col] = localub[col]`. -/
def TrialBounds.fixToUpper (b : TrialBounds) (col : Nat) : TrialBounds :=
  { b with lb := b.lb.set col (b.ub.getD col 0) }

/-- The statements `locallb[col] = 0.0; localub[col] = 0.0`. -/
def TrialBounds.fixToZero (b : TrialBounds) (col : Nat) : TrialBounds :=
  { b with lb := b.lb.set col 0, ub := b.ub.set col 0 }

/-- The test `integer[col] && locallb[col] != localub[col]`. -/
def TrialBounds.isFree (mip : MIP) (b : TrialBounds) (col : Nat) : Bool :=
  mip.integer.getD col false && (b.lb.getD col 0 != b.ub.getD col 0)

/-- The first loop of `tryUBSolution` over the remaining columns, with the list
`inflbIntVars` of deferred columns. The boolean is false after `return false`. -/
def tryUBSolution.firstPass (num : Num) (propagate : Propagate) (mip : MIP) :
    List Nat → TrialBounds → List Nat → Bool × TrialBounds × List Nat
  | [], b, deferred => (true, b, deferred)
  | col :: rest, b, deferred =>
    if b.isFree mip col then
      if num.isMinusInf (b.lb.getD col 0) then
        tryUBSolution.firstPass num propagate mip rest b (deferred ++ [col])
      else if !(propagate mip (b.fixToLower col) col ((b.fixToLower col).lb.getD col 0)
          (b.ub.getD col 0)).1 then
        (false, (propagate mip (b.fixToLower col) col ((b.fixToLower col).lb.getD col 0)
          (b.ub.getD col 0)).2, deferred)
      else
        tryUBSolution.firstPass num propagate mip rest
          (propagate mip (b.fixToLower col) col ((b.fixToLower col).lb.getD col 0)
            (b.ub.getD col 0)).2 deferred
    else tryUBSolution.firstPass num propagate mip rest b deferred

/-- The second loop of `tryUBSolution`, over the deferred columns. -/
def tryUBSolution.secondPass (num : Num) (propagate : Propagate) (mip : MIP) :
    List Nat → TrialBounds → Bool × TrialBounds
  | [], b => (true, b)
  | col :: rest, b =>
    if !num.isMinusInf (b.lb.getD col 0) then
      tryUBSolution.secondPass num propagate mip rest (b.fixToLower col)
    else if !(propagate mip
        (if num.isInf (b.ub.getD col 0) then b.fixToZero col else b.fixToUpper col) col
        (b.lb.getD col 0) (b.ub.getD col 0)).1 then
      (false, (propagate mip
        (if num.isInf (b.ub.getD col 0) then b.fixToZero col else b.fixToUpper col) col
        (b.lb.getD col 0) (b.ub.getD col 0)).2)
    else
      tryUBSolution.secondPass num propagate mip rest
        (propagate mip
          (if num.isInf (b.ub.getD col 0) then b.fixToZero col else b.fixToUpper col) col
          (b.lb.getD col 0) (b.ub.getD col 0)).2

/-- `BoundSolution::tryUBSolution(mip, locallb, localub, activities)`: the returned
boolean and the working copies as the call leaves them. -/
def tryUBSolution (num : Num) (propagate : Propagate) (mip : MIP) (b : TrialBounds) :
    Bool × TrialBounds :=
  if (tryUBSolution.firstPass num propagate mip (List.range mip.getNCols) b []).1 then
    tryUBSolution.secondPass num propagate mip
      (tryUBSolution.firstPass num propagate mip (List.range mip.getNCols) b []).2.2
      (tryUBSolution.firstPass num propagate mip (List.range mip.getNCols) b []).2.1
  else (false, (tryUBSolution.firstPass num propagate mip (List.range mip.getNCols) b []).2.1)

/-- The first loop of `tryLBSolution` over the remaining columns, with the list
`infubIntVars` of deferred columns. -/
def tryLBSolution.firstPass (num : Num) (propagate : Propagate) (mip : MIP) :
    List Nat → TrialBounds → List Nat → Bool × TrialBounds × List Nat
  | [], b, deferred => (true, b, deferred)
  | col :: rest, b, deferred =>
    if b.isFree mip col then
      if num.isInf (b.ub.getD col 0) then
        tryLBSolution.firstPass num propagate mip rest b (deferred ++ [col])
      else if !(propagate mip (b.fixToUpper col) col (b.lb.getD col 0)
          ((b.fixToUpper col).ub.getD col 0)).1 then
        (false, (propagate mip (b.fixToUpper col) col (b.lb.getD col 0)
          ((b.fixToUpper col).ub.getD col 0)).2, deferred)
      else
        tryLBSolution.firstPass num propagate mip rest
          (propagate mip (b.fixToUpper col) col (b.lb.getD col 0)
            ((b.fixToUpper col).ub.getD col 0)).2 deferred
    else tryLBSolution.firstPass num propagate mip rest b deferred

/-- The second loop of `tryLBSolution`, over the deferred columns. -/
def tryLBSolution.secondPass (num : Num) (propagate : Propagate) (mip : MIP) :
    List Nat → TrialBounds → Bool × TrialBounds
  | [], b => (true, b)
  | col :: rest, b =>
    if !num.isInf (b.ub.getD col 0) then
      tryLBSolution.secondPass num propagate mip rest (b.fixToUpper col)
    else if !(propagate mip
        (if num.isMinusInf (b.lb.getD col 0) then b.fixToZero col else b.fixToLower col) col
        (b.lb.getD col 0) (b.ub.getD col 0)).1 then
      (false, (propagate mip
        (if num.isMinusInf (b.lb.getD col 0) then b.fixToZero col else b.fixToLower col) col
        (b.lb.getD col 0) (b.ub.getD col 0)).2)
    else
      tryLBSolution.secondPass num propagate mip rest
        (propagate mip
          (if num.isMinusInf (b.lb.getD col 0) then b.fixToZero col else b.fixToLower col) col
          (b.lb.getD col 0) (b.ub.getD col 0)).2

/-- `BoundSolution::tryLBSolution(mip, locallb, localub, activities)`. -/
def tryLBSolution (num : Num) (propagate : Propagate) (mip : MIP) (b : TrialBounds) :
    Bool × TrialBounds :=
  if (tryLBSolution.firstPass num propagate mip (List.range mip.getNCols) b []).1 then
    tryLBSolution.secondPass num propagate mip
      (tryLBSolution.firstPass num propagate mip (List.range mip.getNCols) b []).2.2
      (tryLBSolution.firstPass num propagate mip (List.range mip.getNCols) b []).2.1
  else (false, (tryLBSolution.firstPass num propagate mip (List.range mip.getNCols) b []).2.1)

/-- The choice of the first loop of `tryOptimisticSolution` for a free integer column:
`true` when the column is to be fixed to its lower bound (`objective[col] > 0`, or
`objective[col] == 0` and `upLocks[col] > downLocks[col]`), `false` when to its upper. -/
def fixesLow (mip : MIP) (col : Nat) : Bool :=
  if mip.objective.getD col 0 > 0 then true
  else if mip.objective.getD col 0 < 0 then false
  else decide (mip.upLocks.getD col 0 > mip.downLocks.getD col 0)

/-- The bound the first loop of `tryOptimisticSolution` fixes the column to is infinite,
so that the column is pushed to `varsToRound`. -/
def optimisticDeferred (num : Num) (mip : MIP) (b : TrialBounds) (col : Nat) : Bool :=
  if fixesLow mip col then num.isMinusInf (b.lb.getD col 0) else num.isInf (b.ub.getD col 0)

/-- The working copies after the first loop of `tryOptimisticSolution` has fixed the
column. -/
def optimisticFix (mip : MIP) (b : TrialBounds) (col : Nat) : TrialBounds :=
  if fixesLow mip col then b.fixToLower col else b.fixToUpper col

/-- The first loop of `tryOptimisticSolution` over the remaining columns, with the list
`varsToRound` of deferred columns. -/
def tryOptimisticSolution.firstPass (num : Num) (propagate : Propagate) (mip : MIP) :
    List Nat → TrialBounds → List Nat → Bool × TrialBounds × List Nat
  | [], b, deferred => (true, b, deferred)
  | col :: rest, b, deferred =>
    if b.isFree mip col then
      if optimisticDeferred num mip b col then
        tryOptimisticSolution.firstPass num propagate mip rest b (deferred ++ [col])
      else if !(propagate mip (optimisticFix mip b col) col (b.lb.getD col 0)
          (b.ub.getD col 0)).1 then
        (false, (propagate mip (optimisticFix mip b col) col (b.lb.getD col 0)
          (b.ub.getD col 0)).2, deferred)
      else
        tryOptimisticSolution.firstPass num propagate mip rest
          (propagate mip (optimisticFix mip b col) col (b.lb.getD col 0)
            (b.ub.getD col 0)).2 deferred
    else tryOptimisticSolution.firstPass num propagate mip rest b deferred

/-- The bounds the second loop of `tryOptimisticSolution` gives a column with an infinite
bound: zero when both are infinite, else the finite one. -/
def roundDeferred (num : Num) (b : TrialBounds) (col : Nat) : TrialBounds :=
  if num.isMinusInf (b.lb.getD col 0) && num.isInf (b.ub.getD col 0) then b.fixToZero col
  else if num.isMinusInf (b.lb.getD col 0) then b.fixToUpper col
  else b.fixToLower col

/-- The second loop of `tryOptimisticSolution`, over `varsToRound`. -/
def tryOptimisticSolution.secondPass (num : Num) (propagate : Propagate) (mip : MIP) :
    List Nat → TrialBounds → Bool × TrialBounds
  | [], b => (true, b)
  | col :: rest, b =>
    if !num.isMinusInf (b.lb.getD col 0) && !num.isInf (b.ub.getD col 0) then
      tryOptimisticSolution.secondPass num propagate mip rest b
    else if !(propagate mip (roundDeferred num b col) col (b.lb.getD col 0)
        (b.ub.getD col 0)).1 then
      (false, (propagate mip (roundDeferred num b col) col (b.lb.getD col 0)
        (b.ub.getD col 0)).2)
    else
      tryOptimisticSolution.secondPass num propagate mip rest
        (propagate mip (roundDeferred num b col) col (b.lb.getD col 0) (b.ub.getD col 0)).2

/-- `BoundSolution::tryOptimisticSolution(mip, locallb, localub, activities)`. -/
def tryOptimisticSolution (num : Num) (propagate : Propagate) (mip : MIP) (b : TrialBounds) :
    Bool × TrialBounds :=
  if (tryOptimisticSolution.firstPass num propagate mip (List.range mip.getNCols) b []).1 then
    tryOptimisticSolution.secondPass num propagate mip
      (tryOptimisticSolution.firstPass num propagate mip (List.range mip.getNCols) b []).2.2
      (tryOptimisticSolution.firstPass num propagate mip (List.range mip.getNCols) b []).2.1
  else
    (false,
      (tryOptimisticSolution.firstPass num propagate mip (List.range mip.getNCols) b []).2.1)

/-- The body of the lambda `run` of `BoundSolution::search` for trial `i`: the working
copies start from `lb`, `ub` and `activities`; trial 0 is the LB trial, trial 1 the UB
trial, trial 2 the optimistic trial. The result is `feasible[i]` with `lower_bounds[i]`
and `upper_bounds[i]`. -/
def BoundSolution.trial (num : Num) (propagate : Propagate) (mip : MIP) (lb ub : List ℚ)
    (activities : List Activity) (i : Nat) : Bool × TrialBounds :=
  match i with
  | 0 => tryLBSolution num propagate mip { lb := lb, ub := ub, activities := activities }
  | 1 => tryUBSolution num propagate mip { lb := lb, ub := ub, activities := activities }
  | 2 => tryOptimisticSolution num propagate mip { lb := lb, ub := ub, activities := activities }
  | _ => (false, { lb := lb, ub := ub, activities := activities })

/-- The calls `pool.add(sol, cost)` and the calls on the LP solver that a heuristic has
made. -/
structure PoolTrace where
  added : List (List ℚ × ℚ)
  solverCalls : List SolverCall
deriving DecidableEq, Repr

/-- The loop `for (j = 0; j < ncols; ++j) obj += objective[i] * lower_bounds[i][j]` of
`BoundSolution::search`, as the source has it: the objective coefficient is read at the
trial index `i`. -/
def BoundSolution.trialCost (objective lower_bound : List ℚ) (ncols i : Nat) : ℚ :=
  (List.range ncols).foldl (fun obj j => obj + objective.getD i 0 * lower_bound.getD j 0) 0

/-- The calls on the local solver of `BoundSolution::search` up to its `solve`. -/
def BoundSolution.localCalls (t : PoolTrace) (b : TrialBounds) : List SolverCall :=
  (if t.solverCalls = [] then [SolverCall.clone] else t.solverCalls) ++
    [SolverCall.changeAllBounds b.lb b.ub]

/-- One pass of the loop `for (i = 0; i < nruns; ++i)` that harvests the trials. -/
def BoundSolution.harvest (num : Num) (propagate : Propagate) (oracle : SolverOracle)
    (mip : MIP) (lb ub : List ℚ) (activities : List Activity) (t : PoolTrace) (i : Nat) :
    PoolTrace :=
  if !(BoundSolution.trial num propagate mip lb ub activities i).1 then t
  else if mip.stats.ncont = 0 then
    { t with
      added := t.added ++
        [((BoundSolution.trial num propagate mip lb ub activities i).2.lb,
          BoundSolution.trialCost mip.objective
            (BoundSolution.trial num propagate mip lb ub activities i).2.lb mip.getNCols i)] }
  else if (oracle (BoundSolution.localCalls t
      (BoundSolution.trial num propagate mip lb ub activities i).2)).status
      = LPStatus.OPTIMAL then
    { added := t.added ++
        [((oracle (BoundSolution.localCalls t
            (BoundSolution.trial num propagate mip lb ub activities i).2)).primalSolution,
          (oracle (BoundSolution.localCalls t
            (BoundSolution.trial num propagate mip lb ub activities i).2)).obj)]
      solverCalls := BoundSolution.localCalls t
        (BoundSolution.trial num propagate mip lb ub activities i).2 ++ [SolverCall.solveDual] }
  else
    { t with
      solverCalls := BoundSolution.localCalls t
        (BoundSolution.trial num propagate mip lb ub activities i).2 ++ [SolverCall.solveDual] }

/-- `BoundSolution::search(mip, lb, ub, activities, result, solAct, fractional, solver,
pool)`, with `nruns = 3`. -/
def BoundSolution.search (num : Num) (propagate : Propagate) (oracle : SolverOracle)
    (mip : MIP) (lb ub : List ℚ) (activities : List Activity) : PoolTrace :=
  [0, 1, 2].foldl (BoundSolution.harvest num propagate oracle mip lb ub activities)
    { added := [], solverCalls := [] }

/-! ## The search orchestrator (core/Heuristic.cpp) -/

/-- Modelled from the spec: a `SolutionPool` (header `Heuristic.h`), the stored
`(solution, cost)` pairs in index order, with `size()` and `operator[]`. -/
abbrev Pool := List (List ℚ × ℚ)

/-- The tuple returned by `getFeasSolSummary` and `getImprSolSummary`:
`(min_cost_heur, min_cost_sol, min_cost, nsols)`. -/
structure SolSummary where
  min_cost_heur : Int
  min_cost_sol : Int
  min_cost : ℚ
  nsols : Nat
deriving DecidableEq, Repr

/-- The body of the inner loop of the summary, for entry `j` of pool `i`:
`if (pools[i][j].second < min_cost) { min_cost = ...; heur = i; sol = j; }`. -/
def getSolSummary.inner (pools : List Pool) (i : Nat) (acc : SolSummary) (j : Nat) :
    SolSummary :=
  if ((pools.getD i []).getD j ([], 0)).2 < acc.min_cost then
    { acc with
      min_cost := ((pools.getD i []).getD j ([], 0)).2
      min_cost_heur := (i : Int)
      min_cost_sol := (j : Int) }
  else acc

/-- The body of the outer loop of the summary, for pool `i`:
`nsols += pools[i].size()` and the inner loop over the entries of the pool. -/
def getSolSummary.outer (pools : List Pool) (acc : SolSummary) (i : Nat) : SolSummary :=
  (List.range (pools.getD i []).length).foldl (getSolSummary.inner pools i)
    { acc with nsols := acc.nsols + (pools.getD i []).length }

/-- The loops shared by `Search::getFeasSolSummary` and `Search::getImprSolSummary`,
from the initial values `-1, -1, std::numeric_limits<double>::max(), 0`. -/
def getSolSummary (dblMax : ℚ) (pools : List Pool) : SolSummary :=
  (List.range pools.length).foldl (getSolSummary.outer pools)
    { min_cost_heur := -1, min_cost_sol := -1, min_cost := dblMax, nsols := 0 }

/-- The entry `pools[i][j]`, when there is one. -/
def entryAt (pools : List Pool) (i j : Nat) : Option (List ℚ × ℚ) :=
  (pools.getD i []).get? j

/-- The read `pools[heur][sol]` with `int` indices: there is no such entry when an index
is negative (the sentinel `-1`) or out of range. -/
def poolEntry (pools : List Pool) (heur sol : Int) : Option (List ℚ × ℚ) :=
  if heur < 0 ∨ sol < 0 then none else entryAt pools heur.toNat sol.toNat

/-- The number of solutions stored in a collection of pools. -/
def totalSols (pools : List Pool) : Nat := (pools.map List.length).sum

/-- A feasibility heuristic: what `execute(mip, lb, ub, activities, result, lpSolAct,
fractional, lpSolver, tlimit, pool)` makes of its pool. -/
abbrev FeasExecute := MIP → LPResult → List ℚ → List Nat → Pool → Pool

/-- An improvement heuristic: what `execute(..., best_sol, best_cost, lpSolver, tlimit,
pool)` makes of its pool. -/
abbrev ImprExecute := MIP → LPResult → List ℚ → List Nat → List ℚ → ℚ → Pool → Pool

/-- Modelled from the spec: the members of the class `Search` (header `Heuristic.h`),
the heuristics and their pools. -/
structure Search where
  feas_heuristics : List FeasExecute
  impr_heuristics : List ImprExecute
  feas_solutions_pools : List Pool
  impr_solutions_pools : List Pool

/-- The functions `Search::run` calls whose code is outside the orchestrator: the root LP
solve `lpSolver->solve(Algorithm::DUAL)`, `minLockRound`, `SolutionPool::add`, the
numerics, and the constant `std::numeric_limits<double>::max()`. -/
structure RunEnv where
  num : Num
  dblMax : ℚ
  rootSolve : MIP → LPResult
  minLockRound : MIP → List ℚ → ℚ → List Nat → Option (List ℚ × ℚ)
  poolAdd : Pool → List ℚ × ℚ → Pool

/-- What `Search::run` returns: the empty optional, a solution, or nothing defined (a
read `pools[-1][-1]`, which the assertions of `run` exclude). -/
inductive RunResult where
  | empty
  | solution (sol : List ℚ)
  | undefined
deriving DecidableEq, Repr

/-- The outcome of `Search::run`: the returned value, the pools as the run leaves them,
and the numbers of feasibility and improvement heuristics it executed. -/
structure RunOutput where
  result : RunResult
  feas_solutions_pools : List Pool
  impr_solutions_pools : List Pool
  feasExecuted : Nat
  imprExecuted : Nat
deriving DecidableEq, Repr

/-- Modelled from the spec: `roundFeasIntegers(sol, ninteger)` (its body is in
`Common.cpp`), section 4.11: `round` is applied to `sol[c]` when `isIntegral(sol[c])`, for
`c < ninteger`. -/
def roundFeasIntegers (num : Num) (sol : List ℚ) (ninteger : Nat) : List ℚ :=
  (List.range ninteger).foldl
    (fun sol c => if num.isIntegral (sol.getD c 0) then sol.set c (cround (sol.getD c 0)) else sol)
    sol

/-- The root LP result after `roundFeasIntegers(result.primalSolution, st.nbin + st.nint)`. -/
def rootResult (env : RunEnv) (mip : MIP) : LPResult :=
  { env.rootSolve mip with
    primalSolution := roundFeasIntegers env.num (env.rootSolve mip).primalSolution
      (mip.stats.nbin + mip.stats.nint) }

/-- The list `fractional` of `run`. -/
def rootFractional (env : RunEnv) (mip : MIP) : List Nat :=
  getFractional env.num (rootResult env mip).primalSolution (mip.stats.nbin + mip.stats.nint)

/-- The vector `lpSolAct` of `run`. -/
def rootSolAct (env : RunEnv) (mip : MIP) : List ℚ :=
  computeSolActivities mip (rootResult env mip).primalSolution

/-- The statement `feas_solutions_pools.back().add(sol.first, sol.second)`. -/
def addToBack (poolAdd : Pool → List ℚ × ℚ → Pool) (pools : List Pool) (e : List ℚ × ℚ) :
    List Pool :=
  pools.modify (fun pool => poolAdd pool e) (pools.length - 1)

/-- The feasibility pools after the trivial rounding of the root LP solution. -/
def poolsAfterRootRounding (env : RunEnv) (s : Search) (mip : MIP) : List Pool :=
  match env.minLockRound mip (rootResult env mip).primalSolution (rootResult env mip).obj
      (rootFractional env mip) with
  | some sol => addToBack env.poolAdd s.feas_solutions_pools sol
  | none => s.feas_solutions_pools

/-- The loop `run_feas` over all feasibility heuristics: heuristic `i` works on pool `i`.
The pools are distinct, so the parallel loop is the sequential one. -/
def runFeas (env : RunEnv) (s : Search) (mip : MIP) (pools : List Pool) : List Pool :=
  (List.range s.feas_heuristics.length).foldl
    (fun pools i =>
      pools.modify
        (fun pool =>
          (s.feas_heuristics.getD i (fun _ _ _ _ pool => pool)) mip (rootResult env mip)
            (rootSolAct env mip) (rootFractional env mip) pool) i)
    pools

/-- The feasibility pools after the feasibility stage of `run`. -/
def feasPoolsAfter (env : RunEnv) (s : Search) (mip : MIP) : List Pool :=
  runFeas env s mip (poolsAfterRootRounding env s mip)

/-- The loop `run_impr` over all improvement heuristics, given the incumbent. -/
def runImpr (env : RunEnv) (s : Search) (mip : MIP) (best : List ℚ × ℚ) (pools : List Pool) :
    List Pool :=
  (List.range s.impr_heuristics.length).foldl
    (fun pools i =>
      pools.modify
        (fun pool =>
          (s.impr_heuristics.getD i (fun _ _ _ _ _ _ pool => pool)) mip (rootResult env mip)
            (rootSolAct env mip) (rootFractional env mip) best.1 best.2 pool) i)
    pools

/-- The part of `run` that follows the choice of the incumbent `best`: the improvement
stage and the final selection. -/
def finishRun (env : RunEnv) (s : Search) (mip : MIP) (feasPools : List Pool)
    (best : List ℚ × ℚ) : RunOutput :=
  if (getSolSummary env.dblMax (runImpr env s mip best s.impr_solutions_pools)).nsols > 0 then
    match poolEntry (runImpr env s mip best s.impr_solutions_pools)
        (getSolSummary env.dblMax
          (runImpr env s mip best s.impr_solutions_pools)).min_cost_heur
        (getSolSummary env.dblMax
          (runImpr env s mip best s.impr_solutions_pools)).min_cost_sol with
    | some e =>
      { result := RunResult.solution e.1, feas_solutions_pools := feasPools,
        impr_solutions_pools := runImpr env s mip best s.impr_solutions_pools,
        feasExecuted := s.feas_heuristics.length, imprExecuted := s.impr_heuristics.length }
    | none =>
      { result := RunResult.undefined, feas_solutions_pools := feasPools,
        impr_solutions_pools := runImpr env s mip best s.impr_solutions_pools,
        feasExecuted := s.feas_heuristics.length, imprExecuted := s.impr_heuristics.length }
  else
    { result := RunResult.solution best.1, feas_solutions_pools := feasPools,
      impr_solutions_pools := runImpr env s mip best s.impr_solutions_pools,
      feasExecuted := s.feas_heuristics.length, imprExecuted := s.impr_heuristics.length }

/-- `Search::run(mip, seconds)`. -/
def Search.run (env : RunEnv) (s : Search) (mip : MIP) : RunOutput :=
  if (env.rootSolve mip).status ≠ LPStatus.OPTIMAL then
    { result := RunResult.empty, feas_solutions_pools := s.feas_solutions_pools,
      impr_solutions_pools := s.impr_solutions_pools, feasExecuted := 0, imprExecuted := 0 }
  else if (getSolSummary env.dblMax (feasPoolsAfter env s mip)).nsols = 0 then
    { result := RunResult.empty, feas_solutions_pools := feasPoolsAfter env s mip,
      impr_solutions_pools := s.impr_solutions_pools,
      feasExecuted := s.feas_heuristics.length, imprExecuted := 0 }
  else
    match poolEntry (feasPoolsAfter env s mip)
        (getSolSummary env.dblMax (feasPoolsAfter env s mip)).min_cost_heur
        (getSolSummary env.dblMax (feasPoolsAfter env s mip)).min_cost_sol with
    | some best => finishRun env s mip (feasPoolsAfter env s mip) best
    | none =>
      { result := RunResult.undefined, feas_solutions_pools := feasPoolsAfter env s mip,
        impr_solutions_pools := s.impr_solutions_pools,
        feasExecuted := s.feas_heuristics.length, imprExecuted := 0 }

/-- All entries stored in a collection of pools. -/
def allEntries (pools : List Pool) : List (List ℚ × ℚ) := pools.flatten

/-- The loop invariant of the summary: either no visited entry has a cost below
`dblMax` and the accumulator still holds its initial values, or it holds the indices and
the cost of a visited entry that is the first one of minimal cost among the visited. -/
def SummaryInv (dblMax : ℚ) (pools : List Pool) (visited : Nat → Nat → Prop)
    (acc : SolSummary) : Prop :=
  (acc.min_cost_heur = -1 ∧ acc.min_cost_sol = -1 ∧ acc.min_cost = dblMax ∧
      ∀ i j e, visited i j → entryAt pools i j = some e → dblMax ≤ e.2) ∨
    (∃ (h s : Nat) (e : List ℚ × ℚ),
      acc.min_cost_heur = (h : Int) ∧ acc.min_cost_sol = (s : Int) ∧ visited h s ∧
      entryAt pools h s = some e ∧ acc.min_cost = e.2 ∧ e.2 < dblMax ∧
      ∀ i j e2, visited i j → entryAt pools i j = some e2 →
        e.2 ≤ e2.2 ∧ (e2.2 = e.2 → h < i ∨ (h = i ∧ s ≤ j)))

/-! ## `mpsreader::transpose` (core/MPSReader.cpp) -/

/-- The loop `for (i = 0; i < nrows; ++i) rowStart.push_back(rowSize[i] + rowStart[i])`,
after `rowStart.push_back(0)`. -/
def transpose.rowStarts (rowSize : List Nat) (nrows : Nat) : List Nat :=
  (List.range nrows).foldl
    (fun rowStart i => rowStart ++ [rowSize.getD i 0 + rowStart.getD i 0]) [0]

/-- The arrays that the fill loops of `transpose` write: the coefficients and indices of
the transposed matrix and the per-row `offset`. -/
structure TransposeState where
  coefficients : List ℚ
  indices : List Nat
  offset : List Nat
deriving DecidableEq, Repr

/-- The body of the inner fill loop for position `rowid` of row `col` of `matrix`: the
entry is written at `rowStart[row] + offset[row]` and `offset[row]` is incremented. -/
def transpose.write (matrix : SparseMatrix) (rowStart : List Nat) (col : Nat)
    (st : TransposeState) (rowid : Nat) : TransposeState :=
  { coefficients :=
      st.coefficients.set
        (rowStart.getD (matrix.indices.getD rowid 0) 0 +
          st.offset.getD (matrix.indices.getD rowid 0) 0)
        (matrix.coefficients.getD rowid 0)
    indices :=
      st.indices.set
        (rowStart.getD (matrix.indices.getD rowid 0) 0 +
          st.offset.getD (matrix.indices.getD rowid 0) 0)
        col
    offset :=
      st.offset.set (matrix.indices.getD rowid 0)
        (st.offset.getD (matrix.indices.getD rowid 0) 0 + 1) }

/-- The inner fill loop `for (rowid = matrix.rowStart[col]; rowid <
matrix.rowStart[col + 1]; ++rowid)`. -/
def transpose.fillRow (matrix : SparseMatrix) (rowStart : List Nat) (st : TransposeState)
    (col : Nat) : TransposeState :=
  (List.range' (matrix.rowStart.getD col 0)
      (matrix.rowStart.getD (col + 1) 0 - matrix.rowStart.getD col 0)).foldl
    (transpose.write matrix rowStart col) st

/-- The outer fill loop `for (col = 0; col < ncols; ++col)`, from arrays of `nnz` zeros
and `offset` of `nrows` zeros. -/
def transpose.fill (matrix : SparseMatrix) (rowStart : List Nat) : TransposeState :=
  (List.range matrix.nrows).foldl (transpose.fillRow matrix rowStart)
    { coefficients := List.replicate matrix.coefficients.length 0
      indices := List.replicate matrix.coefficients.length 0
      offset := List.replicate matrix.ncols 0 }

/-- `mpsreader::transpose(matrix, rowSize)`. -/
def transpose (matrix : SparseMatrix) (rowSize : List Nat) : SparseMatrix :=
  { nrows := matrix.ncols
    ncols := matrix.nrows
    rowStart := transpose.rowStarts rowSize matrix.ncols
    indices := (transpose.fill matrix (transpose.rowStarts rowSize matrix.ncols)).indices
    coefficients :=
      (transpose.fill matrix (transpose.rowStarts rowSize matrix.ncols)).coefficients }

/-- A well-formed CSR matrix: `rowStart` has `nrows + 1` entries, starts at 0, is
non-decreasing and ends at the number of stored entries; there are as many coefficients
as indices, and every index is below `ncols`. -/
structure SparseMatrix.WellFormed (m : SparseMatrix) : Prop where
  rowStart_length : m.rowStart.length = m.nrows + 1
  rowStart_zero : m.rowStart.getD 0 0 = 0
  rowStart_mono : ∀ r, r < m.nrows → m.rowStart.getD r 0 ≤ m.rowStart.getD (r + 1) 0
  rowStart_last : m.rowStart.getD m.nrows 0 = m.indices.length
  coefficients_length : m.coefficients.length = m.indices.length
  index_lt : ∀ p, p < m.indices.length → m.indices.getD p 0 < m.ncols

/-- The stored entries `(index, coefficient)` of row `r` of a CSR matrix, in storage
order. -/
def SparseMatrix.rowEntries (m : SparseMatrix) (r : Nat) : List (Nat × ℚ) :=
  (List.range' (m.rowStart.getD r 0) (m.rowStart.getD (r + 1) 0 - m.rowStart.getD r 0)).map
    (fun p => (m.indices.getD p 0, m.coefficients.getD p 0))

/-- The per-column entry counts of a matrix: the number of stored entries with index `j`,
for every `j < ncols`. -/
def SparseMatrix.colCounts (m : SparseMatrix) : List Nat :=
  (List.range m.ncols).map (fun j => m.indices.count j)

/-- The per-row sizes of a matrix: `rowStart[r + 1] - rowStart[r]` for every `r < nrows`. -/
def SparseMatrix.rowSizes (m : SparseMatrix) : List Nat :=
  (List.range m.nrows).map (fun r => m.rowStart.getD (r + 1) 0 - m.rowStart.getD r 0)

/-- The stored entries of a matrix as triples `(row, index, coefficient)`, row by row. -/
def SparseMatrix.triples (m : SparseMatrix) : List (Nat × Nat × ℚ) :=
  (List.range m.nrows).flatMap (fun r => (m.rowEntries r).map (fun e => (r, e.1, e.2)))

/-- The sum of the first `j` sizes: where row `j` starts in a CSR matrix with these row
sizes. -/
def prefixSum (sizes : List Nat) (j : Nat) : Nat :=
  ((List.range j).map (fun i => sizes.getD i 0)).sum

/-- The write of the fill loop of `transpose` for the stored entry `t = (col, row, coef)`
of the input matrix. -/
def transpose.put (rowStart : List Nat) (st : TransposeState) (t : Nat × Nat × ℚ) :
    TransposeState :=
  { coefficients := st.coefficients.set (rowStart.getD t.2.1 0 + st.offset.getD t.2.1 0) t.2.2
    indices := st.indices.set (rowStart.getD t.2.1 0 + st.offset.getD t.2.1 0) t.1
    offset := st.offset.set t.2.1 (st.offset.getD t.2.1 0 + 1) }

/-- The triples of a list whose index is `j`, in order. -/
def bucket (ts : List (Nat × Nat × ℚ)) (j : Nat) : List (Nat × Nat × ℚ) :=
  ts.filter (fun t => decide (t.2.1 = j))

/-- The invariant of the fill loop of `transpose` after the entries `pre`: the arrays
keep their sizes, `offset[j]` counts the entries of `pre` with index `j`, and the first
`offset[j]` positions of row `j` hold these entries in order. -/
def FillInv (sizes : List Nat) (n : Nat) (pre : List (Nat × Nat × ℚ)) (st : TransposeState) :
    Prop :=
  st.offset.length = n ∧ st.indices.length = prefixSum sizes n ∧
    st.coefficients.length = prefixSum sizes n ∧
    (∀ j, j < n → st.offset.getD j 0 = (bucket pre j).length) ∧
    ∀ j, j < n → ∀ k, k < (bucket pre j).length →
      st.indices.getD (prefixSum sizes j + k) 0 = ((bucket pre j).map (fun t => t.1)).getD k 0 ∧
        st.coefficients.getD (prefixSum sizes j + k) 0 =
          ((bucket pre j).map (fun t => t.2.2)).getD k 0

/-- The stored entry `(row, index, coefficient)` seen from the transposed matrix:
`(index, row, coefficient)`. -/
def swapEntry (t : Nat × Nat × ℚ) : Nat × Nat × ℚ := (t.2.1, t.1, t.2.2)

/-- The kind of a row of the ROWS section (`ConsType`, header `MPSReader.h`). -/
inductive ConsType where
  | LESS
  | GREATER
  | EQUAL
  | OBJECTIVE
deriving DecidableEq, Repr

/-- The map `Rows` of the reader (header `MPSReader.h`): the declared constraint rows, each
name with its kind and its row id. A lookup returns the first entry with the name; the
reader never inserts a name twice. -/
abbrev Rows := List (String × ConsType × Nat)

/-- The map `Cols` of the reader (header `MPSReader.h`): each column name with its id. -/
abbrev Cols := List (String × Nat)

/-- `mpsreader::makeMip`: the column-major matrix is assembled from the arrays of the
COLUMNS section with `ncols = rows.size()` and `nrows = cols.size()`, and the row-major
matrix is its transpose. The names are left out; the locks and the statistics, which
`makeMip` does not set, are empty. -/
def makeMip (rows : Rows) (cols : Cols) (coefsT : List ℚ) (idxT rstartT : List Nat)
    (rhs lhs lbs ubs objective : List ℚ) (integer : List Bool) (rowSize : List Nat) : MIP :=
  { constMatrixT :=
      { ncols := rows.length, nrows := cols.length, coefficients := coefsT, indices := idxT,
        rowStart := rstartT }
    constMatrix :=
      transpose
        { ncols := rows.length, nrows := cols.length, coefficients := coefsT, indices := idxT,
          rowStart := rstartT } rowSize
    lhs := lhs, rhs := rhs, lb := lbs, ub := ubs, objective := objective, integer := integer
    downLocks := [], upLocks := []
    stats := { nbin := 0, nint := 0, ncont := 0 } }


/-! ## `CoefDivingSelection::select` (methods/CoefDiving.h) -/

/-- The value `std::numeric_limits<int>::max()` of a 32-bit `int`. -/
def intMax : Nat := 2147483647

/-- The variables of the loop of `select`: `varToFix`, `direction`, `minNLocks` and
`nFrac`. -/
structure SelectState where
  varToFix : Int
  direction : Int
  minNLocks : Nat
  nFrac : Nat
deriving DecidableEq, Repr

/-- The statement `if (locks < minNLocks) { varToFix = col; minNLocks = locks; direction =
dir; }`. -/
def select.lower (s : SelectState) (col locks : Nat) (dir : Int) : SelectState :=
  if locks < s.minNLocks then
    { s with varToFix := (col : Int), minNLocks := locks, direction := dir }
  else s

/-- The body of the loop of `select` for column `col`. -/
def select.step (num : Num) (mip : MIP) (lb ub solution : List ℚ) (s : SelectState)
    (col : Nat) : SelectState :=
  if num.isFeasEQ (lb.getD col 0) (ub.getD col 0) then s
  else if !num.isIntegral (solution.getD col 0) then
    if min (mip.downLocks.getD col 0) (mip.upLocks.getD col 0) = 0 then
      { s with nFrac := s.nFrac + 1 }
    else
      select.lower
        (select.lower { s with nFrac := s.nFrac + 1 } col (mip.downLocks.getD col 0) (-1))
        col (mip.upLocks.getD col 0) 1
  else s

/-- The loop `for (col = 0; col < st.nbin + st.nint; ++col)` of `select` from
`varToFix = -1`, `direction = 0`, `minNLocks = INT_MAX`, `nFrac = 0`. -/
def select.loop (num : Num) (mip : MIP) (lb ub solution : List ℚ) (n : Nat) : SelectState :=
  (List.range n).foldl (select.step num mip lb ub solution)
    { varToFix := -1, direction := 0, minNLocks := intMax, nFrac := 0 }

/-- `CoefDivingSelection::select(mip, lb, ub, solution)`: the tuple `(varToFix, direction,
nFrac)`. -/
def CoefDivingSelection.select (num : Num) (mip : MIP) (lb ub solution : List ℚ) :
    Int × Int × Nat :=
  ((select.loop num mip lb ub solution (mip.stats.nbin + mip.stats.nint)).varToFix,
    (select.loop num mip lb ub solution (mip.stats.nbin + mip.stats.nint)).direction,
    (select.loop num mip lb ub solution (mip.stats.nbin + mip.stats.nint)).nFrac)

/-- A column that counts for `nFrac`: not fixed (`lb[c]` and `ub[c]` not equal within the
feasibility tolerance) and with a non-integral solution value. -/
def isFracColumn (num : Num) (lb ub solution : List ℚ) (c : Nat) : Bool :=
  !num.isFeasEQ (lb.getD c 0) (ub.getD c 0) && !num.isIntegral (solution.getD c 0)

/-- The smaller lock count `min(downLocks[c], upLocks[c])` of a column. -/
def minLocks (mip : MIP) (c : Nat) : Nat := min (mip.downLocks.getD c 0) (mip.upLocks.getD c 0)

/-- A candidate of coefficient diving: an integer column `c < nbin + nint` that is not
fixed, has a non-integral solution value and has both lock counts nonzero. -/
def isCandidate (num : Num) (mip : MIP) (lb ub solution : List ℚ) (c : Nat) : Prop :=
  c < mip.stats.nbin + mip.stats.nint ∧ isFracColumn num lb ub solution c = true ∧
    mip.downLocks.getD c 0 ≠ 0 ∧ mip.upLocks.getD c 0 ≠ 0

/-- The invariant of the loop of `select` after the columns below `k`: `nFrac` counts the
fractional columns, and either no column with both locks nonzero and a lock count below
the start value of `minNLocks` was seen, or `varToFix` is the first such column of least
`minLocks`, `minNLocks` is its `minLocks` and `direction` is `-1` when its down-locks are
at most its up-locks and `+1` otherwise. -/
def SelectInv (num : Num) (mip : MIP) (lb ub solution : List ℚ) (k : Nat) (s : SelectState) :
    Prop :=
  s.nFrac = ((List.range k).filter (isFracColumn num lb ub solution)).length ∧
    ((s.varToFix = -1 ∧ s.direction = 0 ∧ s.minNLocks = intMax ∧
        ∀ c, c < k → isFracColumn num lb ub solution c = true →
          minLocks mip c ≠ 0 → intMax ≤ minLocks mip c) ∨
      ∃ v : Nat, v < k ∧ s.varToFix = (v : Int) ∧ isFracColumn num lb ub solution v = true ∧
        minLocks mip v ≠ 0 ∧ s.minNLocks = minLocks mip v ∧ minLocks mip v < intMax ∧
        (s.direction = if mip.downLocks.getD v 0 ≤ mip.upLocks.getD v 0 then -1 else 1) ∧
        (∀ c, c < k → isFracColumn num lb ub solution c = true → minLocks mip c ≠ 0 →
          minLocks mip v ≤ minLocks mip c) ∧
        ∀ c, c < v → isFracColumn num lb ub solution c = true → minLocks mip c ≠ 0 →
          minLocks mip v < minLocks mip c)


/-! ## The assumptions on `propagate` and the invariants of the bound trials -/

/-- The assumption that `propagate` only tightens bounds: it keeps the sizes of the two
bound vectors, never lowers a lower bound and never raises an upper bound. -/
def TightensOnly (propagate : Propagate) (mip : MIP) : Prop :=
  ∀ (b : TrialBounds) (col : Nat) (oldlb oldub : ℚ),
    (propagate mip b col oldlb oldub).2.lb.length = b.lb.length ∧
    (propagate mip b col oldlb oldub).2.ub.length = b.ub.length ∧
    (∀ c, b.lb.getD c 0 ≤ (propagate mip b col oldlb oldub).2.lb.getD c 0) ∧
    ∀ c, (propagate mip b col oldlb oldub).2.ub.getD c 0 ≤ b.ub.getD c 0

/-- The assumption that `propagate` returns true only when `lb <= ub` holds for all
columns of the bounds it leaves. -/
def TrueOnlyWhenOrdered (propagate : Propagate) (mip : MIP) : Prop :=
  ∀ (b : TrialBounds) (col : Nat) (oldlb oldub : ℚ),
    (propagate mip b col oldlb oldub).1 = true →
      ∀ c, (propagate mip b col oldlb oldub).2.lb.getD c 0 ≤
        (propagate mip b col oldlb oldub).2.ub.getD c 0

/-- A column is fixed by the working bounds: `locallb[c] == localub[c]`. -/
def TrialBounds.IsFixed (b : TrialBounds) (c : Nat) : Prop := b.lb.getD c 0 = b.ub.getD c 0

/-- The working bounds `b` of a trial that started from `lb0`, `ub0`: the vectors keep
their sizes and, under the premise `P` (the original bounds are ordered and the infinity
tests of the numerics have the right sign), the working bounds are ordered and lie within
the original ones. -/
def WithinBounds (P : Prop) (lb0 ub0 : List ℚ) (b : TrialBounds) : Prop :=
  b.lb.length = lb0.length ∧ b.ub.length = ub0.length ∧
    (P →
      ∀ c, lb0.getD c 0 ≤ b.lb.getD c 0 ∧ b.lb.getD c 0 ≤ b.ub.getD c 0 ∧
        b.ub.getD c 0 ≤ ub0.getD c 0)

/-- The working copies of `tryUBSolution` when its second loop has passed the deferred
columns `pre`. -/
def tryUBSolution.reached (num : Num) (propagate : Propagate) (mip : MIP) (b : TrialBounds)
    (pre : List Nat) : TrialBounds :=
  (tryUBSolution.secondPass num propagate mip pre
    (tryUBSolution.firstPass num propagate mip (List.range mip.getNCols) b []).2.1).2


/-! ## The MPS reader (core/MPSReader.cpp)

The input stream is the list of its lines, each ended by a newline; `std::getline`
takes the first line off the list and fails on the empty list, leaving the empty string.
`std::stod` and `std::stof` are parameters `stod`, `stof`, and the value
`std::numeric_limits<double>::infinity()` is the parameter `inf`. A `return FAIL` inside a
loop is the result `none` of the loop; the vectors are then not observed again. With total
parameters `stod`, `stof` the section parsers are the parsers in a run in which every
conversion returns; `parseBounds.outcome` is `parseBounds` with the exception that
`std::stof` throws. -/

/-- `mpsreader::Section`. -/
inductive Section where
  | NAME
  | ROWS
  | COLUMNS
  | RHS
  | BOUNDS
  | END
  | FAIL
  | NONE
deriving DecidableEq, Repr

/-- The loops of `split` over the remaining characters of the line; `cur` holds the
characters of the token being read, which ends at a space, a tab or the end of the line. -/
def split.tokens : List Char → List Char → List String
  | [], cur => if cur = [] then [] else [String.mk cur]
  | c :: cs, cur =>
    if c = ' ' ∨ c = '\t' then
      if cur = [] then split.tokens cs [] else String.mk cur :: split.tokens cs []
    else split.tokens cs (cur ++ [c])

/-- `mpsreader::split(line)`: the maximal runs of characters other than space and tab. -/
def split (line : String) : List String := split.tokens line.toList []

/-- The character at `line.find_first_not_of(" ")`: the first character of the line that
is not a space, if there is one. -/
def firstNotSpace (line : String) : Option Char :=
  (line.toList.dropWhile (fun c => c == ' ')).head?

/-- The test `line.empty() || line[line.find_first_not_of(" ")] == '*'` of the section
parsers. On a non-empty line of spaces `find_first_not_of` returns `npos` and the read is
out of range; the test is taken as false there. -/
def isSkipped (line : String) : Bool :=
  line.toList.isEmpty || firstNotSpace line == some '*'

/-- The variables of `mpsreader::parse` that the section parsers read and write, with the
rest of the input `file` and the static `error_section`. -/
structure ReaderState where
  file : List String
  error_section : Section
  name : String
  rows : Rows
  objName : String
  cols : Cols
  coefsT : List ℚ
  idxT : List Nat
  rstartT : List Nat
  objective : List ℚ
  integer : List Bool
  rowSize : List Nat
  varNames : List String
  lhs : List ℚ
  rhs : List ℚ
  lbs : List ℚ
  ubs : List ℚ

/-- The loop `while (std::getline(file, line) && (line.empty() || ... == '*')) {}`: the
line it stops at (the empty string at the end of the input) and the rest of the input. -/
def skipLines : List String → String × List String
  | [] => ("", [])
  | line :: file => if isSkipped line then skipLines file else (line, file)

/-- `mpsreader::parseName(file, name)`. -/
def parseName (st : ReaderState) : Section × ReaderState :=
  if (split (skipLines st.file).1).length ≠ 2 ∨
      (split (skipLines st.file).1).getD 0 "" ≠ "NAME" then
    (Section.FAIL, { st with file := (skipLines st.file).2, error_section := Section.NAME })
  else if (split (skipLines (skipLines st.file).2).1).length > 1 ∨
      (split (skipLines (skipLines st.file).2).1).getD 0 "" ≠ "ROWS" then
    (Section.FAIL,
      { st with
        file := (skipLines (skipLines st.file).2).2, error_section := Section.NAME
        name := (split (skipLines st.file).1).getD 1 "" })
  else
    (Section.ROWS,
      { st with
        file := (skipLines (skipLines st.file).2).2, error_section := Section.NONE
        name := (split (skipLines st.file).1).getD 1 "" })

/-- The variables of the loop of `parseRows`. -/
structure RowsState where
  rows : Rows
  objName : String
  rowcounter : Nat
  tokens : List String

/-- The statements `rows.emplace(tokens[1], make_pair(type, rowcounter)); ++rowcounter;
if (!pair.second) return FAIL;` for a constraint row. -/
def parseRows.emplace (s : RowsState) (tokens : List String) (type : ConsType) :
    Option RowsState :=
  if (s.rows.lookup (tokens.getD 1 "")).isSome then none
  else
    some { s with
      rows := s.rows ++ [(tokens.getD 1 "", type, s.rowcounter)]
      rowcounter := s.rowcounter + 1 }

/-- The body of the loop of `parseRows` for a line of tokens that does not end the
section. -/
def parseRows.line (s : RowsState) (tokens : List String) : Option RowsState :=
  if tokens.length ≠ 2 ∨ (tokens.getD 0 "").length ≠ 1 then none
  else if tokens.getD 0 "" = "N" then some { s with objName := tokens.getD 1 "" }
  else if tokens.getD 0 "" = "L" then parseRows.emplace s tokens ConsType.LESS
  else if tokens.getD 0 "" = "G" then parseRows.emplace s tokens ConsType.GREATER
  else if tokens.getD 0 "" = "E" then parseRows.emplace s tokens ConsType.EQUAL
  else none

/-- The loop `while (std::getline(file, line))` of `parseRows`. -/
def parseRows.loop : List String → RowsState → Option (RowsState × List String)
  | [], s => some (s, [])
  | line :: file, s =>
    if isSkipped line then parseRows.loop file s
    else if (split line).length = 1 then some ({ s with tokens := split line }, file)
    else
      match parseRows.line { s with tokens := split line } (split line) with
      | none => none
      | some s2 => parseRows.loop file s2

/-- `mpsreader::parseRows(file, rows, objName)`. -/
def parseRows (st : ReaderState) : Section × ReaderState :=
  match parseRows.loop st.file
      { rows := st.rows, objName := "", rowcounter := 0, tokens := [] } with
  | none => (Section.FAIL, { st with error_section := Section.ROWS })
  | some (s, file) =>
    if s.tokens.getD 0 "" ≠ "COLUMNS" then
      (Section.FAIL,
        { st with file := file, error_section := Section.ROWS, rows := s.rows,
                  objName := s.objName })
    else
      (Section.COLUMNS,
        { st with file := file, error_section := Section.NONE, rows := s.rows,
                  objName := s.objName })


/-- The variables of the loop of `parseColumns`: its locals and the vectors it fills. -/
structure ColumnsState where
  colId : Int
  prevCol : String
  colset : List String
  integerSection : Bool
  tokens : List String
  cols : Cols
  coefs : List ℚ
  idxT : List Nat
  rstart : List Nat
  objective : List ℚ
  integer : List Bool
  rowSize : List Nat
  varNames : List String

/-- The loop `for (i = 1; i < tokens.size(); i += 2)` of `parseColumns` over the remaining
tokens `rowname, value, ...` of a line: an entry of the objective row pads `objective` with
zeros up to `colId` and pushes the value; any other entry must name a declared row and
pushes its value and row id and counts it in `rowSize`. The value is stored as
`std::stod` returns it. -/
def parseColumns.entries (stod : String → ℚ) (rows : Rows) (objName : String) :
    List String → ColumnsState → Option ColumnsState
  | rowname :: value :: rest, s =>
    if rowname = objName then
      parseColumns.entries stod rows objName rest
        { s with
          objective :=
            s.objective ++ List.replicate (s.colId.toNat - s.objective.length) 0 ++
              [stod value] }
    else
      match rows.lookup rowname with
      | none => none
      | some row =>
        parseColumns.entries stod rows objName rest
          { s with
            coefs := s.coefs ++ [stod value]
            idxT := s.idxT ++ [row.2]
            rowSize := s.rowSize.set row.2 (s.rowSize.getD row.2 0 + 1) }
  | _, s => some s

/-- The block `if (curCol != prevCol) { ... }` of `parseColumns`: a new column gets the
next id, must not have been seen before, and starts a row of the column-major matrix. -/
def parseColumns.newColumn (s : ColumnsState) (curCol : String) : Option ColumnsState :=
  if curCol ≠ s.prevCol then
    if s.colset.contains curCol then none
    else
      some { s with
        colId := s.colId + 1
        colset := curCol :: s.colset
        cols :=
          if (s.cols.lookup curCol).isSome then s.cols
          else s.cols ++ [(curCol, (s.colId + 1).toNat)]
        rstart := s.rstart ++ [s.coefs.length]
        integer := s.integer ++ [s.integerSection]
        varNames := s.varNames ++ [curCol]
        prevCol := curCol }
  else some s

/-- The body of the loop of `parseColumns` for a line of tokens that does not end the
section: a marker line switches `integerSection`, any other line must have an odd number
of tokens and gives entries of the column `tokens[0]`. -/
def parseColumns.line (stod : String → ℚ) (rows : Rows) (objName : String)
    (s : ColumnsState) (tokens : List String) : Option ColumnsState :=
  if tokens.length = 3 ∧ tokens.getD 1 "" = "'MARKER'" then
    if tokens.getD 2 "" = "'INTORG'" then
      if s.integerSection then none else some { s with integerSection := true }
    else if tokens.getD 2 "" = "'INTEND'" then
      if !s.integerSection then none else some { s with integerSection := false }
    else none
  else if tokens.length ≠ 3 ∧ tokens.length % 2 = 0 then none
  else
    match parseColumns.newColumn s (tokens.getD 0 "") with
    | none => none
    | some s2 => parseColumns.entries stod rows objName tokens.tail s2

/-- The loop `while (std::getline(file, line))` of `parseColumns`. -/
def parseColumns.loop (stod : String → ℚ) (rows : Rows) (objName : String) :
    List String → ColumnsState → Option (ColumnsState × List String)
  | [], s => some (s, [])
  | line :: file, s =>
    if isSkipped line then parseColumns.loop stod rows objName file s
    else if (split line).length = 1 then some ({ s with tokens := split line }, file)
    else
      match parseColumns.line stod rows objName { s with tokens := split line }
          (split line) with
      | none => none
      | some s2 => parseColumns.loop stod rows objName file s2

/-- `mpsreader::parseColumns(file, rows, cols, coefs, idxT, rstart, objective, objName,
integer, rowSize, varNames)`. After the loop `objective` is padded with zeros up to
`colId + 1` entries (a `size_t` sum, zero for `colId = -1`) and the last row is ended. -/
def parseColumns (stod : String → ℚ) (st : ReaderState) : Section × ReaderState :=
  match parseColumns.loop stod st.rows st.objName st.file
      { colId := -1, prevCol := "", colset := [], integerSection := false, tokens := []
        cols := st.cols, coefs := st.coefsT, idxT := st.idxT, rstart := st.rstartT
        objective := st.objective, integer := st.integer
        rowSize := List.replicate st.rows.length 0, varNames := st.varNames } with
  | none => (Section.FAIL, { st with error_section := Section.COLUMNS })
  | some (s, file) =>
    if s.tokens.getD 0 "" ≠ "RHS" then
      (Section.FAIL, { st with file := file, error_section := Section.COLUMNS })
    else
      (Section.RHS,
        { st with
          file := file, error_section := Section.NONE, cols := s.cols, coefsT := s.coefs
          idxT := s.idxT, rstartT := s.rstart ++ [s.coefs.length]
          objective :=
            s.objective ++ List.replicate ((s.colId + 1).toNat - s.objective.length) 0
          integer := s.integer, rowSize := s.rowSize, varNames := s.varNames })

/-- The default sides of a row in `parseRhs`: `(-inf, 0)` for a LESS row, `(0, inf)` for a
GREATER row and `(0, 0)` for an EQUAL row. -/
def parseRhs.default (inf : ℚ) (sides : List ℚ × List ℚ) (row : String × ConsType × Nat) :
    List ℚ × List ℚ :=
  match row.2.1 with
  | ConsType.LESS => (sides.1.set row.2.2 (-inf), sides.2.set row.2.2 0)
  | ConsType.GREATER => (sides.1.set row.2.2 0, sides.2.set row.2.2 inf)
  | ConsType.EQUAL => (sides.1.set row.2.2 0, sides.2.set row.2.2 0)
  | ConsType.OBJECTIVE => sides

/-- The loop `for (i = 1; i < tokens.size(); i += 2)` of `parseRhs` over the remaining
tokens `rowname, value, ...` of a line; the pair is `(lhs, rhs)`. -/
def parseRhs.entries (stof : String → ℚ) (inf : ℚ) (rows : Rows) :
    List String → List ℚ × List ℚ → Option (List ℚ × List ℚ)
  | rowname :: value :: rest, sides =>
    match rows.lookup rowname with
    | none => none
    | some row =>
      match row.1 with
      | ConsType.LESS =>
        parseRhs.entries stof inf rows rest
          (sides.1.set row.2 (-inf), sides.2.set row.2 (stof value))
      | ConsType.GREATER =>
        parseRhs.entries stof inf rows rest
          (sides.1.set row.2 (stof value), sides.2.set row.2 inf)
      | ConsType.EQUAL =>
        parseRhs.entries stof inf rows rest
          (sides.1.set row.2 (stof value), sides.2.set row.2 (stof value))
      | ConsType.OBJECTIVE => parseRhs.entries stof inf rows rest sides
  | _, sides => some sides

/-- The loop `while (std::getline(file, line))` of `parseRhs`; the result holds the sides,
the last `tokens` and the rest of the input. -/
def parseRhs.loop (stof : String → ℚ) (inf : ℚ) (rows : Rows) :
    List String → (List ℚ × List ℚ) × List String →
      Option (((List ℚ × List ℚ) × List String) × List String)
  | [], s => some (s, [])
  | line :: file, s =>
    if isSkipped line then parseRhs.loop stof inf rows file s
    else if (split line).length = 1 then some ((s.1, split line), file)
    else if (split line).length % 2 = 0 then none
    else
      match parseRhs.entries stof inf rows (split line).tail s.1 with
      | none => none
      | some sides => parseRhs.loop stof inf rows file (sides, split line)

/-- `mpsreader::parseRhs(file, rows, lhs, rhs)`: the sides start as vectors of `rows.size()`
zeros, get their defaults (the source runs the default loop twice) and then the values of
the section. -/
def parseRhs (stof : String → ℚ) (inf : ℚ) (st : ReaderState) : Section × ReaderState :=
  match parseRhs.loop stof inf st.rows st.file
      (st.rows.foldl (parseRhs.default inf)
        (st.rows.foldl (parseRhs.default inf)
          (List.replicate st.rows.length 0, List.replicate st.rows.length 0)), []) with
  | none => (Section.FAIL, { st with error_section := Section.RHS })
  | some (s, file) =>
    if s.2.getD 0 "" ≠ "BOUNDS" then
      (Section.FAIL,
        { st with file := file, error_section := Section.RHS, lhs := s.1.1, rhs := s.1.2 })
    else
      (Section.BOUNDS,
        { st with file := file, error_section := Section.NONE, lhs := s.1.1, rhs := s.1.2 })


/-- The variables of the loop of `parseBounds`: the bound vectors, the bitset `integer`,
the bitset `lb_changed` and the last `tokens`. -/
structure BoundsState where
  lbs : List ℚ
  ubs : List ℚ
  integer : List Bool
  lb_changed : List Bool
  tokens : List String

/-- The body of the loop of `parseBounds` for a line of tokens that does not end the
section, in a run in which `std::stof` returns on the token it is given: the column
`tokens[2]` must be declared; a line of four tokens is an `UP`, `LO`, `FX`, `MI` or `PL`
line with the value `std::stof(tokens[3])`, a line of three tokens is an `FR` or `BV`
line. `parseBounds.lineOutcome` is the body with the exception of the conversion. -/
def parseBounds.line (stof : String → ℚ) (inf : ℚ) (cols : Cols) (s : BoundsState)
    (tokens : List String) : Option BoundsState :=
  if tokens.length < 3 then none
  else
    match cols.lookup (tokens.getD 2 "") with
    | none => none
    | some colid =>
      if tokens.length = 4 then
        if tokens.getD 0 "" = "UP" then
          some { s with
            ubs := s.ubs.set colid (stof (tokens.getD 3 ""))
            lbs :=
              if stof (tokens.getD 3 "") < 0 ∧ s.lb_changed.getD colid false = false then
                s.lbs.set colid (-inf)
              else s.lbs }
        else if tokens.getD 0 "" = "LO" then
          some { s with
            lbs := s.lbs.set colid (stof (tokens.getD 3 ""))
            lb_changed := s.lb_changed.set colid true }
        else if tokens.getD 0 "" = "FX" then
          some { s with
            lbs := s.lbs.set colid (stof (tokens.getD 3 ""))
            ubs := s.ubs.set colid (stof (tokens.getD 3 "")) }
        else if tokens.getD 0 "" = "MI" then some { s with lbs := s.lbs.set colid (-inf) }
        else if tokens.getD 0 "" = "PL" then some { s with ubs := s.ubs.set colid inf }
        else none
      else if tokens.length = 3 then
        if tokens.getD 0 "" = "FR" then
          some { s with lbs := s.lbs.set colid (-inf), ubs := s.ubs.set colid inf }
        else if tokens.getD 0 "" = "BV" then
          some { s with
            integer := s.integer.set colid true
            lbs := s.lbs.set colid 0
            ubs := s.ubs.set colid 1 }
        else none
      else none

/-- The loop `while (std::getline(file, line))` of `parseBounds`. -/
def parseBounds.loop (stof : String → ℚ) (inf : ℚ) (cols : Cols) :
    List String → BoundsState → Option (BoundsState × List String)
  | [], s => some (s, [])
  | line :: file, s =>
    if isSkipped line then parseBounds.loop stof inf cols file s
    else if (split line).length = 1 then some ({ s with tokens := split line }, file)
    else
      match parseBounds.line stof inf cols { s with tokens := split line } (split line) with
      | none => none
      | some s2 => parseBounds.loop stof inf cols file s2

/-- The state `parseBounds` starts its loop from: `lbs` of `cols.size()` zeros, `ubs` of
`cols.size()` values `inf`, and `lb_changed` all false. -/
def parseBounds.start (inf : ℚ) (st : ReaderState) : BoundsState :=
  { lbs := List.replicate st.cols.length 0, ubs := List.replicate st.cols.length inf
    integer := st.integer, lb_changed := List.replicate st.cols.length false, tokens := [] }

/-- `mpsreader::parseBounds(file, cols, lbs, ubs, integer)`. -/
def parseBounds (stof : String → ℚ) (inf : ℚ) (st : ReaderState) : Section × ReaderState :=
  match parseBounds.loop stof inf st.cols st.file (parseBounds.start inf st) with
  | none => (Section.FAIL, { st with error_section := Section.BOUNDS })
  | some (s, file) =>
    if s.tokens.getD 0 "" ≠ "ENDATA" then
      (Section.FAIL,
        { st with file := file, error_section := Section.BOUNDS, lbs := s.lbs, ubs := s.ubs,
                  integer := s.integer })
    else
      (Section.END,
        { st with file := file, error_section := Section.NONE, lbs := s.lbs, ubs := s.ubs,
                  integer := s.integer })

/-- The `switch (nextsection)` of `mpsreader::parse`. -/
def parse.step (stod stof : String → ℚ) (inf : ℚ) (nextsection : Section) (st : ReaderState) :
    Section × ReaderState :=
  match nextsection with
  | Section.NAME => parseName st
  | Section.ROWS => parseRows st
  | Section.COLUMNS => parseColumns stod st
  | Section.RHS => parseRhs stof inf st
  | Section.BOUNDS => parseBounds stof inf st
  | _ => (nextsection, st)

/-- The loop `while (nextsection != FAIL && nextsection != END)` of `mpsreader::parse`, on
a budget of passes. Every section parser returns `FAIL` or the section that follows its
own, so five passes end the loop. -/
def parse.loop (stod stof : String → ℚ) (inf : ℚ) :
    Nat → Section → ReaderState → Section × ReaderState
  | 0, nextsection, st => (nextsection, st)
  | fuel + 1, nextsection, st =>
    if nextsection ≠ Section.FAIL ∧ nextsection ≠ Section.END then
      parse.loop stod stof inf fuel (parse.step stod stof inf nextsection st).1
        (parse.step stod stof inf nextsection st).2
    else (nextsection, st)

/-- The state `mpsreader::parse` starts from: the lines of the file and empty containers. -/
def parse.start (file : List String) : ReaderState :=
  { file := file, error_section := Section.NONE, name := "", rows := [], objName := ""
    cols := [], coefsT := [], idxT := [], rstartT := [], objective := [], integer := []
    rowSize := [], varNames := [], lhs := [], rhs := [], lbs := [], ubs := [] }

/-- `mpsreader::parse` on the lines of an opened file: the MIP that `makeMip` builds when
the sections are read up to `END`, and `none` for the exception thrown on `FAIL`. -/
def parse (stod stof : String → ℚ) (inf : ℚ) (file : List String) : Option MIP :=
  if (parse.loop stod stof inf 5 Section.NAME (parse.start file)).1 = Section.END then
    some
      (makeMip (parse.loop stod stof inf 5 Section.NAME (parse.start file)).2.rows
        (parse.loop stod stof inf 5 Section.NAME (parse.start file)).2.cols
        (parse.loop stod stof inf 5 Section.NAME (parse.start file)).2.coefsT
        (parse.loop stod stof inf 5 Section.NAME (parse.start file)).2.idxT
        (parse.loop stod stof inf 5 Section.NAME (parse.start file)).2.rstartT
        (parse.loop stod stof inf 5 Section.NAME (parse.start file)).2.rhs
        (parse.loop stod stof inf 5 Section.NAME (parse.start file)).2.lhs
        (parse.loop stod stof inf 5 Section.NAME (parse.start file)).2.lbs
        (parse.loop stod stof inf 5 Section.NAME (parse.start file)).2.ubs
        (parse.loop stod stof inf 5 Section.NAME (parse.start file)).2.objective
        (parse.loop stod stof inf 5 Section.NAME (parse.start file)).2.integer
        (parse.loop stod stof inf 5 Section.NAME (parse.start file)).2.rowSize)
  else none

/-- The condition of the assertion at the end of `transpose`: every coefficient of the
transposed matrix is nonzero. -/
def transpose.allNonzero (transposed : SparseMatrix) : Bool :=
  transposed.coefficients.all (fun coef => coef != 0)

/-- The token lists of the data lines that the loop of `parseBounds` reads: the lines
that are not skipped, up to the first line of one token. -/
def boundLines : List String → List (List String)
  | [] => []
  | line :: file =>
    if isSkipped line then boundLines file
    else if (split line).length = 1 then []
    else split line :: boundLines file

/-- The data lines of the BOUNDS section that name the column with id `c`. -/
def boundLinesOf (cols : Cols) (c : Nat) (file : List String) : List (List String) :=
  (boundLines file).filter (fun tokens => cols.lookup (tokens.getD 2 "") == some c)

/-- The bounds and the bit `lb_changed` of column `c` in the state of `parseBounds`. -/
def BoundsState.column (s : BoundsState) (c : Nat) : ℚ × ℚ × Bool :=
  (s.lbs.getD c 0, s.ubs.getD c 0, s.lb_changed.getD c false)

/-- What an accepted bound line does to the triple `(lb, ub, lb_changed)` of the column it
names, by its bound type `tokens[0]` and its value `b = stof(tokens[3])`. -/
def boundEffect (stof : String → ℚ) (inf : ℚ) (v : ℚ × ℚ × Bool) (tokens : List String) :
    ℚ × ℚ × Bool :=
  if tokens.getD 0 "" = "UP" then
    (if stof (tokens.getD 3 "") < 0 ∧ v.2.2 = false then -inf else v.1,
      stof (tokens.getD 3 ""), v.2.2)
  else if tokens.getD 0 "" = "LO" then (stof (tokens.getD 3 ""), v.2.1, true)
  else if tokens.getD 0 "" = "FX" then (stof (tokens.getD 3 ""), stof (tokens.getD 3 ""), v.2.2)
  else if tokens.getD 0 "" = "MI" then (-inf, v.2.1, v.2.2)
  else if tokens.getD 0 "" = "PL" then (v.1, inf, v.2.2)
  else if tokens.getD 0 "" = "FR" then (-inf, inf, v.2.2)
  else if tokens.getD 0 "" = "BV" then (0, 1, v.2.2)
  else v


/-- `mpsreader::getErrorStr()`, as a function of the static `error_section`. For a value
that is not a section of the file the source asserts and appends nothing. -/
def getErrorStr (error_section : Section) : String :=
  "Failed to parse mps file, error in section: " ++
    (match error_section with
     | Section.NAME => "NAME"
     | Section.ROWS => "ROWS"
     | Section.COLUMNS => "COLUMNS"
     | Section.RHS => "RHS"
     | Section.BOUNDS => "BOUNDS"
     | _ => "") ++ "\n"

/-- The message of the `std::runtime_error` that `mpsreader::parse` throws when the loop
ends with `FAIL`, from the state the loop ends in. -/
def parse.what (filename : String) (st : ReaderState) : String :=
  "unable to parse file: " ++ filename ++ "\n" ++ getErrorStr st.error_section

/-- The section in which parsing failed: the value of `nextsection` in the pass of the
loop of `mpsreader::parse` whose section parser returned `FAIL`, if there is one. -/
def parse.failedIn (stod stof : String → ℚ) (inf : ℚ) :
    Nat → Section → ReaderState → Option Section
  | 0, _, _ => none
  | fuel + 1, nextsection, st =>
    if nextsection ≠ Section.FAIL ∧ nextsection ≠ Section.END then
      if (parse.step stod stof inf nextsection st).1 = Section.FAIL then some nextsection
      else
        parse.failedIn stod stof inf fuel (parse.step stod stof inf nextsection st).1
          (parse.step stod stof inf nextsection st).2
    else none


/-- What the loop of `parse` ends in: `END` with `error_section = NONE`, or `FAIL` with
`error_section` the section whose parser returned `FAIL`. -/
def ParseOutcome (stod stof : String → ℚ) (inf : ℚ) (fuel : Nat) (sec : Section)
    (st : ReaderState) : Prop :=
  ((parse.loop stod stof inf fuel sec st).1 = Section.END ∧
      parse.failedIn stod stof inf fuel sec st = none ∧
      (parse.loop stod stof inf fuel sec st).2.error_section = Section.NONE) ∨
    ((parse.loop stod stof inf fuel sec st).1 = Section.FAIL ∧
      ∃ failed, failed ∈ [Section.NAME, Section.ROWS, Section.COLUMNS, Section.RHS,
          Section.BOUNDS] ∧
        parse.failedIn stod stof inf fuel sec st = some failed ∧
        (parse.loop stod stof inf fuel sec st).2.error_section = failed)

/-! ## The CLI entry point (main.cpp) -/

/-- What `main` writes to `std::cout`: the message of a parse error, the status and the
objective of the LP result, or the text `Solver raised an exception`. -/
inductive MainOutput where
  | what (message : String)
  | status (s : LPStatus)
  | obj (v : ℚ)
  | solverException
deriving DecidableEq, Repr

/-- The exit code of `main` and its output. -/
structure MainResult where
  exitCode : Nat
  output : List MainOutput
deriving DecidableEq, Repr

/-- `main()`. `parsed` is the outcome of `mpsreader::parse("mip.mps")`: the MIP, or the
message of the exception it throws. `solver` stands for the construction of
`AvaiLPSolver(mip)` followed by `solver->solve()`: the LP result, or `none` when either of
them throws. The first `catch` returns 1; the second `catch` only prints, and `main` goes
on to `return 0`. -/
def main (parsed : Except String MIP) (solver : MIP → Option LPResult) : MainResult :=
  match parsed with
  | Except.error message => { exitCode := 1, output := [MainOutput.what message] }
  | Except.ok mip =>
    match solver mip with
    | none => { exitCode := 0, output := [MainOutput.solverException] }
    | some result =>
      { exitCode := 0
        output :=
          if result.status = LPStatus.OPTIMAL then
            [MainOutput.status result.status, MainOutput.obj result.obj]
          else [MainOutput.status result.status] }

/-- The outcome of `mpsreader::parse(filename)` on a file that cannot be opened (`none`)
or on the lines of the file: the MIP, or the message of the `std::runtime_error`. -/
def parse.outcome (stod stof : String → ℚ) (inf : ℚ) (filename : String)
    (file : Option (List String)) : Except String MIP :=
  match file with
  | none => Except.error ("unable to open file: " ++ filename)
  | some lines =>
    match parse stod stof inf lines with
    | some mip => Except.ok mip
    | none =>
      Except.error
        (parse.what filename (parse.loop stod stof inf 5 Section.NAME (parse.start lines)).2)

/-! ## The constructor of `Search` (core/Heuristic.cpp) -/

/-- A call `heuristics[id]->setParam(param, value)` made by the constructor of `Search`;
`feas` tells whether the heuristic is `feas_heuristics[id]` or `impr_heuristics[id]`. -/
structure SetParamCall (Value : Type) where
  feas : Bool
  id : Nat
  param : String
  value : Value
deriving DecidableEq, Repr

/-- The loop `for (auto heur : heur_list) { name_to_id[heur->getName()] =
heuristics.size(); heuristics.emplace_back(heur); }` over the names of the heuristics that
remain, with the map filled so far and the number of heuristics registered so far. An
assignment `map[name] = id` is a new first entry: it shadows an earlier entry of the name,
as `find` sees it. -/
def nameToId : List String → List (String × Nat) → Nat → List (String × Nat)
  | [], map, _ => map
  | name :: rest, map, size => nameToId rest ((name, size) :: map) (size + 1)

/-- The loop `for (auto [heur_name, param_name, value] : config)` of the constructor over
the remaining triples, with the calls of `setParam` made so far. `accepts` tells whether a
call of `setParam` returns; when it throws (`std::bad_variant_access`), the constructor
logs an error and rethrows: the boolean of the result is true and the loop is left. -/
def Search.route {Value : Type} (accepts : SetParamCall Value → Bool)
    (feas_heur_name_to_id impr_heur_name_to_id : List (String × Nat)) :
    List (String × String × Value) → List (SetParamCall Value) →
      List (SetParamCall Value) × Bool
  | [], calls => (calls, false)
  | (heur_name, param_name, value) :: rest, calls =>
    match feas_heur_name_to_id.lookup heur_name with
    | some id =>
      if accepts { feas := true, id := id, param := param_name, value := value } then
        Search.route accepts feas_heur_name_to_id impr_heur_name_to_id rest
          (calls ++ [{ feas := true, id := id, param := param_name, value := value }])
      else (calls ++ [{ feas := true, id := id, param := param_name, value := value }], true)
    | none =>
      match impr_heur_name_to_id.lookup heur_name with
      | some id =>
        if accepts { feas := false, id := id, param := param_name, value := value } then
          Search.route accepts feas_heur_name_to_id impr_heur_name_to_id rest
            (calls ++ [{ feas := false, id := id, param := param_name, value := value }])
        else
          (calls ++ [{ feas := false, id := id, param := param_name, value := value }], true)
      | none => Search.route accepts feas_heur_name_to_id impr_heur_name_to_id rest calls

/-- What the constructor of `Search` has done when it returns or throws: the sizes of
`feas_solutions_pools` and `impr_solutions_pools`, the calls of `setParam` in order, and
whether it throws. -/
structure SearchConstruction (Value : Type) where
  nFeasPools : Nat
  nImprPools : Nat
  calls : List (SetParamCall Value)
  throws : Bool

/-- `Search::Search(feas_heur_list, impr_heur_list, config)`, on the names of the
heuristics of the two lists. -/
def Search.construct {Value : Type} (accepts : SetParamCall Value → Bool)
    (feas_names impr_names : List String) (config : List (String × String × Value)) :
    SearchConstruction Value :=
  { nFeasPools := feas_names.length + 1
    nImprPools := impr_names.length
    calls :=
      (Search.route accepts (nameToId feas_names [] 0) (nameToId impr_names [] 0) config
        []).1
    throws :=
      (Search.route accepts (nameToId feas_names [] 0) (nameToId impr_names [] 0) config
        []).2 }

/-- The call that a configuration triple is routed to, as the claim words it: a call on a
registered feasibility heuristic of the name when there is one, else on a registered
improvement heuristic of the name when there is one, else no call. The id is the one the
name maps held. -/
def Search.target {Value : Type} (feas_names impr_names : List String)
    (triple : String × String × Value) : Option (SetParamCall Value) :=
  match (nameToId feas_names [] 0).lookup triple.1 with
  | some id => some { feas := true, id := id, param := triple.2.1, value := triple.2.2 }
  | none =>
    match (nameToId impr_names [] 0).lookup triple.1 with
    | some id => some { feas := false, id := id, param := triple.2.1, value := triple.2.2 }
    | none => none


/-- The MIP `mip2` is the MIP `mip` with its rows permuted: the two have the same number
of columns, bounds and statistics, `perm` is a permutation of the row ids, and row `i` of
`mip2` is row `perm[i]` of `mip`, with the same stored entries and the same `lhs` and
`rhs`. -/
def RowsPermuted (mip mip2 : MIP) (perm : List Nat) : Prop :=
  mip2.getNCols = mip.getNCols ∧ mip2.getNRows = mip.getNRows ∧
    mip2.lb = mip.lb ∧ mip2.ub = mip.ub ∧ mip2.stats = mip.stats ∧
    perm.Perm (List.range mip.getNRows) ∧
    ∀ i, i < mip.getNRows →
      (mip2.getRow i).size = (mip.getRow (perm.getD i 0)).size ∧
        (∀ id, id < (mip2.getRow i).size →
          (mip2.getRow i).coefs.getD id 0 = (mip.getRow (perm.getD i 0)).coefs.getD id 0 ∧
            (mip2.getRow i).indices.getD id 0 =
              (mip.getRow (perm.getD i 0)).indices.getD id 0) ∧
        mip2.lhs.getD i 0 = mip.lhs.getD (perm.getD i 0) 0 ∧
        mip2.rhs.getD i 0 = mip.rhs.getD (perm.getD i 0) 0


/-! ## The derivation of the locks (spec, data model) -/

/-- Modelled from the spec: the coefficient `A[r,c]` of the constraint matrix (class `MIP`,
header `MIP.h`, is not in the sources), the sum of the stored entries of row `r` with
column index `c`. -/
def MIP.coef (mip : MIP) (r c : Nat) : ℚ :=
  (((List.range (mip.getRow r).size).filter
    (fun id => (mip.getRow r).indices.getD id 0 == c)).map
    (fun id => (mip.getRow r).coefs.getD id 0)).sum

/-- Modelled from the spec: the rows counted by `downLocks[c]`, as the data model defines
it (the code that derives the locks is in `MIP.h`, not in the sources): the rows `r` with
`lhs[r] > -inf` and `A[r,c] > 0`, or `rhs[r] < +inf` and `A[r,c] < 0`. -/
def downLockRow (num : Num) (mip : MIP) (c r : Nat) : Bool :=
  (!num.isMinusInf (mip.lhs.getD r 0) && decide (mip.coef r c > 0)) ||
    (!num.isInf (mip.rhs.getD r 0) && decide (mip.coef r c < 0))

/-- Modelled from the spec: the rows counted by `upLocks[c]`, the symmetric definition (the
code that derives the locks is in `MIP.h`, not in the sources): the rows `r` with
`rhs[r] < +inf` and `A[r,c] > 0`, or `lhs[r] > -inf` and `A[r,c] < 0`. -/
def upLockRow (num : Num) (mip : MIP) (c r : Nat) : Bool :=
  (!num.isInf (mip.rhs.getD r 0) && decide (mip.coef r c > 0)) ||
    (!num.isMinusInf (mip.lhs.getD r 0) && decide (mip.coef r c < 0))

/-- Modelled from the spec: `downLocks[c]` as the data model defines it (`MIP.h` is not in
the sources). -/
def derivedDownLocks (num : Num) (mip : MIP) (c : Nat) : Nat :=
  ((List.range mip.getNRows).filter (downLockRow num mip c)).length

/-- Modelled from the spec: `upLocks[c]` as the data model defines it (`MIP.h` is not in
the sources). -/
def derivedUpLocks (num : Num) (mip : MIP) (c : Nat) : Nat :=
  ((List.range mip.getNRows).filter (upLockRow num mip c)).length

/-- The number of rows `r` with `A[r,c] != 0`. -/
def nonzeroRows (mip : MIP) (c : Nat) : Nat :=
  ((List.range mip.getNRows).filter (fun r => decide (mip.coef r c ≠ 0))).length


/-- The state of the integer columns during the orderings of `MinLockRounding::search`,
against the root LP solution `x`: an integer column holds `x[c]`, or a value that
`Num::isIntegral` accepts and that is `Num::floor(x[c])` or `Num::ceil(x[c])`. -/
def RoundedInv (num : Num) (mip : MIP) (x sol : List ℚ) : Prop :=
  ∀ c, mip.integer.getD c false = true →
    sol.getD c 0 = x.getD c 0 ∨
      (num.isIntegral (sol.getD c 0) = true ∧
        (sol.getD c 0 = num.floor (x.getD c 0) ∨ sol.getD c 0 = num.ceil (x.getD c 0)))


/-! ## Reads of the reader that must stay in range, and its assertions -/

/-- The read `line[line.find_first_not_of(" ")]` in the test `line.empty() || line[...] ==
'*'` is inside the line: it is not evaluated on an empty line, and otherwise some character
of the line is not a space (on a line of spaces the position is `npos`). -/
def isSkipped.inRange (line : String) : Bool :=
  line.toList.isEmpty || (firstNotSpace line).isSome

/-- Every read of the loop `while (std::getline(file, line) && (line.empty() || ... ==
'*')) {}` is inside its line; at the end of the input the test is not evaluated. -/
def skipLines.inRange : List String → Bool
  | [] => true
  | line :: file =>
    isSkipped.inRange line && (if isSkipped line then skipLines.inRange file else true)

/-- Every read of `parseName` is in range: the reads `line[...]` of its two loops, and the
reads `tokens[0]` of its two tests. In `tokens.size() != 2 || tokens[0] != "NAME"` the token
is read only when there are two tokens; in `tokens.size() > 1 || tokens[0] != "ROWS"` it is
read when there is at most one token, and is in range when there is one. -/
def parseName.inRange (st : ReaderState) : Bool :=
  skipLines.inRange st.file &&
    (if (split (skipLines st.file).1).length ≠ 2 ∨
        (split (skipLines st.file).1).getD 0 "" ≠ "NAME" then true
      else
        skipLines.inRange (skipLines st.file).2 &&
          (decide ((split (skipLines (skipLines st.file).2).1).length > 1) ||
            decide (0 < (split (skipLines (skipLines st.file).2).1).length)))

/-- The condition of the assertion `assert(rows.size() > 1)` at the start of `parseRhs`. -/
def parseRhs.rowCountAssert (st : ReaderState) : Bool := decide (st.rows.length > 1)


/-! ## The contract of `std::sort` -/

/-- A strict weak ordering, the requirement of `std::sort` on its comparator: irreflexive,
transitive, and with a transitive incomparability. -/
def StrictWeakOrder (comp : Nat → Nat → Bool) : Prop :=
  (∀ a, comp a a = false) ∧
  (∀ a b c, comp a b = true → comp b c = true → comp a c = true) ∧
  (∀ a b c, comp a b = false → comp b a = false → comp b c = false → comp c b = false →
    comp a c = false ∧ comp c a = false)

/-- The postcondition of `std::sort(first, last, comp)` for a strict weak ordering `comp`:
the range holds a permutation of its former contents and no element precedes, by `comp`,
an element that stands before it. -/
def SortContract (sort : (Nat → Nat → Bool) → List Nat → List Nat) : Prop :=
  ∀ comp l, StrictWeakOrder comp →
    (sort comp l).Perm l ∧ (sort comp l).Pairwise (fun a b => comp b a = false)


/-- The acceptance of a data line of the BOUNDS section as the spec states it: the third
token names a declared column, and the line has four tokens with the type `UP`, `LO`, `FX`,
`MI` or `PL`, or three tokens with the type `FR` or `BV`. -/
def boundLineAccepted (cols : Cols) (tokens : List String) : Bool :=
  (cols.lookup (tokens.getD 2 "")).isSome &&
    ((decide (tokens.length = 4) &&
        ["UP", "LO", "FX", "MI", "PL"].contains (tokens.getD 0 "")) ||
      (decide (tokens.length = 3) && ["FR", "BV"].contains (tokens.getD 0 "")))

/-- The data lines that `parseBounds` accepts when the conversion can throw: the third
token names a declared column and the line has four tokens with the type `UP`, `LO`, `FX`,
`MI` or `PL` and a fourth token that `std::stof` converts, or three tokens with the type
`FR` or `BV`. -/
def boundLineConverted (stof : String → Option ℚ) (cols : Cols) (tokens : List String) :
    Bool :=
  (cols.lookup (tokens.getD 2 "")).isSome &&
    ((decide (tokens.length = 4) &&
        ["UP", "LO", "FX", "MI", "PL"].contains (tokens.getD 0 "") &&
        (stof (tokens.getD 3 "")).isSome) ||
      (decide (tokens.length = 3) && ["FR", "BV"].contains (tokens.getD 0 "")))

/-- The data lines on which `parseBounds` throws: the third token names a declared column,
the line has four tokens, and `std::stof` throws on the fourth, whatever the first is. -/
def boundLineThrows (stof : String → Option ℚ) (cols : Cols) (tokens : List String) : Bool :=
  (cols.lookup (tokens.getD 2 "")).isSome && decide (tokens.length = 4) &&
    (stof (tokens.getD 3 "")).isNone


/-! ## The sections of the reader as the spec describes their results -/

/-- The map `rows` as `parseRows` fills it: the names are pairwise distinct and the `k`-th
declared row has the id `k`. -/
def RowsWF (rows : Rows) : Prop :=
  (rows.map (fun r => r.1)).Nodup ∧ rows.map (fun r => r.2.2) = List.range rows.length

/-- The pairs `(rowname, value)` of the tokens of a data line after its first token. -/
def rhsEntries.ofTokens : List String → List (String × String)
  | rowname :: value :: rest => (rowname, value) :: rhsEntries.ofTokens rest
  | _ => []

/-- The pairs `(rowname, value)` that the RHS section gives, in the order of the file: those
of the lines that are not skipped, up to the first line of one token. -/
def rhsEntries : List String → List (String × String)
  | [] => []
  | line :: file =>
    if isSkipped line then rhsEntries file
    else if (split line).length = 1 then []
    else rhsEntries.ofTokens (split line).tail ++ rhsEntries file

/-- The value of the last entry for the row `name` under a conversion `conv` of its
token to a number, or 0 if the entries give none. With the exact value of the token for
`conv` it is the last value given for the row; with `std::stof` for `conv` it is the
number that `parseRhs` computes from the token. -/
def rhsValue (conv : String → ℚ) (entries : List (String × String)) (name : String) : ℚ :=
  entries.foldl (fun v e => if e.1 = name then conv e.2 else v) 0

/-- The sides `(lhs, rhs)` of a row of the given kind with the value `v`: `(-inf, v)` for
an `L` row, `(v, inf)` for a `G` row, `(v, v)` for an `E` row. -/
def rowSides (inf : ℚ) (type : ConsType) (v : ℚ) : ℚ × ℚ :=
  match type with
  | ConsType.LESS => (-inf, v)
  | ConsType.GREATER => (v, inf)
  | ConsType.EQUAL => (v, v)
  | ConsType.OBJECTIVE => (0, 0)

/-- The function `parseRhs` with a single pass of default initialisation, as the spec
describes it. -/
def parseRhs.single (stof : String → ℚ) (inf : ℚ) (st : ReaderState) :
    Section × ReaderState :=
  match parseRhs.loop stof inf st.rows st.file
      (st.rows.foldl (parseRhs.default inf)
        (List.replicate st.rows.length 0, List.replicate st.rows.length 0), []) with
  | none => (Section.FAIL, { st with error_section := Section.RHS })
  | some (s, file) =>
    if s.2.getD 0 "" ≠ "BOUNDS" then
      (Section.FAIL,
        { st with file := file, error_section := Section.RHS, lhs := s.1.1, rhs := s.1.2 })
    else
      (Section.BOUNDS,
        { st with file := file, error_section := Section.NONE, lhs := s.1.1, rhs := s.1.2 })

/-- The state of the sides in the loop of `parseRhs` against the entries `done` read so
far: both vectors have one entry per row, and every declared constraint row has the sides
of its kind with the last value that `done` gives for it. -/
def RhsInv (stof : String → ℚ) (inf : ℚ) (rows : Rows) (sides : List ℚ × List ℚ)
    (done : List (String × String)) : Prop :=
  sides.1.length = rows.length ∧ sides.2.length = rows.length ∧
    ∀ name type id, rows.lookup name = some (type, id) → type ≠ ConsType.OBJECTIVE →
      (sides.1.getD id 0, sides.2.getD id 0) = rowSides inf type (rhsValue stof done name)


/-- The column name, once for every entry of the objective row among the tokens
`rowname, value, ...` of a data line of the column. -/
def objectiveEntries.ofTokens (objName col : String) : List String → List String
  | rowname :: _ :: rest =>
    if rowname = objName then col :: objectiveEntries.ofTokens objName col rest
    else objectiveEntries.ofTokens objName col rest
  | _ => []

/-- The columns for which the COLUMNS section gives an entry of the objective row, one item
per entry, in the order of the file: the data lines are the lines that are not skipped and
are not marker lines, up to the first line of one token. No column repeats its objective
entry when this list has no duplicates. -/
def objectiveEntries (objName : String) : List String → List String
  | [] => []
  | line :: file =>
    if isSkipped line then objectiveEntries objName file
    else if (split line).length = 1 then []
    else if (split line).length = 3 ∧ (split line).getD 1 "" = "'MARKER'" then
      objectiveEntries objName file
    else
      objectiveEntries.ofTokens objName ((split line).getD 0 "") (split line).tail ++
        objectiveEntries objName file

/-- The first tokens of the data lines of the COLUMNS section, in the order of the file. -/
def columnTokens : List String → List String
  | [] => []
  | line :: file =>
    if isSkipped line then columnTokens file
    else if (split line).length = 1 then []
    else if (split line).length = 3 ∧ (split line).getD 1 "" = "'MARKER'" then
      columnTokens file
    else (split line).getD 0 "" :: columnTokens file

/-- The names of a list in the order of their first appearance. -/
def firstAppearances (names : List String) : List String :=
  names.foldl (fun acc x => if x ∈ acc then acc else acc ++ [x]) []

/-- The column-major matrix that `makeMip` assembles from the arrays of the reader. -/
def columnMatrix (st : ReaderState) : SparseMatrix :=
  { ncols := st.rows.length, nrows := st.cols.length, coefficients := st.coefsT
    indices := st.idxT, rowStart := st.rstartT }

/-- The state of the loop of `parseColumns` against the rows, the columns `emitted` that
have had an objective entry and the first tokens `seen` of the data lines read so far. -/
structure ColumnsInv (rows : Rows) (s : ColumnsState) (emitted seen : List String) :
    Prop where
  colId_eq : s.colId + 1 = (s.cols.length : Int)
  rstart_length : s.rstart.length = s.cols.length
  integer_length : s.integer.length = s.cols.length
  cols_names : s.cols.map (fun p => p.1) = s.varNames
  cols_ids : s.cols.map (fun p => p.2) = List.range s.cols.length
  colset_mem : ∀ x, x ∈ s.colset ↔ x ∈ s.varNames
  names_nodup : s.varNames.Nodup
  names_seen : s.varNames = firstAppearances seen
  prevCol_last : s.varNames.getLast?.getD "" = s.prevCol
  idxT_length : s.idxT.length = s.coefs.length
  rstart_sorted : s.rstart.Pairwise (fun a b => a ≤ b)
  rstart_le : ∀ x ∈ s.rstart, x ≤ s.coefs.length
  rstart_head : s.rstart.getD 0 s.coefs.length = 0
  rowSize_length : s.rowSize.length = rows.length
  rowSize_count : ∀ r, r < rows.length → s.rowSize.getD r 0 = s.idxT.count r
  idxT_declared : ∀ r ∈ s.idxT, ∃ name t, rows.lookup name = some (t, r)
  objective_le : s.objective.length ≤ s.cols.length
  objective_full : s.cols ≠ [] → s.objective.length = s.cols.length → s.prevCol ∈ emitted


/-! ## `parseBounds` with the exception of `std::stof`

`std::stof` throws `std::invalid_argument` when no conversion can be performed on its
argument and `std::out_of_range` when the value is outside the range of `float`. Here the
conversion is a function to `Option`, `none` for a token on which it throws, and a call
ends with a value, with `return FAIL` or with the exception. -/

/-- How a pass of a loop body or a loop ends: it goes on with a value, it ends with
`return FAIL`, or `std::stof` throws. -/
inductive Outcome (α : Type) where
  | next (a : α)
  | fail
  | throws

/-- The pass went on with a value. -/
def Outcome.isNext {α : Type} : Outcome α → Bool
  | Outcome.next _ => true
  | _ => false

/-- The pass ended with `return FAIL`. -/
def Outcome.isFail {α : Type} : Outcome α → Bool
  | Outcome.fail => true
  | _ => false

/-- The pass ended with the exception of `std::stof`. -/
def Outcome.isThrows {α : Type} : Outcome α → Bool
  | Outcome.throws => true
  | _ => false

/-- The body of the loop of `parseBounds` for a line of tokens that does not end the
section, with a conversion that can throw. After `tokens.size() < 3` and the lookup of the
column `tokens[2]`, a line of four tokens is converted, `double bound =
std::stof(tokens[3])`, before its bound type is tested: when the conversion throws the
pass ends with the exception whatever `tokens[0]` is. -/
def parseBounds.lineOutcome (stof : String → Option ℚ) (inf : ℚ) (cols : Cols)
    (s : BoundsState) (tokens : List String) : Outcome BoundsState :=
  if tokens.length < 3 then Outcome.fail
  else
    match cols.lookup (tokens.getD 2 "") with
    | none => Outcome.fail
    | some colid =>
      if tokens.length = 4 then
        match stof (tokens.getD 3 "") with
        | none => Outcome.throws
        | some bound =>
          if tokens.getD 0 "" = "UP" then
            Outcome.next { s with
              ubs := s.ubs.set colid bound
              lbs :=
                if bound < 0 ∧ s.lb_changed.getD colid false = false then
                  s.lbs.set colid (-inf)
                else s.lbs }
          else if tokens.getD 0 "" = "LO" then
            Outcome.next { s with
              lbs := s.lbs.set colid bound
              lb_changed := s.lb_changed.set colid true }
          else if tokens.getD 0 "" = "FX" then
            Outcome.next { s with
              lbs := s.lbs.set colid bound
              ubs := s.ubs.set colid bound }
          else if tokens.getD 0 "" = "MI" then
            Outcome.next { s with lbs := s.lbs.set colid (-inf) }
          else if tokens.getD 0 "" = "PL" then
            Outcome.next { s with ubs := s.ubs.set colid inf }
          else Outcome.fail
      else if tokens.length = 3 then
        if tokens.getD 0 "" = "FR" then
          Outcome.next { s with lbs := s.lbs.set colid (-inf), ubs := s.ubs.set colid inf }
        else if tokens.getD 0 "" = "BV" then
          Outcome.next { s with
            integer := s.integer.set colid true
            lbs := s.lbs.set colid 0
            ubs := s.ubs.set colid 1 }
        else Outcome.fail
      else Outcome.fail

/-- The loop `while (std::getline(file, line))` of `parseBounds` with a conversion that
can throw. -/
def parseBounds.loopOutcome (stof : String → Option ℚ) (inf : ℚ) (cols : Cols) :
    List String → BoundsState → Outcome (BoundsState × List String)
  | [], s => Outcome.next (s, [])
  | line :: file, s =>
    if isSkipped line then parseBounds.loopOutcome stof inf cols file s
    else if (split line).length = 1 then Outcome.next ({ s with tokens := split line }, file)
    else
      match parseBounds.lineOutcome stof inf cols { s with tokens := split line }
          (split line) with
      | Outcome.fail => Outcome.fail
      | Outcome.throws => Outcome.throws
      | Outcome.next s2 => parseBounds.loopOutcome stof inf cols file s2

/-- The call `mpsreader::parseBounds(file, cols, lbs, ubs, integer)` with a conversion
that can throw: the section it returns and the state it leaves, or `none` when the
exception of `std::stof` leaves the call. -/
def parseBounds.outcome (stof : String → Option ℚ) (inf : ℚ) (st : ReaderState) :
    Option (Section × ReaderState) :=
  match parseBounds.loopOutcome stof inf st.cols st.file (parseBounds.start inf st) with
  | Outcome.throws => none
  | Outcome.fail => some (Section.FAIL, { st with error_section := Section.BOUNDS })
  | Outcome.next (s, file) =>
    if s.tokens.getD 0 "" ≠ "ENDATA" then
      some (Section.FAIL,
        { st with file := file, error_section := Section.BOUNDS, lbs := s.lbs, ubs := s.ubs,
                  integer := s.integer })
    else
      some (Section.END,
        { st with file := file, error_section := Section.NONE, lbs := s.lbs, ubs := s.ubs,
                  integer := s.integer })


/-- The objective value of a solution as the spec writes it: the sum over all columns
`j` of `objective[j] * sol[j]`. -/
def objectiveValue (objective sol : List ℚ) (ncols : Nat) : ℚ :=
  ((List.range ncols).map (fun j => objective.getD j 0 * sol.getD j 0)).sum

/-- Whether ordering `k`, run on its own from the LP solution and its activities, ends
with `nviolated == 0` after every fractional column (the ordering succeeds). -/
def orderingSucceeds (num : Num) (sort : (Nat → Nat → Bool) → List Nat → List Nat) (mip : MIP)
    (lb ub : List ℚ) (result : LPResult) (solAct : List ℚ) (fractional : List Nat)
    (k : Nat) : Bool :=
  match tryOrdering num sort mip lb ub result solAct fractional k with
  | some out => !out.failed
  | none => false

/-- The rounded solution that ordering `k` ends with when run on its own. -/
def orderingSolution (num : Num) (sort : (Nat → Nat → Bool) → List Nat → List Nat) (mip : MIP)
    (lb ub : List ℚ) (result : LPResult) (solAct : List ℚ) (fractional : List Nat)
    (k : Nat) : List ℚ :=
  match tryOrdering num sort mip lb ub result solAct fractional k with
  | some out => out.solution
  | none => []

/-- The orderings that `search` runs to success: the orderings `0, 1, 2, 3` up to, and
without, the first one that fails. -/
def leadingOrderings (num : Num) (sort : (Nat → Nat → Bool) → List Nat → List Nat) (mip : MIP)
    (lb ub : List ℚ) (result : LPResult) (solAct : List ℚ) (fractional : List Nat) :
    List Nat :=
  [0, 1, 2, 3].takeWhile (orderingSucceeds num sort mip lb ub result solAct fractional)

/-- The invariant of the all-integer path: no call on the LP solver, and every recorded
cost is the objective value of its solution. -/
def CostInvariant (mip : MIP) (s : SearchState) : Prop :=
  s.solverCalls = [] ∧
    ∀ e ∈ s.added, e.2 = objectiveValue mip.objective e.1 mip.getNCols

/-- The state `search` ends in, written without the flag `feasible`: the success path
is run for the orderings of `l` that precede the first failing one. -/
def stateAfter (num : Num) (sort : (Nat → Nat → Bool) → List Nat → List Nat)
    (oracle : SolverOracle) (mip : MIP) (lb ub : List ℚ) (result : LPResult)
    (solAct : List ℚ) (fractional : List Nat) (l : List Nat) (s : SearchState) : SearchState :=
  (l.takeWhile (orderingSucceeds num sort mip lb ub result solAct fractional)).foldl
    (fun s k => recordOrdering oracle mip
      (orderingSolution num sort mip lb ub result solAct fractional k) s) s

/-! ## Test data -/

/-- A 2x2 all-integer MIP: rows `x0 + x1 >= 1` and `x0 - x1 <= 1` over binaries. -/
def mipA : MIP :=
  { constMatrix := { nrows := 2, ncols := 2, rowStart := [0, 2, 4], indices := [0, 1, 0, 1],
                     coefficients := [1, 1, 1, -1] }
    constMatrixT := { nrows := 2, ncols := 2, rowStart := [0, 2, 4], indices := [0, 1, 0, 1],
                      coefficients := [1, 1, 1, -1] }
    lhs := [1, -10], rhs := [10, 1], lb := [0, 0], ub := [1, 1], objective := [1, 1]
    integer := [true, true], downLocks := [1, 2], upLocks := [1, 0]
    stats := { nbin := 2, nint := 0, ncont := 0 } }

/-- Insertion of `x` before the first element that `x` precedes. -/
def insertBy (comp : Nat → Nat → Bool) (x : Nat) : List Nat → List Nat
  | [] => [x]
  | y :: ys => if comp x y then x :: y :: ys else y :: insertBy comp x ys

/-- A stable insertion sort, one admissible behaviour of `std::sort` for the strict
comparator `comp`. -/
def insertionSort (comp : Nat → Nat → Bool) (l : List Nat) : List Nat :=
  l.foldl (fun sorted x => insertBy comp x sorted) []

/-- An LP solver oracle for MIPs without continuous columns: it is never consulted. -/
def noSolver : SolverOracle :=
  fun _ => { status := LPStatus.OTHER, obj := 0, primalSolution := [], dualSolution := [] }

/-- The all-integer MIP `min -x` subject to `x >= 1`, `0 <= x <= 3/2`, `x` integer. The
row gives `x` one down-lock and no up-lock. -/
def mipB : MIP :=
  { constMatrix := { nrows := 1, ncols := 1, rowStart := [0, 1], indices := [0],
                     coefficients := [1] }
    constMatrixT := { nrows := 1, ncols := 1, rowStart := [0, 1], indices := [0],
                      coefficients := [1] }
    lhs := [1], rhs := [infval], lb := [0], ub := [3/2], objective := [-1]
    integer := [true], downLocks := [1], upLocks := [0]
    stats := { nbin := 0, nint := 1, ncont := 0 } }

/-- The root LP optimum of `mipB`: `x = 3/2` with objective `-3/2`. -/
def lpB : LPResult :=
  { status := LPStatus.OPTIMAL, obj := -3/2, primalSolution := [3/2], dualSolution := [0] }

/-- The all-binary MIP `min 2 x0 - x1 + 3 x2` subject to `x0 + x1 + x2 <= 3/2`,
`x0 + x2 >= 1`, `x2 >= 1/2`. Locks: `x0` down 1 up 1, `x1` down 0 up 1, `x2` down 2 up 1. -/
def mipC : MIP :=
  { constMatrix := { nrows := 3, ncols := 3, rowStart := [0, 3, 5, 6],
                     indices := [0, 1, 2, 0, 2, 2], coefficients := [1, 1, 1, 1, 1, 1] }
    constMatrixT := { nrows := 3, ncols := 3, rowStart := [0, 2, 3, 6],
                      indices := [0, 1, 0, 0, 1, 2], coefficients := [1, 1, 1, 1, 1, 1] }
    lhs := [-infval, 1, 1/2], rhs := [3/2, infval, infval]
    lb := [0, 0, 0], ub := [1, 1, 1], objective := [2, -1, 3]
    integer := [true, true, true], downLocks := [1, 0, 2], upLocks := [1, 1, 1]
    stats := { nbin := 3, nint := 0, ncont := 0 } }

/-- The root LP optimum of `mipC`: the vertex `(1/2, 1/2, 1/2)` with objective `2`. -/
def lpC : LPResult :=
  { status := LPStatus.OPTIMAL, obj := 2, primalSolution := [1/2, 1/2, 1/2],
    dualSolution := [-1, 3, 1] }

/-- An all-integer MIP with every column fixed by its bounds: `x0 = x1 = x2 = 1`, the
objective `x0 + 2 x1 + 4 x2` and the row `x0 + x1 + x2 <= 3`. -/
def mipD : MIP :=
  { constMatrix := { nrows := 1, ncols := 3, rowStart := [0, 3], indices := [0, 1, 2],
                     coefficients := [1, 1, 1] }
    constMatrixT := { nrows := 3, ncols := 1, rowStart := [0, 1, 2, 3], indices := [0, 0, 0],
                      coefficients := [1, 1, 1] }
    lhs := [-infval], rhs := [3], lb := [1, 1, 1], ub := [1, 1, 1], objective := [1, 2, 4]
    integer := [true, true, true], downLocks := [0, 0, 0], upLocks := [1, 1, 1]
    stats := { nbin := 0, nint := 3, ncont := 0 } }

/-- The row activities of `mipD` at its bounds. -/
def activitiesD : List Activity := [{ min := 3, max := 3, ninfmin := 0, ninfmax := 0 }]

/-- The largest finite `double`, `std::numeric_limits<double>::max()`. -/
def dblMax64 : ℚ := 2 ^ 1024 - 2 ^ 971

/-- A root LP optimum of `mipA`: the point `(1/2, 1/2)` with objective `1`. -/
def lpA : LPResult :=
  { status := LPStatus.OPTIMAL, obj := 1, primalSolution := [1/2, 1/2], dualSolution := [1, 0] }

/-- An environment of `run` for `mipA`: the root LP is solved to `lpA`, the trivial
rounding of the root solution finds nothing, and a pool appends what is added. -/
def envA : RunEnv :=
  { num := specNum, dblMax := dblMax64, rootSolve := fun _ => lpA,
    minLockRound := fun _ _ _ _ => none, poolAdd := fun pool e => pool ++ [e] }

/-- A search with one feasibility heuristic, which finds the solution `(1, 0)` of cost 1,
and one improvement heuristic, which adds the solution `(1, 1)` of cost 2. -/
def searchA : Search :=
  { feas_heuristics := [fun _ _ _ _ pool => pool ++ [([1, 0], 1)]]
    impr_heuristics := [fun _ _ _ _ _ _ pool => pool ++ [([1, 1], 2)]]
    feas_solutions_pools := [[], []]
    impr_solutions_pools := [[]] }

/-- The all-integer MIP `min DBL_MAX * x` with the single column fixed by `1 <= x <= 1`
and the row `x <= 1`: its only solution `x = 1` has the objective value
`std::numeric_limits<double>::max()`. -/
def mipMax : MIP :=
  { constMatrix := { nrows := 1, ncols := 1, rowStart := [0, 1], indices := [0],
                     coefficients := [1] }
    constMatrixT := { nrows := 1, ncols := 1, rowStart := [0, 1], indices := [0],
                      coefficients := [1] }
    lhs := [-infval], rhs := [1], lb := [1], ub := [1], objective := [dblMax64]
    integer := [true], downLocks := [0], upLocks := [1]
    stats := { nbin := 0, nint := 1, ncont := 0 } }

/-- The root LP optimum of `mipMax`: `x = 1`. -/
def lpMax : LPResult :=
  { status := LPStatus.OPTIMAL, obj := dblMax64, primalSolution := [1], dualSolution := [0] }

/-- An environment of `run` for `mipMax`: the root LP is solved to `lpMax`, the trivial
rounding of the root solution is left out, and a pool appends what is added. -/
def envMax : RunEnv :=
  { num := specNum, dblMax := dblMax64, rootSolve := fun _ => lpMax,
    minLockRound := fun _ _ _ _ => none, poolAdd := fun pool e => pool ++ [e] }

/-- The heuristic `MinLockRounding` as a feasibility heuristic: its pool receives what
`MinLockRounding::search` adds. -/
def minLockRoundingHeuristic : FeasExecute :=
  fun mip result solAct fractional pool =>
    match MinLockRounding.search specNum insertionSort noSolver mip mip.lb mip.ub result
        solAct fractional with
    | some s => pool ++ s.added
    | none => pool

/-- A search whose only heuristic is `MinLockRounding`. -/
def searchMax : Search :=
  { feas_heuristics := [minLockRoundingHeuristic]
    impr_heuristics := []
    feas_solutions_pools := [[], []]
    impr_solutions_pools := [] }

/-- A 2x3 CSR matrix with unsorted rows: row 0 is `(2, 5), (0, 7)`, row 1 is
`(1, 3), (2, -1), (0, 4)`. -/
def matE : SparseMatrix :=
  { nrows := 2, ncols := 3, rowStart := [0, 2, 5], indices := [2, 0, 1, 2, 0],
    coefficients := [5, 7, 3, -1, 4] }

/-- The all-integer MIP `min x0 + x1` subject to `x0 - x1 >= 2`; the bounds of its columns
are given with each trial. -/
def mipG : MIP :=
  { constMatrix := { nrows := 1, ncols := 2, rowStart := [0, 2], indices := [0, 1],
                     coefficients := [1, -1] }
    constMatrixT := { nrows := 2, ncols := 1, rowStart := [0, 1, 2], indices := [0, 0],
                      coefficients := [1, -1] }
    lhs := [2], rhs := [infval], lb := [-infval, 0], ub := [5, 3], objective := [1, 1]
    integer := [true, true], downLocks := [1, 0], upLocks := [0, 1]
    stats := { nbin := 0, nint := 2, ncont := 0 } }

/-- The bounds are ordered: `lb[c] <= ub[c]` at every position of the two vectors. -/
def TrialBounds.ordered (b : TrialBounds) : Bool :=
  (List.range (max b.lb.length b.ub.length)).all
    (fun c => decide (b.lb.getD c 0 ≤ b.ub.getD c 0))

/-- The tightening that the row `x0 - x1 >= 2` of `mipG` implies when the bounds of column
1 have changed: the lower bound of column 0 is raised to `lb[1] + 2` when that is larger. -/
def tightenG (b : TrialBounds) (col : Nat) : TrialBounds :=
  if col = 1 then { b with lb := b.lb.set 0 (max (b.lb.getD 0 0) (b.lb.getD 1 0 + 2)) } else b

/-- A propagation kernel for the row `x0 - x1 >= 2` of `mipG`: the bounds are tightened by
`tightenG` and the result is true when the bounds it leaves are ordered. -/
def propagateG : Propagate :=
  fun _ b col _ _ => ((tightenG b col).ordered, tightenG b col)

/-- The MIP `min x0 + 3000000 x1` subject to `x0 / 25000 + 100 x1 >= 1/50000`, `x0 <= 5`,
`x0 <= 6`, with `x0` integer and `x1` continuous, both in `[0, 10]`. Locks: `x0` down 1
up 2, `x1` down 1 up 0. The column-major matrix is the transpose of the row-major one. -/
def mipF : MIP :=
  { constMatrix := { nrows := 3, ncols := 2, rowStart := [0, 2, 3, 4],
                     indices := [0, 1, 0, 0], coefficients := [1/25000, 100, 1, 1] }
    constMatrixT := { nrows := 2, ncols := 3, rowStart := [0, 3, 4],
                      indices := [0, 1, 2, 0], coefficients := [1/25000, 1, 1, 100] }
    lhs := [1/50000, -infval, -infval], rhs := [infval, 5, 6]
    lb := [0, 0], ub := [10, 10], objective := [1, 3000000]
    integer := [true, false], downLocks := [1, 1], upLocks := [2, 0]
    stats := { nbin := 0, nint := 1, ncont := 1 } }

/-- The root LP optimum of `mipF`: `x0 = 1/2`, `x1 = 0`, where the first row is tight. -/
def lpF : List ℚ := [1/2, 0]


/-- The value of a run of decimal digits. -/
def digitsValue (cs : List Char) : Nat := cs.foldl (fun n c => 10 * n + (c.toNat - 48)) 0

/-- The exact value of a decimal literal `digits[.digits]`. -/
def unsignedDecimal (cs : List Char) : ℚ :=
  (digitsValue (cs.takeWhile (fun c => c != '.')) : ℚ) +
    (digitsValue ((cs.dropWhile (fun c => c != '.')).drop 1) : ℚ) /
      10 ^ ((cs.dropWhile (fun c => c != '.')).drop 1).length

/-- The exact value of a decimal literal `[-]digits[.digits]`: what `std::stod` returns on
such a token when the value is a `double`, and `std::stof` when it is a `float`. -/
def decimal (s : String) : ℚ :=
  match s.toList with
  | '-' :: cs => -unsignedDecimal cs
  | cs => unsignedDecimal cs

/-- An MPS file with two constraint rows and one column; the entry of the column in row
`r1` is written with the coefficient 0. -/
def fileZ : List String :=
  ["NAME zero", "ROWS", " N obj", " L r1", " G r2", "COLUMNS", " x obj 1 r1 0", " x r2 1",
    "RHS", " rhs r1 4", "BOUNDS", " UP bnd x 4", "ENDATA"]


/-- The state of the reader at the start of a BOUNDS section for the columns `x` and `y`:
an `UP` line with a negative value for `x`, and an `LO` line followed by an `UP` line with
a negative value for `y`. -/
def stateB : ReaderState :=
  { parse.start [" UP bnd x -4", " LO bnd y -2", " UP bnd y -1", "ENDATA"] with
    cols := [("x", 0), ("y", 1)] }


/-- An MPS file whose COLUMNS section names a row `r9` that the ROWS section does not
declare. -/
def fileBad : List String :=
  ["NAME bad", "ROWS", " N obj", " L r1", "COLUMNS", " x obj 1 r9 2", "RHS", "BOUNDS",
    "ENDATA"]


/-- The MIP `mipA` with its two rows swapped: rows `x0 - x1 <= 1` and `x0 + x1 >= 1`. -/
def mipA2 : MIP :=
  { constMatrix := { nrows := 2, ncols := 2, rowStart := [0, 2, 4], indices := [0, 1, 0, 1],
                     coefficients := [1, -1, 1, 1] }
    constMatrixT := { nrows := 2, ncols := 2, rowStart := [0, 2, 4], indices := [0, 1, 0, 1],
                      coefficients := [1, 1, -1, 1] }
    lhs := [-10, 1], rhs := [1, 10], lb := [0, 0], ub := [1, 1], objective := [1, 1]
    integer := [true, true], downLocks := [1, 2], upLocks := [1, 0]
    stats := { nbin := 2, nint := 0, ncont := 0 } }


/-- The MIP `min x` subject to the equality row `x = 1`, `0 <= x <= 3`, `x` integer. The
row gives `x` one down-lock and one up-lock. -/
def mipEq : MIP :=
  { constMatrix := { nrows := 1, ncols := 1, rowStart := [0, 1], indices := [0],
                     coefficients := [1] }
    constMatrixT := { nrows := 1, ncols := 1, rowStart := [0, 1], indices := [0],
                      coefficients := [1] }
    lhs := [1], rhs := [1], lb := [0], ub := [3], objective := [1]
    integer := [true], downLocks := [1], upLocks := [1]
    stats := { nbin := 0, nint := 1, ncont := 0 } }


/-- The MIP with the ranged rows `0 <= x0 - x1 <= 1/2` and `0 <= x0 - x2 <= 1/2`, `x0`
integer, `x1` and `x2` continuous, all in `[0, 10]`. Locks: `x0` down 2 up 2, `x1` and `x2`
down 1 up 1. The column-major matrix is the transpose of the row-major one. -/
def mipR : MIP :=
  { constMatrix := { nrows := 2, ncols := 3, rowStart := [0, 2, 4],
                     indices := [0, 1, 0, 2], coefficients := [1, -1, 1, -1] }
    constMatrixT := { nrows := 3, ncols := 2, rowStart := [0, 2, 3, 4],
                      indices := [0, 1, 0, 1], coefficients := [1, 1, -1, -1] }
    lhs := [0, 0], rhs := [1/2, 1/2]
    lb := [0, 0, 0], ub := [10, 10, 10], objective := [-1, 0, 0]
    integer := [true, false, false], downLocks := [2, 1, 1], upLocks := [2, 1, 1]
    stats := { nbin := 0, nint := 1, ncont := 2 } }

/-- An LP solution of `mipR`: `x0 = 1/2`, `x1 = x2 = 0`, where both rows are tight. -/
def lpR : List ℚ := [1/2, 0, 0]

/-- The MIP with three copies of the ranged row `-10 <= x0 - x1 <= 1/2` and the rows
`x1 <= 1/4` and `x1 <= 3/10`, `x0` integer and `x1` continuous, both in `[0, 10]`. Locks:
`x0` down 3 up 3, `x1` down 3 up 5. The column-major matrix is the transpose of the
row-major one. -/
def mipS : MIP :=
  { constMatrix := { nrows := 5, ncols := 2, rowStart := [0, 2, 4, 6, 7, 8],
                     indices := [0, 1, 0, 1, 0, 1, 1, 1],
                     coefficients := [1, -1, 1, -1, 1, -1, 1, 1] }
    constMatrixT := { nrows := 2, ncols := 5, rowStart := [0, 3, 8],
                      indices := [0, 1, 2, 0, 1, 2, 3, 4],
                      coefficients := [1, 1, 1, -1, -1, -1, 1, 1] }
    lhs := [-10, -10, -10, -infval, -infval], rhs := [1/2, 1/2, 1/2, 1/4, 3/10]
    lb := [0, 0], ub := [10, 10], objective := [-1, 0]
    integer := [true, false], downLocks := [3, 3], upLocks := [3, 5]
    stats := { nbin := 0, nint := 1, ncont := 1 } }

/-- An LP solution of `mipS`: `x0 = 1/2`, `x1 = 0`, where the first three rows are tight. -/
def lpS : List ℚ := [1/2, 0]

/-- The MIP `min x0 + 3000000 x1 + 30000 x2` subject to `x0/25000 + 100 x1 + x2 >= 1/50000`,
`x0 <= 5`, `x0 <= 6`, with `x0` integer and `x1`, `x2` continuous, all in `[0, 10]`. Locks:
`x0` down 1 up 2, `x1` and `x2` down 1 up 0. The column-major matrix is the transpose of
the row-major one. -/
def mipH : MIP :=
  { constMatrix := { nrows := 3, ncols := 3, rowStart := [0, 3, 4, 5],
                     indices := [0, 1, 2, 0, 0], coefficients := [1/25000, 100, 1, 1, 1] }
    constMatrixT := { nrows := 3, ncols := 3, rowStart := [0, 3, 4, 5],
                      indices := [0, 1, 2, 0, 0], coefficients := [1/25000, 1, 1, 100, 1] }
    lhs := [1/50000, -infval, -infval], rhs := [infval, 5, 6]
    lb := [0, 0, 0], ub := [10, 10, 10], objective := [1, 3000000, 30000]
    integer := [true, false, false], downLocks := [1, 1, 1], upLocks := [2, 0, 0]
    stats := { nbin := 0, nint := 1, ncont := 2 } }

/-- The root LP optimum of `mipH`: `x0 = 1/2`, `x1 = x2 = 0`, where the first row is
tight. -/
def lpH : List ℚ := [1/2, 0, 0]


/-- The trivial LP as an MPS file: two binary variables `x`, `y`, objective `min x + y`,
one constraint `c1: x + y >= 1`. -/
def fileT : List String :=
  ["NAME trivial", "ROWS", " N obj", " G c1", "COLUMNS", " x obj 1 c1 1", " y obj 1 c1 1",
    "RHS", " rhs c1 1", "BOUNDS", " BV bnd x", " BV bnd y", "ENDATA"]

/-- A propagation kernel that rejects every call made for column 0 and is `propagateG` for
the other columns. -/
def propagateG0 : Propagate :=
  fun mip b col oldlb oldub => if col = 0 then (false, b) else propagateG mip b col oldlb oldub

/-- The tightening that a row `x0 + x1 <= 10` implies when the bounds of column 1 have
changed: the upper bound of column 0 is lowered to `10 - lb[1]` when that is smaller. -/
def tightenL (b : TrialBounds) (col : Nat) : TrialBounds :=
  if col = 1 then { b with ub := b.ub.set 0 (min (b.ub.getD 0 0) (10 - b.lb.getD 1 0)) } else b

/-- A propagation kernel for the row `x0 + x1 <= 10` that rejects every call made for
column 0: for the other columns the bounds are tightened by `tightenL` and the result is
true when the bounds it leaves are ordered. -/
def propagateL0 : Propagate :=
  fun _ b col _ _ => if col = 0 then (false, b) else ((tightenL b col).ordered, tightenL b col)

/-- The MIP `min -x0 - x1` subject to `x0 + x1 <= 10`, both columns integer, `x0 >= 0`
without upper bound and `1 <= x1 <= 4`. -/
def mipL : MIP :=
  { constMatrix := { nrows := 1, ncols := 2, rowStart := [0, 2], indices := [0, 1],
                     coefficients := [1, 1] }
    constMatrixT := { nrows := 2, ncols := 1, rowStart := [0, 1, 2], indices := [0, 0],
                      coefficients := [1, 1] }
    lhs := [-infval], rhs := [10], lb := [0, 1], ub := [infval, 4], objective := [-1, -1]
    integer := [true, true], downLocks := [0, 0], upLocks := [1, 1]
    stats := { nbin := 0, nint := 2, ncont := 0 } }


/-! ## The conversions `std::stod` and `std::stof` of the C++ library on decimal tokens -/

/-- The integer nearest to `x`, and the even one of the two nearest integers when `x` lies
half-way between them: the rounding of the significand in the rounding mode to nearest,
ties to even, of IEEE 754. -/
def roundHalfEven (x : ℚ) : ℤ :=
  if x - (Rat.floor x : ℤ) < 1/2 then Rat.floor x
  else if 1/2 < x - (Rat.floor x : ℤ) then Rat.floor x + 1
  else if Rat.floor x % 2 = 0 then Rat.floor x
  else Rat.floor x + 1

/-- The rounding of the positive value `m * q` to a significand of `p` bits: `m` is halved
or doubled, and the power of two `q` adjusted, until `2 ^ (p - 1) <= m < 2 ^ p`, and then
rounded to an integer. The recursion is on a budget of steps that covers the exponents of
`float` and `double`. -/
def roundBinary.scale (p : Nat) : Nat → ℚ → ℚ → ℚ
  | 0, m, q => m * q
  | fuel + 1, m, q =>
    if (2 : ℚ) ^ p ≤ m then roundBinary.scale p fuel (m / 2) (q * 2)
    else if m < (2 : ℚ) ^ (p - 1) then roundBinary.scale p fuel (m * 2) (q / 2)
    else (roundHalfEven m : ℚ) * q

/-- The binary floating-point number with a significand of `p` bits that is nearest to
`x`, ties to even: what the conversion of the C library gives for a decimal value inside
the normal range of the format, `float` for `p = 24` and `double` for `p = 53`. -/
def roundBinary (p : Nat) (x : ℚ) : ℚ :=
  if x = 0 then 0
  else if x < 0 then -roundBinary.scale p 2200 (-x) 1
  else roundBinary.scale p 2200 x 1

/-- The result of `std::stod` on a decimal literal `[-]digits[.digits]`: the `double`
nearest to its value. -/
def stodDecimal (token : String) : ℚ := roundBinary 53 (decimal token)

/-- The result of `std::stof` on a decimal literal `[-]digits[.digits]`: the `float`
nearest to its value. The source stores it in a `double`, which holds every `float`
exactly. -/
def stofDecimal (token : String) : ℚ := roundBinary 24 (decimal token)

/-- An MPS file in which the token `16777217` (2^24 + 1, a `double` but not a `float`) is
a coefficient of column `x`, the right-hand side of row `r1` and the upper bound of `x`,
and the token `0.1` is an objective coefficient of column `y`, the right-hand side of row
`r2` and the upper bound of `y`. -/
def filePrec : List String :=
  ["NAME prec", "ROWS", " N obj", " L r1", " G r2", "COLUMNS", " x obj 1 r1 16777217",
    " y obj 0.1 r2 1", "RHS", " rhs r1 16777217 r2 0.1", "BOUNDS", " UP bnd x 16777217",
    " UP bnd y 0.1", "ENDATA"]

/-- The state of the reader on `filePrec` at the start of the RHS section. -/
def statePrecRhs : ReaderState :=
  (parse.loop stodDecimal stofDecimal infval 3 Section.NAME (parse.start filePrec)).2

/-- The state of the reader on `filePrec` at the start of the BOUNDS section. -/
def statePrecBounds : ReaderState :=
  (parse.loop stodDecimal stofDecimal infval 4 Section.NAME (parse.start filePrec)).2

/-- A conversion for the examples: it throws on the token `abc`, on which `std::stof`
can perform no conversion, and gives the other tokens their decimal value. -/
def stofAbc (token : String) : Option ℚ :=
  if token = "abc" then none else some (decimal token)

/-- The state of the reader at the start of a BOUNDS section for the column `x` whose
only data line is an `MI` line of four tokens with the fourth token `abc`. -/
def stateMI : ReaderState :=
  { parse.start [" MI bnd x abc", "ENDATA"] with cols := [("x", 0)] }


/-- Exact integrality, used as `Num::isFeasInt` in the examples. -/
def isInt (x : ℚ) : Bool := decide (x.den = 1)

/-! # Theorems -/

/-! ## Theorems on `checkFeasibility` and `getNViolated` -/

theorem rowActivity_eq_rowSum (view : VectorView) (sol : List ℚ) :
    rowActivity view sol = rowSum view sol := by
  unfold rowActivity rowSum
  rw [List.sum_eq_foldl, List.foldl_map]

theorem boundViolated_eq_false (mip : MIP) (sol : List ℚ) (boundtol : ℚ) (c : Nat) :
    boundViolated mip sol boundtol c = false ↔
      mip.lb.getD c 0 - boundtol ≤ sol.getD c 0 ∧ sol.getD c 0 ≤ mip.ub.getD c 0 + boundtol := by
  simp only [boundViolated, Bool.or_eq_false_iff, decide_eq_false_iff_not, not_lt, gt_iff_lt]
  exact And.comm

theorem rowViolated_eq_false (mip : MIP) (sol : List ℚ) (constol : ℚ) (r : Nat) :
    rowViolated mip sol constol r = false ↔
      mip.lhs.getD r 0 - constol ≤ rowSum (mip.getRow r) sol ∧
        rowSum (mip.getRow r) sol ≤ mip.rhs.getD r 0 + constol := by
  simp only [rowViolated, rowActivity_eq_rowSum, Bool.or_eq_false_iff, decide_eq_false_iff_not,
    not_lt, gt_iff_lt]
  exact And.comm

theorem intViolated_eq_false (LP : Bool) (isFeasInt : ℚ → Bool) (mip : MIP) (sol : List ℚ)
    (c : Nat) :
    intViolated LP isFeasInt mip sol c = false ↔
      (LP = false → c < mip.stats.nbin + mip.stats.nint → isFeasInt (sol.getD c 0) = true) := by
  cases LP <;> simp [intViolated]

theorem colLoop_eq_true (LP : Bool) (isFeasInt : ℚ → Bool) (mip : MIP) (sol : List ℚ)
    (boundtol : ℚ) (l : List Nat) :
    checkFeasibility.colLoop LP isFeasInt mip sol boundtol l = true ↔
      ∀ c ∈ l, boundViolated mip sol boundtol c = false ∧
        intViolated LP isFeasInt mip sol c = false := by
  induction l with
  | nil => simp [checkFeasibility.colLoop]
  | cons c rest ih =>
    simp only [checkFeasibility.colLoop, List.mem_cons, forall_eq_or_imp]
    cases hb : boundViolated mip sol boundtol c <;>
      cases hi : intViolated LP isFeasInt mip sol c <;> simp [ih]

theorem rowLoop_eq_true (mip : MIP) (sol : List ℚ) (constol : ℚ) (l : List Nat) :
    checkFeasibility.rowLoop mip sol constol l = true ↔
      ∀ r ∈ l, rowViolated mip sol constol r = false := by
  induction l with
  | nil => simp [checkFeasibility.rowLoop]
  | cons r rest ih =>
    simp only [checkFeasibility.rowLoop, List.mem_cons, forall_eq_or_imp]
    cases hr : rowViolated mip sol constol r <;> simp [ih]

theorem checkFeasibility_eq_true (LP : Bool) (isFeasInt : ℚ → Bool) (mip : MIP)
    (sol : List ℚ) (boundtol constol : ℚ) :
    checkFeasibility LP isFeasInt mip sol boundtol constol = true ↔
      (∀ c, c < mip.getNCols → boundViolated mip sol boundtol c = false ∧
        intViolated LP isFeasInt mip sol c = false) ∧
      (∀ r, r < mip.getNRows → rowViolated mip sol constol r = false) := by
  unfold checkFeasibility
  cases h : checkFeasibility.colLoop LP isFeasInt mip sol boundtol (List.range mip.getNCols)
  · have h2 := h
    rw [← Bool.not_eq_true, colLoop_eq_true] at h2
    simp only [List.mem_range] at h2
    simp only [Bool.false_eq_true, if_false, false_iff, not_and]
    intro hc
    exact absurd hc h2
  · rw [colLoop_eq_true] at h
    simp only [List.mem_range] at h
    simp only [if_true, rowLoop_eq_true, List.mem_range]
    exact ⟨fun hr => ⟨h, hr⟩, fun hr => hr.2⟩

theorem getNViolated_colLoop_eq_zero (LP : Bool) (isFeasInt : ℚ → Bool) (mip : MIP)
    (sol : List ℚ) (boundtol : ℚ) (l : List Nat) (n : Nat) :
    getNViolated.colLoop LP isFeasInt mip sol boundtol l n = 0 ↔
      n = 0 ∧ checkFeasibility.colLoop LP isFeasInt mip sol boundtol l = true := by
  induction l generalizing n with
  | nil => simp [getNViolated.colLoop, checkFeasibility.colLoop]
  | cons c rest ih =>
    simp only [getNViolated.colLoop, checkFeasibility.colLoop, ih]
    cases hb : boundViolated mip sol boundtol c <;>
      cases hi : intViolated LP isFeasInt mip sol c <;> simp

theorem getNViolated_rowLoop_eq_zero (mip : MIP) (sol : List ℚ) (constol : ℚ) (l : List Nat)
    (n : Nat) :
    getNViolated.rowLoop mip sol constol l n = 0 ↔
      n = 0 ∧ checkFeasibility.rowLoop mip sol constol l = true := by
  induction l generalizing n with
  | nil => simp [getNViolated.rowLoop, checkFeasibility.rowLoop]
  | cons r rest ih =>
    simp only [getNViolated.rowLoop, checkFeasibility.rowLoop, ih]
    cases hr : rowViolated mip sol constol r <;> simp

/-- C1: `checkFeasibility<REAL, LP>(mip, sol, boundtol, constol)` returns true if and
only if (i) every column value lies in `[lb[c] - boundtol, ub[c] + boundtol]`, (ii) when
`LP` is false every column `c < nbin + nint` passes `Num::isFeasInt`, and (iii) every row
activity (the sum of `A[r,k] * sol[k]` over the row) lies in
`[lhs[r] - constol, rhs[r] + constol]`; with `LP` true condition (ii) is absent. The
integer columns are the first `nbin + nint` of the `ncols` columns. -/
theorem checkFeasibility_iff (LP : Bool) (isFeasInt : ℚ → Bool) (mip : MIP) (sol : List ℚ)
    (boundtol constol : ℚ) (hsol : sol.length = mip.getNCols)
    (hst : mip.stats.nbin + mip.stats.nint + mip.stats.ncont = mip.getNCols) :
    checkFeasibility LP isFeasInt mip sol boundtol constol = true ↔
      (∀ c, c < mip.getNCols →
        mip.lb.getD c 0 - boundtol ≤ sol.getD c 0 ∧ sol.getD c 0 ≤ mip.ub.getD c 0 + boundtol) ∧
      (LP = false → ∀ c, c < mip.stats.nbin + mip.stats.nint → isFeasInt (sol.getD c 0) = true) ∧
      (∀ r, r < mip.getNRows →
        mip.lhs.getD r 0 - constol ≤ rowSum (mip.getRow r) sol ∧
          rowSum (mip.getRow r) sol ≤ mip.rhs.getD r 0 + constol) := by
  have _ := hsol
  rw [checkFeasibility_eq_true]
  simp only [boundViolated_eq_false, intViolated_eq_false, rowViolated_eq_false]
  constructor
  · rintro ⟨hc, hr⟩
    exact ⟨fun c h => (hc c h).1, fun hlp c h => (hc c (by omega)).2 hlp h, hr⟩
  · rintro ⟨hb, hi, hr⟩
    exact ⟨fun c h => ⟨hb c h, fun hlp h2 => hi hlp c h2⟩, hr⟩

/-- C1 witness: the 2x2 MIP `mipA` accepts the integral point `(1, 0)`. -/
theorem checkFeasibility_iff_witness :
    [(1 : ℚ), 0].length = mipA.getNCols ∧
    mipA.stats.nbin + mipA.stats.nint + mipA.stats.ncont = mipA.getNCols ∧
    (checkFeasibility false isInt mipA [1, 0] (1/1000000000) (1/1000000) = true ↔
      (∀ c, c < mipA.getNCols →
        mipA.lb.getD c 0 - 1/1000000000 ≤ [(1 : ℚ), 0].getD c 0 ∧
          [(1 : ℚ), 0].getD c 0 ≤ mipA.ub.getD c 0 + 1/1000000000) ∧
      (false = false → ∀ c, c < mipA.stats.nbin + mipA.stats.nint →
        isInt ([(1 : ℚ), 0].getD c 0) = true) ∧
      (∀ r, r < mipA.getNRows →
        mipA.lhs.getD r 0 - 1/1000000 ≤ rowSum (mipA.getRow r) [1, 0] ∧
          rowSum (mipA.getRow r) [1, 0] ≤ mipA.rhs.getD r 0 + 1/1000000)) :=
  ⟨by decide, by decide,
    checkFeasibility_iff false isInt mipA [1, 0] (1/1000000000) (1/1000000) (by decide)
      (by decide)⟩

/-- C2: `getNViolated(mip, sol, boundtol, constol) == 0` if and only if
`checkFeasibility(mip, sol, boundtol, constol)` returns true, in the same mode `LP`. -/
theorem getNViolated_eq_zero_iff (LP : Bool) (isFeasInt : ℚ → Bool) (mip : MIP)
    (sol : List ℚ) (boundtol constol : ℚ) :
    getNViolated LP isFeasInt mip sol boundtol constol = 0 ↔
      checkFeasibility LP isFeasInt mip sol boundtol constol = true := by
  unfold getNViolated checkFeasibility
  rw [getNViolated_rowLoop_eq_zero, getNViolated_colLoop_eq_zero]
  cases checkFeasibility.colLoop LP isFeasInt mip sol boundtol (List.range mip.getNCols) <;>
    simp

/-! ## Termination of the repair loop -/

theorem getD_le_foldl_max (l : List Nat) (k a : Nat) : l.getD k 0 ≤ l.foldl max a := by
  induction l generalizing k a with
  | nil => simp
  | cons x xs ih =>
    have hmono : ∀ (ys : List Nat) (b c : Nat), b ≤ c → b ≤ ys.foldl max c := by
      intro ys
      induction ys with
      | nil => intro b c h; simpa using h
      | cons y ys ihy => intro b c h; exact ihy b (max c y) (le_trans h (le_max_left c y))
    cases k with
    | zero =>
      simp only [List.getD_cons_zero, List.foldl_cons]
      exact hmono xs x (max a x) (le_max_right a x)
    | succ k =>
      simp only [List.getD_cons_succ, List.foldl_cons]
      exact ih k (max a x)

theorem getRow_size_le (m : SparseMatrix) (i : Nat) : (m.getRow i).size ≤ m.sizeBound := by
  unfold SparseMatrix.getRow SparseMatrix.sizeBound
  exact le_trans (Nat.sub_le _ _) (getD_le_foldl_max m.rowStart (i + 1) 0)

theorem updateSolActivity_step_length (num : Num) (lhs rhs : List ℚ) (view : VectorView)
    (delta : ℚ) (u : ActivityUpdate) (id : Nat) :
    (updateSolActivity.step num lhs rhs view delta u id).violatedRows.length ≤
      u.violatedRows.length + 1 := by
  unfold updateSolActivity.step
  simp only
  split_ifs <;> simp

theorem updateSolActivity_length (num : Num) (activity : List ℚ) (view : VectorView)
    (lhs rhs : List ℚ) (delta : ℚ) (violatedRows : List Nat) (isviolated : List Bool) :
    (updateSolActivity num activity view lhs rhs delta violatedRows isviolated).violatedRows.length
      ≤ violatedRows.length + view.size := by
  unfold updateSolActivity
  have key : ∀ (ids : List Nat) (u : ActivityUpdate),
      (ids.foldl (updateSolActivity.step num lhs rhs view delta) u).violatedRows.length ≤
        u.violatedRows.length + ids.length := by
    intro ids
    induction ids with
    | nil => intro u; simp
    | cons id ids ih =>
      intro u
      simp only [List.foldl_cons, List.length_cons]
      have h1 := ih (updateSolActivity.step num lhs rhs view delta u id)
      have h2 := updateSolActivity_step_length num lhs rhs view delta u id
      omega
  have h := key (List.range view.size)
    { nviolated := 0, activity := activity, violatedRows := violatedRows,
      isviolated := isviolated }
  simpa using h

theorem update_length (num : Num) (mip : MIP) (st : RoundState) (col : Nat) (delta : ℚ) :
    (RoundState.update num mip st col delta).violatedRows.length ≤
      st.violatedRows.length + mip.constMatrixT.sizeBound := by
  unfold RoundState.update
  simp only
  have h := updateSolActivity_length num st.solActivity (mip.getCol col) mip.lhs mip.rhs delta
    st.violatedRows st.isviolated
  have h2 : (mip.getCol col).size ≤ mip.constMatrixT.sizeBound := getRow_size_le _ _
  omega

theorem moveColumn_length (num : Num) (mip : MIP) (ncol : Nat) (newval : ℚ)
    (st : RoundState) :
    (moveColumn num mip ncol newval st).violatedRows.length ≤
      st.violatedRows.length + mip.constMatrixT.sizeBound := by
  unfold moveColumn
  split
  · exact update_length num mip _ _ _
  · simp

theorem repairColumn_length (num : Num) (mip : MIP) (lb ub : List ℚ) (row k : Nat)
    (st : RoundState) :
    (repairColumn num mip lb ub row k st).1.violatedRows.length ≤
      st.violatedRows.length + mip.constMatrixT.sizeBound := by
  unfold repairColumn
  split_ifs
  · simp
  · exact moveColumn_length num mip _ _ _

theorem repairRow_length (num : Num) (mip : MIP) (lb ub : List ℚ) (row : Nat)
    (ks : List Nat) (st : RoundState) :
    (repairRow num mip lb ub row ks st).1.violatedRows.length ≤
      st.violatedRows.length + ks.length * mip.constMatrixT.sizeBound := by
  induction ks generalizing st with
  | nil => simp [repairRow]
  | cons k ks ih =>
    have h1 := repairColumn_length num mip lb ub row k st
    have hmul : (ks.length + 1) * mip.constMatrixT.sizeBound =
        ks.length * mip.constMatrixT.sizeBound + mip.constMatrixT.sizeBound := by ring
    simp only [repairRow, List.length_cons]
    split_ifs
    · omega
    · have h2 := ih (repairColumn num mip lb ub row k st).1
      omega

theorem repairAt_length (num : Num) (mip : MIP) (lb ub : List ℚ) (st : RoundState) (j : Nat) :
    (repairAt num mip lb ub st j).1.violatedRows.length ≤ repairFuel mip - 1 := by
  have h1 := repairRow_length num mip lb ub (st.violatedRows.getD j 0)
    (List.range (mip.getRow (st.violatedRows.getD j 0)).size) { st with violatedRows := [] }
  have h2 : (mip.getRow (st.violatedRows.getD j 0)).size ≤ mip.constMatrix.sizeBound :=
    getRow_size_le _ _
  have h3 := Nat.mul_le_mul_right mip.constMatrixT.sizeBound h2
  simp only [List.length_range, List.length_nil, zero_add] at h1
  unfold repairAt repairFuel
  omega

theorem repairRows_isSome (num : Num) (mip : MIP) (lb ub : List ℚ) (fuel : Nat) :
    ∀ (j : Nat) (st : RoundState),
      st.violatedRows.length ≤ repairFuel mip - 1 → repairFuel mip - 1 ≤ j + fuel →
        (repairRows num mip lb ub (fuel + 1) j st).isSome = true := by
  induction fuel with
  | zero =>
    intro j st hlen hj
    have : ¬ (j < st.violatedRows.length ∧ st.ncontchanges ≤ 2 * mip.stats.ncont) := by
      intro h; omega
    simp [repairRows, this]
  | succ fuel ih =>
    intro j st hlen hj
    rw [repairRows]
    split_ifs
    · exact ih (j + 1) st hlen (by omega)
    · simp
    · exact ih (j + 1) _ (repairAt_length num mip lb ub st j) (by omega)
    · simp

theorem roundStart_length (num : Num) (mip : MIP) (solution solActivity : List ℚ) (col : Nat) :
    (roundStart num mip solution solActivity col).violatedRows.length ≤ repairFuel mip - 1 := by
  unfold roundStart
  refine le_trans (update_length num mip _ col _) ?_
  simp only [List.length_nil, zero_add]
  unfold repairFuel
  omega

theorem repairRows_fuel_isSome (num : Num) (mip : MIP) (lb ub : List ℚ) (st : RoundState)
    (hlen : st.violatedRows.length ≤ repairFuel mip - 1) :
    (repairRows num mip lb ub (repairFuel mip) 0 st).isSome = true := by
  have hf : repairFuel mip = (repairFuel mip - 1) + 1 := by unfold repairFuel; omega
  rw [hf]
  exact repairRows_isSome num mip lb ub (repairFuel mip - 1) 0 st (by omega) (by omega)

theorem roundColumns_isSome (num : Num) (mip : MIP) (lb ub : List ℚ) (cols : List Nat) :
    ∀ (solution solActivity : List ℚ),
      (roundColumns num mip lb ub cols solution solActivity).isSome = true := by
  induction cols with
  | nil => intro solution solActivity; simp [roundColumns]
  | cons col rest ih =>
    intro solution solActivity
    rw [roundColumns]
    split_ifs
    · exact ih _ _
    · exact ih _ _
    · have hsome := repairRows_fuel_isSome num mip lb ub _
        (roundStart_length num mip solution solActivity col)
      cases hr : repairRows num mip lb ub (repairFuel mip) 0
          (roundStart num mip solution solActivity col) with
      | none => rw [hr] at hsome; simp at hsome
      | some st2 =>
        simp only
        split_ifs
        · simp
        · exact ih _ _

/-! ## Theorems on `MinLockRounding::search` -/

theorem tryOrdering_isSome (num : Num) (sort : (Nat → Nat → Bool) → List Nat → List Nat)
    (mip : MIP) (lb ub : List ℚ) (result : LPResult) (solAct : List ℚ) (fractional : List Nat)
    (k : Nat) :
    ∃ out, tryOrdering num sort mip lb ub result solAct fractional k = some out := by
  have h := roundColumns_isSome num mip lb ub (orderedColumns sort mip k fractional)
    result.primalSolution solAct
  exact Option.isSome_iff_exists.mp h

theorem objectiveCost_eq_objectiveValue (objective solution : List ℚ) (ncols : Nat) :
    objectiveCost objective solution ncols = objectiveValue objective solution ncols := by
  unfold objectiveCost objectiveValue
  rw [List.sum_eq_foldl, List.foldl_map]

theorem recordOrdering_costInvariant (oracle : SolverOracle) (mip : MIP) (solution : List ℚ)
    (s : SearchState) (hcont : mip.stats.ncont = 0) (h : CostInvariant mip s) :
    CostInvariant mip (recordOrdering oracle mip solution s) := by
  unfold recordOrdering
  split_ifs
  · refine ⟨h.1, ?_⟩
    intro e he
    simp only [List.mem_append, List.mem_singleton] at he
    rcases he with he | he
    · exact h.2 e he
    · subst he
      exact objectiveCost_eq_objectiveValue _ _ _
  · exact h

theorem doWhile_costInvariant (num : Num) (sort : (Nat → Nat → Bool) → List Nat → List Nat)
    (oracle : SolverOracle) (mip : MIP) (lb ub : List ℚ) (result : LPResult)
    (solAct : List ℚ) (fractional : List Nat) (hcont : mip.stats.ncont = 0)
    (l : List Nat) :
    ∀ s, CostInvariant mip s →
      ∃ s2, search.doWhile num sort oracle mip lb ub result solAct fractional l s = some s2 ∧
        CostInvariant mip s2 := by
  induction l with
  | nil => intro s h; exact ⟨s, rfl, h⟩
  | cons k rest ih =>
    intro s h
    obtain ⟨out, hout⟩ := tryOrdering_isSome num sort mip lb ub result solAct fractional k
    have hbody : search.body num sort oracle mip lb ub result solAct fractional k s =
        some (recordOrdering oracle mip out.solution
          { s with feasible := if out.failed then false else s.feasible }) := by
      simp only [search.body, hout]
    have hinv : CostInvariant mip (recordOrdering oracle mip out.solution
        { s with feasible := if out.failed then false else s.feasible }) :=
      recordOrdering_costInvariant oracle mip out.solution _ hcont h
    generalize recordOrdering oracle mip out.solution
      { s with feasible := if out.failed then false else s.feasible } = s1 at hbody hinv
    rw [search.doWhile, hbody]
    by_cases hfe : s1.feasible = true
    · simp only [hfe, if_true]
      exact ih s1 hinv
    · exact ⟨s1, by simp [hfe], hinv⟩

theorem recordOrdering_feasible (oracle : SolverOracle) (mip : MIP) (solution : List ℚ)
    (s : SearchState) : (recordOrdering oracle mip solution s).feasible = s.feasible := by
  unfold recordOrdering
  split_ifs <;> rfl

theorem recordOrdering_of_not_feasible (oracle : SolverOracle) (mip : MIP) (solution : List ℚ)
    (s : SearchState) (h : s.feasible = false) : recordOrdering oracle mip solution s = s := by
  unfold recordOrdering
  simp [h]

theorem doWhile_eq_stateAfter (num : Num) (sort : (Nat → Nat → Bool) → List Nat → List Nat)
    (oracle : SolverOracle) (mip : MIP) (lb ub : List ℚ) (result : LPResult)
    (solAct : List ℚ) (fractional : List Nat) (l : List Nat) :
    ∀ s, s.feasible = true →
      ∃ s2, search.doWhile num sort oracle mip lb ub result solAct fractional l s = some s2 ∧
        s2.added =
          (stateAfter num sort oracle mip lb ub result solAct fractional l s).added ∧
        s2.solverCalls =
          (stateAfter num sort oracle mip lb ub result solAct fractional l s).solverCalls ∧
        (s2.feasible = true ↔
          ∀ k ∈ l, orderingSucceeds num sort mip lb ub result solAct fractional k = true) := by
  induction l with
  | nil =>
    intro s hs
    exact ⟨s, rfl, rfl, rfl, by simp [hs]⟩
  | cons k rest ih =>
    intro s hs
    obtain ⟨out, hout⟩ := tryOrdering_isSome num sort mip lb ub result solAct fractional k
    have hsucc : orderingSucceeds num sort mip lb ub result solAct fractional k = !out.failed := by
      simp [orderingSucceeds, hout]
    have hsol : orderingSolution num sort mip lb ub result solAct fractional k = out.solution := by
      simp [orderingSolution, hout]
    cases hf : out.failed with
    | true =>
      have hrec : recordOrdering oracle mip out.solution { s with feasible := false } =
          { s with feasible := false } := recordOrdering_of_not_feasible _ _ _ _ rfl
      refine ⟨{ s with feasible := false }, ?_, ?_, ?_, ?_⟩
      · simp [search.doWhile, search.body, hout, hf, hrec]
      · simp [stateAfter, List.takeWhile, hsucc, hf]
      · simp [stateAfter, List.takeWhile, hsucc, hf]
      · simp [hsucc, hf]
    | false =>
      have hs2 : (recordOrdering oracle mip out.solution s).feasible = true := by
        rw [recordOrdering_feasible]; exact hs
      obtain ⟨s2, h1, h2, h3, h4⟩ := ih (recordOrdering oracle mip out.solution s) hs2
      refine ⟨s2, ?_, ?_, ?_, ?_⟩
      · simp only [search.doWhile, search.body, hout, hf, Bool.false_eq_true, if_false]
        have : ({ s with feasible := s.feasible } : SearchState) = s := rfl
        rw [this, hs2]
        simpa using h1
      · rw [h2]; simp [stateAfter, List.takeWhile, hsucc, hf, hsol]
      · rw [h3]; simp [stateAfter, List.takeWhile, hsucc, hf, hsol]
      · rw [h4]; simp [hsucc, hf]

/-- C3 (code bug): on the all-integer MIP `mipB` (`min -x`, `x >= 1`, `0 <= x <= 3/2`)
the root LP optimum `x = 3/2` passes the LP-mode feasibility check, `search` rounds it up
to `x = 2` in each of the four orderings and adds `([2], -2)` to the pool, and that
solution fails `checkFeasibility(mip, s, 1e-9, 1e-6)` on its upper bound. -/
theorem search_adds_solution_outside_bounds :
    mipB.stats.ncont = 0 ∧
    checkFeasibility true specNum.isFeasInt mipB lpB.primalSolution
      (1/1000000000) (1/1000000) = true ∧
    MinLockRounding.search specNum insertionSort noSolver mipB mipB.lb mipB.ub lpB
        (computeSolActivities mipB lpB.primalSolution)
        (getFractional specNum lpB.primalSolution (mipB.stats.nbin + mipB.stats.nint)) =
      some { feasible := true, added := [([2], -2), ([2], -2), ([2], -2), ([2], -2)],
             solverCalls := [] } ∧
    checkFeasibility false specNum.isFeasInt mipB [2] (1/1000000000) (1/1000000) = false := by
  decide!

/-- C4: on a MIP without continuous columns (`ncont = 0`) `search` returns, every entry
`(sol, cost)` it adds to the pool has `cost` equal to the sum over all columns `j` of
`obj[j] * sol[j]`, and it makes no call on the LP solver (no clone, no change of bounds,
no solve). -/
theorem search_allInteger_cost (num : Num) (sort : (Nat → Nat → Bool) → List Nat → List Nat)
    (oracle : SolverOracle) (mip : MIP) (lb ub : List ℚ) (result : LPResult)
    (solAct : List ℚ) (fractional : List Nat) (hcont : mip.stats.ncont = 0) :
    ∃ s, MinLockRounding.search num sort oracle mip lb ub result solAct fractional = some s ∧
      s.solverCalls = [] ∧
      ∀ e ∈ s.added, e.2 = objectiveValue mip.objective e.1 mip.getNCols := by
  obtain ⟨s, hs, hinv⟩ := doWhile_costInvariant num sort oracle mip lb ub result solAct
    fractional hcont [0, 1, 2, 3] { feasible := true, added := [], solverCalls := [] }
    ⟨rfl, by simp⟩
  exact ⟨s, hs, hinv.1, hinv.2⟩

/-- C4 witness: the all-integer MIP `mipB` with its root LP optimum. -/
theorem search_allInteger_cost_witness :
    mipB.stats.ncont = 0 ∧
    ∃ s, MinLockRounding.search specNum insertionSort noSolver mipB mipB.lb mipB.ub lpB
        [3/2] [0] = some s ∧
      s.solverCalls = [] ∧
      ∀ e ∈ s.added, e.2 = objectiveValue mipB.objective e.1 mipB.getNCols :=
  ⟨by decide, search_allInteger_cost specNum insertionSort noSolver mipB mipB.lb mipB.ub lpB
    [3/2] [0] (by decide)⟩

/-- C5 (counterexample): on the MIP `mipC` with its root LP vertex `(1/2, 1/2, 1/2)`,
ordering 3 run on its own succeeds with the feasible solution `(0, 0, 1)`, yet `search`
stops after the failure of ordering 0 and adds nothing to the pool. -/
theorem search_skips_successful_ordering :
    checkFeasibility true specNum.isFeasInt mipC lpC.primalSolution
      (1/1000000000) (1/1000000) = true ∧
    checkFeasibility false specNum.isFeasInt mipC [0, 0, 1] (1/1000000000) (1/1000000) = true ∧
    orderingSucceeds specNum insertionSort mipC mipC.lb mipC.ub lpC
      (computeSolActivities mipC lpC.primalSolution)
      (getFractional specNum lpC.primalSolution 3) 0 = false ∧
    orderingSucceeds specNum insertionSort mipC mipC.lb mipC.ub lpC
      (computeSolActivities mipC lpC.primalSolution)
      (getFractional specNum lpC.primalSolution 3) 3 = true ∧
    orderingSolution specNum insertionSort mipC mipC.lb mipC.ub lpC
      (computeSolActivities mipC lpC.primalSolution)
      (getFractional specNum lpC.primalSolution 3) 3 = [0, 0, 1] ∧
    MinLockRounding.search specNum insertionSort noSolver mipC mipC.lb mipC.ub lpC
        (computeSolActivities mipC lpC.primalSolution)
        (getFractional specNum lpC.primalSolution 3) =
      some { feasible := false, added := [], solverCalls := [] } := by
  decide!

/-- C5 (amended): `search` returns, having run the orderings `0, 1, 2, 3` in sequence,
each from the LP solution and its activities, only until the first ordering that fails:
the success path (the pool entry, or the local LP when there are continuous columns) is
run for exactly the orderings that precede the first failure, in order, and the flag
`feasible` is still set at the end exactly when all four orderings succeeded. -/
theorem search_records_until_first_failure (num : Num)
    (sort : (Nat → Nat → Bool) → List Nat → List Nat) (oracle : SolverOracle) (mip : MIP)
    (lb ub : List ℚ) (result : LPResult) (solAct : List ℚ) (fractional : List Nat) :
    ∃ s, MinLockRounding.search num sort oracle mip lb ub result solAct fractional = some s ∧
      s.added =
        ((leadingOrderings num sort mip lb ub result solAct fractional).foldl
          (fun s k => recordOrdering oracle mip
            (orderingSolution num sort mip lb ub result solAct fractional k) s)
          { feasible := true, added := [], solverCalls := [] }).added ∧
      s.solverCalls =
        ((leadingOrderings num sort mip lb ub result solAct fractional).foldl
          (fun s k => recordOrdering oracle mip
            (orderingSolution num sort mip lb ub result solAct fractional k) s)
          { feasible := true, added := [], solverCalls := [] }).solverCalls ∧
      (s.feasible = true ↔
        ∀ k, k < 4 → orderingSucceeds num sort mip lb ub result solAct fractional k = true) := by
  obtain ⟨s, h1, h2, h3, h4⟩ := doWhile_eq_stateAfter num sort oracle mip lb ub result solAct
    fractional [0, 1, 2, 3] { feasible := true, added := [], solverCalls := [] } rfl
  refine ⟨s, h1, h2, h3, ?_⟩
  rw [h4]
  constructor
  · intro h k hk
    apply h
    simp only [List.mem_cons, List.mem_singleton]
    omega
  · intro h k hk
    apply h
    simp only [List.mem_cons, List.mem_singleton, List.mem_nil_iff, or_false] at hk
    omega

/-! ## Theorems on `BoundSolution::search` -/

theorem tryLB_firstPass_of_fixed (num : Num) (propagate : Propagate) (mip : MIP)
    (cols : List Nat) (b : TrialBounds) (deferred : List Nat)
    (h : ∀ c ∈ cols, b.isFree mip c = false) :
    tryLBSolution.firstPass num propagate mip cols b deferred = (true, b, deferred) := by
  induction cols with
  | nil => rfl
  | cons c rest ih =>
    rw [tryLBSolution.firstPass, h c (List.mem_cons_self c rest)]
    simpa using ih (fun c2 hc => h c2 (List.mem_cons_of_mem c hc))

theorem tryUB_firstPass_of_fixed (num : Num) (propagate : Propagate) (mip : MIP)
    (cols : List Nat) (b : TrialBounds) (deferred : List Nat)
    (h : ∀ c ∈ cols, b.isFree mip c = false) :
    tryUBSolution.firstPass num propagate mip cols b deferred = (true, b, deferred) := by
  induction cols with
  | nil => rfl
  | cons c rest ih =>
    rw [tryUBSolution.firstPass, h c (List.mem_cons_self c rest)]
    simpa using ih (fun c2 hc => h c2 (List.mem_cons_of_mem c hc))

theorem tryOptimistic_firstPass_of_fixed (num : Num) (propagate : Propagate) (mip : MIP)
    (cols : List Nat) (b : TrialBounds) (deferred : List Nat)
    (h : ∀ c ∈ cols, b.isFree mip c = false) :
    tryOptimisticSolution.firstPass num propagate mip cols b deferred = (true, b, deferred) := by
  induction cols with
  | nil => rfl
  | cons c rest ih =>
    rw [tryOptimisticSolution.firstPass, h c (List.mem_cons_self c rest)]
    simpa using ih (fun c2 hc => h c2 (List.mem_cons_of_mem c hc))

/-- When every integer column is already fixed by its bounds, each of the three trials
succeeds at once, without a call of the propagation kernel, and leaves the bounds as they
are. -/
theorem trial_of_fixed (num : Num) (propagate : Propagate) (mip : MIP) (lb ub : List ℚ)
    (activities : List Activity)
    (h : ∀ c, c < mip.getNCols →
      TrialBounds.isFree mip { lb := lb, ub := ub, activities := activities } c = false)
    (i : Nat) (hi : i < 3) :
    BoundSolution.trial num propagate mip lb ub activities i =
      (true, { lb := lb, ub := ub, activities := activities }) := by
  have hm : ∀ c ∈ List.range mip.getNCols,
      TrialBounds.isFree mip { lb := lb, ub := ub, activities := activities } c = false :=
    fun c hc => h c (List.mem_range.mp hc)
  match i, hi with
  | 0, _ =>
    simp [BoundSolution.trial, tryLBSolution, tryLB_firstPass_of_fixed num propagate mip _ _ _ hm,
      tryLBSolution.secondPass]
  | 1, _ =>
    simp [BoundSolution.trial, tryUBSolution, tryUB_firstPass_of_fixed num propagate mip _ _ _ hm,
      tryUBSolution.secondPass]
  | 2, _ =>
    simp [BoundSolution.trial, tryOptimisticSolution,
      tryOptimistic_firstPass_of_fixed num propagate mip _ _ _ hm,
      tryOptimisticSolution.secondPass]

/-- C6 (code bug): on the all-integer MIP `mipD`, whose columns are all fixed at 1 and
whose objective is `x0 + 2 x1 + 4 x2`, the three trials succeed with the solution
`(1, 1, 1)` of objective value 7, and `search` stores it with the costs 3, 6 and 12: the
cost of trial `i` is `objective[i]` times the sum of the solution, whatever the propagation
kernel, the numerics and the LP solver are. -/
theorem boundSolution_cost_uses_trial_index (num : Num) (propagate : Propagate)
    (oracle : SolverOracle) :
    mipD.stats.ncont = 0 ∧
    BoundSolution.search num propagate oracle mipD mipD.lb mipD.ub activitiesD =
      { added := [([1, 1, 1], 3), ([1, 1, 1], 6), ([1, 1, 1], 12)], solverCalls := [] } ∧
    objectiveValue mipD.objective [1, 1, 1] mipD.getNCols = 7 := by
  have ht := trial_of_fixed num propagate mipD mipD.lb mipD.ub activitiesD (by decide!)
  have h0 : BoundSolution.trialCost mipD.objective mipD.lb mipD.getNCols 0 = 3 := by decide!
  have h1 : BoundSolution.trialCost mipD.objective mipD.lb mipD.getNCols 1 = 6 := by decide!
  have h2 : BoundSolution.trialCost mipD.objective mipD.lb mipD.getNCols 2 = 12 := by decide!
  have hc : mipD.stats.ncont = 0 := rfl
  refine ⟨rfl, ?_, by decide!⟩
  simp only [BoundSolution.search, List.foldl, BoundSolution.harvest, ht 0 (by omega),
    ht 1 (by omega), ht 2 (by omega), hc, h0, h1, h2]
  rfl

/-! ## Theorems on the solution summaries and `Search::run` -/

theorem entryAt_some (pools : List Pool) (i j : Nat) (e : List ℚ × ℚ)
    (h : entryAt pools i j = some e) :
    (pools.getD i []).getD j ([], 0) = e ∧ j < (pools.getD i []).length := by
  unfold entryAt at h
  rw [List.get?_eq_some] at h
  obtain ⟨hj, he⟩ := h
  refine ⟨?_, hj⟩
  rw [List.getD_eq_getElem _ _ hj]
  simpa using he

theorem entryAt_of_lt (pools : List Pool) (i j : Nat) (h : j < (pools.getD i []).length) :
    entryAt pools i j = some ((pools.getD i []).getD j ([], 0)) := by
  unfold entryAt
  rw [List.get?_eq_get h, List.getD_eq_getElem _ _ h]
  rfl

theorem SummaryInv.congr (dblMax : ℚ) (pools : List Pool) (v w : Nat → Nat → Prop)
    (acc : SolSummary) (h : SummaryInv dblMax pools v acc)
    (hvw : ∀ a b, v a b → w a b)
    (hwv : ∀ a b e, w a b → entryAt pools a b = some e → v a b) :
    SummaryInv dblMax pools w acc := by
  rcases h with ⟨h1, h2, h3, h4⟩ | ⟨h, s, e, h1, h2, h3, h4, h5, h6, h7⟩
  · exact Or.inl ⟨h1, h2, h3, fun i j e hw he => h4 i j e (hwv i j e hw he) he⟩
  · exact Or.inr ⟨h, s, e, h1, h2, hvw h s h3, h4, h5, h6,
      fun i j e2 hw he => h7 i j e2 (hwv i j e2 hw he) he⟩

theorem getSolSummary_inner_inv (dblMax : ℚ) (pools : List Pool) (i j : Nat)
    (acc : SolSummary) (hj : j < (pools.getD i []).length)
    (hinv : SummaryInv dblMax pools (fun a b => a < i ∨ (a = i ∧ b < j)) acc) :
    SummaryInv dblMax pools (fun a b => a < i ∨ (a = i ∧ b < j + 1))
      (getSolSummary.inner pools i acc j) := by
  have hent := entryAt_of_lt pools i j hj
  generalize hc : (pools.getD i []).getD j ([], 0) = cur at hent
  unfold getSolSummary.inner
  rw [hc]
  have hsplit : ∀ a b, (a < i ∨ (a = i ∧ b < j + 1)) →
      (a < i ∨ (a = i ∧ b < j)) ∨ (a = i ∧ b = j) := by
    intro a b hab
    rcases hab with hab | ⟨ha, hb⟩
    · exact Or.inl (Or.inl hab)
    · by_cases hbj : b < j
      · exact Or.inl (Or.inr ⟨ha, hbj⟩)
      · exact Or.inr ⟨ha, by omega⟩
  by_cases hlt : cur.2 < acc.min_cost
  · simp only [hlt, if_true]
    refine Or.inr ⟨i, j, cur, rfl, rfl, Or.inr ⟨rfl, by omega⟩, hent, rfl, ?_, ?_⟩
    · rcases hinv with ⟨_, _, h3, _⟩ | ⟨h, s, e, _, _, _, _, h5, h6, _⟩
      · rw [h3] at hlt; exact hlt
      · rw [h5] at hlt; exact lt_trans hlt h6
    · intro a b e2 hab he2
      rcases hsplit a b hab with hold | ⟨ha, hb⟩
      · have hstrict : cur.2 < e2.2 := by
          rcases hinv with ⟨_, _, h3, h4⟩ | ⟨h, s, e, _, _, _, _, h5, _, h7⟩
          · rw [h3] at hlt; exact lt_of_lt_of_le hlt (h4 a b e2 hold he2)
          · rw [h5] at hlt; exact lt_of_lt_of_le hlt (h7 a b e2 hold he2).1
        exact ⟨le_of_lt hstrict, fun heq => absurd heq (ne_of_gt hstrict)⟩
      · subst ha; subst hb
        rw [hent] at he2
        cases he2
        exact ⟨le_refl _, fun _ => Or.inr ⟨rfl, le_refl _⟩⟩
  · simp only [hlt, if_false]
    have hge : acc.min_cost ≤ cur.2 := not_lt.mp hlt
    rcases hinv with ⟨h1, h2, h3, h4⟩ | ⟨h, s, e, h1, h2, h3, h4, h5, h6, h7⟩
    · refine Or.inl ⟨h1, h2, h3, ?_⟩
      intro a b e2 hab he2
      rcases hsplit a b hab with hold | ⟨ha, hb⟩
      · exact h4 a b e2 hold he2
      · subst ha; subst hb
        rw [hent] at he2
        cases he2
        rw [← h3]; exact hge
    · refine Or.inr ⟨h, s, e, h1, h2, ?_, h4, h5, h6, ?_⟩
      · rcases h3 with h3 | ⟨h3, h3b⟩
        · exact Or.inl h3
        · exact Or.inr ⟨h3, by omega⟩
      · intro a b e2 hab he2
        rcases hsplit a b hab with hold | ⟨ha, hb⟩
        · exact h7 a b e2 hold he2
        · subst ha; subst hb
          rw [hent] at he2
          cases he2
          refine ⟨by rw [← h5]; exact hge, fun _ => ?_⟩
          rcases h3 with h3 | ⟨h3, h3b⟩
          · exact Or.inl h3
          · exact Or.inr ⟨h3, le_of_lt h3b⟩

theorem getSolSummary_innerLoop_inv (dblMax : ℚ) (pools : List Pool) (i : Nat) (n : Nat) :
    ∀ (acc : SolSummary), n ≤ (pools.getD i []).length →
      SummaryInv dblMax pools (fun a b => a < i ∨ (a = i ∧ b < 0)) acc →
      SummaryInv dblMax pools (fun a b => a < i ∨ (a = i ∧ b < n))
        ((List.range n).foldl (getSolSummary.inner pools i) acc) := by
  induction n with
  | zero => intro acc _ h; simpa using h
  | succ n ih =>
    intro acc hn h
    rw [List.range_succ, List.foldl_append]
    simp only [List.foldl_cons, List.foldl_nil]
    exact getSolSummary_inner_inv dblMax pools i n _ (by omega) (ih acc (by omega) h)

theorem getSolSummary_inner_nsols (pools : List Pool) (i : Nat) (js : List Nat) :
    ∀ (acc : SolSummary), (js.foldl (getSolSummary.inner pools i) acc).nsols = acc.nsols := by
  induction js with
  | nil => intro acc; rfl
  | cons j js ih =>
    intro acc
    rw [List.foldl_cons, ih]
    unfold getSolSummary.inner
    split_ifs <;> rfl

theorem getSolSummary_outer_nsols (pools : List Pool) (acc : SolSummary) (i : Nat) :
    (getSolSummary.outer pools acc i).nsols = acc.nsols + (pools.getD i []).length := by
  unfold getSolSummary.outer
  rw [getSolSummary_inner_nsols]

theorem getSolSummary_outer_inv (dblMax : ℚ) (pools : List Pool) (i : Nat) (acc : SolSummary)
    (h : SummaryInv dblMax pools (fun a b => a < i ∨ (a = i ∧ b < 0)) acc) :
    SummaryInv dblMax pools (fun a b => a < i + 1 ∨ (a = i + 1 ∧ b < 0))
      (getSolSummary.outer pools acc i) := by
  unfold getSolSummary.outer
  have h0 : SummaryInv dblMax pools (fun a b => a < i ∨ (a = i ∧ b < 0))
      { acc with nsols := acc.nsols + (pools.getD i []).length } := h
  have h1 := getSolSummary_innerLoop_inv dblMax pools i (pools.getD i []).length _ (le_refl _) h0
  refine SummaryInv.congr dblMax pools _ _ _ h1 ?_ ?_
  · intro a b hab
    rcases hab with hab | ⟨ha, _⟩
    · exact Or.inl (by omega)
    · exact Or.inl (by omega)
  · intro a b e hab he
    rcases hab with hab | ⟨_, hb⟩
    · by_cases hai : a < i
      · exact Or.inl hai
      · have ha : a = i := by omega
        subst ha
        exact Or.inr ⟨rfl, (entryAt_some pools a b e he).2⟩
    · omega

theorem getSolSummary_loop_inv (dblMax : ℚ) (pools : List Pool) (n : Nat) :
    SummaryInv dblMax pools (fun a b => a < n ∨ (a = n ∧ b < 0))
      ((List.range n).foldl (getSolSummary.outer pools)
        { min_cost_heur := -1, min_cost_sol := -1, min_cost := dblMax, nsols := 0 }) := by
  induction n with
  | zero =>
    refine Or.inl ⟨rfl, rfl, rfl, ?_⟩
    intro i j e hv _
    rcases hv with hv | ⟨_, hv⟩ <;> omega
  | succ n ih =>
    rw [List.range_succ, List.foldl_append]
    simp only [List.foldl_cons, List.foldl_nil]
    exact getSolSummary_outer_inv dblMax pools n _ ih

theorem getSolSummary_loop_nsols (dblMax : ℚ) (pools : List Pool) (n : Nat)
    (hn : n ≤ pools.length) :
    ((List.range n).foldl (getSolSummary.outer pools)
        { min_cost_heur := -1, min_cost_sol := -1, min_cost := dblMax, nsols := 0 }).nsols =
      totalSols (pools.take n) := by
  induction n with
  | zero => simp [totalSols]
  | succ n ih =>
    rw [List.range_succ, List.foldl_append]
    simp only [List.foldl_cons, List.foldl_nil]
    rw [getSolSummary_outer_nsols, ih (by omega)]
    have hlt : n < pools.length := by omega
    rw [List.take_succ, List.getElem?_eq_getElem hlt, List.getD_eq_getElem _ _ hlt]
    simp only [totalSols, List.map_append, List.sum_append, Option.toList, List.map_cons,
      List.map_nil, List.sum_cons, List.sum_nil, add_zero]

theorem getSolSummary_nsols (dblMax : ℚ) (pools : List Pool) :
    (getSolSummary dblMax pools).nsols = totalSols pools := by
  unfold getSolSummary
  rw [getSolSummary_loop_nsols dblMax pools pools.length (le_refl _), List.take_length]

/-- The result of the summary loops on all pools: the invariant over all entries. -/
theorem getSolSummary_inv (dblMax : ℚ) (pools : List Pool) :
    SummaryInv dblMax pools (fun _ _ => True) (getSolSummary dblMax pools) := by
  unfold getSolSummary
  refine SummaryInv.congr dblMax pools _ _ _ (getSolSummary_loop_inv dblMax pools pools.length)
    (fun _ _ _ => trivial) ?_
  intro a b e _ he
  have hb := (entryAt_some pools a b e he).2
  by_cases ha : a < pools.length
  · exact Or.inl ha
  · rw [List.getD_eq_default _ _ (by omega)] at hb
    simp at hb

theorem mem_allEntries_iff (pools : List Pool) (e : List ℚ × ℚ) :
    e ∈ allEntries pools ↔ ∃ i j, entryAt pools i j = some e := by
  unfold allEntries
  rw [List.mem_flatten]
  constructor
  · rintro ⟨pool, hpool, he⟩
    obtain ⟨i, hi, hpi⟩ := List.getElem_of_mem hpool
    obtain ⟨j, hj, hej⟩ := List.getElem_of_mem he
    refine ⟨i, j, ?_⟩
    unfold entryAt
    rw [List.getD_eq_getElem _ _ hi, hpi, List.get?_eq_getElem?, List.getElem?_eq_getElem hj, hej]
  · rintro ⟨i, j, h⟩
    unfold entryAt at h
    have hmem : e ∈ pools.getD i [] := List.get?_mem h
    by_cases hi : i < pools.length
    · rw [List.getD_eq_getElem _ _ hi] at hmem
      exact ⟨pools[i], List.getElem_mem hi, hmem⟩
    · rw [List.getD_eq_default _ _ (by omega)] at hmem
      simp at hmem

theorem totalSols_pos_iff (pools : List Pool) :
    0 < totalSols pools ↔ ∃ e, e ∈ allEntries pools := by
  unfold totalSols allEntries
  induction pools with
  | nil => simp
  | cons pool rest ih =>
    simp only [List.map_cons, List.sum_cons, List.flatten_cons, List.mem_append]
    constructor
    · intro h
      cases pool with
      | nil =>
        simp only [List.length_nil, zero_add] at h
        obtain ⟨e, he⟩ := ih.mp h
        exact ⟨e, Or.inr he⟩
      | cons e es => exact ⟨e, Or.inl (List.mem_cons_self e es)⟩
    · rintro ⟨e, he | he⟩
      · have := List.length_pos_of_mem he
        omega
      · have := ih.mpr ⟨e, he⟩
        omega

/-- The summary of pools that hold an entry of cost below `dblMax`: the indices are those
of a stored entry, the first one of minimal cost. -/
theorem getSolSummary_of_entry_below (dblMax : ℚ) (pools : List Pool)
    (hlow : ∃ i j e, entryAt pools i j = some e ∧ e.2 < dblMax) :
    ∃ (h s : Nat) (e : List ℚ × ℚ),
      (getSolSummary dblMax pools).min_cost_heur = (h : Int) ∧
      (getSolSummary dblMax pools).min_cost_sol = (s : Int) ∧
      entryAt pools h s = some e ∧ (getSolSummary dblMax pools).min_cost = e.2 ∧
      ∀ i j e2, entryAt pools i j = some e2 →
        e.2 ≤ e2.2 ∧ (e2.2 = e.2 → h < i ∨ (h = i ∧ s ≤ j)) := by
  rcases getSolSummary_inv dblMax pools with ⟨_, _, _, h4⟩ | ⟨h, s, e, h1, h2, _, h4, h5, _, h7⟩
  · obtain ⟨i, j, e, he, hlt⟩ := hlow
    exact absurd (h4 i j e trivial he) (not_le.mpr hlt)
  · exact ⟨h, s, e, h1, h2, h4, h5, fun i j e2 he2 => h7 i j e2 trivial he2⟩

/-- The entry that the summary indices point to, when there is one, is an entry of
minimal cost. -/
theorem poolEntry_summary_min (dblMax : ℚ) (pools : List Pool) (e : List ℚ × ℚ)
    (h : poolEntry pools (getSolSummary dblMax pools).min_cost_heur
      (getSolSummary dblMax pools).min_cost_sol = some e) :
    e ∈ allEntries pools ∧ ∀ e2 ∈ allEntries pools, e.2 ≤ e2.2 := by
  rcases getSolSummary_inv dblMax pools with ⟨h1, _, _, _⟩ | ⟨hh, s, e0, h1, h2, _, h4, _, _, h7⟩
  · rw [h1] at h
    simp [poolEntry] at h
  · rw [h1, h2] at h
    have hn : ¬ ((hh : Int) < 0 ∨ (s : Int) < 0) := by omega
    simp only [poolEntry, hn, if_false, Int.toNat_ofNat] at h
    rw [h4] at h
    have heq : e0 = e := Option.some.inj h
    rw [← heq]
    refine ⟨(mem_allEntries_iff pools e0).mpr ⟨hh, s, h4⟩, ?_⟩
    intro e2 he2
    obtain ⟨i, j, hij⟩ := (mem_allEntries_iff pools e2).mp he2
    exact (h7 i j e2 trivial hij).1

/-- When the pools hold a solution and every stored cost is below `dblMax`, the summary
indices point to a stored entry. -/
theorem poolEntry_summary_isSome (dblMax : ℚ) (pools : List Pool)
    (hpos : 0 < totalSols pools) (hlow : ∀ e ∈ allEntries pools, e.2 < dblMax) :
    ∃ e, poolEntry pools (getSolSummary dblMax pools).min_cost_heur
      (getSolSummary dblMax pools).min_cost_sol = some e := by
  obtain ⟨e, he⟩ := (totalSols_pos_iff pools).mp hpos
  obtain ⟨i, j, hij⟩ := (mem_allEntries_iff pools e).mp he
  obtain ⟨h, s, e0, h1, h2, h3, _, _⟩ :=
    getSolSummary_of_entry_below dblMax pools ⟨i, j, e, hij, hlow e he⟩
  refine ⟨e0, ?_⟩
  rw [h1, h2]
  have hn : ¬ ((h : Int) < 0 ∨ (s : Int) < 0) := by omega
  simp only [poolEntry, hn, if_false, Int.toNat_ofNat]
  exact h3

/-- C8 (code bug): the feasibility pools that `MinLockRounding` fills on `mipMax` hold
four entries, the solution `x = 1` with its cost `std::numeric_limits<double>::max()`
once per ordering; they are summarised with `nsols = 4` and the indices `(-1, -1)`, which
are not the indices of a stored entry. -/
theorem getSolSummary_sentinel_indices :
    feasPoolsAfter envMax searchMax mipMax =
      [[([1], dblMax64), ([1], dblMax64), ([1], dblMax64), ([1], dblMax64)], []] ∧
    objectiveValue mipMax.objective [1] mipMax.getNCols = dblMax64 ∧
    0 < totalSols (feasPoolsAfter envMax searchMax mipMax) ∧
    getSolSummary dblMax64 (feasPoolsAfter envMax searchMax mipMax) =
      { min_cost_heur := -1, min_cost_sol := -1, min_cost := dblMax64, nsols := 4 } ∧
    poolEntry (feasPoolsAfter envMax searchMax mipMax)
      (getSolSummary dblMax64 (feasPoolsAfter envMax searchMax mipMax)).min_cost_heur
      (getSolSummary dblMax64 (feasPoolsAfter envMax searchMax mipMax)).min_cost_sol = none := by
  decide!

/-- The contract of the summary away from the sentinel: for every collection of pools
that holds at least one entry of cost below `std::numeric_limits<double>::max()`, the
summary (the loops of `getFeasSolSummary`
and of `getImprSolSummary`) returns `nsols` equal to the total number of stored solutions,
the indices `(heur, sol)` of a stored entry, and `min_cost` equal to that entry's cost,
which is at most the cost of every stored entry; among the entries of that minimal cost
it is the first in pool order, then position order. -/
theorem getSolSummary_selects_first_minimum (dblMax : ℚ) (pools : List Pool)
    (hlow : ∃ i j e, entryAt pools i j = some e ∧ e.2 < dblMax) :
    (getSolSummary dblMax pools).nsols = totalSols pools ∧
    ∃ (h s : Nat) (e : List ℚ × ℚ),
      (getSolSummary dblMax pools).min_cost_heur = (h : Int) ∧
      (getSolSummary dblMax pools).min_cost_sol = (s : Int) ∧
      entryAt pools h s = some e ∧ (getSolSummary dblMax pools).min_cost = e.2 ∧
      ∀ i j e2, entryAt pools i j = some e2 →
        e.2 ≤ e2.2 ∧ (e2.2 = e.2 → h < i ∨ (h = i ∧ s ≤ j)) :=
  ⟨getSolSummary_nsols dblMax pools, getSolSummary_of_entry_below dblMax pools hlow⟩

/-- An instance of the summary contract: three entries in two pools, the minimal cost 3
stored twice. -/
theorem getSolSummary_selects_first_minimum_witness :
    (∃ i j e, entryAt [[(([0] : List ℚ), (5 : ℚ))], [([1], 3), ([2], 3)]] i j = some e ∧
      e.2 < dblMax64) ∧
    (getSolSummary dblMax64 [[([0], 5)], [([1], 3), ([2], 3)]]).nsols =
      totalSols [[(([0] : List ℚ), (5 : ℚ))], [([1], 3), ([2], 3)]] ∧
    ∃ (h s : Nat) (e : List ℚ × ℚ),
      (getSolSummary dblMax64 [[([0], 5)], [([1], 3), ([2], 3)]]).min_cost_heur = (h : Int) ∧
      (getSolSummary dblMax64 [[([0], 5)], [([1], 3), ([2], 3)]]).min_cost_sol = (s : Int) ∧
      entryAt [[([0], 5)], [([1], 3), ([2], 3)]] h s = some e ∧
      (getSolSummary dblMax64 [[([0], 5)], [([1], 3), ([2], 3)]]).min_cost = e.2 ∧
      ∀ i j e2, entryAt [[([0], 5)], [([1], 3), ([2], 3)]] i j = some e2 →
        e.2 ≤ e2.2 ∧ (e2.2 = e.2 → h < i ∨ (h = i ∧ s ≤ j)) :=
  ⟨⟨1, 0, ([1], 3), by decide!, by decide!⟩,
    getSolSummary_selects_first_minimum dblMax64 [[([0], 5)], [([1], 3), ([2], 3)]]
      ⟨1, 0, ([1], 3), by decide!, by decide!⟩⟩

theorem finishRun_pools (env : RunEnv) (s : Search) (mip : MIP) (feasPools : List Pool)
    (best : List ℚ × ℚ) :
    (finishRun env s mip feasPools best).feas_solutions_pools = feasPools ∧
    (finishRun env s mip feasPools best).impr_solutions_pools =
      runImpr env s mip best s.impr_solutions_pools := by
  unfold finishRun
  split_ifs
  · split <;> exact ⟨rfl, rfl⟩
  · exact ⟨rfl, rfl⟩

theorem finishRun_solution (env : RunEnv) (s : Search) (mip : MIP) (feasPools : List Pool)
    (best : List ℚ × ℚ) (sol : List ℚ)
    (h : (finishRun env s mip feasPools best).result = RunResult.solution sol) :
    (0 < totalSols (runImpr env s mip best s.impr_solutions_pools) →
      ∃ e ∈ allEntries (runImpr env s mip best s.impr_solutions_pools), e.1 = sol ∧
        ∀ e2 ∈ allEntries (runImpr env s mip best s.impr_solutions_pools), e.2 ≤ e2.2) ∧
    (totalSols (runImpr env s mip best s.impr_solutions_pools) = 0 → sol = best.1) := by
  unfold finishRun at h
  rw [getSolSummary_nsols] at h
  by_cases hpos : totalSols (runImpr env s mip best s.impr_solutions_pools) > 0
  · simp only [hpos, if_true] at h
    refine ⟨fun _ => ?_, fun h0 => by omega⟩
    cases he : poolEntry (runImpr env s mip best s.impr_solutions_pools)
        (getSolSummary env.dblMax
          (runImpr env s mip best s.impr_solutions_pools)).min_cost_heur
        (getSolSummary env.dblMax
          (runImpr env s mip best s.impr_solutions_pools)).min_cost_sol with
    | none => rw [he] at h; simp at h
    | some e =>
      rw [he] at h
      simp only [RunResult.solution.injEq] at h
      obtain ⟨hmem, hmin⟩ := poolEntry_summary_min env.dblMax _ e he
      exact ⟨e, hmem, h, hmin⟩
  · simp only [hpos, if_false, RunResult.solution.injEq] at h
    exact ⟨fun hp => absurd hp hpos, fun _ => h.symm⟩

theorem finishRun_isSolution (env : RunEnv) (s : Search) (mip : MIP) (feasPools : List Pool)
    (best : List ℚ × ℚ)
    (himpr : ∀ e ∈ allEntries (runImpr env s mip best s.impr_solutions_pools),
      e.2 < env.dblMax) :
    ∃ sol, (finishRun env s mip feasPools best).result = RunResult.solution sol := by
  unfold finishRun
  rw [getSolSummary_nsols]
  by_cases hpos : totalSols (runImpr env s mip best s.impr_solutions_pools) > 0
  · simp only [hpos, if_true]
    obtain ⟨e, he⟩ := poolEntry_summary_isSome env.dblMax _ hpos himpr
    rw [he]
    exact ⟨e.1, rfl⟩
  · simp only [hpos, if_false]
    exact ⟨best.1, rfl⟩

theorem run_of_not_optimal (env : RunEnv) (s : Search) (mip : MIP)
    (hst : (env.rootSolve mip).status ≠ LPStatus.OPTIMAL) :
    Search.run env s mip =
      { result := RunResult.empty, feas_solutions_pools := s.feas_solutions_pools,
        impr_solutions_pools := s.impr_solutions_pools,
        feasExecuted := 0, imprExecuted := 0 } := by
  unfold Search.run
  rw [if_pos hst]

theorem run_of_no_solution (env : RunEnv) (s : Search) (mip : MIP)
    (hst : (env.rootSolve mip).status = LPStatus.OPTIMAL)
    (hn : totalSols (feasPoolsAfter env s mip) = 0) :
    (Search.run env s mip).result = RunResult.empty := by
  unfold Search.run
  rw [if_neg (not_not.mpr hst), getSolSummary_nsols, if_pos hn]

theorem run_of_incumbent (env : RunEnv) (s : Search) (mip : MIP)
    (hst : (env.rootSolve mip).status = LPStatus.OPTIMAL)
    (hn : totalSols (feasPoolsAfter env s mip) ≠ 0) (best : List ℚ × ℚ)
    (hb : poolEntry (feasPoolsAfter env s mip)
      (getSolSummary env.dblMax (feasPoolsAfter env s mip)).min_cost_heur
      (getSolSummary env.dblMax (feasPoolsAfter env s mip)).min_cost_sol = some best) :
    Search.run env s mip = finishRun env s mip (feasPoolsAfter env s mip) best := by
  unfold Search.run
  rw [if_neg (not_not.mpr hst), getSolSummary_nsols, if_neg hn, hb]

theorem run_of_no_incumbent (env : RunEnv) (s : Search) (mip : MIP)
    (hst : (env.rootSolve mip).status = LPStatus.OPTIMAL)
    (hn : totalSols (feasPoolsAfter env s mip) ≠ 0)
    (hb : poolEntry (feasPoolsAfter env s mip)
      (getSolSummary env.dblMax (feasPoolsAfter env s mip)).min_cost_heur
      (getSolSummary env.dblMax (feasPoolsAfter env s mip)).min_cost_sol = none) :
    (Search.run env s mip).result = RunResult.undefined := by
  unfold Search.run
  rw [if_neg (not_not.mpr hst), getSolSummary_nsols, if_neg hn, hb]

/-- C7 (counterexample): on `mipA` the feasibility heuristic of `searchA` stores the
feasible solution `(1, 0)` of cost 1 and its improvement heuristic the feasible solution
`(1, 1)` of cost 2; `run` returns `(1, 1)`, which is not a solution of minimal cost among
the solutions held in the pools. -/
theorem run_returns_costlier_improvement :
    checkFeasibility false specNum.isFeasInt mipA [1, 0] (1/1000000000) (1/1000000) = true ∧
    checkFeasibility false specNum.isFeasInt mipA [1, 1] (1/1000000000) (1/1000000) = true ∧
    Search.run envA searchA mipA =
      { result := RunResult.solution [1, 1],
        feas_solutions_pools := [[([1, 0], 1)], []],
        impr_solutions_pools := [[([1, 1], 2)]],
        feasExecuted := 1, imprExecuted := 1 } ∧
    ¬ ∃ e ∈ allEntries ([[(([1, 0] : List ℚ), (1 : ℚ))], []] ++ [[([1, 1], 2)]]),
        e.1 = [1, 1] ∧
          ∀ e2 ∈ allEntries ([[(([1, 0] : List ℚ), (1 : ℚ))], []] ++ [[([1, 1], 2)]]),
            e.2 ≤ e2.2 := by
  decide!

/-- C7 (amended): whenever `run` returns a solution, it is the solution of an entry of
minimal cost among the improvement pools when these hold at least one solution at the end
of the run, and of an entry of minimal cost among the feasibility pools otherwise; the
costs of the two kinds of pools are not compared with each other. -/
theorem run_returns_stage_minimum (env : RunEnv) (s : Search) (mip : MIP) (sol : List ℚ)
    (h : (Search.run env s mip).result = RunResult.solution sol) :
    (0 < totalSols (Search.run env s mip).impr_solutions_pools →
      ∃ e ∈ allEntries (Search.run env s mip).impr_solutions_pools, e.1 = sol ∧
        ∀ e2 ∈ allEntries (Search.run env s mip).impr_solutions_pools, e.2 ≤ e2.2) ∧
    (totalSols (Search.run env s mip).impr_solutions_pools = 0 →
      ∃ e ∈ allEntries (Search.run env s mip).feas_solutions_pools, e.1 = sol ∧
        ∀ e2 ∈ allEntries (Search.run env s mip).feas_solutions_pools, e.2 ≤ e2.2) := by
  by_cases hst : (env.rootSolve mip).status = LPStatus.OPTIMAL
  · by_cases hn : totalSols (feasPoolsAfter env s mip) = 0
    · rw [run_of_no_solution env s mip hst hn] at h
      simp at h
    · cases hb : poolEntry (feasPoolsAfter env s mip)
          (getSolSummary env.dblMax (feasPoolsAfter env s mip)).min_cost_heur
          (getSolSummary env.dblMax (feasPoolsAfter env s mip)).min_cost_sol with
      | none =>
        rw [run_of_no_incumbent env s mip hst hn hb] at h
        simp at h
      | some best =>
        rw [run_of_incumbent env s mip hst hn best hb] at h ⊢
        obtain ⟨hp1, hp2⟩ := finishRun_pools env s mip (feasPoolsAfter env s mip) best
        obtain ⟨h1, h2⟩ := finishRun_solution env s mip (feasPoolsAfter env s mip) best sol h
        obtain ⟨hmem, hmin⟩ := poolEntry_summary_min env.dblMax _ best hb
        rw [hp1, hp2]
        exact ⟨h1, fun h0 => ⟨best, hmem, (h2 h0).symm, hmin⟩⟩
  · rw [run_of_not_optimal env s mip hst] at h
    simp at h

/-- C7 witness: the run of `searchA` on `mipA`, which returns `(1, 1)`. -/
theorem run_returns_stage_minimum_witness :
    (Search.run envA searchA mipA).result = RunResult.solution [1, 1] ∧
    (0 < totalSols (Search.run envA searchA mipA).impr_solutions_pools →
      ∃ e ∈ allEntries (Search.run envA searchA mipA).impr_solutions_pools, e.1 = [1, 1] ∧
        ∀ e2 ∈ allEntries (Search.run envA searchA mipA).impr_solutions_pools, e.2 ≤ e2.2) ∧
    (totalSols (Search.run envA searchA mipA).impr_solutions_pools = 0 →
      ∃ e ∈ allEntries (Search.run envA searchA mipA).feas_solutions_pools, e.1 = [1, 1] ∧
        ∀ e2 ∈ allEntries (Search.run envA searchA mipA).feas_solutions_pools, e.2 ≤ e2.2) :=
  ⟨by decide!, run_returns_stage_minimum envA searchA mipA [1, 1] (by decide!)⟩

/-- C9 (code bug): the root LP of `mipMax` is solved to optimality and `MinLockRounding`
stores the feasible solution `x = 1`, whose cost is `std::numeric_limits<double>::max()`;
the feasibility pools hold a solution after the feasibility stage, yet the summary indices
stay `-1` and `run` does not return a solution. -/
theorem run_sentinel_cost_no_solution :
    (envMax.rootSolve mipMax).status = LPStatus.OPTIMAL ∧
    checkFeasibility false specNum.isFeasInt mipMax [1] (1/1000000000) (1/1000000) = true ∧
    0 < totalSols (feasPoolsAfter envMax searchMax mipMax) ∧
    Search.run envMax searchMax mipMax =
      { result := RunResult.undefined,
        feas_solutions_pools :=
          [[([1], dblMax64), ([1], dblMax64), ([1], dblMax64), ([1], dblMax64)], []],
        impr_solutions_pools := [],
        feasExecuted := 1, imprExecuted := 0 } := by
  decide!

/-- The contract of `run` away from the sentinel: provided every cost stored in the pools
is below
`std::numeric_limits<double>::max()`, `run` returns a solution if and only if the root LP
solve reports `OPTIMAL` and the feasibility pools hold at least one solution after the
feasibility stage; and when the root LP status is not `OPTIMAL` it returns the empty
result with no heuristic executed and every pool unchanged. -/
theorem run_returns_solution_iff (env : RunEnv) (s : Search) (mip : MIP)
    (hfeas : ∀ e ∈ allEntries (feasPoolsAfter env s mip), e.2 < env.dblMax)
    (himpr : ∀ best, ∀ e ∈ allEntries (runImpr env s mip best s.impr_solutions_pools),
      e.2 < env.dblMax) :
    ((∃ sol, (Search.run env s mip).result = RunResult.solution sol) ↔
      (env.rootSolve mip).status = LPStatus.OPTIMAL ∧
        0 < totalSols (feasPoolsAfter env s mip)) ∧
    ((env.rootSolve mip).status ≠ LPStatus.OPTIMAL →
      Search.run env s mip =
        { result := RunResult.empty, feas_solutions_pools := s.feas_solutions_pools,
          impr_solutions_pools := s.impr_solutions_pools,
          feasExecuted := 0, imprExecuted := 0 }) := by
  refine ⟨?_, run_of_not_optimal env s mip⟩
  by_cases hst : (env.rootSolve mip).status = LPStatus.OPTIMAL
  · by_cases hn : totalSols (feasPoolsAfter env s mip) = 0
    · rw [run_of_no_solution env s mip hst hn]
      constructor
      · rintro ⟨sol, h⟩; simp at h
      · rintro ⟨_, h⟩; omega
    · obtain ⟨best, hb⟩ := poolEntry_summary_isSome env.dblMax _ (Nat.pos_of_ne_zero hn) hfeas
      rw [run_of_incumbent env s mip hst hn best hb]
      exact ⟨fun _ => ⟨hst, Nat.pos_of_ne_zero hn⟩,
        fun _ => finishRun_isSolution env s mip _ best (himpr best)⟩
  · rw [run_of_not_optimal env s mip hst]
    constructor
    · rintro ⟨sol, h⟩; simp at h
    · rintro ⟨h, _⟩; exact absurd h hst

/-- An instance of the contract of `run`: the run of `searchA` on `mipA`, whose stored
costs are 1 and 2. -/
theorem run_returns_solution_iff_witness :
    (∀ e ∈ allEntries (feasPoolsAfter envA searchA mipA), e.2 < envA.dblMax) ∧
    (∀ best, ∀ e ∈ allEntries (runImpr envA searchA mipA best searchA.impr_solutions_pools),
      e.2 < envA.dblMax) ∧
    ((∃ sol, (Search.run envA searchA mipA).result = RunResult.solution sol) ↔
      (envA.rootSolve mipA).status = LPStatus.OPTIMAL ∧
        0 < totalSols (feasPoolsAfter envA searchA mipA)) ∧
    ((envA.rootSolve mipA).status ≠ LPStatus.OPTIMAL →
      Search.run envA searchA mipA =
        { result := RunResult.empty, feas_solutions_pools := searchA.feas_solutions_pools,
          impr_solutions_pools := searchA.impr_solutions_pools,
          feasExecuted := 0, imprExecuted := 0 }) :=
  have h1 : ∀ e ∈ allEntries (feasPoolsAfter envA searchA mipA), e.2 < envA.dblMax := by
    decide!
  have h2 : ∀ best,
      ∀ e ∈ allEntries (runImpr envA searchA mipA best searchA.impr_solutions_pools),
        e.2 < envA.dblMax := by
    intro best
    have hr : runImpr envA searchA mipA best searchA.impr_solutions_pools =
        [[([1, 1], 2)]] := rfl
    rw [hr]
    decide!
  ⟨h1, h2, run_returns_solution_iff envA searchA mipA h1 h2⟩

/-! ## Theorems on `mpsreader::transpose` -/

theorem getD_set_self {α : Type} (l : List α) (i : Nat) (a d : α) (h : i < l.length) :
    (l.set i a).getD i d = a := by
  rw [List.getD_eq_getElem?_getD, List.getElem?_set_self h]
  rfl

theorem getD_set_of_ne {α : Type} (l : List α) (i j : Nat) (a d : α) (h : i ≠ j) :
    (l.set i a).getD j d = l.getD j d := by
  rw [List.getD_eq_getElem?_getD, List.getElem?_set_ne h, List.getD_eq_getElem?_getD]

theorem prefixSum_succ (sizes : List Nat) (j : Nat) :
    prefixSum sizes (j + 1) = prefixSum sizes j + sizes.getD j 0 := by
  unfold prefixSum
  rw [List.range_succ, List.map_append, List.sum_append]
  simp

theorem prefixSum_mono (sizes : List Nat) (j k : Nat) (h : j ≤ k) :
    prefixSum sizes j ≤ prefixSum sizes k := by
  induction k with
  | zero =>
    have : j = 0 := by omega
    rw [this]
  | succ k ih =>
    by_cases hjk : j ≤ k
    · have := ih hjk
      rw [prefixSum_succ]
      omega
    · have : j = k + 1 := by omega
      rw [this]

theorem rowStarts_spec (rowSize : List Nat) (n : Nat) :
    (transpose.rowStarts rowSize n).length = n + 1 ∧
      ∀ j, j ≤ n → (transpose.rowStarts rowSize n).getD j 0 = prefixSum rowSize j := by
  induction n with
  | zero =>
    refine ⟨rfl, ?_⟩
    intro j hj
    have : j = 0 := by omega
    subst this
    rfl
  | succ n ih =>
    obtain ⟨hlen, hget⟩ := ih
    have hstep : transpose.rowStarts rowSize (n + 1) =
        transpose.rowStarts rowSize n ++
          [rowSize.getD n 0 + (transpose.rowStarts rowSize n).getD n 0] := by
      unfold transpose.rowStarts
      rw [List.range_succ, List.foldl_append]
      rfl
    rw [hstep]
    refine ⟨by simp [hlen], ?_⟩
    intro j hj
    by_cases hjn : j ≤ n
    · rw [List.getD_append _ _ _ _ (by omega)]
      exact hget j hjn
    · have hj1 : j = n + 1 := by omega
      subst hj1
      rw [List.getD_append_right _ _ _ _ (by omega), hlen, hget n (le_refl _), prefixSum_succ]
      simp
      omega

theorem bucket_append (l1 l2 : List (Nat × Nat × ℚ)) (j : Nat) :
    bucket (l1 ++ l2) j = bucket l1 j ++ bucket l2 j := by
  simp [bucket]

theorem bucket_singleton_self (t : Nat × Nat × ℚ) : bucket [t] t.2.1 = [t] := by
  simp [bucket]

theorem bucket_singleton_of_ne (t : Nat × Nat × ℚ) (j : Nat) (h : t.2.1 ≠ j) :
    bucket [t] j = [] := by
  simp [bucket, h]

theorem bucket_length_le (pre suf : List (Nat × Nat × ℚ)) (j : Nat) :
    (bucket pre j).length ≤ (bucket (pre ++ suf) j).length := by
  rw [bucket_append, List.length_append]
  omega

theorem put_inv (sizes : List Nat) (n : Nat) (ts pre suf : List (Nat × Nat × ℚ))
    (t : Nat × Nat × ℚ) (hts : ts = pre ++ t :: suf) (hkey : t.2.1 < n)
    (hsize : ∀ j, j < n → sizes.getD j 0 = (bucket ts j).length)
    (rowStart : List Nat) (hrs : ∀ j, j ≤ n → rowStart.getD j 0 = prefixSum sizes j)
    (st : TransposeState) (hinv : FillInv sizes n pre st) :
    FillInv sizes n (pre ++ [t]) (transpose.put rowStart st t) := by
  obtain ⟨hoff, hil, hcl, hcount, hent⟩ := hinv
  have hc0 : st.offset.getD t.2.1 0 = (bucket pre t.2.1).length := hcount t.2.1 hkey
  have hpos : rowStart.getD t.2.1 0 + st.offset.getD t.2.1 0 =
      prefixSum sizes t.2.1 + (bucket pre t.2.1).length := by
    rw [hrs t.2.1 (le_of_lt hkey), hc0]
  have hfull : (bucket ts t.2.1).length =
      (bucket pre t.2.1).length + 1 + (bucket suf t.2.1).length := by
    rw [hts, bucket_append, show t :: suf = [t] ++ suf from rfl, bucket_append,
      bucket_singleton_self]
    simp only [List.length_append, List.length_singleton]
    omega
  have hnext : prefixSum sizes t.2.1 + (bucket pre t.2.1).length <
      prefixSum sizes (t.2.1 + 1) := by
    have h2 := hsize t.2.1 hkey
    have h3 := prefixSum_succ sizes t.2.1
    omega
  have hlt : prefixSum sizes t.2.1 + (bucket pre t.2.1).length < prefixSum sizes n :=
    lt_of_lt_of_le hnext (prefixSum_mono sizes (t.2.1 + 1) n (by omega))
  have hother : ∀ j, j < n → t.2.1 ≠ j → ∀ k, k < (bucket pre j).length →
      prefixSum sizes t.2.1 + (bucket pre t.2.1).length ≠ prefixSum sizes j + k := by
    intro j hj hne k hk
    have hk2 : k < sizes.getD j 0 := by
      rw [hsize j hj, hts]
      exact lt_of_lt_of_le hk (bucket_length_le pre (t :: suf) j)
    have hsj := prefixSum_succ sizes j
    by_cases hlt2 : j < t.2.1
    · have := prefixSum_mono sizes (j + 1) t.2.1 (by omega)
      omega
    · have := prefixSum_mono sizes (t.2.1 + 1) j (by omega)
      omega
  refine ⟨?_, ?_, ?_, ?_, ?_⟩
  · simp [transpose.put, hoff]
  · simp [transpose.put, hil]
  · simp [transpose.put, hcl]
  · intro j hj
    by_cases hjj : t.2.1 = j
    · rw [← hjj, bucket_append, bucket_singleton_self]
      simp only [transpose.put, List.length_append, List.length_singleton]
      rw [getD_set_self _ _ _ _ (by omega), hc0]
    · rw [bucket_append, bucket_singleton_of_ne t j hjj]
      simp only [transpose.put, List.append_nil]
      rw [getD_set_of_ne _ _ _ _ _ hjj]
      exact hcount j hj
  · intro j hj k hk
    simp only [transpose.put]
    rw [hpos]
    by_cases hjj : t.2.1 = j
    · rw [← hjj] at hk ⊢
      rw [bucket_append, bucket_singleton_self] at hk ⊢
      simp only [List.length_append, List.length_singleton] at hk
      by_cases hkc : k = (bucket pre t.2.1).length
      · rw [hkc, getD_set_self _ _ _ _ (by omega), getD_set_self _ _ _ _ (by omega)]
        simp only [List.map_append, List.map_cons, List.map_nil]
        rw [List.getD_append_right _ _ _ _ (by simp), List.getD_append_right _ _ _ _ (by simp)]
        simp
      · have hk3 : k < (bucket pre t.2.1).length := by omega
        rw [getD_set_of_ne _ _ _ _ _ (by omega), getD_set_of_ne _ _ _ _ _ (by omega)]
        simp only [List.map_append]
        rw [List.getD_append _ _ _ _ (by simpa using hk3),
          List.getD_append _ _ _ _ (by simpa using hk3)]
        exact hent t.2.1 hkey k hk3
    · rw [bucket_append, bucket_singleton_of_ne t j hjj, List.append_nil] at hk ⊢
      have hne := hother j hj hjj k hk
      rw [getD_set_of_ne _ _ _ _ _ hne, getD_set_of_ne _ _ _ _ _ hne]
      exact hent j hj k hk

theorem foldl_put_inv (sizes : List Nat) (n : Nat) (ts : List (Nat × Nat × ℚ))
    (hkey : ∀ t ∈ ts, t.2.1 < n)
    (hsize : ∀ j, j < n → sizes.getD j 0 = (bucket ts j).length)
    (rowStart : List Nat) (hrs : ∀ j, j ≤ n → rowStart.getD j 0 = prefixSum sizes j)
    (pre : List (Nat × Nat × ℚ)) :
    ∀ suf, ts = pre ++ suf →
      FillInv sizes n pre
        (pre.foldl (transpose.put rowStart)
          { coefficients := List.replicate (prefixSum sizes n) 0
            indices := List.replicate (prefixSum sizes n) 0
            offset := List.replicate n 0 }) := by
  induction pre using List.reverseRecOn with
  | nil =>
    intro suf _
    refine ⟨by simp, by simp, by simp, ?_, ?_⟩
    · intro j hj
      simp [bucket, List.getD_eq_getElem?_getD, List.getElem?_replicate, hj]
    · intro j _ k hk
      simp [bucket] at hk
  | append_singleton pre t ih =>
    intro suf hts
    rw [List.foldl_append]
    simp only [List.foldl_cons, List.foldl_nil]
    have hts2 : ts = pre ++ t :: suf := by rw [hts]; simp
    have ht : t ∈ ts := by rw [hts2]; simp
    exact put_inv sizes n ts pre suf t hts2 (hkey t ht) hsize rowStart hrs _
      (ih (t :: suf) hts2)

theorem foldl_flatMap_eq {α β γ : Type} (f : γ → β → γ) (g : α → List β) (l : List α) :
    ∀ b : γ, (l.flatMap g).foldl f b = l.foldl (fun b a => (g a).foldl f b) b := by
  induction l with
  | nil => intro b; rfl
  | cons a l ih =>
    intro b
    rw [List.flatMap_cons, List.foldl_append, ih]
    rfl

theorem fill_eq_foldl_put (matrix : SparseMatrix) (rowStart : List Nat) :
    transpose.fill matrix rowStart =
      matrix.triples.foldl (transpose.put rowStart)
        { coefficients := List.replicate matrix.coefficients.length 0
          indices := List.replicate matrix.coefficients.length 0
          offset := List.replicate matrix.ncols 0 } := by
  unfold transpose.fill SparseMatrix.triples
  rw [foldl_flatMap_eq]
  congr 1
  funext st col
  unfold transpose.fillRow SparseMatrix.rowEntries
  rw [List.map_map, List.foldl_map]
  rfl

/-- The rows of the transposed matrix: when every stored index of `matrix` is below
`ncols`, `rowSize[j]` is the number of stored entries with index `j`, and the arrays hold
exactly the stored entries, row `j` of `transpose(matrix, rowSize)` holds the entries
`(row, coefficient)` of the stored entries of `matrix` with index `j`, in storage order. -/
theorem transpose_rowEntries (matrix : SparseMatrix) (rowSize : List Nat)
    (hkey : ∀ t ∈ matrix.triples, t.2.1 < matrix.ncols)
    (hsize : ∀ j, j < matrix.ncols → rowSize.getD j 0 = (bucket matrix.triples j).length)
    (hnnz : matrix.coefficients.length = prefixSum rowSize matrix.ncols)
    (j : Nat) (hj : j < matrix.ncols) :
    (transpose matrix rowSize).rowEntries j =
      (bucket matrix.triples j).map (fun t => (t.1, t.2.2)) := by
  obtain ⟨_, hrs⟩ := rowStarts_spec rowSize matrix.ncols
  have hinv := foldl_put_inv rowSize matrix.ncols matrix.triples hkey hsize
    (transpose.rowStarts rowSize matrix.ncols) hrs matrix.triples [] (by simp)
  rw [← hnnz, ← fill_eq_foldl_put] at hinv
  obtain ⟨_, _, _, _, hent⟩ := hinv
  unfold SparseMatrix.rowEntries
  simp only [transpose]
  rw [hrs j (le_of_lt hj), hrs (j + 1) (by omega), prefixSum_succ, Nat.add_sub_cancel_left,
    hsize j hj]
  apply List.ext_getElem
  · simp
  · intro k h1 h2
    simp only [List.length_map, List.length_range'] at h1
    simp only [List.getElem_map, List.getElem_range', Nat.one_mul]
    obtain ⟨hi, hc⟩ := hent j hj k h1
    rw [hi, hc, List.getD_eq_getElem _ _ (by simpa using h1),
      List.getD_eq_getElem _ _ (by simpa using h1)]
    simp

theorem filter_lt_succ_perm (ts : List (Nat × Nat × ℚ)) (n : Nat) :
    List.Perm (ts.filter (fun t => decide (t.2.1 < n)) ++ bucket ts n)
      (ts.filter (fun t => decide (t.2.1 < n + 1))) := by
  induction ts with
  | nil => simp [bucket]
  | cons t ts ih =>
    unfold bucket at ih ⊢
    by_cases h1 : t.2.1 < n
    · have d1 : decide (t.2.1 < n) = true := decide_eq_true h1
      have d2 : decide (t.2.1 = n) = false := decide_eq_false (by omega)
      have d3 : decide (t.2.1 < n + 1) = true := decide_eq_true (by omega)
      rw [List.filter_cons, List.filter_cons, List.filter_cons, d1, d2, d3]
      simp only [if_true, Bool.false_eq_true, if_false, List.cons_append]
      exact List.Perm.cons t ih
    · by_cases h3 : t.2.1 = n
      · have d1 : decide (t.2.1 < n) = false := decide_eq_false h1
        have d2 : decide (t.2.1 = n) = true := decide_eq_true h3
        have d3 : decide (t.2.1 < n + 1) = true := decide_eq_true (by omega)
        rw [List.filter_cons, List.filter_cons, List.filter_cons, d1, d2, d3]
        simp only [if_true, Bool.false_eq_true, if_false]
        exact List.Perm.trans List.perm_middle (List.Perm.cons t ih)
      · have d1 : decide (t.2.1 < n) = false := decide_eq_false h1
        have d2 : decide (t.2.1 = n) = false := decide_eq_false h3
        have d3 : decide (t.2.1 < n + 1) = false := decide_eq_false (by omega)
        rw [List.filter_cons, List.filter_cons, List.filter_cons, d1, d2, d3]
        simp only [Bool.false_eq_true, if_false]
        exact ih

theorem flatMap_bucket_perm_filter (ts : List (Nat × Nat × ℚ)) (n : Nat) :
    List.Perm ((List.range n).flatMap (bucket ts)) (ts.filter (fun t => decide (t.2.1 < n))) := by
  induction n with
  | zero => simp
  | succ n ih =>
    rw [List.range_succ, List.flatMap_append, List.flatMap_singleton]
    exact List.Perm.trans (List.Perm.append_right _ ih) (filter_lt_succ_perm ts n)

/-- The rows of a bucket partition, put one after the other, are a permutation of the
list. -/
theorem flatMap_bucket_perm (ts : List (Nat × Nat × ℚ)) (n : Nat)
    (hkey : ∀ t ∈ ts, t.2.1 < n) :
    List.Perm ((List.range n).flatMap (bucket ts)) ts := by
  have h := flatMap_bucket_perm_filter ts n
  rw [List.filter_eq_self.mpr (fun t ht => by simpa using hkey t ht)] at h
  exact h

theorem prefixSum_eq_length_flatMap (sizes : List Nat) (ts : List (Nat × Nat × ℚ)) (n : Nat)
    (hsize : ∀ j, j < n → sizes.getD j 0 = (bucket ts j).length) (m : Nat) (hm : m ≤ n) :
    prefixSum sizes m = ((List.range m).flatMap (bucket ts)).length := by
  induction m with
  | zero => simp [prefixSum]
  | succ m ih =>
    rw [prefixSum_succ, ih (by omega), hsize m (by omega), List.range_succ,
      List.flatMap_append, List.flatMap_singleton, List.length_append]

theorem prefixSum_eq_length (sizes : List Nat) (ts : List (Nat × Nat × ℚ)) (n : Nat)
    (hkey : ∀ t ∈ ts, t.2.1 < n)
    (hsize : ∀ j, j < n → sizes.getD j 0 = (bucket ts j).length) :
    prefixSum sizes n = ts.length := by
  rw [prefixSum_eq_length_flatMap sizes ts n hsize n (le_refl _)]
  exact (flatMap_bucket_perm ts n hkey).length_eq

theorem filter_row_flatMap (g : Nat → List (Nat × ℚ)) (r m : Nat) :
    ((List.range m).flatMap (fun r2 => (g r2).map (fun e => (r2, e.1, e.2)))).filter
        (fun t => decide (t.1 = r)) =
      if r < m then (g r).map (fun e => (r, e.1, e.2)) else [] := by
  induction m with
  | zero => simp
  | succ m ih =>
    rw [List.range_succ, List.flatMap_append, List.flatMap_singleton, List.filter_append, ih]
    by_cases hrm : r < m
    · have h1 : r < m + 1 := by omega
      have h2 : ((g m).map (fun e => (m, e.1, e.2))).filter (fun t => decide (t.1 = r)) = [] := by
        rw [List.filter_eq_nil_iff]
        intro t ht
        simp only [List.mem_map] at ht
        obtain ⟨e, _, rfl⟩ := ht
        simp
        omega
      simp [hrm, h1, h2]
    · by_cases hr : r = m
      · subst hr
        have h2 : ((g r).map (fun e => (r, e.1, e.2))).filter (fun t => decide (t.1 = r)) =
            (g r).map (fun e => (r, e.1, e.2)) := by
          rw [List.filter_eq_self]
          intro t ht
          simp only [List.mem_map] at ht
          obtain ⟨e, _, rfl⟩ := ht
          simp
        simp [h2]
      · have h1 : ¬ r < m + 1 := by omega
        have h2 : ((g m).map (fun e => (m, e.1, e.2))).filter (fun t => decide (t.1 = r)) = [] := by
          rw [List.filter_eq_nil_iff]
          intro t ht
          simp only [List.mem_map] at ht
          obtain ⟨e, _, rfl⟩ := ht
          simp
          omega
        simp [hrm, h1, h2]

/-- The stored entries of row `r`, among the triples of a matrix. -/
theorem triples_filter_row (m : SparseMatrix) (r : Nat) (hr : r < m.nrows) :
    m.triples.filter (fun t => decide (t.1 = r)) =
      (m.rowEntries r).map (fun e => (r, e.1, e.2)) := by
  unfold SparseMatrix.triples
  rw [filter_row_flatMap m.rowEntries r m.nrows, if_pos hr]

theorem triples_row_lt (m : SparseMatrix) (t : Nat × Nat × ℚ) (ht : t ∈ m.triples) :
    t.1 < m.nrows := by
  unfold SparseMatrix.triples at ht
  simp only [List.mem_flatMap, List.mem_range, List.mem_map] at ht
  obtain ⟨r, hr, e, _, rfl⟩ := ht
  exact hr

theorem positions_eq_range (rs : List Nat) (h0 : rs.getD 0 0 = 0) (n : Nat)
    (hmono : ∀ r, r < n → rs.getD r 0 ≤ rs.getD (r + 1) 0) (m : Nat) (hm : m ≤ n) :
    (List.range m).flatMap (fun r => List.range' (rs.getD r 0) (rs.getD (r + 1) 0 - rs.getD r 0)) =
      List.range' 0 (rs.getD m 0) := by
  induction m with
  | zero =>
    rw [h0]
    rfl
  | succ m ih =>
    rw [List.range_succ, List.flatMap_append, List.flatMap_singleton, ih (by omega)]
    have h := hmono m (by omega)
    have := List.range'_append 0 (rs.getD m 0) (rs.getD (m + 1) 0 - rs.getD m 0) 1
    simp only [Nat.one_mul, Nat.zero_add] at this
    rw [this]
    congr 1
    omega

/-- The indices of the triples of a well-formed matrix are its array of indices. -/
theorem triples_map_index (m : SparseMatrix) (hwf : m.WellFormed) :
    m.triples.map (fun t => t.2.1) = m.indices := by
  unfold SparseMatrix.triples SparseMatrix.rowEntries
  rw [List.map_flatMap]
  simp only [List.map_map]
  have h1 : (List.range m.nrows).flatMap
      (fun r => List.map ((fun t : Nat × Nat × ℚ => t.2.1) ∘ (fun e : Nat × ℚ => (r, e.1, e.2)) ∘
        fun p => (m.indices.getD p 0, m.coefficients.getD p 0))
        (List.range' (m.rowStart.getD r 0) (m.rowStart.getD (r + 1) 0 - m.rowStart.getD r 0))) =
      ((List.range m.nrows).flatMap
        (fun r => List.range' (m.rowStart.getD r 0)
          (m.rowStart.getD (r + 1) 0 - m.rowStart.getD r 0))).map
        (fun p => m.indices.getD p 0) := by
    rw [List.map_flatMap]
    rfl
  rw [h1, positions_eq_range m.rowStart hwf.rowStart_zero m.nrows hwf.rowStart_mono m.nrows
    (le_refl _), hwf.rowStart_last]
  apply List.ext_getElem
  · simp
  · intro k h1 h2
    simp only [List.getElem_map, List.getElem_range', Nat.one_mul, Nat.zero_add]
    exact List.getD_eq_getElem _ _ h2

theorem bucket_length_eq_count (ts : List (Nat × Nat × ℚ)) (j : Nat) :
    (bucket ts j).length = (ts.map (fun t => t.2.1)).count j := by
  induction ts with
  | nil => rfl
  | cons t ts ih =>
    unfold bucket at ih ⊢
    rw [List.filter_cons, List.map_cons, List.count_cons]
    by_cases h : t.2.1 = j
    · simp [h, ih]
    · simp [h, ih]

theorem triples_index_lt (m : SparseMatrix) (hwf : m.WellFormed) (t : Nat × Nat × ℚ)
    (ht : t ∈ m.triples) : t.2.1 < m.ncols := by
  have hmem : t.2.1 ∈ m.triples.map (fun t => t.2.1) := List.mem_map_of_mem _ ht
  rw [triples_map_index m hwf] at hmem
  obtain ⟨p, hp, hpe⟩ := List.getElem_of_mem hmem
  have := hwf.index_lt p hp
  rw [List.getD_eq_getElem _ _ hp, hpe] at this
  exact this

theorem triples_length (m : SparseMatrix) (hwf : m.WellFormed) :
    m.triples.length = m.indices.length := by
  rw [← triples_map_index m hwf, List.length_map]

theorem colCounts_getD (m : SparseMatrix) (hwf : m.WellFormed) (j : Nat) (hj : j < m.ncols) :
    m.colCounts.getD j 0 = (bucket m.triples j).length := by
  unfold SparseMatrix.colCounts
  rw [List.getD_eq_getElem _ _ (by simpa using hj), bucket_length_eq_count,
    triples_map_index m hwf]
  simp

theorem rowSizes_getD (m : SparseMatrix) (r : Nat) (hr : r < m.nrows) :
    m.rowSizes.getD r 0 = (m.rowEntries r).length := by
  unfold SparseMatrix.rowSizes SparseMatrix.rowEntries
  rw [List.getD_eq_getElem _ _ (by simpa using hr)]
  simp

theorem colCounts_prefixSum (m : SparseMatrix) (hwf : m.WellFormed) :
    m.coefficients.length = prefixSum m.colCounts m.ncols := by
  rw [prefixSum_eq_length m.colCounts m.triples m.ncols (triples_index_lt m hwf)
    (colCounts_getD m hwf), triples_length m hwf, hwf.coefficients_length]

theorem foldl_put_length (rowStart : List Nat) (ts : List (Nat × Nat × ℚ)) :
    ∀ st : TransposeState,
      (ts.foldl (transpose.put rowStart) st).coefficients.length = st.coefficients.length ∧
        (ts.foldl (transpose.put rowStart) st).indices.length = st.indices.length := by
  induction ts with
  | nil => intro st; exact ⟨rfl, rfl⟩
  | cons t ts ih =>
    intro st
    rw [List.foldl_cons]
    obtain ⟨h1, h2⟩ := ih (transpose.put rowStart st t)
    rw [h1, h2]
    simp [transpose.put]

theorem transpose_coefficients_length (matrix : SparseMatrix) (rowSize : List Nat) :
    (transpose matrix rowSize).coefficients.length = matrix.coefficients.length := by
  simp only [transpose]
  rw [fill_eq_foldl_put, (foldl_put_length _ _ _).1]
  simp

theorem flatMap_congr_range {β : Type} (f g : Nat → List β) (n : Nat)
    (h : ∀ j, j < n → f j = g j) : (List.range n).flatMap f = (List.range n).flatMap g := by
  induction n with
  | zero => rfl
  | succ n ih =>
    rw [List.range_succ, List.flatMap_append, List.flatMap_append, List.flatMap_singleton,
      List.flatMap_singleton, ih (fun j hj => h j (by omega)), h n (by omega)]

/-- The stored entries of the transposed matrix: the entries of the input matrix, column
by column and swapped. -/
theorem transpose_triples (matrix : SparseMatrix) (rowSize : List Nat)
    (hkey : ∀ t ∈ matrix.triples, t.2.1 < matrix.ncols)
    (hsize : ∀ j, j < matrix.ncols → rowSize.getD j 0 = (bucket matrix.triples j).length)
    (hnnz : matrix.coefficients.length = prefixSum rowSize matrix.ncols) :
    (transpose matrix rowSize).triples =
      ((List.range matrix.ncols).flatMap (bucket matrix.triples)).map swapEntry := by
  rw [List.map_flatMap]
  unfold SparseMatrix.triples
  show (List.range matrix.ncols).flatMap _ = _
  apply flatMap_congr_range
  intro j hj
  rw [transpose_rowEntries matrix rowSize hkey hsize hnnz j hj, List.map_map]
  apply List.map_congr_left
  intro t ht
  have hk : t.2.1 = j := by
    unfold bucket SparseMatrix.triples at ht
    simpa using (List.mem_filter.mp ht).2
  simp [swapEntry, hk]

theorem transpose_triples_perm (matrix : SparseMatrix) (rowSize : List Nat)
    (hkey : ∀ t ∈ matrix.triples, t.2.1 < matrix.ncols)
    (hsize : ∀ j, j < matrix.ncols → rowSize.getD j 0 = (bucket matrix.triples j).length)
    (hnnz : matrix.coefficients.length = prefixSum rowSize matrix.ncols) :
    List.Perm (transpose matrix rowSize).triples (matrix.triples.map swapEntry) := by
  rw [transpose_triples matrix rowSize hkey hsize hnnz]
  exact (flatMap_bucket_perm matrix.triples matrix.ncols hkey).map swapEntry

/-- The entries with index `r` of the transposed matrix are, up to their order, the swapped
entries of row `r` of the input matrix. -/
theorem transpose_bucket_perm (matrix : SparseMatrix) (rowSize : List Nat)
    (hkey : ∀ t ∈ matrix.triples, t.2.1 < matrix.ncols)
    (hsize : ∀ j, j < matrix.ncols → rowSize.getD j 0 = (bucket matrix.triples j).length)
    (hnnz : matrix.coefficients.length = prefixSum rowSize matrix.ncols)
    (r : Nat) (hr : r < matrix.nrows) :
    List.Perm (bucket (transpose matrix rowSize).triples r)
      ((matrix.rowEntries r).map (fun e => (e.1, r, e.2))) := by
  have h1 := (transpose_triples_perm matrix rowSize hkey hsize hnnz).filter
    (fun t => decide (t.2.1 = r))
  have h2 : (matrix.triples.map swapEntry).filter (fun t => decide (t.2.1 = r)) =
      (matrix.rowEntries r).map (fun e => (e.1, r, e.2)) := by
    rw [List.filter_map]
    have : ((fun t : Nat × Nat × ℚ => decide (t.2.1 = r)) ∘ swapEntry) =
        (fun t => decide (t.1 = r)) := by
      funext t
      simp [swapEntry]
    rw [this, triples_filter_row matrix r hr, List.map_map]
    rfl
  rw [h2] at h1
  exact h1

theorem rowSizes_prefixSum (m : SparseMatrix) (hwf : m.WellFormed) (j : Nat)
    (hj : j ≤ m.nrows) : prefixSum m.rowSizes j = m.rowStart.getD j 0 := by
  induction j with
  | zero => rw [hwf.rowStart_zero]; rfl
  | succ j ih =>
    have h1 := hwf.rowStart_mono j (by omega)
    rw [prefixSum_succ, ih (by omega), rowSizes_getD m j (by omega)]
    unfold SparseMatrix.rowEntries
    simp only [List.length_map, List.length_range']
    omega

theorem rowStarts_rowSizes (m : SparseMatrix) (hwf : m.WellFormed) :
    transpose.rowStarts m.rowSizes m.nrows = m.rowStart := by
  obtain ⟨hlen, hget⟩ := rowStarts_spec m.rowSizes m.nrows
  apply List.ext_getElem
  · rw [hlen, hwf.rowStart_length]
  · intro k h1 h2
    have hk : k ≤ m.nrows := by omega
    have h := hget k hk
    rw [rowSizes_prefixSum m hwf k hk, List.getD_eq_getElem _ _ h1,
      List.getD_eq_getElem _ _ h2] at h
    exact h

/-- C10: for every well-formed CSR matrix `A`, transposing `A` with its per-column entry
counts and transposing the result with the per-row sizes of `A` gives a matrix with the
dimensions and the `rowStart` of `A` whose every row holds the same (column index,
coefficient) entries as the row of `A`, up to their order within the row (each row comes
back sorted by column index). -/
theorem transpose_transpose (A : SparseMatrix) (hwf : A.WellFormed) :
    (transpose (transpose A A.colCounts) A.rowSizes).nrows = A.nrows ∧
    (transpose (transpose A A.colCounts) A.rowSizes).ncols = A.ncols ∧
    (transpose (transpose A A.colCounts) A.rowSizes).rowStart = A.rowStart ∧
    ∀ r, r < A.nrows →
      List.Perm ((transpose (transpose A A.colCounts) A.rowSizes).rowEntries r)
        (A.rowEntries r) := by
  have hkeyA := triples_index_lt A hwf
  have hsizeA := colCounts_getD A hwf
  have hnnzA := colCounts_prefixSum A hwf
  have permT := transpose_triples_perm A A.colCounts hkeyA hsizeA hnnzA
  have hkeyT : ∀ t ∈ (transpose A A.colCounts).triples,
      t.2.1 < (transpose A A.colCounts).ncols := by
    intro t ht
    have hmem := permT.mem_iff.mp ht
    simp only [List.mem_map] at hmem
    obtain ⟨t2, ht2, rfl⟩ := hmem
    exact triples_row_lt A t2 ht2
  have hsizeT : ∀ r, r < (transpose A A.colCounts).ncols →
      A.rowSizes.getD r 0 = (bucket (transpose A A.colCounts).triples r).length := by
    intro r hr
    rw [rowSizes_getD A r hr,
      (transpose_bucket_perm A A.colCounts hkeyA hsizeA hnnzA r hr).length_eq, List.length_map]
  have hnnzT : (transpose A A.colCounts).coefficients.length =
      prefixSum A.rowSizes (transpose A A.colCounts).ncols := by
    rw [transpose_coefficients_length,
      prefixSum_eq_length A.rowSizes (transpose A A.colCounts).triples
        (transpose A A.colCounts).ncols hkeyT hsizeT,
      permT.length_eq, List.length_map, triples_length A hwf, hwf.coefficients_length]
  refine ⟨rfl, rfl, rowStarts_rowSizes A hwf, ?_⟩
  intro r hr
  rw [transpose_rowEntries (transpose A A.colCounts) A.rowSizes hkeyT hsizeT hnnzT r hr]
  have h := (transpose_bucket_perm A A.colCounts hkeyA hsizeA hnnzA r hr).map
    (fun t : Nat × Nat × ℚ => (t.1, t.2.2))
  rw [List.map_map] at h
  have hid : ((fun t : Nat × Nat × ℚ => (t.1, t.2.2)) ∘ fun e : Nat × ℚ => (e.1, r, e.2)) =
      id := by
    funext e
    rfl
  rw [hid, List.map_id] at h
  exact h

/-- C10 witness: the 2x3 matrix `matE`, whose rows are not sorted by column index. -/
theorem transpose_transpose_witness :
    matE.WellFormed ∧
    (transpose (transpose matE matE.colCounts) matE.rowSizes).nrows = matE.nrows ∧
    (transpose (transpose matE matE.colCounts) matE.rowSizes).ncols = matE.ncols ∧
    (transpose (transpose matE matE.colCounts) matE.rowSizes).rowStart = matE.rowStart ∧
    ∀ r, r < matE.nrows →
      List.Perm ((transpose (transpose matE matE.colCounts) matE.rowSizes).rowEntries r)
        (matE.rowEntries r) :=
  have hwf : matE.WellFormed :=
    ⟨by decide, by decide, by decide, by decide, by decide, by decide⟩
  ⟨hwf, transpose_transpose matE hwf⟩

/-- The round trip does not give back the storage order of a row: the rows of `matE` come
back sorted by column index. -/
theorem transpose_transpose_sorts_rows :
    transpose (transpose matE matE.colCounts) matE.rowSizes =
      { nrows := 2, ncols := 3, rowStart := [0, 2, 5], indices := [0, 2, 0, 1, 2],
        coefficients := [7, 5, 4, 3, -1] } := by
  decide!

/-! ## The transposed matrix is well formed -/

/-- The indices of the triples of a matrix are its array of indices, as soon as `rowStart`
starts at 0, is non-decreasing and ends at the number of stored entries. -/
theorem triples_map_index_of (m : SparseMatrix) (h0 : m.rowStart.getD 0 0 = 0)
    (hmono : ∀ r, r < m.nrows → m.rowStart.getD r 0 ≤ m.rowStart.getD (r + 1) 0)
    (hlast : m.rowStart.getD m.nrows 0 = m.indices.length) :
    m.triples.map (fun t => t.2.1) = m.indices := by
  unfold SparseMatrix.triples SparseMatrix.rowEntries
  rw [List.map_flatMap]
  simp only [List.map_map]
  have h1 : (List.range m.nrows).flatMap
      (fun r => List.map ((fun t : Nat × Nat × ℚ => t.2.1) ∘ (fun e : Nat × ℚ => (r, e.1, e.2)) ∘
        fun p => (m.indices.getD p 0, m.coefficients.getD p 0))
        (List.range' (m.rowStart.getD r 0) (m.rowStart.getD (r + 1) 0 - m.rowStart.getD r 0))) =
      ((List.range m.nrows).flatMap
        (fun r => List.range' (m.rowStart.getD r 0)
          (m.rowStart.getD (r + 1) 0 - m.rowStart.getD r 0))).map
        (fun p => m.indices.getD p 0) := by
    rw [List.map_flatMap]
    rfl
  rw [h1, positions_eq_range m.rowStart h0 m.nrows hmono m.nrows (le_refl _), hlast]
  apply List.ext_getElem
  · simp
  · intro k h1 h2
    simp only [List.getElem_map, List.getElem_range', Nat.one_mul, Nat.zero_add]
    exact List.getD_eq_getElem _ _ h2

/-- The hypotheses of the lemmas on `transpose`, from the well-formedness of the matrix
and the meaning of `rowSize`. -/
theorem transpose_hyps (M : SparseMatrix) (rowSize : List Nat) (hwf : M.WellFormed)
    (hsize : ∀ j, j < M.ncols → rowSize.getD j 0 = M.indices.count j) :
    (∀ j, j < M.ncols → rowSize.getD j 0 = (bucket M.triples j).length) ∧
      M.coefficients.length = prefixSum rowSize M.ncols := by
  have hsize2 : ∀ j, j < M.ncols → rowSize.getD j 0 = (bucket M.triples j).length := by
    intro j hj
    rw [hsize j hj, bucket_length_eq_count, triples_map_index M hwf]
  refine ⟨hsize2, ?_⟩
  rw [prefixSum_eq_length rowSize M.triples M.ncols (triples_index_lt M hwf) hsize2,
    triples_length M hwf, hwf.coefficients_length]

theorem transpose_indices_length (matrix : SparseMatrix) (rowSize : List Nat) :
    (transpose matrix rowSize).indices.length = matrix.coefficients.length := by
  simp only [transpose]
  rw [fill_eq_foldl_put, (foldl_put_length _ _ _).2]
  simp

/-- The transposed matrix is a well-formed CSR matrix. -/
theorem transpose_isWellFormed (M : SparseMatrix) (rowSize : List Nat) (hwf : M.WellFormed)
    (hsize : ∀ j, j < M.ncols → rowSize.getD j 0 = M.indices.count j) :
    (transpose M rowSize).WellFormed := by
  obtain ⟨hsize2, hnnz⟩ := transpose_hyps M rowSize hwf hsize
  obtain ⟨hlen, hrs⟩ := rowStarts_spec rowSize M.ncols
  have hkey := triples_index_lt M hwf
  have h0 : (transpose M rowSize).rowStart.getD 0 0 = 0 := by
    show (transpose.rowStarts rowSize M.ncols).getD 0 0 = 0
    rw [hrs 0 (Nat.zero_le _)]
    rfl
  have hmono : ∀ r, r < (transpose M rowSize).nrows →
      (transpose M rowSize).rowStart.getD r 0 ≤ (transpose M rowSize).rowStart.getD (r + 1) 0 := by
    intro r hr
    show (transpose.rowStarts rowSize M.ncols).getD r 0 ≤
      (transpose.rowStarts rowSize M.ncols).getD (r + 1) 0
    have hr2 : r < M.ncols := hr
    rw [hrs r (by omega), hrs (r + 1) (by omega)]
    exact prefixSum_mono rowSize r (r + 1) (by omega)
  have hlast : (transpose M rowSize).rowStart.getD (transpose M rowSize).nrows 0 =
      (transpose M rowSize).indices.length := by
    rw [transpose_indices_length]
    show (transpose.rowStarts rowSize M.ncols).getD M.ncols 0 = _
    rw [hrs M.ncols (le_refl _), hnnz]
  refine ⟨hlen, h0, hmono, hlast, ?_, ?_⟩
  · rw [transpose_coefficients_length, transpose_indices_length]
  · intro p hp
    have hmem : (transpose M rowSize).indices.getD p 0 ∈
        (transpose M rowSize).triples.map (fun t => t.2.1) := by
      rw [triples_map_index_of _ h0 hmono hlast, List.getD_eq_getElem _ _ hp]
      exact List.getElem_mem _
    rw [List.mem_map] at hmem
    obtain ⟨t, ht, hte⟩ := hmem
    have hperm := transpose_triples_perm M rowSize hkey hsize2 hnnz
    have ht2 := hperm.mem_iff.mp ht
    rw [List.mem_map] at ht2
    obtain ⟨t2, ht2m, rfl⟩ := ht2
    rw [← hte]
    exact triples_row_lt M t2 ht2m


/-- Every write of the fill loop is in bounds: before the entry `t` is written, its row
`t.2.1` is a position of `offset`, the position `rowStart[row] + offset[row]` is below the
sizes of the arrays, and `offset[row]` is below `rowSize[row]`. -/
theorem put_in_bounds (sizes : List Nat) (n : Nat) (ts : List (Nat × Nat × ℚ))
    (hkey : ∀ t ∈ ts, t.2.1 < n)
    (hsize : ∀ j, j < n → sizes.getD j 0 = (bucket ts j).length)
    (rowStart : List Nat) (hrs : ∀ j, j ≤ n → rowStart.getD j 0 = prefixSum sizes j)
    (pre suf : List (Nat × Nat × ℚ)) (t : Nat × Nat × ℚ) (hts : ts = pre ++ t :: suf)
    (st : TransposeState)
    (hst : st = pre.foldl (transpose.put rowStart)
      { coefficients := List.replicate (prefixSum sizes n) 0
        indices := List.replicate (prefixSum sizes n) 0
        offset := List.replicate n 0 }) :
    t.2.1 < st.offset.length ∧
      rowStart.getD t.2.1 0 + st.offset.getD t.2.1 0 < st.coefficients.length ∧
      rowStart.getD t.2.1 0 + st.offset.getD t.2.1 0 < st.indices.length ∧
      st.offset.getD t.2.1 0 + 1 ≤ sizes.getD t.2.1 0 := by
  have ht : t ∈ ts := by rw [hts]; simp
  have hk := hkey t ht
  obtain ⟨hoff, hil, hcl, hcount, _⟩ :=
    foldl_put_inv sizes n ts hkey hsize rowStart hrs pre (t :: suf) hts
  rw [← hst] at hoff hil hcl hcount
  have hfull : (bucket ts t.2.1).length =
      (bucket pre t.2.1).length + 1 + (bucket suf t.2.1).length := by
    rw [hts, bucket_append, show t :: suf = [t] ++ suf from rfl, bucket_append,
      bucket_singleton_self]
    simp only [List.length_append, List.length_singleton]
    omega
  have h2 := hsize t.2.1 hk
  have h3 := prefixSum_succ sizes t.2.1
  have h4 := prefixSum_mono sizes (t.2.1 + 1) n (by omega)
  rw [hoff, hil, hcl, hcount t.2.1 hk, hrs t.2.1 (le_of_lt hk)]
  refine ⟨hk, ?_, ?_, ?_⟩ <;> omega

/-- C11: for every well-formed CSR matrix `M` and every `rowSize` with `rowSize[j]` the
number of stored entries of `M` with index `j`, `transpose(M, rowSize)` is a well-formed
CSR matrix with the dimensions swapped; its `rowStart` starts at 0, grows by `rowSize[j]`
at row `j` and ends at the number of stored entries; every write of the fill loop is in
bounds (and `offset[row]` stays within `rowSize[row]`); it stores `(j, i, v)` as many
times as `M` stores `(i, j, v)`; and the matrices of `makeMip` are `M` and this
transpose when `M` is assembled from the arrays of the reader. -/
theorem transpose_wellFormed_counts (M : SparseMatrix) (rowSize : List Nat)
    (hwf : M.WellFormed)
    (hsize : ∀ j, j < M.ncols → rowSize.getD j 0 = M.indices.count j) :
    (transpose M rowSize).WellFormed ∧
    (transpose M rowSize).nrows = M.ncols ∧ (transpose M rowSize).ncols = M.nrows ∧
    (transpose M rowSize).rowStart.getD 0 0 = 0 ∧
    (∀ j, j < M.ncols →
      (transpose M rowSize).rowStart.getD (j + 1) 0 =
        (transpose M rowSize).rowStart.getD j 0 + rowSize.getD j 0) ∧
    (transpose M rowSize).rowStart.getD M.ncols 0 = M.coefficients.length ∧
    (∀ (pre suf : List (Nat × Nat × ℚ)) (t : Nat × Nat × ℚ) (st : TransposeState),
      M.triples = pre ++ t :: suf →
      st = pre.foldl (transpose.put (transpose.rowStarts rowSize M.ncols))
        { coefficients := List.replicate M.coefficients.length 0
          indices := List.replicate M.coefficients.length 0
          offset := List.replicate M.ncols 0 } →
      t.2.1 < st.offset.length ∧
        (transpose.rowStarts rowSize M.ncols).getD t.2.1 0 + st.offset.getD t.2.1 0 <
          st.coefficients.length ∧
        (transpose.rowStarts rowSize M.ncols).getD t.2.1 0 + st.offset.getD t.2.1 0 <
          st.indices.length ∧
        st.offset.getD t.2.1 0 + 1 ≤ rowSize.getD t.2.1 0) ∧
    (∀ (i j : Nat) (v : ℚ),
      (transpose M rowSize).triples.count (j, i, v) = M.triples.count (i, j, v)) ∧
    ∀ (rows : Rows) (cols : Cols) (rhs lhs lbs ubs objective : List ℚ) (integer : List Bool),
      rows.length = M.ncols → cols.length = M.nrows →
      (makeMip rows cols M.coefficients M.indices M.rowStart rhs lhs lbs ubs objective integer
        rowSize).constMatrixT = M ∧
      (makeMip rows cols M.coefficients M.indices M.rowStart rhs lhs lbs ubs objective integer
        rowSize).constMatrix = transpose M rowSize := by
  obtain ⟨hsize2, hnnz⟩ := transpose_hyps M rowSize hwf hsize
  obtain ⟨_, hrs⟩ := rowStarts_spec rowSize M.ncols
  have hkey := triples_index_lt M hwf
  have hT := transpose_isWellFormed M rowSize hwf hsize
  refine ⟨hT, rfl, rfl, hT.rowStart_zero, ?_, ?_, ?_, ?_, ?_⟩
  · intro j hj
    show (transpose.rowStarts rowSize M.ncols).getD (j + 1) 0 =
      (transpose.rowStarts rowSize M.ncols).getD j 0 + rowSize.getD j 0
    rw [hrs j (by omega), hrs (j + 1) (by omega), prefixSum_succ]
  · show (transpose.rowStarts rowSize M.ncols).getD M.ncols 0 = _
    rw [hrs M.ncols (le_refl _), hnnz]
  · intro pre suf t st hts hst
    rw [hnnz] at hst
    exact put_in_bounds rowSize M.ncols M.triples hkey hsize2 _ hrs pre suf t hts st hst
  · intro i j v
    unfold List.count
    rw [(transpose_triples_perm M rowSize hkey hsize2 hnnz).countP_eq, List.countP_map]
    congr 1
    funext t
    obtain ⟨t1, t2, t3⟩ := t
    simp only [Function.comp, swapEntry]
    rw [Bool.eq_iff_iff]
    simp only [beq_iff_eq, Prod.mk.injEq]
    tauto
  · intro rows cols rhs lhs lbs ubs objective integer hr hc
    obtain ⟨nr, nc, rs, idx, cf⟩ := M
    simp only at hr hc
    subst hr
    subst hc
    exact ⟨rfl, rfl⟩

/-- C11 witness: the 2x3 matrix `matE` with its per-column entry counts. -/
theorem transpose_wellFormed_counts_witness :
    matE.WellFormed ∧ (transpose matE matE.colCounts).WellFormed ∧
      (transpose matE matE.colCounts).rowStart.getD matE.ncols 0 =
        matE.coefficients.length :=
  have hwf : matE.WellFormed :=
    ⟨by decide, by decide, by decide, by decide, by decide, by decide⟩
  have h := transpose_wellFormed_counts matE matE.colCounts hwf (by decide)
  ⟨hwf, h.1, h.2.2.2.2.2.1⟩


/-! ## Theorems on `CoefDivingSelection::select` -/

/-- The two tests of `select` on the lock counts `d` and `u` of a column move `varToFix`
to the column exactly when `min d u` is below `minNLocks`. -/
theorem select_lower_lower (s : SelectState) (col d u : Nat) :
    select.lower (select.lower s col d (-1)) col u 1 =
      if min d u < s.minNLocks then
        { s with varToFix := (col : Int), minNLocks := min d u,
                 direction := if d ≤ u then -1 else 1 }
      else s := by
  unfold select.lower
  by_cases h1 : d < s.minNLocks
  · by_cases h2 : u < d
    · have hm : min d u = u := Nat.min_eq_right (le_of_lt h2)
      have hn : ¬ d ≤ u := by omega
      simp only [h1, if_true, h2, hm, hn, if_false, show u < s.minNLocks from by omega]
    · have hm : min d u = d := Nat.min_eq_left (by omega)
      have hn : d ≤ u := by omega
      simp only [h1, if_true, h2, hm, hn, if_false]
  · by_cases h2 : u < s.minNLocks
    · have hm : min d u = u := Nat.min_eq_right (by omega)
      have hn : ¬ d ≤ u := by omega
      simp only [h1, if_false, h2, if_true, hm, hn]
    · have hm : ¬ min d u < s.minNLocks := by
        rcases Nat.le_total d u with h | h
        · rw [Nat.min_eq_left h]; exact h1
        · rw [Nat.min_eq_right h]; exact h2
      simp only [h1, if_false, h2, hm]

theorem filter_range_succ (p : Nat → Bool) (k : Nat) :
    ((List.range (k + 1)).filter p).length =
      ((List.range k).filter p).length + if p k then 1 else 0 := by
  rw [List.range_succ, List.filter_append, List.length_append]
  by_cases h : p k = true
  · simp [h]
  · simp [h]

/-- The body of the loop of `select` keeps the invariant. -/
theorem select_step_inv (num : Num) (mip : MIP) (lb ub solution : List ℚ) (k : Nat)
    (s : SelectState) (hinv : SelectInv num mip lb ub solution k s) :
    SelectInv num mip lb ub solution (k + 1) (select.step num mip lb ub solution s k) := by
  obtain ⟨hn, hcase⟩ := hinv
  by_cases hfrac : isFracColumn num lb ub solution k = true
  · -- the column is fractional
    have hfe : num.isFeasEQ (lb.getD k 0) (ub.getD k 0) = false := by
      unfold isFracColumn at hfrac
      simp only [Bool.and_eq_true, Bool.not_eq_true'] at hfrac
      exact hfrac.1
    have hint : num.isIntegral (solution.getD k 0) = false := by
      unfold isFracColumn at hfrac
      simp only [Bool.and_eq_true, Bool.not_eq_true'] at hfrac
      exact hfrac.2
    by_cases hzero : min (mip.downLocks.getD k 0) (mip.upLocks.getD k 0) = 0
    · have hstep : select.step num mip lb ub solution s k = { s with nFrac := s.nFrac + 1 } := by
        unfold select.step
        simp only [hfe, hint, hzero, Bool.false_eq_true, if_false, Bool.not_false, if_true]
      rw [hstep]
      refine ⟨?_, ?_⟩
      · rw [filter_range_succ, hfrac, if_pos rfl, ← hn]
      · rcases hcase with ⟨h1, h2, h3, h4⟩ | ⟨v, hv, h1, h2, h3, h4, h5, h6, h7, h8⟩
        · left
          refine ⟨h1, h2, h3, ?_⟩
          intro c hc hcf hcm
          by_cases hck : c = k
          · subst hck
            exact absurd hzero hcm
          · exact h4 c (by omega) hcf hcm
        · right
          refine ⟨v, by omega, h1, h2, h3, h4, h5, h6, ?_, h8⟩
          intro c hc hcf hcm
          by_cases hck : c = k
          · subst hck
            exact absurd hzero hcm
          · exact h7 c (by omega) hcf hcm
    · have hstep : select.step num mip lb ub solution s k =
          if minLocks mip k < s.minNLocks then
            { s with nFrac := s.nFrac + 1, varToFix := (k : Int), minNLocks := minLocks mip k,
                     direction :=
                       if mip.downLocks.getD k 0 ≤ mip.upLocks.getD k 0 then -1 else 1 }
          else { s with nFrac := s.nFrac + 1 } := by
        unfold select.step
        rw [select_lower_lower]
        simp only [hfe, hint, hzero, Bool.false_eq_true, if_false, Bool.not_false, if_true]
        rfl
      rw [hstep]
      by_cases hlow : minLocks mip k < s.minNLocks
      · rw [if_pos hlow]
        refine ⟨?_, ?_⟩
        · show s.nFrac + 1 = _
          rw [filter_range_succ, hfrac, if_pos rfl, ← hn]
        · right
          rcases hcase with ⟨h1, h2, h3, h4⟩ | ⟨v, hv, h1, h2, h3, h4, h5, h6, h7, h8⟩
          · refine ⟨k, by omega, rfl, hfrac, hzero, rfl, by omega, rfl, ?_, ?_⟩
            · intro c hc hcf hcm
              by_cases hck : c = k
              · subst hck
                exact le_refl _
              · have := h4 c (by omega) hcf hcm
                omega
            · intro c hc hcf hcm
              have := h4 c hc hcf hcm
              omega
          · refine ⟨k, by omega, rfl, hfrac, hzero, rfl, by omega, rfl, ?_, ?_⟩
            · intro c hc hcf hcm
              by_cases hck : c = k
              · subst hck
                exact le_refl _
              · have := h7 c (by omega) hcf hcm
                omega
            · intro c hc hcf hcm
              have := h7 c hc hcf hcm
              omega
      · rw [if_neg hlow]
        refine ⟨?_, ?_⟩
        · show s.nFrac + 1 = _
          rw [filter_range_succ, hfrac, if_pos rfl, ← hn]
        · rcases hcase with ⟨h1, h2, h3, h4⟩ | ⟨v, hv, h1, h2, h3, h4, h5, h6, h7, h8⟩
          · left
            refine ⟨h1, h2, h3, ?_⟩
            intro c hc hcf hcm
            by_cases hck : c = k
            · subst hck
              omega
            · exact h4 c (by omega) hcf hcm
          · right
            refine ⟨v, by omega, h1, h2, h3, h4, h5, h6, ?_, h8⟩
            intro c hc hcf hcm
            by_cases hck : c = k
            · subst hck
              omega
            · exact h7 c (by omega) hcf hcm
  · -- the column is fixed or integral: the state is unchanged
    have hstep : select.step num mip lb ub solution s k = s := by
      unfold select.step
      unfold isFracColumn at hfrac
      by_cases hfe : num.isFeasEQ (lb.getD k 0) (ub.getD k 0) = true
      · simp only [hfe, if_true]
      · have hfe2 : num.isFeasEQ (lb.getD k 0) (ub.getD k 0) = false := by simpa using hfe
        have hint : num.isIntegral (solution.getD k 0) = true := by
          simp only [Bool.and_eq_true, Bool.not_eq_true', not_and, Bool.not_eq_false] at hfrac
          exact hfrac hfe2
        simp only [hfe2, hint, Bool.false_eq_true, if_false, Bool.not_true]
    rw [hstep]
    have hf : isFracColumn num lb ub solution k = false := by simpa using hfrac
    refine ⟨?_, ?_⟩
    · rw [filter_range_succ, hf]
      simpa using hn
    · rcases hcase with ⟨h1, h2, h3, h4⟩ | ⟨v, hv, h1, h2, h3, h4, h5, h6, h7, h8⟩
      · left
        refine ⟨h1, h2, h3, ?_⟩
        intro c hc hcf hcm
        by_cases hck : c = k
        · subst hck
          rw [hf] at hcf
          exact absurd hcf (by decide)
        · exact h4 c (by omega) hcf hcm
      · right
        refine ⟨v, by omega, h1, h2, h3, h4, h5, h6, ?_, h8⟩
        intro c hc hcf hcm
        by_cases hck : c = k
        · subst hck
          rw [hf] at hcf
          exact absurd hcf (by decide)
        · exact h7 c (by omega) hcf hcm

/-- The loop of `select` establishes the invariant at every bound. -/
theorem select_loop_inv (num : Num) (mip : MIP) (lb ub solution : List ℚ) (n : Nat) :
    SelectInv num mip lb ub solution n (select.loop num mip lb ub solution n) := by
  induction n with
  | zero =>
    refine ⟨rfl, Or.inl ⟨rfl, rfl, rfl, ?_⟩⟩
    intro c hc
    omega
  | succ n ih =>
    have : select.loop num mip lb ub solution (n + 1) =
        select.step num mip lb ub solution (select.loop num mip lb ub solution n) n := by
      unfold select.loop
      rw [List.range_succ, List.foldl_append]
      rfl
    rw [this]
    exact select_step_inv num mip lb ub solution n _ ih


theorem isCandidate_iff (num : Num) (mip : MIP) (lb ub solution : List ℚ) (c : Nat) :
    isCandidate num mip lb ub solution c ↔
      c < mip.stats.nbin + mip.stats.nint ∧ isFracColumn num lb ub solution c = true ∧
        minLocks mip c ≠ 0 := by
  unfold isCandidate minLocks
  have : min (mip.downLocks.getD c 0) (mip.upLocks.getD c 0) ≠ 0 ↔
      mip.downLocks.getD c 0 ≠ 0 ∧ mip.upLocks.getD c 0 ≠ 0 := by
    rcases Nat.le_total (mip.downLocks.getD c 0) (mip.upLocks.getD c 0) with h | h
    · rw [Nat.min_eq_left h]
      constructor
      · intro h1
        exact ⟨h1, by omega⟩
      · intro h1
        exact h1.1
    · rw [Nat.min_eq_right h]
      constructor
      · intro h1
        exact ⟨by omega, h1⟩
      · intro h1
        exact h1.2
  rw [this]

/-- C14: `select` returns as `varToFix` the smallest-index column among the candidates
(columns `c < nbin + nint` that are not fixed within the feasibility tolerance, have a
non-integral solution value and have both lock counts nonzero) that minimizes
`min(downLocks[c], upLocks[c])`, and it returns `varToFix = -1` if and only if there is no
candidate. The lock counts are `int` values below `INT_MAX`. -/
theorem select_varToFix (num : Num) (mip : MIP) (lb ub solution : List ℚ)
    (hlocks : ∀ c, c < mip.stats.nbin + mip.stats.nint → minLocks mip c < intMax) :
    ((CoefDivingSelection.select num mip lb ub solution).1 = -1 ↔
      ∀ c, ¬ isCandidate num mip lb ub solution c) ∧
    (∀ v : Nat, (CoefDivingSelection.select num mip lb ub solution).1 = (v : Int) →
      isCandidate num mip lb ub solution v ∧
        (∀ c, isCandidate num mip lb ub solution c → minLocks mip v ≤ minLocks mip c) ∧
        ∀ c, isCandidate num mip lb ub solution c → minLocks mip c = minLocks mip v → v ≤ c) ∧
    ((∃ c, isCandidate num mip lb ub solution c) →
      ∃ v : Nat, (CoefDivingSelection.select num mip lb ub solution).1 = (v : Int)) := by
  obtain ⟨_, hcase⟩ :=
    select_loop_inv num mip lb ub solution (mip.stats.nbin + mip.stats.nint)
  show ((select.loop num mip lb ub solution (mip.stats.nbin + mip.stats.nint)).varToFix = -1 ↔
      ∀ c, ¬ isCandidate num mip lb ub solution c) ∧
    (∀ v : Nat,
      (select.loop num mip lb ub solution (mip.stats.nbin + mip.stats.nint)).varToFix = (v : Int) →
      isCandidate num mip lb ub solution v ∧
        (∀ c, isCandidate num mip lb ub solution c → minLocks mip v ≤ minLocks mip c) ∧
        ∀ c, isCandidate num mip lb ub solution c → minLocks mip c = minLocks mip v → v ≤ c) ∧
    ((∃ c, isCandidate num mip lb ub solution c) →
      ∃ v : Nat,
        (select.loop num mip lb ub solution (mip.stats.nbin + mip.stats.nint)).varToFix =
          (v : Int))
  rcases hcase with ⟨h1, _, _, h4⟩ | ⟨v, hv, h1, h2, h3, _, _, _, h7, h8⟩
  · have hnone : ∀ c, ¬ isCandidate num mip lb ub solution c := by
      intro c hc
      rw [isCandidate_iff] at hc
      have := h4 c hc.1 hc.2.1 hc.2.2
      have := hlocks c hc.1
      omega
    refine ⟨⟨fun _ => hnone, fun _ => h1⟩, ?_, ?_⟩
    · intro w hw
      rw [h1] at hw
      omega
    · rintro ⟨c, hc⟩
      exact absurd hc (hnone c)
  · have hcand : isCandidate num mip lb ub solution v := by
      rw [isCandidate_iff]
      exact ⟨hv, h2, h3⟩
    refine ⟨⟨?_, ?_⟩, ?_, ?_⟩
    · intro hneg
      rw [h1] at hneg
      omega
    · intro hnone
      exact absurd hcand (hnone v)
    · intro w hw
      rw [h1] at hw
      have hwv : v = w := by omega
      subst hwv
      refine ⟨hcand, ?_, ?_⟩
      · intro c hc
        rw [isCandidate_iff] at hc
        exact h7 c hc.1 hc.2.1 hc.2.2
      · intro c hc heq
        rw [isCandidate_iff] at hc
        by_contra hlt
        have := h8 c (by omega) hc.2.1 hc.2.2
        omega
    · intro _
      exact ⟨v, h1⟩

/-- C14 witness: on `mipC` at the vertex `(1/2, 1/2, 1/2)` the candidates are the columns
0 and 2, both with `min(downLocks, upLocks) = 1`, and `select` returns column 0. -/
theorem select_varToFix_witness :
    (∀ c, c < mipC.stats.nbin + mipC.stats.nint → minLocks mipC c < intMax) ∧
    CoefDivingSelection.select specNum mipC [0, 0, 0] [1, 1, 1] [1/2, 1/2, 1/2] = (0, -1, 3) ∧
    ((CoefDivingSelection.select specNum mipC [0, 0, 0] [1, 1, 1] [1/2, 1/2, 1/2]).1 = -1 ↔
      ∀ c, ¬ isCandidate specNum mipC [0, 0, 0] [1, 1, 1] [1/2, 1/2, 1/2] c) :=
  ⟨by decide, by decide!,
    (select_varToFix specNum mipC [0, 0, 0] [1, 1, 1] [1/2, 1/2, 1/2] (by decide)).1⟩

/-- C15: whenever `select` returns a column `varToFix >= 0`, the returned direction is
`-1` if `downLocks[varToFix] <= upLocks[varToFix]` and `+1` otherwise; when it returns
`varToFix = -1` the direction is `0`; and the returned `nFrac` is the number of columns
`c < nbin + nint` that are not fixed and have a non-integral solution value, whatever
their lock counts. -/
theorem select_direction_nFrac (num : Num) (mip : MIP) (lb ub solution : List ℚ) :
    (∀ v : Nat, (CoefDivingSelection.select num mip lb ub solution).1 = (v : Int) →
      (CoefDivingSelection.select num mip lb ub solution).2.1 =
        if mip.downLocks.getD v 0 ≤ mip.upLocks.getD v 0 then -1 else 1) ∧
    ((CoefDivingSelection.select num mip lb ub solution).1 = -1 →
      (CoefDivingSelection.select num mip lb ub solution).2.1 = 0) ∧
    (CoefDivingSelection.select num mip lb ub solution).2.2 =
      ((List.range (mip.stats.nbin + mip.stats.nint)).filter
        (fun c => !num.isFeasEQ (lb.getD c 0) (ub.getD c 0) &&
          !num.isIntegral (solution.getD c 0))).length := by
  obtain ⟨hn, hcase⟩ :=
    select_loop_inv num mip lb ub solution (mip.stats.nbin + mip.stats.nint)
  refine ⟨?_, ?_, hn⟩
  · intro w hw
    change (select.loop num mip lb ub solution (mip.stats.nbin + mip.stats.nint)).varToFix =
      (w : Int) at hw
    show (select.loop num mip lb ub solution (mip.stats.nbin + mip.stats.nint)).direction = _
    rcases hcase with ⟨h1, _, _, _⟩ | ⟨v, _, h1, _, _, _, _, h6, _, _⟩
    · rw [h1] at hw
      omega
    · rw [h1] at hw
      have hwv : v = w := by omega
      subst hwv
      exact h6
  · intro hneg
    change (select.loop num mip lb ub solution (mip.stats.nbin + mip.stats.nint)).varToFix =
      -1 at hneg
    show (select.loop num mip lb ub solution (mip.stats.nbin + mip.stats.nint)).direction = 0
    rcases hcase with ⟨_, h2, _, _⟩ | ⟨v, _, h1, _, _, _, _, _, _, _⟩
    · exact h2
    · rw [h1] at hneg
      omega


/-! ## Theorems on the bound trials of `BoundSolution` -/

/-- C16: in the first pass of `tryOptimisticSolution`, an integer column `col` with
`lb[col] != ub[col]` is fixed to its lower bound (`ub <- lb`) when `obj[col] > 0`, or
`obj[col] = 0` and `upLocks[col] > downLocks[col]`, and its lower bound is not minus
infinity; it is fixed to its upper bound (`lb <- ub`) when `obj[col] < 0`, or
`obj[col] = 0` and `upLocks[col] <= downLocks[col]`, and its upper bound is not infinity.
In both cases `propagate` is then called for the column with its previous bounds as
`oldlb`, `oldub`; the pass returns false when it fails and goes on with the propagated
bounds otherwise. -/
theorem tryOptimistic_firstPass_fixes (num : Num) (propagate : Propagate) (mip : MIP)
    (col : Nat) (rest : List Nat) (b : TrialBounds) (deferred : List Nat)
    (hfree : b.isFree mip col = true) :
    ((mip.objective.getD col 0 > 0 ∨
        (mip.objective.getD col 0 = 0 ∧ mip.upLocks.getD col 0 > mip.downLocks.getD col 0)) →
      num.isMinusInf (b.lb.getD col 0) = false →
      tryOptimisticSolution.firstPass num propagate mip (col :: rest) b deferred =
        if (propagate mip (b.fixToLower col) col (b.lb.getD col 0) (b.ub.getD col 0)).1 then
          tryOptimisticSolution.firstPass num propagate mip rest
            (propagate mip (b.fixToLower col) col (b.lb.getD col 0) (b.ub.getD col 0)).2
            deferred
        else
          (false,
            (propagate mip (b.fixToLower col) col (b.lb.getD col 0) (b.ub.getD col 0)).2,
            deferred)) ∧
    ((mip.objective.getD col 0 < 0 ∨
        (mip.objective.getD col 0 = 0 ∧ mip.upLocks.getD col 0 ≤ mip.downLocks.getD col 0)) →
      num.isInf (b.ub.getD col 0) = false →
      tryOptimisticSolution.firstPass num propagate mip (col :: rest) b deferred =
        if (propagate mip (b.fixToUpper col) col (b.lb.getD col 0) (b.ub.getD col 0)).1 then
          tryOptimisticSolution.firstPass num propagate mip rest
            (propagate mip (b.fixToUpper col) col (b.lb.getD col 0) (b.ub.getD col 0)).2
            deferred
        else
          (false,
            (propagate mip (b.fixToUpper col) col (b.lb.getD col 0) (b.ub.getD col 0)).2,
            deferred)) ∧
    (b.fixToLower col).lb = b.lb ∧ (b.fixToLower col).ub = b.ub.set col (b.lb.getD col 0) ∧
    (b.fixToUpper col).ub = b.ub ∧ (b.fixToUpper col).lb = b.lb.set col (b.ub.getD col 0) := by
  refine ⟨?_, ?_, rfl, rfl, rfl, rfl⟩
  · intro hobj hfin
    have hlow : fixesLow mip col = true := by
      unfold fixesLow
      rcases hobj with h | ⟨h0, h1⟩
      · rw [if_pos h]
      · rw [if_neg (by rw [h0]; exact lt_irrefl _), if_neg (by rw [h0]; exact lt_irrefl _)]
        exact decide_eq_true h1
    have hdef : optimisticDeferred num mip b col = false := by
      unfold optimisticDeferred
      rw [if_pos hlow, hfin]
    have hfix : optimisticFix mip b col = b.fixToLower col := by
      unfold optimisticFix
      rw [if_pos hlow]
    rw [tryOptimisticSolution.firstPass, if_pos hfree, hdef, hfix]
    by_cases hp : (propagate mip (b.fixToLower col) col (b.lb.getD col 0)
        (b.ub.getD col 0)).1 = true
    · simp only [hp, Bool.false_eq_true, if_false, Bool.not_true, if_true]
    · have hp2 : (propagate mip (b.fixToLower col) col (b.lb.getD col 0)
          (b.ub.getD col 0)).1 = false := by simpa using hp
      simp only [hp2, Bool.false_eq_true, if_false, Bool.not_false, if_true]
  · intro hobj hfin
    have hlow : fixesLow mip col = false := by
      unfold fixesLow
      rcases hobj with h | ⟨h0, h1⟩
      · rw [if_neg (not_lt.mpr (le_of_lt h)), if_pos h]
      · rw [if_neg (by rw [h0]; exact lt_irrefl _), if_neg (by rw [h0]; exact lt_irrefl _)]
        exact decide_eq_false (by omega)
    have hdef : optimisticDeferred num mip b col = false := by
      unfold optimisticDeferred
      rw [if_neg (by rw [hlow]; exact Bool.false_ne_true), hfin]
    have hfix : optimisticFix mip b col = b.fixToUpper col := by
      unfold optimisticFix
      rw [if_neg (by rw [hlow]; exact Bool.false_ne_true)]
    rw [tryOptimisticSolution.firstPass, if_pos hfree, hdef, hfix]
    by_cases hp : (propagate mip (b.fixToUpper col) col (b.lb.getD col 0)
        (b.ub.getD col 0)).1 = true
    · simp only [hp, Bool.false_eq_true, if_false, Bool.not_true, if_true]
    · have hp2 : (propagate mip (b.fixToUpper col) col (b.lb.getD col 0)
          (b.ub.getD col 0)).1 = false := by simpa using hp
      simp only [hp2, Bool.false_eq_true, if_false, Bool.not_false, if_true]

/-- C16 witness: column 1 of `mipG` (objective 1, bounds `[0, 3]`) is fixed to its lower
bound and the change is propagated with the old bounds 0 and 3. -/
theorem tryOptimistic_firstPass_fixes_witness :
    TrialBounds.isFree mipG { lb := [-infval, 0], ub := [5, 3], activities := [] } 1 = true ∧
    mipG.objective.getD 1 0 > 0 ∧
    tryOptimisticSolution.firstPass specNum propagateG mipG [1]
        { lb := [-infval, 0], ub := [5, 3], activities := [] } [0] =
      if (propagateG mipG
          (TrialBounds.fixToLower { lb := [-infval, 0], ub := [5, 3], activities := [] } 1) 1
          0 3).1 then
        tryOptimisticSolution.firstPass specNum propagateG mipG []
          (propagateG mipG
            (TrialBounds.fixToLower { lb := [-infval, 0], ub := [5, 3], activities := [] } 1) 1
            0 3).2 [0]
      else
        (false,
          (propagateG mipG
            (TrialBounds.fixToLower { lb := [-infval, 0], ub := [5, 3], activities := [] } 1) 1
            0 3).2, [0]) :=
  ⟨by decide!, by decide!,
    (tryOptimistic_firstPass_fixes specNum propagateG mipG 1 []
      { lb := [-infval, 0], ub := [5, 3], activities := [] } [0] (by decide!)).1
      (Or.inl (by decide!)) (by decide!)⟩


/-- A successful call of a tightening `propagate` keeps a fixed column at its value. -/
theorem propagate_keeps_value (propagate : Propagate) (mip : MIP)
    (htight : TightensOnly propagate mip) (hord : TrueOnlyWhenOrdered propagate mip)
    (b : TrialBounds) (col : Nat) (x y : ℚ) (hres : (propagate mip b col x y).1 = true)
    (c : Nat) (v : ℚ) (hl : b.lb.getD c 0 = v) (hu : b.ub.getD c 0 = v) :
    (propagate mip b col x y).2.lb.getD c 0 = v ∧ (propagate mip b col x y).2.ub.getD c 0 = v := by
  obtain ⟨_, _, h3, h4⟩ := htight b col x y
  have h5 := hord b col x y hres c
  have h6 := h3 c
  have h7 := h4 c
  rw [hl] at h6
  rw [hu] at h7
  exact ⟨le_antisymm (le_trans h5 h7) h6, le_antisymm h7 (le_trans h6 h5)⟩

theorem propagate_keeps_fixed (propagate : Propagate) (mip : MIP)
    (htight : TightensOnly propagate mip) (hord : TrueOnlyWhenOrdered propagate mip)
    (b : TrialBounds) (col : Nat) (x y : ℚ) (hres : (propagate mip b col x y).1 = true)
    (c : Nat) (hfix : b.IsFixed c) : (propagate mip b col x y).2.IsFixed c := by
  obtain ⟨h1, h2⟩ := propagate_keeps_value propagate mip htight hord b col x y hres c
    (b.lb.getD c 0) rfl hfix.symm
  unfold TrialBounds.IsFixed
  rw [h1, h2]

/-- A successful call of a tightening `propagate` keeps the working bounds ordered and
within the original bounds. -/
theorem propagate_within (propagate : Propagate) (mip : MIP)
    (htight : TightensOnly propagate mip) (hord : TrueOnlyWhenOrdered propagate mip)
    (P : Prop) (lb0 ub0 : List ℚ) (b : TrialBounds) (col : Nat) (x y : ℚ)
    (hres : (propagate mip b col x y).1 = true) (hgood : WithinBounds P lb0 ub0 b) :
    WithinBounds P lb0 ub0 (propagate mip b col x y).2 := by
  obtain ⟨h1, h2, h3, h4⟩ := htight b col x y
  obtain ⟨g1, g2, g3⟩ := hgood
  refine ⟨by rw [h1, g1], by rw [h2, g2], ?_⟩
  intro H c
  obtain ⟨k1, _, k3⟩ := g3 H c
  exact ⟨le_trans k1 (h3 c), hord b col x y hres c, le_trans (h4 c) k3⟩

/-- The write of the value `v` at `col` in both bound vectors, or in one of them when the
other already holds `v`, keeps the bounds within the original bounds as long as `v` lies
between the working bounds of the column. -/
theorem set_within (P : Prop) (lb0 ub0 : List ℚ) (b : TrialBounds) (col : Nat) (v : ℚ)
    (lb2 ub2 : List ℚ)
    (hlb : lb2 = b.lb.set col v ∨ (lb2 = b.lb ∧ b.lb.getD col 0 = v))
    (hub : ub2 = b.ub.set col v ∨ (ub2 = b.ub ∧ b.ub.getD col 0 = v))
    (hv : (∀ c, b.lb.getD c 0 ≤ b.ub.getD c 0) → P →
      b.lb.getD col 0 ≤ v ∧ v ≤ b.ub.getD col 0)
    (hcol : col < b.lb.length) (hcol2 : col < b.ub.length)
    (hgood : WithinBounds P lb0 ub0 b) :
    WithinBounds P lb0 ub0 { b with lb := lb2, ub := ub2 } ∧
      TrialBounds.IsFixed { b with lb := lb2, ub := ub2 } col ∧
      (∀ c, c ≠ col → lb2.getD c 0 = b.lb.getD c 0 ∧ ub2.getD c 0 = b.ub.getD c 0) ∧
      lb2.getD col 0 = v ∧ ub2.getD col 0 = v := by
  obtain ⟨g1, g2, g3⟩ := hgood
  have hl : lb2.length = b.lb.length ∧ lb2.getD col 0 = v ∧
      ∀ c, c ≠ col → lb2.getD c 0 = b.lb.getD c 0 := by
    rcases hlb with h | ⟨h, h2⟩
    · rw [h]
      exact ⟨by simp, getD_set_self _ _ _ _ hcol,
        fun c hc => getD_set_of_ne _ _ _ _ _ (Ne.symm hc)⟩
    · rw [h]
      exact ⟨rfl, h2, fun c _ => rfl⟩
  have hu : ub2.length = b.ub.length ∧ ub2.getD col 0 = v ∧
      ∀ c, c ≠ col → ub2.getD c 0 = b.ub.getD c 0 := by
    rcases hub with h | ⟨h, h2⟩
    · rw [h]
      exact ⟨by simp, getD_set_self _ _ _ _ hcol2,
        fun c hc => getD_set_of_ne _ _ _ _ _ (Ne.symm hc)⟩
    · rw [h]
      exact ⟨rfl, h2, fun c _ => rfl⟩
  obtain ⟨hl1, hl2, hl3⟩ := hl
  obtain ⟨hu1, hu2, hu3⟩ := hu
  refine ⟨⟨by rw [← g1]; exact hl1, by rw [← g2]; exact hu1, ?_⟩, ?_,
    fun c hc => ⟨hl3 c hc, hu3 c hc⟩, hl2, hu2⟩
  · intro H c
    have hb := g3 H
    obtain ⟨k1, k2, k3⟩ := hb c
    show lb0.getD c 0 ≤ lb2.getD c 0 ∧ lb2.getD c 0 ≤ ub2.getD c 0 ∧ ub2.getD c 0 ≤ ub0.getD c 0
    by_cases hc : c = col
    · subst hc
      obtain ⟨v1, v2⟩ := hv (fun c => (hb c).2.1) H
      rw [hl2, hu2]
      exact ⟨le_trans k1 v1, le_refl _, le_trans v2 k3⟩
    · rw [hl3 c hc, hu3 c hc]
      exact ⟨k1, k2, k3⟩
  · show lb2.getD col 0 = ub2.getD col 0
    rw [hl2, hu2]


/-- The second loop of `tryUBSolution`, when it ends with true: the bounds stay within the
original ones, fixed columns stay fixed and every column of the loop is fixed. -/
theorem tryUB_secondPass_spec (num : Num) (propagate : Propagate) (mip : MIP)
    (htight : TightensOnly propagate mip) (hord : TrueOnlyWhenOrdered propagate mip)
    (P : Prop)
    (hnum : P → (∀ x, num.isInf x = true → 0 ≤ x) ∧ ∀ x, num.isMinusInf x = true → x ≤ 0)
    (lb0 ub0 : List ℚ) (l : List Nat) :
    ∀ b : TrialBounds, WithinBounds P lb0 ub0 b →
      (∀ c ∈ l, c < lb0.length ∧ c < ub0.length) →
      (tryUBSolution.secondPass num propagate mip l b).1 = true →
      WithinBounds P lb0 ub0 (tryUBSolution.secondPass num propagate mip l b).2 ∧
        (∀ c, b.IsFixed c → (tryUBSolution.secondPass num propagate mip l b).2.IsFixed c) ∧
        ∀ c ∈ l, (tryUBSolution.secondPass num propagate mip l b).2.IsFixed c := by
  induction l with
  | nil =>
    intro b hgood _ _
    exact ⟨hgood, fun c hc => hc, fun c hc => absurd hc (List.not_mem_nil c)⟩
  | cons col rest ih =>
    intro b hgood hl hres
    have hcol := hl col (List.mem_cons_self _ _)
    have hrest : ∀ c ∈ rest, c < lb0.length ∧ c < ub0.length :=
      fun c hc => hl c (List.mem_cons_of_mem _ hc)
    have hc1 : col < b.lb.length := by rw [hgood.1]; exact hcol.1
    have hc2 : col < b.ub.length := by rw [hgood.2.1]; exact hcol.2
    rw [tryUBSolution.secondPass] at hres ⊢
    by_cases h1 : num.isMinusInf (b.lb.getD col 0) = true
    · simp only [h1, Bool.not_true, Bool.false_eq_true, if_false] at hres ⊢
      by_cases hp : (propagate mip
          (if num.isInf (b.ub.getD col 0) = true then b.fixToZero col else b.fixToUpper col) col
          (b.lb.getD col 0) (b.ub.getD col 0)).1 = true
      · simp only [hp, Bool.not_true, Bool.false_eq_true, if_false] at hres ⊢
        have hset : WithinBounds P lb0 ub0
            (if num.isInf (b.ub.getD col 0) = true then b.fixToZero col else b.fixToUpper col) ∧
            TrialBounds.IsFixed
              (if num.isInf (b.ub.getD col 0) = true then b.fixToZero col
                else b.fixToUpper col) col ∧
            ∀ c, c ≠ col → b.IsFixed c →
              TrialBounds.IsFixed
                (if num.isInf (b.ub.getD col 0) = true then b.fixToZero col
                  else b.fixToUpper col) c := by
          by_cases h2 : num.isInf (b.ub.getD col 0) = true
          · rw [if_pos h2]
            obtain ⟨s1, s2, s3, _⟩ := set_within P lb0 ub0 b col 0 (b.lb.set col 0)
              (b.ub.set col 0) (Or.inl rfl) (Or.inl rfl)
              (fun _ hP => ⟨(hnum hP).2 _ h1, (hnum hP).1 _ h2⟩) hc1 hc2 hgood
            refine ⟨s1, s2, ?_⟩
            intro c hc hfix
            show (b.lb.set col 0).getD c 0 = (b.ub.set col 0).getD c 0
            rw [(s3 c hc).1, (s3 c hc).2]
            exact hfix
          · rw [if_neg h2]
            obtain ⟨s1, s2, s3, _⟩ := set_within P lb0 ub0 b col (b.ub.getD col 0)
              (b.lb.set col (b.ub.getD col 0)) b.ub (Or.inl rfl) (Or.inr ⟨rfl, rfl⟩)
              (fun H _ => ⟨H col, le_refl _⟩) hc1 hc2 hgood
            refine ⟨s1, s2, ?_⟩
            intro c hc hfix
            show (b.lb.set col (b.ub.getD col 0)).getD c 0 = b.ub.getD c 0
            rw [(s3 c hc).1]
            exact hfix
        obtain ⟨s1, s2, s3⟩ := hset
        have hgood2 := propagate_within propagate mip htight hord P lb0 ub0 _ col _ _ hp s1
        obtain ⟨r1, r2, r3⟩ := ih _ hgood2 hrest hres
        refine ⟨r1, ?_, ?_⟩
        · intro c hfix
          apply r2
          apply propagate_keeps_fixed propagate mip htight hord _ col _ _ hp
          by_cases hc : c = col
          · rw [hc]; exact s2
          · exact s3 c hc hfix
        · intro c hc
          rcases List.mem_cons.mp hc with hc | hc
          · rw [hc]
            apply r2
            exact propagate_keeps_fixed propagate mip htight hord _ col _ _ hp col s2
          · exact r3 c hc
      · have hp2 : (propagate mip
            (if num.isInf (b.ub.getD col 0) = true then b.fixToZero col else b.fixToUpper col)
            col (b.lb.getD col 0) (b.ub.getD col 0)).1 = false := by simpa using hp
        simp only [hp2, Bool.not_false, if_true] at hres
        exact absurd hres (by decide)
    · have h1f : num.isMinusInf (b.lb.getD col 0) = false := by simpa using h1
      simp only [h1f, Bool.not_false, if_true] at hres ⊢
      obtain ⟨s1, s2, s3, _⟩ := set_within P lb0 ub0 b col (b.lb.getD col 0) b.lb
        (b.ub.set col (b.lb.getD col 0)) (Or.inr ⟨rfl, rfl⟩) (Or.inl rfl)
        (fun H _ => ⟨le_refl _, H col⟩) hc1 hc2 hgood
      obtain ⟨r1, r2, r3⟩ := ih (b.fixToLower col) s1 hrest hres
      refine ⟨r1, ?_, ?_⟩
      · intro c hfix
        apply r2
        by_cases hc : c = col
        · rw [hc]; exact s2
        · show b.lb.getD c 0 = (b.ub.set col (b.lb.getD col 0)).getD c 0
          rw [(s3 c hc).2]
          exact hfix
      · intro c hc
        rcases List.mem_cons.mp hc with hc | hc
        · rw [hc]
          exact r2 col s2
        · exact r3 c hc


/-- The first loop of `tryUBSolution`, when it ends with true: the bounds stay within the
original ones, fixed columns stay fixed, every integer column of the loop is fixed or
deferred, and the deferred columns are those given and columns of the loop. -/
theorem tryUB_firstPass_spec (num : Num) (propagate : Propagate) (mip : MIP)
    (htight : TightensOnly propagate mip) (hord : TrueOnlyWhenOrdered propagate mip)
    (P : Prop) (lb0 ub0 : List ℚ) (l : List Nat) :
    ∀ (b : TrialBounds) (d : List Nat), WithinBounds P lb0 ub0 b →
      (∀ c ∈ l, c < lb0.length ∧ c < ub0.length) →
      (tryUBSolution.firstPass num propagate mip l b d).1 = true →
      WithinBounds P lb0 ub0 (tryUBSolution.firstPass num propagate mip l b d).2.1 ∧
        (∀ c, b.IsFixed c → (tryUBSolution.firstPass num propagate mip l b d).2.1.IsFixed c) ∧
        (∀ c ∈ l, mip.integer.getD c false = true →
          (tryUBSolution.firstPass num propagate mip l b d).2.1.IsFixed c ∨
            c ∈ (tryUBSolution.firstPass num propagate mip l b d).2.2) ∧
        (∀ c ∈ d, c ∈ (tryUBSolution.firstPass num propagate mip l b d).2.2) ∧
        ∀ c ∈ (tryUBSolution.firstPass num propagate mip l b d).2.2, c ∈ d ∨ c ∈ l := by
  induction l with
  | nil =>
    intro b d hgood _ _
    exact ⟨hgood, fun c hc => hc, fun c hc => absurd hc (List.not_mem_nil c), fun c hc => hc,
      fun c hc => Or.inl hc⟩
  | cons col rest ih =>
    intro b d hgood hl hres
    have hcol := hl col (List.mem_cons_self _ _)
    have hrest : ∀ c ∈ rest, c < lb0.length ∧ c < ub0.length :=
      fun c hc => hl c (List.mem_cons_of_mem _ hc)
    have hc1 : col < b.lb.length := by rw [hgood.1]; exact hcol.1
    have hc2 : col < b.ub.length := by rw [hgood.2.1]; exact hcol.2
    rw [tryUBSolution.firstPass] at hres ⊢
    by_cases hfree : b.isFree mip col = true
    · simp only [hfree, if_true] at hres ⊢
      by_cases h1 : num.isMinusInf (b.lb.getD col 0) = true
      · simp only [h1, if_true] at hres ⊢
        obtain ⟨r1, r2, r3, r4, r5⟩ := ih b (d ++ [col]) hgood hrest hres
        refine ⟨r1, r2, ?_, ?_, ?_⟩
        · intro c hc hint
          rcases List.mem_cons.mp hc with hc | hc
          · right
            rw [hc]
            exact r4 col (by simp)
          · exact r3 c hc hint
        · intro c hc
          exact r4 c (List.mem_append_left _ hc)
        · intro c hc
          rcases r5 c hc with h | h
          · rcases List.mem_append.mp h with h | h
            · exact Or.inl h
            · right
              rw [List.mem_singleton.mp h]
              exact List.mem_cons_self _ _
          · exact Or.inr (List.mem_cons_of_mem _ h)
      · have h1f : num.isMinusInf (b.lb.getD col 0) = false := by simpa using h1
        simp only [h1f, Bool.false_eq_true, if_false] at hres ⊢
        by_cases hp : (propagate mip (b.fixToLower col) col ((b.fixToLower col).lb.getD col 0)
            (b.ub.getD col 0)).1 = true
        · simp only [hp, Bool.not_true, Bool.false_eq_true, if_false] at hres ⊢
          obtain ⟨s1, s2, s3, _⟩ := set_within P lb0 ub0 b col (b.lb.getD col 0) b.lb
            (b.ub.set col (b.lb.getD col 0)) (Or.inr ⟨rfl, rfl⟩) (Or.inl rfl)
            (fun H _ => ⟨le_refl _, H col⟩) hc1 hc2 hgood
          have hgood2 := propagate_within propagate mip htight hord P lb0 ub0 (b.fixToLower col)
            col _ _ hp s1
          have hkeep : ∀ c, b.IsFixed c →
              (propagate mip (b.fixToLower col) col ((b.fixToLower col).lb.getD col 0)
                (b.ub.getD col 0)).2.IsFixed c := by
            intro c hfix
            apply propagate_keeps_fixed propagate mip htight hord _ col _ _ hp
            by_cases hc : c = col
            · rw [hc]; exact s2
            · show b.lb.getD c 0 = (b.ub.set col (b.lb.getD col 0)).getD c 0
              rw [(s3 c hc).2]
              exact hfix
          obtain ⟨r1, r2, r3, r4, r5⟩ := ih _ d hgood2 hrest hres
          refine ⟨r1, fun c hfix => r2 c (hkeep c hfix), ?_, r4, ?_⟩
          · intro c hc hint
            rcases List.mem_cons.mp hc with hc | hc
            · left
              rw [hc]
              apply r2
              exact propagate_keeps_fixed propagate mip htight hord _ col _ _ hp col s2
            · exact r3 c hc hint
          · intro c hc
            rcases r5 c hc with h | h
            · exact Or.inl h
            · exact Or.inr (List.mem_cons_of_mem _ h)
        · have hp2 : (propagate mip (b.fixToLower col) col ((b.fixToLower col).lb.getD col 0)
              (b.ub.getD col 0)).1 = false := by simpa using hp
          simp only [hp2, Bool.not_false, if_true] at hres
          exact absurd hres (by decide)
    · have hfree2 : b.isFree mip col = false := by simpa using hfree
      simp only [hfree2, Bool.false_eq_true, if_false] at hres ⊢
      obtain ⟨r1, r2, r3, r4, r5⟩ := ih b d hgood hrest hres
      refine ⟨r1, r2, ?_, r4, ?_⟩
      · intro c hc hint
        rcases List.mem_cons.mp hc with hc | hc
        · left
          rw [hc]
          apply r2
          rw [hc] at hint
          unfold TrialBounds.isFree at hfree2
          rw [hint] at hfree2
          simpa [TrialBounds.IsFixed] using hfree2
        · exact r3 c hc hint
      · intro c hc
        rcases r5 c hc with h | h
        · exact Or.inl h
        · exact Or.inr (List.mem_cons_of_mem _ h)

/-- When `tryUBSolution` returns true, every integer column is fixed and the bounds lie
within the bounds the trial started from. -/
theorem tryUB_spec (num : Num) (propagate : Propagate) (mip : MIP)
    (htight : TightensOnly propagate mip) (hord : TrueOnlyWhenOrdered propagate mip)
    (b : TrialBounds) (hlen : b.lb.length = mip.getNCols) (hlen2 : b.ub.length = mip.getNCols)
    (hres : (tryUBSolution num propagate mip b).1 = true) :
    WithinBounds
        ((∀ c, b.lb.getD c 0 ≤ b.ub.getD c 0) ∧ (∀ x, num.isInf x = true → 0 ≤ x) ∧
          ∀ x, num.isMinusInf x = true → x ≤ 0)
        b.lb b.ub (tryUBSolution num propagate mip b).2 ∧
      ∀ c, c < mip.getNCols → mip.integer.getD c false = true →
        (tryUBSolution num propagate mip b).2.IsFixed c := by
  have hgood : WithinBounds
      ((∀ c, b.lb.getD c 0 ≤ b.ub.getD c 0) ∧ (∀ x, num.isInf x = true → 0 ≤ x) ∧
        ∀ x, num.isMinusInf x = true → x ≤ 0) b.lb b.ub b :=
    ⟨rfl, rfl, fun H c => ⟨le_refl _, H.1 c, le_refl _⟩⟩
  have hrange : ∀ c ∈ List.range mip.getNCols, c < b.lb.length ∧ c < b.ub.length := by
    intro c hc
    rw [hlen, hlen2]
    exact ⟨List.mem_range.mp hc, List.mem_range.mp hc⟩
  unfold tryUBSolution at hres ⊢
  by_cases h1 : (tryUBSolution.firstPass num propagate mip (List.range mip.getNCols) b []).1 = true
  · rw [if_pos h1] at hres ⊢
    obtain ⟨r1, _, r3, _, r5⟩ := tryUB_firstPass_spec num propagate mip htight hord _ b.lb
      b.ub (List.range mip.getNCols) b [] hgood hrange h1
    have hdef : ∀ c ∈ (tryUBSolution.firstPass num propagate mip (List.range mip.getNCols) b
        []).2.2, c < b.lb.length ∧ c < b.ub.length := by
      intro c hc
      rcases r5 c hc with h | h
      · exact absurd h (List.not_mem_nil c)
      · exact hrange c h
    obtain ⟨q1, q2, q3⟩ := tryUB_secondPass_spec num propagate mip htight hord _
      (fun hP => hP.2) b.lb b.ub _ _ r1 hdef hres
    refine ⟨q1, ?_⟩
    intro c hc hint
    rcases r3 c (List.mem_range.mpr hc) hint with h | h
    · exact q2 c h
    · exact q3 c h
  · rw [if_neg h1] at hres
    exact absurd hres Bool.false_ne_true


/-- The second loop of `tryLBSolution`, when it ends with true: the bounds stay within the
original ones, fixed columns stay fixed and every column of the loop is fixed. -/
theorem tryLB_secondPass_spec (num : Num) (propagate : Propagate) (mip : MIP)
    (htight : TightensOnly propagate mip) (hord : TrueOnlyWhenOrdered propagate mip)
    (P : Prop)
    (hnum : P → (∀ x, num.isInf x = true → 0 ≤ x) ∧ ∀ x, num.isMinusInf x = true → x ≤ 0)
    (lb0 ub0 : List ℚ) (l : List Nat) :
    ∀ b : TrialBounds, WithinBounds P lb0 ub0 b →
      (∀ c ∈ l, c < lb0.length ∧ c < ub0.length) →
      (tryLBSolution.secondPass num propagate mip l b).1 = true →
      WithinBounds P lb0 ub0 (tryLBSolution.secondPass num propagate mip l b).2 ∧
        (∀ c, b.IsFixed c → (tryLBSolution.secondPass num propagate mip l b).2.IsFixed c) ∧
        ∀ c ∈ l, (tryLBSolution.secondPass num propagate mip l b).2.IsFixed c := by
  induction l with
  | nil =>
    intro b hgood _ _
    exact ⟨hgood, fun c hc => hc, fun c hc => absurd hc (List.not_mem_nil c)⟩
  | cons col rest ih =>
    intro b hgood hl hres
    have hcol := hl col (List.mem_cons_self _ _)
    have hrest : ∀ c ∈ rest, c < lb0.length ∧ c < ub0.length :=
      fun c hc => hl c (List.mem_cons_of_mem _ hc)
    have hc1 : col < b.lb.length := by rw [hgood.1]; exact hcol.1
    have hc2 : col < b.ub.length := by rw [hgood.2.1]; exact hcol.2
    rw [tryLBSolution.secondPass] at hres ⊢
    by_cases h1 : num.isInf (b.ub.getD col 0) = true
    · simp only [h1, Bool.not_true, Bool.false_eq_true, if_false] at hres ⊢
      by_cases hp : (propagate mip
          (if num.isMinusInf (b.lb.getD col 0) = true then b.fixToZero col
            else b.fixToLower col) col (b.lb.getD col 0) (b.ub.getD col 0)).1 = true
      · simp only [hp, Bool.not_true, Bool.false_eq_true, if_false] at hres ⊢
        have hset : WithinBounds P lb0 ub0
            (if num.isMinusInf (b.lb.getD col 0) = true then b.fixToZero col
              else b.fixToLower col) ∧
            TrialBounds.IsFixed
              (if num.isMinusInf (b.lb.getD col 0) = true then b.fixToZero col
                else b.fixToLower col) col ∧
            ∀ c, c ≠ col → b.IsFixed c →
              TrialBounds.IsFixed
                (if num.isMinusInf (b.lb.getD col 0) = true then b.fixToZero col
                  else b.fixToLower col) c := by
          by_cases h2 : num.isMinusInf (b.lb.getD col 0) = true
          · rw [if_pos h2]
            obtain ⟨s1, s2, s3, _⟩ := set_within P lb0 ub0 b col 0 (b.lb.set col 0)
              (b.ub.set col 0) (Or.inl rfl) (Or.inl rfl)
              (fun _ hP => ⟨(hnum hP).2 _ h2, (hnum hP).1 _ h1⟩) hc1 hc2 hgood
            refine ⟨s1, s2, ?_⟩
            intro c hc hfix
            show (b.lb.set col 0).getD c 0 = (b.ub.set col 0).getD c 0
            rw [(s3 c hc).1, (s3 c hc).2]
            exact hfix
          · rw [if_neg h2]
            obtain ⟨s1, s2, s3, _⟩ := set_within P lb0 ub0 b col (b.lb.getD col 0) b.lb
              (b.ub.set col (b.lb.getD col 0)) (Or.inr ⟨rfl, rfl⟩) (Or.inl rfl)
              (fun H _ => ⟨le_refl _, H col⟩) hc1 hc2 hgood
            refine ⟨s1, s2, ?_⟩
            intro c hc hfix
            show b.lb.getD c 0 = (b.ub.set col (b.lb.getD col 0)).getD c 0
            rw [(s3 c hc).2]
            exact hfix
        obtain ⟨s1, s2, s3⟩ := hset
        have hgood2 := propagate_within propagate mip htight hord P lb0 ub0 _ col _ _ hp s1
        obtain ⟨r1, r2, r3⟩ := ih _ hgood2 hrest hres
        refine ⟨r1, ?_, ?_⟩
        · intro c hfix
          apply r2
          apply propagate_keeps_fixed propagate mip htight hord _ col _ _ hp
          by_cases hc : c = col
          · rw [hc]; exact s2
          · exact s3 c hc hfix
        · intro c hc
          rcases List.mem_cons.mp hc with hc | hc
          · rw [hc]
            apply r2
            exact propagate_keeps_fixed propagate mip htight hord _ col _ _ hp col s2
          · exact r3 c hc
      · have hp2 : (propagate mip
            (if num.isMinusInf (b.lb.getD col 0) = true then b.fixToZero col
              else b.fixToLower col)
            col (b.lb.getD col 0) (b.ub.getD col 0)).1 = false := by simpa using hp
        simp only [hp2, Bool.not_false, if_true] at hres
        exact absurd hres Bool.false_ne_true
    · have h1f : num.isInf (b.ub.getD col 0) = false := by simpa using h1
      simp only [h1f, Bool.not_false, if_true] at hres ⊢
      obtain ⟨s1, s2, s3, _⟩ := set_within P lb0 ub0 b col (b.ub.getD col 0)
        (b.lb.set col (b.ub.getD col 0)) b.ub (Or.inl rfl) (Or.inr ⟨rfl, rfl⟩)
        (fun H _ => ⟨H col, le_refl _⟩) hc1 hc2 hgood
      obtain ⟨r1, r2, r3⟩ := ih (b.fixToUpper col) s1 hrest hres
      refine ⟨r1, ?_, ?_⟩
      · intro c hfix
        apply r2
        by_cases hc : c = col
        · rw [hc]; exact s2
        · show (b.lb.set col (b.ub.getD col 0)).getD c 0 = b.ub.getD c 0
          rw [(s3 c hc).1]
          exact hfix
      · intro c hc
        rcases List.mem_cons.mp hc with hc | hc
        · rw [hc]
          exact r2 col s2
        · exact r3 c hc

/-- The first loop of `tryLBSolution`, when it ends with true: the bounds stay within the
original ones, fixed columns stay fixed, every integer column of the loop is fixed or
deferred, and the deferred columns are those given and columns of the loop. -/
theorem tryLB_firstPass_spec (num : Num) (propagate : Propagate) (mip : MIP)
    (htight : TightensOnly propagate mip) (hord : TrueOnlyWhenOrdered propagate mip)
    (P : Prop) (lb0 ub0 : List ℚ) (l : List Nat) :
    ∀ (b : TrialBounds) (d : List Nat), WithinBounds P lb0 ub0 b →
      (∀ c ∈ l, c < lb0.length ∧ c < ub0.length) →
      (tryLBSolution.firstPass num propagate mip l b d).1 = true →
      WithinBounds P lb0 ub0 (tryLBSolution.firstPass num propagate mip l b d).2.1 ∧
        (∀ c, b.IsFixed c → (tryLBSolution.firstPass num propagate mip l b d).2.1.IsFixed c) ∧
        (∀ c ∈ l, mip.integer.getD c false = true →
          (tryLBSolution.firstPass num propagate mip l b d).2.1.IsFixed c ∨
            c ∈ (tryLBSolution.firstPass num propagate mip l b d).2.2) ∧
        (∀ c ∈ d, c ∈ (tryLBSolution.firstPass num propagate mip l b d).2.2) ∧
        ∀ c ∈ (tryLBSolution.firstPass num propagate mip l b d).2.2, c ∈ d ∨ c ∈ l := by
  induction l with
  | nil =>
    intro b d hgood _ _
    exact ⟨hgood, fun c hc => hc, fun c hc => absurd hc (List.not_mem_nil c), fun c hc => hc,
      fun c hc => Or.inl hc⟩
  | cons col rest ih =>
    intro b d hgood hl hres
    have hcol := hl col (List.mem_cons_self _ _)
    have hrest : ∀ c ∈ rest, c < lb0.length ∧ c < ub0.length :=
      fun c hc => hl c (List.mem_cons_of_mem _ hc)
    have hc1 : col < b.lb.length := by rw [hgood.1]; exact hcol.1
    have hc2 : col < b.ub.length := by rw [hgood.2.1]; exact hcol.2
    rw [tryLBSolution.firstPass] at hres ⊢
    by_cases hfree : b.isFree mip col = true
    · simp only [hfree, if_true] at hres ⊢
      by_cases h1 : num.isInf (b.ub.getD col 0) = true
      · simp only [h1, if_true] at hres ⊢
        obtain ⟨r1, r2, r3, r4, r5⟩ := ih b (d ++ [col]) hgood hrest hres
        refine ⟨r1, r2, ?_, ?_, ?_⟩
        · intro c hc hint
          rcases List.mem_cons.mp hc with hc | hc
          · right
            rw [hc]
            exact r4 col (by simp)
          · exact r3 c hc hint
        · intro c hc
          exact r4 c (List.mem_append_left _ hc)
        · intro c hc
          rcases r5 c hc with h | h
          · rcases List.mem_append.mp h with h | h
            · exact Or.inl h
            · right
              rw [List.mem_singleton.mp h]
              exact List.mem_cons_self _ _
          · exact Or.inr (List.mem_cons_of_mem _ h)
      · have h1f : num.isInf (b.ub.getD col 0) = false := by simpa using h1
        simp only [h1f, Bool.false_eq_true, if_false] at hres ⊢
        by_cases hp : (propagate mip (b.fixToUpper col) col (b.lb.getD col 0)
            ((b.fixToUpper col).ub.getD col 0)).1 = true
        · simp only [hp, Bool.not_true, Bool.false_eq_true, if_false] at hres ⊢
          obtain ⟨s1, s2, s3, _⟩ := set_within P lb0 ub0 b col (b.ub.getD col 0)
            (b.lb.set col (b.ub.getD col 0)) b.ub (Or.inl rfl) (Or.inr ⟨rfl, rfl⟩)
            (fun H _ => ⟨H col, le_refl _⟩) hc1 hc2 hgood
          have hgood2 := propagate_within propagate mip htight hord P lb0 ub0 (b.fixToUpper col)
            col _ _ hp s1
          have hkeep : ∀ c, b.IsFixed c →
              (propagate mip (b.fixToUpper col) col (b.lb.getD col 0)
                ((b.fixToUpper col).ub.getD col 0)).2.IsFixed c := by
            intro c hfix
            apply propagate_keeps_fixed propagate mip htight hord _ col _ _ hp
            by_cases hc : c = col
            · rw [hc]; exact s2
            · show (b.lb.set col (b.ub.getD col 0)).getD c 0 = b.ub.getD c 0
              rw [(s3 c hc).1]
              exact hfix
          obtain ⟨r1, r2, r3, r4, r5⟩ := ih _ d hgood2 hrest hres
          refine ⟨r1, fun c hfix => r2 c (hkeep c hfix), ?_, r4, ?_⟩
          · intro c hc hint
            rcases List.mem_cons.mp hc with hc | hc
            · left
              rw [hc]
              apply r2
              exact propagate_keeps_fixed propagate mip htight hord _ col _ _ hp col s2
            · exact r3 c hc hint
          · intro c hc
            rcases r5 c hc with h | h
            · exact Or.inl h
            · exact Or.inr (List.mem_cons_of_mem _ h)
        · have hp2 : (propagate mip (b.fixToUpper col) col (b.lb.getD col 0)
              ((b.fixToUpper col).ub.getD col 0)).1 = false := by simpa using hp
          simp only [hp2, Bool.not_false, if_true] at hres
          exact absurd hres Bool.false_ne_true
    · have hfree2 : b.isFree mip col = false := by simpa using hfree
      simp only [hfree2, Bool.false_eq_true, if_false] at hres ⊢
      obtain ⟨r1, r2, r3, r4, r5⟩ := ih b d hgood hrest hres
      refine ⟨r1, r2, ?_, r4, ?_⟩
      · intro c hc hint
        rcases List.mem_cons.mp hc with hc | hc
        · left
          rw [hc]
          apply r2
          rw [hc] at hint
          unfold TrialBounds.isFree at hfree2
          rw [hint] at hfree2
          simpa [TrialBounds.IsFixed] using hfree2
        · exact r3 c hc hint
      · intro c hc
        rcases r5 c hc with h | h
        · exact Or.inl h
        · exact Or.inr (List.mem_cons_of_mem _ h)

/-- When `tryLBSolution` returns true, every integer column is fixed and the bounds lie
within the bounds the trial started from. -/
theorem tryLB_spec (num : Num) (propagate : Propagate) (mip : MIP)
    (htight : TightensOnly propagate mip) (hord : TrueOnlyWhenOrdered propagate mip)
    (b : TrialBounds) (hlen : b.lb.length = mip.getNCols) (hlen2 : b.ub.length = mip.getNCols)
    (hres : (tryLBSolution num propagate mip b).1 = true) :
    WithinBounds
        ((∀ c, b.lb.getD c 0 ≤ b.ub.getD c 0) ∧ (∀ x, num.isInf x = true → 0 ≤ x) ∧
          ∀ x, num.isMinusInf x = true → x ≤ 0)
        b.lb b.ub (tryLBSolution num propagate mip b).2 ∧
      ∀ c, c < mip.getNCols → mip.integer.getD c false = true →
        (tryLBSolution num propagate mip b).2.IsFixed c := by
  have hgood : WithinBounds
      ((∀ c, b.lb.getD c 0 ≤ b.ub.getD c 0) ∧ (∀ x, num.isInf x = true → 0 ≤ x) ∧
        ∀ x, num.isMinusInf x = true → x ≤ 0) b.lb b.ub b :=
    ⟨rfl, rfl, fun H c => ⟨le_refl _, H.1 c, le_refl _⟩⟩
  have hrange : ∀ c ∈ List.range mip.getNCols, c < b.lb.length ∧ c < b.ub.length := by
    intro c hc
    rw [hlen, hlen2]
    exact ⟨List.mem_range.mp hc, List.mem_range.mp hc⟩
  unfold tryLBSolution at hres ⊢
  by_cases h1 : (tryLBSolution.firstPass num propagate mip (List.range mip.getNCols) b []).1 = true
  · rw [if_pos h1] at hres ⊢
    obtain ⟨r1, _, r3, _, r5⟩ := tryLB_firstPass_spec num propagate mip htight hord _ b.lb
      b.ub (List.range mip.getNCols) b [] hgood hrange h1
    have hdef : ∀ c ∈ (tryLBSolution.firstPass num propagate mip (List.range mip.getNCols) b
        []).2.2, c < b.lb.length ∧ c < b.ub.length := by
      intro c hc
      rcases r5 c hc with h | h
      · exact absurd h (List.not_mem_nil c)
      · exact hrange c h
    obtain ⟨q1, q2, q3⟩ := tryLB_secondPass_spec num propagate mip htight hord _
      (fun hP => hP.2) b.lb b.ub _ _ r1 hdef hres
    refine ⟨q1, ?_⟩
    intro c hc hint
    rcases r3 c (List.mem_range.mpr hc) hint with h | h
    · exact q2 c h
    · exact q3 c h
  · rw [if_neg h1] at hres
    exact absurd hres Bool.false_ne_true


theorem ordered_spec (b : TrialBounds) (h : b.ordered = true) (c : Nat) :
    b.lb.getD c 0 ≤ b.ub.getD c 0 := by
  unfold TrialBounds.ordered at h
  rw [List.all_eq_true] at h
  by_cases hc : c < max b.lb.length b.ub.length
  · exact of_decide_eq_true (h c (List.mem_range.mpr hc))
  · have h1 : b.lb.length ≤ c := le_trans (le_max_left _ _) (not_lt.mp hc)
    have h2 : b.ub.length ≤ c := le_trans (le_max_right _ _) (not_lt.mp hc)
    rw [List.getD_eq_default _ _ h1, List.getD_eq_default _ _ h2]

/-- The kernel `propagateG` only tightens bounds. -/
theorem propagateG_tightensOnly (mip : MIP) : TightensOnly propagateG mip := by
  intro b col oldlb oldub
  show (tightenG b col).lb.length = b.lb.length ∧ (tightenG b col).ub.length = b.ub.length ∧
    (∀ c, b.lb.getD c 0 ≤ (tightenG b col).lb.getD c 0) ∧
    ∀ c, (tightenG b col).ub.getD c 0 ≤ b.ub.getD c 0
  unfold tightenG
  by_cases hcol : col = 1
  · rw [if_pos hcol]
    refine ⟨by simp, rfl, ?_, fun c => le_refl _⟩
    intro c
    show b.lb.getD c 0 ≤ (b.lb.set 0 (max (b.lb.getD 0 0) (b.lb.getD 1 0 + 2))).getD c 0
    by_cases hc : 0 = c
    · subst hc
      by_cases hlen : 0 < b.lb.length
      · rw [getD_set_self _ _ _ _ hlen]
        exact le_max_left _ _
      · rw [List.set_eq_of_length_le (by omega)]
    · rw [getD_set_of_ne _ _ _ _ _ hc]
  · rw [if_neg hcol]
    exact ⟨rfl, rfl, fun c => le_refl _, fun c => le_refl _⟩

/-- The kernel `propagateG` returns true only when the bounds it leaves are ordered. -/
theorem propagateG_ordered (mip : MIP) : TrueOnlyWhenOrdered propagateG mip := by
  intro b col oldlb oldub h c
  exact ordered_spec (tightenG b col) h c

theorem specNum_isInf_nonneg (x : ℚ) (h : specNum.isInf x = true) : 0 ≤ x := by
  have h1 : x ≥ infval := of_decide_eq_true h
  have h2 : (0 : ℚ) ≤ infval := by unfold infval; positivity
  exact le_trans h2 h1

theorem specNum_isMinusInf_nonpos (x : ℚ) (h : specNum.isMinusInf x = true) : x ≤ 0 := by
  have h1 : x ≤ -infval := of_decide_eq_true h
  have h2 : (0 : ℚ) ≤ infval := by unfold infval; positivity
  linarith

/-- C18: assuming that `propagate` only tightens bounds and returns true only when
`lb <= ub` holds for all columns, whenever the LB trial (`i = 0`, `tryLBSolution`) or the
UB trial (`i = 1`, `tryUBSolution`) returns true, every integer column `c` has
`locallb[c] = localub[c]`; for `ncont = 0` the vector `lower_bounds[i]` is the one added to
the pool, it has one entry per column, and it lies within the original bounds when these
are ordered and the infinity tests of the numerics hold only for values of the right sign.
With every column integer it is a complete assignment. -/
theorem tryUB_tryLB_fix_every_integer (num : Num) (propagate : Propagate) (mip : MIP)
    (lb ub : List ℚ) (activities : List Activity)
    (htight : TightensOnly propagate mip) (hord : TrueOnlyWhenOrdered propagate mip)
    (hlen : lb.length = mip.getNCols) (hlen2 : ub.length = mip.getNCols)
    (i : Nat) (hi : i = 0 ∨ i = 1)
    (hres : (BoundSolution.trial num propagate mip lb ub activities i).1 = true) :
    (∀ c, c < mip.getNCols → mip.integer.getD c false = true →
      (BoundSolution.trial num propagate mip lb ub activities i).2.lb.getD c 0 =
        (BoundSolution.trial num propagate mip lb ub activities i).2.ub.getD c 0) ∧
    (mip.stats.ncont = 0 → ∀ (oracle : SolverOracle) (t : PoolTrace),
      (BoundSolution.harvest num propagate oracle mip lb ub activities t i).added =
        t.added ++
          [((BoundSolution.trial num propagate mip lb ub activities i).2.lb,
            BoundSolution.trialCost mip.objective
              (BoundSolution.trial num propagate mip lb ub activities i).2.lb
              mip.getNCols i)]) ∧
    (BoundSolution.trial num propagate mip lb ub activities i).2.lb.length = mip.getNCols ∧
    ((∀ c, lb.getD c 0 ≤ ub.getD c 0) → (∀ x, num.isInf x = true → 0 ≤ x) →
      (∀ x, num.isMinusInf x = true → x ≤ 0) → ∀ c,
      lb.getD c 0 ≤ (BoundSolution.trial num propagate mip lb ub activities i).2.lb.getD c 0 ∧
        (BoundSolution.trial num propagate mip lb ub activities i).2.lb.getD c 0 ≤
          ub.getD c 0) := by
  have key : WithinBounds
        ((∀ c, lb.getD c 0 ≤ ub.getD c 0) ∧ (∀ x, num.isInf x = true → 0 ≤ x) ∧
          ∀ x, num.isMinusInf x = true → x ≤ 0)
        lb ub (BoundSolution.trial num propagate mip lb ub activities i).2 ∧
      ∀ c, c < mip.getNCols → mip.integer.getD c false = true →
        (BoundSolution.trial num propagate mip lb ub activities i).2.IsFixed c := by
    rcases hi with hi | hi
    · subst hi
      exact tryLB_spec num propagate mip htight hord
        { lb := lb, ub := ub, activities := activities } hlen hlen2 hres
    · subst hi
      exact tryUB_spec num propagate mip htight hord
        { lb := lb, ub := ub, activities := activities } hlen hlen2 hres
  obtain ⟨⟨k1, _, k3⟩, k4⟩ := key
  refine ⟨k4, ?_, by rw [k1, hlen], ?_⟩
  · intro hncont oracle t
    unfold BoundSolution.harvest
    rw [hres]
    simp only [Bool.not_true, Bool.false_eq_true, if_false, hncont, if_true]
  · intro H hinf hminf c
    obtain ⟨a1, a2, a3⟩ := k3 ⟨H, hinf, hminf⟩ c
    exact ⟨a1, le_trans a2 a3⟩

theorem boundsG_ordered : ∀ c, ([-infval, 0] : List ℚ).getD c 0 ≤ ([5, 3] : List ℚ).getD c 0 := by
  intro c
  match c with
  | 0 => decide!
  | 1 => decide!
  | n + 2 => exact le_refl _

/-- C18 witness: the UB trial on `mipG` with the bounds `x0 <= 5`, `0 <= x1 <= 3` and the
kernel `propagateG` returns true; both columns end fixed, within their original bounds. -/
theorem tryUB_tryLB_fix_every_integer_witness :
    TightensOnly propagateG mipG ∧ TrueOnlyWhenOrdered propagateG mipG ∧
    (BoundSolution.trial specNum propagateG mipG [-infval, 0] [5, 3] [] 1).1 = true ∧
    (∀ c, c < mipG.getNCols → mipG.integer.getD c false = true →
      (BoundSolution.trial specNum propagateG mipG [-infval, 0] [5, 3] [] 1).2.lb.getD c 0 =
        (BoundSolution.trial specNum propagateG mipG [-infval, 0] [5, 3] [] 1).2.ub.getD c 0) ∧
    ∀ c,
      ([-infval, 0] : List ℚ).getD c 0 ≤
          (BoundSolution.trial specNum propagateG mipG [-infval, 0] [5, 3] [] 1).2.lb.getD c 0 ∧
        (BoundSolution.trial specNum propagateG mipG [-infval, 0] [5, 3] [] 1).2.lb.getD c 0 ≤
          ([5, 3] : List ℚ).getD c 0 :=
  ⟨propagateG_tightensOnly mipG, propagateG_ordered mipG, by decide!,
    (tryUB_tryLB_fix_every_integer specNum propagateG mipG [-infval, 0] [5, 3] []
      (propagateG_tightensOnly mipG) (propagateG_ordered mipG) rfl rfl 1 (Or.inr rfl)
      (by decide!)).1,
    (tryUB_tryLB_fix_every_integer specNum propagateG mipG [-infval, 0] [5, 3] []
      (propagateG_tightensOnly mipG) (propagateG_ordered mipG) rfl rfl 1 (Or.inr rfl)
      (by decide!)).2.2.2 boundsG_ordered specNum_isInf_nonneg specNum_isMinusInf_nonpos⟩

/-- The second loop of `tryUBSolution` over `pre ++ l` is the loop over `pre` followed,
when it has not returned false, by the loop over `l`. -/
theorem tryUB_secondPass_append (num : Num) (propagate : Propagate) (mip : MIP)
    (pre l : List Nat) :
    ∀ b : TrialBounds,
      tryUBSolution.secondPass num propagate mip (pre ++ l) b =
        if (tryUBSolution.secondPass num propagate mip pre b).1 then
          tryUBSolution.secondPass num propagate mip l
            (tryUBSolution.secondPass num propagate mip pre b).2
        else (false, (tryUBSolution.secondPass num propagate mip pre b).2) := by
  induction pre with
  | nil =>
    intro b
    rw [List.nil_append, tryUBSolution.secondPass, if_pos rfl]
  | cons col rest ih =>
    intro b
    rw [List.cons_append, tryUBSolution.secondPass, tryUBSolution.secondPass]
    by_cases h1 : num.isMinusInf (b.lb.getD col 0) = true
    · simp only [h1, Bool.not_true, Bool.false_eq_true, if_false]
      by_cases hp : (propagate mip
          (if num.isInf (b.ub.getD col 0) = true then b.fixToZero col else b.fixToUpper col) col
          (b.lb.getD col 0) (b.ub.getD col 0)).1 = true
      · simp only [hp, Bool.not_true, Bool.false_eq_true, if_false]
        exact ih _
      · have hp2 : (propagate mip
            (if num.isInf (b.ub.getD col 0) = true then b.fixToZero col else b.fixToUpper col)
            col (b.lb.getD col 0) (b.ub.getD col 0)).1 = false := by simpa using hp
        simp only [hp2, Bool.not_false, if_true, Bool.false_eq_true, if_false]
    · have h1f : num.isMinusInf (b.lb.getD col 0) = false := by simpa using h1
      simp only [h1f, Bool.not_false, if_true]
      exact ih _

theorem getD_set_same_value {α : Type} (l : List α) (i j : Nat) (a d : α)
    (h : i = j → l.getD j d = a) : (l.set i a).getD j d = l.getD j d := by
  by_cases hij : i = j
  · subst hij
    by_cases hlen : i < l.length
    · rw [getD_set_self _ _ _ _ hlen, h rfl]
    · rw [List.set_eq_of_length_le (by omega)]
  · exact getD_set_of_ne _ _ _ _ _ hij

/-- The second loop of `tryUBSolution`, when it ends with true, leaves a column that is
fixed at 0 fixed at 0. -/
theorem tryUB_secondPass_keeps_zero (num : Num) (propagate : Propagate) (mip : MIP)
    (htight : TightensOnly propagate mip) (hord : TrueOnlyWhenOrdered propagate mip)
    (hzero : num.isMinusInf 0 = false) (c : Nat) (l : List Nat) :
    ∀ b : TrialBounds, (tryUBSolution.secondPass num propagate mip l b).1 = true →
      b.lb.getD c 0 = 0 → b.ub.getD c 0 = 0 →
      (tryUBSolution.secondPass num propagate mip l b).2.lb.getD c 0 = 0 ∧
        (tryUBSolution.secondPass num propagate mip l b).2.ub.getD c 0 = 0 := by
  induction l with
  | nil =>
    intro b _ h1 h2
    exact ⟨h1, h2⟩
  | cons col rest ih =>
    intro b hres hl hu
    rw [tryUBSolution.secondPass] at hres ⊢
    by_cases h1 : num.isMinusInf (b.lb.getD col 0) = true
    · have hne : col ≠ c := by
        intro hcc
        rw [hcc, hl, hzero] at h1
        exact absurd h1 Bool.false_ne_true
      simp only [h1, Bool.not_true, Bool.false_eq_true, if_false] at hres ⊢
      by_cases hp : (propagate mip
          (if num.isInf (b.ub.getD col 0) = true then b.fixToZero col else b.fixToUpper col) col
          (b.lb.getD col 0) (b.ub.getD col 0)).1 = true
      · simp only [hp, Bool.not_true, Bool.false_eq_true, if_false] at hres ⊢
        have hz : (if num.isInf (b.ub.getD col 0) = true then b.fixToZero col
              else b.fixToUpper col).lb.getD c 0 = 0 ∧
            (if num.isInf (b.ub.getD col 0) = true then b.fixToZero col
              else b.fixToUpper col).ub.getD c 0 = 0 := by
          by_cases h2 : num.isInf (b.ub.getD col 0) = true
          · rw [if_pos h2]
            show (b.lb.set col 0).getD c 0 = 0 ∧ (b.ub.set col 0).getD c 0 = 0
            rw [getD_set_of_ne _ _ _ _ _ hne, getD_set_of_ne _ _ _ _ _ hne]
            exact ⟨hl, hu⟩
          · rw [if_neg h2]
            show (b.lb.set col (b.ub.getD col 0)).getD c 0 = 0 ∧ b.ub.getD c 0 = 0
            rw [getD_set_of_ne _ _ _ _ _ hne]
            exact ⟨hl, hu⟩
        obtain ⟨k1, k2⟩ := propagate_keeps_value propagate mip htight hord _ col _ _ hp c 0
          hz.1 hz.2
        exact ih _ hres k1 k2
      · have hp2 : (propagate mip
            (if num.isInf (b.ub.getD col 0) = true then b.fixToZero col else b.fixToUpper col)
            col (b.lb.getD col 0) (b.ub.getD col 0)).1 = false := by simpa using hp
        simp only [hp2, Bool.not_false, if_true] at hres
        exact absurd hres Bool.false_ne_true
    · have h1f : num.isMinusInf (b.lb.getD col 0) = false := by simpa using h1
      simp only [h1f, Bool.not_false, if_true] at hres ⊢
      apply ih (b.fixToLower col) hres hl
      show (b.ub.set col (b.lb.getD col 0)).getD c 0 = 0
      rw [getD_set_same_value _ _ _ _ _ (by intro hcc; rw [hcc, hl, hu]), hu]

/-- C17: when the second pass of `tryUBSolution` reaches a deferred column `c` whose
bounds are still minus infinity and plus infinity, it sets `lb[c] = ub[c] = 0` and calls
`propagate` for `c` with the old infinite bounds; the trial returns false when that call
fails and goes on with the remaining deferred columns otherwise. If the trial returns
true, the column ends fixed at 0, for a `propagate` that only tightens bounds and returns
true only when `lb <= ub` holds for all columns, and numerics for which 0 is not minus
infinity. -/
theorem tryUB_fixes_free_column_at_zero (num : Num) (propagate : Propagate) (mip : MIP)
    (b : TrialBounds) (pre rest : List Nat) (c : Nat)
    (hfirst : (tryUBSolution.firstPass num propagate mip (List.range mip.getNCols) b []).1 =
      true)
    (hdef : (tryUBSolution.firstPass num propagate mip (List.range mip.getNCols) b []).2.2 =
      pre ++ c :: rest)
    (hpre : (tryUBSolution.secondPass num propagate mip pre
      (tryUBSolution.firstPass num propagate mip (List.range mip.getNCols) b []).2.1).1 = true)
    (hlb : num.isMinusInf ((tryUBSolution.reached num propagate mip b pre).lb.getD c 0) = true)
    (hub : num.isInf ((tryUBSolution.reached num propagate mip b pre).ub.getD c 0) = true)
    (hc : c < (tryUBSolution.reached num propagate mip b pre).lb.length)
    (hc2 : c < (tryUBSolution.reached num propagate mip b pre).ub.length) :
    tryUBSolution num propagate mip b =
      (if (propagate mip ((tryUBSolution.reached num propagate mip b pre).fixToZero c) c
          ((tryUBSolution.reached num propagate mip b pre).lb.getD c 0)
          ((tryUBSolution.reached num propagate mip b pre).ub.getD c 0)).1 then
        tryUBSolution.secondPass num propagate mip rest
          (propagate mip ((tryUBSolution.reached num propagate mip b pre).fixToZero c) c
            ((tryUBSolution.reached num propagate mip b pre).lb.getD c 0)
            ((tryUBSolution.reached num propagate mip b pre).ub.getD c 0)).2
      else
        (false,
          (propagate mip ((tryUBSolution.reached num propagate mip b pre).fixToZero c) c
            ((tryUBSolution.reached num propagate mip b pre).lb.getD c 0)
            ((tryUBSolution.reached num propagate mip b pre).ub.getD c 0)).2)) ∧
    ((tryUBSolution.reached num propagate mip b pre).fixToZero c).lb.getD c 0 = 0 ∧
    ((tryUBSolution.reached num propagate mip b pre).fixToZero c).ub.getD c 0 = 0 ∧
    (TightensOnly propagate mip → TrueOnlyWhenOrdered propagate mip →
      num.isMinusInf 0 = false → (tryUBSolution num propagate mip b).1 = true →
      (tryUBSolution num propagate mip b).2.lb.getD c 0 = 0 ∧
        (tryUBSolution num propagate mip b).2.ub.getD c 0 = 0) := by
  have hz1 : ((tryUBSolution.reached num propagate mip b pre).fixToZero c).lb.getD c 0 = 0 :=
    getD_set_self _ _ _ _ hc
  have hz2 : ((tryUBSolution.reached num propagate mip b pre).fixToZero c).ub.getD c 0 = 0 :=
    getD_set_self _ _ _ _ hc2
  have hrun : tryUBSolution num propagate mip b =
      (if (propagate mip ((tryUBSolution.reached num propagate mip b pre).fixToZero c) c
          ((tryUBSolution.reached num propagate mip b pre).lb.getD c 0)
          ((tryUBSolution.reached num propagate mip b pre).ub.getD c 0)).1 then
        tryUBSolution.secondPass num propagate mip rest
          (propagate mip ((tryUBSolution.reached num propagate mip b pre).fixToZero c) c
            ((tryUBSolution.reached num propagate mip b pre).lb.getD c 0)
            ((tryUBSolution.reached num propagate mip b pre).ub.getD c 0)).2
      else
        (false,
          (propagate mip ((tryUBSolution.reached num propagate mip b pre).fixToZero c) c
            ((tryUBSolution.reached num propagate mip b pre).lb.getD c 0)
            ((tryUBSolution.reached num propagate mip b pre).ub.getD c 0)).2)) := by
    unfold tryUBSolution
    rw [if_pos hfirst, hdef, tryUB_secondPass_append, if_pos hpre]
    show tryUBSolution.secondPass num propagate mip (c :: rest)
      (tryUBSolution.reached num propagate mip b pre) = _
    rw [tryUBSolution.secondPass]
    simp only [hlb, hub, Bool.not_true, Bool.false_eq_true, if_false, if_true]
    by_cases hp : (propagate mip ((tryUBSolution.reached num propagate mip b pre).fixToZero c) c
        ((tryUBSolution.reached num propagate mip b pre).lb.getD c 0)
        ((tryUBSolution.reached num propagate mip b pre).ub.getD c 0)).1 = true
    · simp only [hp, Bool.not_true, Bool.false_eq_true, if_false, if_true]
    · have hp2 : (propagate mip ((tryUBSolution.reached num propagate mip b pre).fixToZero c) c
          ((tryUBSolution.reached num propagate mip b pre).lb.getD c 0)
          ((tryUBSolution.reached num propagate mip b pre).ub.getD c 0)).1 = false := by
        simpa using hp
      simp only [hp2, Bool.not_false, if_true, Bool.false_eq_true, if_false]
  refine ⟨hrun, hz1, hz2, ?_⟩
  intro htight hord hzero hres
  rw [hrun] at hres ⊢
  by_cases hp : (propagate mip ((tryUBSolution.reached num propagate mip b pre).fixToZero c) c
      ((tryUBSolution.reached num propagate mip b pre).lb.getD c 0)
      ((tryUBSolution.reached num propagate mip b pre).ub.getD c 0)).1 = true
  · rw [if_pos hp] at hres ⊢
    obtain ⟨k1, k2⟩ := propagate_keeps_value propagate mip htight hord _ c _ _ hp c 0 hz1 hz2
    exact tryUB_secondPass_keeps_zero num propagate mip htight hord hzero c rest _ hres k1 k2
  · rw [if_neg hp] at hres
    exact absurd hres Bool.false_ne_true


/-- C17 witness: on `mipG` with `x0` fixed at 5 and `x1` free in both directions, the
second pass fixes `x1` at 0 and the UB trial returns true. -/
theorem tryUB_fixes_free_column_at_zero_witness :
    tryUBSolution specNum propagateG mipG
        { lb := [5, -infval], ub := [5, infval], activities := [] } =
      (true, { lb := [5, 0], ub := [5, 0], activities := [] }) ∧
    ((tryUBSolution specNum propagateG mipG
        { lb := [5, -infval], ub := [5, infval], activities := [] }).1 = true →
      (tryUBSolution specNum propagateG mipG
          { lb := [5, -infval], ub := [5, infval], activities := [] }).2.lb.getD 1 0 = 0 ∧
        (tryUBSolution specNum propagateG mipG
          { lb := [5, -infval], ub := [5, infval], activities := [] }).2.ub.getD 1 0 = 0) :=
  ⟨by decide!,
    (tryUB_fixes_free_column_at_zero specNum propagateG mipG
      { lb := [5, -infval], ub := [5, infval], activities := [] } [] [] 1
      (by decide!) (by decide!) (by decide!) (by decide!) (by decide!) (by decide!)
      (by decide!)).2.2.2 (propagateG_tightensOnly mipG) (propagateG_ordered mipG)
      (by decide!)⟩

/-- C19 (code bug): on `mipG` with the bounds `x0 <= 5` (no lower bound) and
`0 <= x1 <= 3`, and with the kernel `propagateG`, which only tightens bounds and returns
true only when the bounds are ordered, the first pass of `tryOptimisticSolution` defers
column 0 and fixes column 1 at 0, which raises the lower bound of column 0 to 2. The
second pass then skips column 0, because both of its bounds are finite, and the trial
returns true with `lb[0] = 2` and `ub[0] = 5`: the integer column 0 is not fixed. The UB
trial on the same input fixes the deferred column (`ub[0] = lb[0] = 2`). -/
theorem tryOptimistic_leaves_deferred_column_unfixed :
    TightensOnly propagateG mipG ∧ TrueOnlyWhenOrdered propagateG mipG ∧
    mipG.integer.getD 0 false = true ∧
    (tryOptimisticSolution.firstPass specNum propagateG mipG (List.range mipG.getNCols)
        { lb := [-infval, 0], ub := [5, 3], activities := [] } []) =
      (true, { lb := [2, 0], ub := [5, 0], activities := [] }, [0]) ∧
    tryOptimisticSolution specNum propagateG mipG
        { lb := [-infval, 0], ub := [5, 3], activities := [] } =
      (true, { lb := [2, 0], ub := [5, 0], activities := [] }) ∧
    tryUBSolution specNum propagateG mipG
        { lb := [-infval, 0], ub := [5, 3], activities := [] } =
      (true, { lb := [2, 0], ub := [2, 0], activities := [] }) :=
  ⟨propagateG_tightensOnly mipG, propagateG_ordered mipG, by decide, by decide!, by decide!,
    by decide!⟩


/-! ## Theorems on the MPS reader -/

/-- C12 (code bug): the reader accepts the file `fileZ`, whose column `x` has the entry
`r1 0`: every section parser succeeds and parsing reaches `END`. `parseColumns` stores the
value 0 as it stores any other, so the column-major matrix of the resulting MIP holds the
coefficients `[0, 1]`, the transposed row-major matrix holds a zero coefficient too, and
the condition of the assertion at the end of `transpose` is false. -/
theorem parse_stores_zero_coefficient :
    (parse.loop decimal decimal infval 5 Section.NAME (parse.start fileZ)).1 = Section.END ∧
    (parse decimal decimal infval fileZ).map (fun mip => mip.constMatrixT.coefficients) =
      some [0, 1] ∧
    (parse decimal decimal infval fileZ).map (fun mip => mip.constMatrix.coefficients) =
      some [0, 1] ∧
    (parse decimal decimal infval fileZ).map
      (fun mip => transpose.allNonzero mip.constMatrix) = some false := by
  decide!

/-- C13 (code bug): on `mipF` at its LP optimum `(1/2, 0)`, with the activities computed
by `computeSolActivities`, rounding column 0 down to 0 violates row 0 by `1/50000`. The
repair of row 0 moves the continuous column 1 by `1/5000000`, which is not more than
`1e-6`, so the solution is written but the activities are not updated: the maintained
activity of row 0 is 0 while `computeSolActivities` gives `1/50000` for the new solution,
and the difference is not below `1e-6` as the assertion inside the repair loop demands. -/
theorem repair_move_leaves_activity_stale :
    transpose mipF.constMatrixT [2, 1, 1] = mipF.constMatrix ∧
    computeSolActivities mipF lpF = [1/50000, 1/2, 1/2] ∧
    (roundStart specNum mipF lpF (computeSolActivities mipF lpF) 0).solution = [0, 0] ∧
    (roundStart specNum mipF lpF (computeSolActivities mipF lpF) 0).solActivity = [0, 0, 0] ∧
    (roundStart specNum mipF lpF (computeSolActivities mipF lpF) 0).violatedRows = [0] ∧
    (repairAt specNum mipF mipF.lb mipF.ub
      (roundStart specNum mipF lpF (computeSolActivities mipF lpF) 0) 0).1.solution =
      [0, 1/5000000] ∧
    (repairAt specNum mipF mipF.lb mipF.ub
      (roundStart specNum mipF lpF (computeSolActivities mipF lpF) 0) 0).1.solActivity =
      [0, 0, 0] ∧
    computeSolActivities mipF [0, 1/5000000] = [1/50000, 0, 0] ∧
    ¬ |(repairAt specNum mipF mipF.lb mipF.ub
          (roundStart specNum mipF lpF (computeSolActivities mipF lpF) 0) 0).1.solActivity.getD
            0 0 -
        (computeSolActivities mipF
          (repairAt specNum mipF mipF.lb mipF.ub
            (roundStart specNum mipF lpF (computeSolActivities mipF lpF) 0) 0).1.solution).getD
            0 0| < 1/1000000 := by
  decide!


/-- An accepted line of the BOUNDS section names a declared column; it keeps the sizes of
the vectors, leaves the other columns as they are, and changes the triple of its column
as `boundEffect` says. -/
theorem parseBounds_line_spec (stof : String → ℚ) (inf : ℚ) (cols : Cols)
    (s s2 : BoundsState) (tokens : List String)
    (h : parseBounds.line stof inf cols s tokens = some s2) :
    ∃ colid, cols.lookup (tokens.getD 2 "") = some colid ∧
      s2.lbs.length = s.lbs.length ∧ s2.ubs.length = s.ubs.length ∧
      s2.lb_changed.length = s.lb_changed.length ∧
      (∀ c, c ≠ colid → s2.column c = s.column c) ∧
      (colid < s.lbs.length → colid < s.ubs.length → colid < s.lb_changed.length →
        s2.column colid = boundEffect stof inf (s.column colid) tokens) := by
  unfold parseBounds.line at h
  by_cases hlen : tokens.length < 3
  · rw [if_pos hlen] at h
    exact absurd h (by simp)
  rw [if_neg hlen] at h
  cases hlook : cols.lookup (tokens.getD 2 "") with
  | none =>
    rw [hlook] at h
    exact absurd h (by simp)
  | some colid =>
    rw [hlook] at h
    simp only at h
    refine ⟨colid, rfl, ?_⟩
    by_cases h4 : tokens.length = 4
    · rw [if_pos h4] at h
      by_cases hUP : tokens.getD 0 "" = "UP"
      · rw [if_pos hUP] at h
        have hs := Option.some.inj h
        subst hs
        by_cases hneg : stof (tokens.getD 3 "") < 0 ∧ s.lb_changed.getD colid false = false
        · rw [if_pos hneg]
          refine ⟨by simp, by simp, rfl, ?_, ?_⟩
          · intro c hc
            simp only [BoundsState.column, getD_set_of_ne _ _ _ _ _ (Ne.symm hc)]
          · intro h1 h2 _
            simp only [BoundsState.column, getD_set_self _ _ _ _ h1, getD_set_self _ _ _ _ h2]
            unfold boundEffect
            rw [if_pos hUP, if_pos hneg]
        · rw [if_neg hneg]
          refine ⟨rfl, by simp, rfl, ?_, ?_⟩
          · intro c hc
            simp only [BoundsState.column, getD_set_of_ne _ _ _ _ _ (Ne.symm hc)]
          · intro _ h2 _
            simp only [BoundsState.column, getD_set_self _ _ _ _ h2]
            unfold boundEffect
            rw [if_pos hUP, if_neg hneg]
      · rw [if_neg hUP] at h
        by_cases hLO : tokens.getD 0 "" = "LO"
        · rw [if_pos hLO] at h
          have hs := Option.some.inj h
          subst hs
          refine ⟨by simp, rfl, by simp, ?_, ?_⟩
          · intro c hc
            simp only [BoundsState.column, getD_set_of_ne _ _ _ _ _ (Ne.symm hc)]
          · intro h1 _ h3
            simp only [BoundsState.column, getD_set_self _ _ _ _ h1, getD_set_self _ _ _ _ h3]
            unfold boundEffect
            rw [hLO, if_neg (by decide), if_pos rfl]
        · rw [if_neg hLO] at h
          by_cases hFX : tokens.getD 0 "" = "FX"
          · rw [if_pos hFX] at h
            have hs := Option.some.inj h
            subst hs
            refine ⟨by simp, by simp, rfl, ?_, ?_⟩
            · intro c hc
              simp only [BoundsState.column, getD_set_of_ne _ _ _ _ _ (Ne.symm hc)]
            · intro h1 h2 _
              simp only [BoundsState.column, getD_set_self _ _ _ _ h1,
                getD_set_self _ _ _ _ h2]
              unfold boundEffect
              rw [hFX, if_neg (by decide), if_neg (by decide), if_pos rfl]
          · rw [if_neg hFX] at h
            by_cases hMI : tokens.getD 0 "" = "MI"
            · rw [if_pos hMI] at h
              have hs := Option.some.inj h
              subst hs
              refine ⟨by simp, rfl, rfl, ?_, ?_⟩
              · intro c hc
                simp only [BoundsState.column, getD_set_of_ne _ _ _ _ _ (Ne.symm hc)]
              · intro h1 _ _
                simp only [BoundsState.column, getD_set_self _ _ _ _ h1]
                unfold boundEffect
                rw [hMI, if_neg (by decide), if_neg (by decide), if_neg (by decide), if_pos rfl]
            · rw [if_neg hMI] at h
              by_cases hPL : tokens.getD 0 "" = "PL"
              · rw [if_pos hPL] at h
                have hs := Option.some.inj h
                subst hs
                refine ⟨rfl, by simp, rfl, ?_, ?_⟩
                · intro c hc
                  simp only [BoundsState.column, getD_set_of_ne _ _ _ _ _ (Ne.symm hc)]
                · intro _ h2 _
                  simp only [BoundsState.column, getD_set_self _ _ _ _ h2]
                  unfold boundEffect
                  rw [hPL, if_neg (by decide), if_neg (by decide), if_neg (by decide),
                    if_neg (by decide), if_pos rfl]
              · rw [if_neg hPL] at h
                exact absurd h (by simp)
    · rw [if_neg h4] at h
      by_cases h3 : tokens.length = 3
      · rw [if_pos h3] at h
        by_cases hFR : tokens.getD 0 "" = "FR"
        · rw [if_pos hFR] at h
          have hs := Option.some.inj h
          subst hs
          refine ⟨by simp, by simp, rfl, ?_, ?_⟩
          · intro c hc
            simp only [BoundsState.column, getD_set_of_ne _ _ _ _ _ (Ne.symm hc)]
          · intro h1 h2 _
            simp only [BoundsState.column, getD_set_self _ _ _ _ h1, getD_set_self _ _ _ _ h2]
            unfold boundEffect
            rw [hFR, if_neg (by decide), if_neg (by decide), if_neg (by decide),
              if_neg (by decide), if_neg (by decide), if_pos rfl]
        · rw [if_neg hFR] at h
          by_cases hBV : tokens.getD 0 "" = "BV"
          · rw [if_pos hBV] at h
            have hs := Option.some.inj h
            subst hs
            refine ⟨by simp, by simp, rfl, ?_, ?_⟩
            · intro c hc
              simp only [BoundsState.column, getD_set_of_ne _ _ _ _ _ (Ne.symm hc)]
            · intro h1 h2 _
              simp only [BoundsState.column, getD_set_self _ _ _ _ h1,
                getD_set_self _ _ _ _ h2]
              unfold boundEffect
              rw [hBV, if_neg (by decide), if_neg (by decide), if_neg (by decide),
                if_neg (by decide), if_neg (by decide), if_neg (by decide), if_pos rfl]
          · rw [if_neg hBV] at h
            exact absurd h (by simp)
      · rw [if_neg h3] at h
        exact absurd h (by simp)


/-- The loop of `parseBounds`, when it does not fail, leaves for every column the triple
`(lb, ub, lb_changed)` that the data lines naming the column give in turn, starting from
the triple of the column before the loop. -/
theorem parseBounds_loop_spec (stof : String → ℚ) (inf : ℚ) (cols : Cols) (n c : Nat)
    (file : List String) :
    ∀ (s s2 : BoundsState) (rest : List String),
      parseBounds.loop stof inf cols file s = some (s2, rest) →
      s.lbs.length = n → s.ubs.length = n → s.lb_changed.length = n → c < n →
      s2.column c = (boundLinesOf cols c file).foldl (boundEffect stof inf) (s.column c) := by
  induction file with
  | nil =>
    intro s s2 rest h _ _ _ _
    rw [parseBounds.loop] at h
    have hs := (Prod.mk.inj (Option.some.inj h)).1
    rw [← hs]
    rfl
  | cons line file ih =>
    intro s s2 rest h h1 h2 h3 hc
    rw [parseBounds.loop] at h
    unfold boundLinesOf at ih ⊢
    rw [boundLines]
    by_cases hskip : isSkipped line = true
    · rw [if_pos hskip] at h ⊢
      exact ih s s2 rest h h1 h2 h3 hc
    · rw [if_neg hskip] at h ⊢
      by_cases hone : (split line).length = 1
      · rw [if_pos hone] at h ⊢
        have hs := (Prod.mk.inj (Option.some.inj h)).1
        rw [← hs]
        rfl
      · rw [if_neg hone] at h ⊢
        cases hline : parseBounds.line stof inf cols { s with tokens := split line }
            (split line) with
        | none =>
          rw [hline] at h
          exact absurd h (by simp)
        | some s3 =>
          rw [hline] at h
          simp only at h
          obtain ⟨colid, hlook, l1, l2, l3, hother, hself⟩ :=
            parseBounds_line_spec stof inf cols _ s3 (split line) hline
          have ih2 := ih s3 s2 rest h (by rw [l1]; exact h1) (by rw [l2]; exact h2)
            (by rw [l3]; exact h3) hc
          rw [ih2, List.filter_cons, hlook]
          by_cases hcc : colid = c
          · subst hcc
            rw [if_pos (by simp), List.foldl_cons,
              hself (by show colid < s.lbs.length; omega) (by show colid < s.ubs.length; omega)
                (by show colid < s.lb_changed.length; omega)]
            rfl
          · rw [if_neg (by simpa using hcc), hother c (Ne.symm hcc)]
            rfl

/-- A run of `UP` lines leaves a lower bound that an `LO` line has set. -/
theorem foldl_up_keeps_lb (stof : String → ℚ) (inf : ℚ) (ups : List (List String))
    (hups : ∀ u ∈ ups, u.getD 0 "" = "UP") :
    ∀ v : ℚ × ℚ × Bool, v.2.2 = true →
      (ups.foldl (boundEffect stof inf) v).1 = v.1 := by
  induction ups with
  | nil => intro v _; rfl
  | cons u ups ih =>
    intro v hv
    rw [List.foldl_cons]
    have hu := hups u (List.mem_cons_self _ _)
    have heff : boundEffect stof inf v u = (v.1, stof (u.getD 3 ""), v.2.2) := by
      unfold boundEffect
      rw [if_pos hu, if_neg (by rw [hv]; simp)]
    rw [ih (fun w hw => hups w (List.mem_cons_of_mem _ hw)) _ (by rw [heff]; exact hv), heff]

/-- The bounds after a successful `parseBounds` (the result is `END`) in terms of the
numbers that `std::stof` returns: a column `c` that no line of the BOUNDS section names
has `lb = 0` and `ub = inf`; a column whose only bound line is an `UP` line has for `ub`
the number `std::stof` returns on the fourth token of the line, and `lb = -inf` if that
number is negative and `lb = 0` if not; and a lower bound set by an `LO` line is not
changed by the `UP` lines that follow it. The number is the `float` nearest to the value
written in the line, not the value itself. -/
theorem parseBounds_defaults (stof : String → ℚ) (inf : ℚ) (st st2 : ReaderState)
    (h : parseBounds stof inf st = (Section.END, st2)) (c : Nat) (hc : c < st.cols.length) :
    (boundLinesOf st.cols c st.file = [] → st2.lbs.getD c 0 = 0 ∧ st2.ubs.getD c 0 = inf) ∧
    (∀ d, boundLinesOf st.cols c st.file = [d] → d.getD 0 "" = "UP" →
      st2.ubs.getD c 0 = stof (d.getD 3 "") ∧
        st2.lbs.getD c 0 = if stof (d.getD 3 "") < 0 then -inf else 0) ∧
    (∀ pre lo ups, boundLinesOf st.cols c st.file = pre ++ lo :: ups →
      lo.getD 0 "" = "LO" → (∀ u ∈ ups, u.getD 0 "" = "UP") →
      st2.lbs.getD c 0 = stof (lo.getD 3 "")) := by
  unfold parseBounds at h
  cases hloop : parseBounds.loop stof inf st.cols st.file (parseBounds.start inf st) with
  | none =>
    rw [hloop] at h
    exact absurd (Prod.mk.inj h).1 (by decide)
  | some r =>
    obtain ⟨s2, rest⟩ := r
    rw [hloop] at h
    simp only at h
    by_cases hend : s2.tokens.getD 0 "" ≠ "ENDATA"
    · rw [if_pos hend] at h
      exact absurd (Prod.mk.inj h).1 (by decide)
    · rw [if_neg hend] at h
      have hst := (Prod.mk.inj h).2
      have hl : st2.lbs = s2.lbs := by rw [← hst]
      have hu : st2.ubs = s2.ubs := by rw [← hst]
      have hcol := parseBounds_loop_spec stof inf st.cols st.cols.length c st.file
        (parseBounds.start inf st) s2 rest hloop (by simp [parseBounds.start])
        (by simp [parseBounds.start]) (by simp [parseBounds.start]) hc
      have hstart : (parseBounds.start inf st).column c = (0, inf, false) := by
        unfold BoundsState.column parseBounds.start
        simp only [List.getD_eq_getElem?_getD, List.getElem?_replicate, hc, if_true,
          Option.getD_some]
      rw [hstart] at hcol
      have h1 : s2.lbs.getD c 0 = (s2.column c).1 := rfl
      have h2 : s2.ubs.getD c 0 = (s2.column c).2.1 := rfl
      rw [hl, hu, h1, h2, hcol]
      refine ⟨?_, ?_, ?_⟩
      · intro hnone
        rw [hnone]
        exact ⟨rfl, rfl⟩
      · intro d hd hup
        rw [hd]
        simp only [List.foldl_cons, List.foldl_nil]
        unfold boundEffect
        rw [if_pos hup]
        by_cases hneg : stof (d.getD 3 "") < 0
        · simp [hneg]
        · simp [hneg]
      · intro pre lo ups hd hlo hups
        rw [hd, List.foldl_append, List.foldl_cons,
          foldl_up_keeps_lb stof inf ups hups _ (by
            unfold boundEffect
            rw [hlo, if_neg (by decide), if_pos rfl])]
        unfold boundEffect
        rw [hlo, if_neg (by decide), if_pos rfl]


/-- An instance on `stateB`, whose values are all of type `float`: the only bound line of
column `x` is `UP bnd x -4`, and `parseBounds` ends with `ub = -4` and `lb = -inf` for it;
column `y` keeps the lower bound `-2` of its `LO` line. -/
theorem parseBounds_defaults_witness :
    (parseBounds decimal infval stateB).1 = Section.END ∧
    (parseBounds decimal infval stateB).2.lbs = [-infval, -2] ∧
    (parseBounds decimal infval stateB).2.ubs = [-4, -1] ∧
    ((parseBounds decimal infval stateB).2.ubs.getD 0 0 = decimal "-4" ∧
      (parseBounds decimal infval stateB).2.lbs.getD 0 0 =
        if decimal "-4" < 0 then -infval else 0) :=
  ⟨by decide!, by decide!, by decide!,
    (parseBounds_defaults decimal infval stateB (parseBounds decimal infval stateB).2
      (Prod.ext (by decide!) rfl) 0 (by decide)).2.1 ["UP", "bnd", "x", "-4"] (by decide!)
      rfl⟩


/-! ## The failing section of the MPS reader -/

theorem parseName_section (st : ReaderState) :
    ((parseName st).1 = Section.FAIL ∧ (parseName st).2.error_section = Section.NAME) ∨
      ((parseName st).1 = Section.ROWS ∧ (parseName st).2.error_section = Section.NONE) := by
  unfold parseName
  split_ifs
  · exact Or.inl ⟨rfl, rfl⟩
  · exact Or.inl ⟨rfl, rfl⟩
  · exact Or.inr ⟨rfl, rfl⟩

theorem parseRows_section (st : ReaderState) :
    ((parseRows st).1 = Section.FAIL ∧ (parseRows st).2.error_section = Section.ROWS) ∨
      ((parseRows st).1 = Section.COLUMNS ∧ (parseRows st).2.error_section = Section.NONE) := by
  unfold parseRows
  split
  · exact Or.inl ⟨rfl, rfl⟩
  · split_ifs
    · exact Or.inl ⟨rfl, rfl⟩
    · exact Or.inr ⟨rfl, rfl⟩

theorem parseColumns_section (stod : String → ℚ) (st : ReaderState) :
    ((parseColumns stod st).1 = Section.FAIL ∧
        (parseColumns stod st).2.error_section = Section.COLUMNS) ∨
      ((parseColumns stod st).1 = Section.RHS ∧
        (parseColumns stod st).2.error_section = Section.NONE) := by
  unfold parseColumns
  split
  · exact Or.inl ⟨rfl, rfl⟩
  · split_ifs
    · exact Or.inl ⟨rfl, rfl⟩
    · exact Or.inr ⟨rfl, rfl⟩

theorem parseRhs_section (stof : String → ℚ) (inf : ℚ) (st : ReaderState) :
    ((parseRhs stof inf st).1 = Section.FAIL ∧
        (parseRhs stof inf st).2.error_section = Section.RHS) ∨
      ((parseRhs stof inf st).1 = Section.BOUNDS ∧
        (parseRhs stof inf st).2.error_section = Section.NONE) := by
  unfold parseRhs
  split
  · exact Or.inl ⟨rfl, rfl⟩
  · split_ifs
    · exact Or.inl ⟨rfl, rfl⟩
    · exact Or.inr ⟨rfl, rfl⟩

theorem parseBounds_section (stof : String → ℚ) (inf : ℚ) (st : ReaderState) :
    ((parseBounds stof inf st).1 = Section.FAIL ∧
        (parseBounds stof inf st).2.error_section = Section.BOUNDS) ∨
      ((parseBounds stof inf st).1 = Section.END ∧
        (parseBounds stof inf st).2.error_section = Section.NONE) := by
  unfold parseBounds
  split
  · exact Or.inl ⟨rfl, rfl⟩
  · split_ifs
    · exact Or.inl ⟨rfl, rfl⟩
    · exact Or.inr ⟨rfl, rfl⟩


theorem parse_loop_stop (stod stof : String → ℚ) (inf : ℚ) (fuel : Nat) (sec : Section)
    (st : ReaderState) (h : sec = Section.FAIL ∨ sec = Section.END) :
    parse.loop stod stof inf fuel sec st = (sec, st) ∧
      parse.failedIn stod stof inf fuel sec st = none := by
  cases fuel with
  | zero => exact ⟨rfl, rfl⟩
  | succ n =>
    rw [parse.loop, parse.failedIn]
    rcases h with h | h
    · subst h
      simp
    · subst h
      simp

theorem parse_loop_pass (stod stof : String → ℚ) (inf : ℚ) (fuel : Nat) (sec : Section)
    (st : ReaderState) (h1 : sec ≠ Section.FAIL) (h2 : sec ≠ Section.END) :
    parse.loop stod stof inf (fuel + 1) sec st =
        parse.loop stod stof inf fuel (parse.step stod stof inf sec st).1
          (parse.step stod stof inf sec st).2 ∧
      parse.failedIn stod stof inf (fuel + 1) sec st =
        if (parse.step stod stof inf sec st).1 = Section.FAIL then some sec
        else
          parse.failedIn stod stof inf fuel (parse.step stod stof inf sec st).1
            (parse.step stod stof inf sec st).2 := by
  rw [parse.loop, parse.failedIn, if_pos ⟨h1, h2⟩, if_pos ⟨h1, h2⟩]
  exact ⟨rfl, rfl⟩

theorem parseOutcome_end (stod stof : String → ℚ) (inf : ℚ) (fuel : Nat) (st : ReaderState)
    (h : st.error_section = Section.NONE) :
    ParseOutcome stod stof inf fuel Section.END st := by
  obtain ⟨h1, h2⟩ := parse_loop_stop stod stof inf fuel Section.END st (Or.inr rfl)
  left
  rw [h1, h2]
  exact ⟨rfl, rfl, h⟩

theorem parseOutcome_step (stod stof : String → ℚ) (inf : ℚ) (fuel : Nat)
    (sec next : Section) (st : ReaderState)
    (hsec : sec ∈ [Section.NAME, Section.ROWS, Section.COLUMNS, Section.RHS, Section.BOUNDS])
    (h1 : sec ≠ Section.FAIL) (h2 : sec ≠ Section.END)
    (hstep : ((parse.step stod stof inf sec st).1 = Section.FAIL ∧
        (parse.step stod stof inf sec st).2.error_section = sec) ∨
      ((parse.step stod stof inf sec st).1 = next ∧
        (parse.step stod stof inf sec st).2.error_section = Section.NONE))
    (hnext : next ≠ Section.FAIL)
    (hrec : (parse.step stod stof inf sec st).2.error_section = Section.NONE →
      ParseOutcome stod stof inf fuel next (parse.step stod stof inf sec st).2) :
    ParseOutcome stod stof inf (fuel + 1) sec st := by
  obtain ⟨p1, p2⟩ := parse_loop_pass stod stof inf fuel sec st h1 h2
  unfold ParseOutcome
  rw [p1, p2]
  rcases hstep with ⟨hf, he⟩ | ⟨hn, he⟩
  · obtain ⟨q1, _⟩ := parse_loop_stop stod stof inf fuel (parse.step stod stof inf sec st).1
      (parse.step stod stof inf sec st).2 (Or.inl hf)
    right
    rw [q1, if_pos hf]
    exact ⟨hf, sec, hsec, rfl, he⟩
  · have hnf : (parse.step stod stof inf sec st).1 ≠ Section.FAIL := by
      rw [hn]
      exact hnext
    rw [if_neg hnf, hn]
    exact hrec he

/-- The loop of `parse` started in `NAME` ends within its five passes, in `END` with
`error_section = NONE` or in `FAIL` with `error_section` the failing section. -/
theorem parseOutcome_start (stod stof : String → ℚ) (inf : ℚ) (st : ReaderState) :
    ParseOutcome stod stof inf 5 Section.NAME st := by
  apply parseOutcome_step stod stof inf 4 Section.NAME Section.ROWS st (by simp) (by decide)
    (by decide) (parseName_section st) (by decide)
  intro _
  apply parseOutcome_step stod stof inf 3 Section.ROWS Section.COLUMNS _ (by simp)
    (by decide) (by decide) (parseRows_section _) (by decide)
  intro _
  apply parseOutcome_step stod stof inf 2 Section.COLUMNS Section.RHS _ (by simp)
    (by decide) (by decide) (parseColumns_section stod _) (by decide)
  intro _
  apply parseOutcome_step stod stof inf 1 Section.RHS Section.BOUNDS _ (by simp)
    (by decide) (by decide) (parseRhs_section stof inf _) (by decide)
  intro _
  apply parseOutcome_step stod stof inf 0 Section.BOUNDS Section.END _ (by simp)
    (by decide) (by decide) (parseBounds_section stof inf _) (by decide)
  intro h
  exact parseOutcome_end stod stof inf 0 _ h

/-- C21: whenever one of the section parsers `parseName`, `parseRows`, `parseColumns`,
`parseRhs`, `parseBounds` returns `FAIL`, `error_section` is that parser's own section,
and after a successful section it is `NONE`. The loop of `mpsreader::parse` ends within
its five passes in `END` or in `FAIL`; when it ends in `FAIL`, `error_section` is the
section whose parser returned `FAIL`, and `getErrorStr` names exactly that section in the
message of the error that `parse` throws. -/
theorem parse_error_names_failed_section (stod stof : String → ℚ) (inf : ℚ) :
    (∀ st, ((parseName st).1 = Section.FAIL ∧
        (parseName st).2.error_section = Section.NAME) ∨
      ((parseName st).1 = Section.ROWS ∧ (parseName st).2.error_section = Section.NONE)) ∧
    (∀ st, ((parseRows st).1 = Section.FAIL ∧
        (parseRows st).2.error_section = Section.ROWS) ∨
      ((parseRows st).1 = Section.COLUMNS ∧
        (parseRows st).2.error_section = Section.NONE)) ∧
    (∀ st, ((parseColumns stod st).1 = Section.FAIL ∧
        (parseColumns stod st).2.error_section = Section.COLUMNS) ∨
      ((parseColumns stod st).1 = Section.RHS ∧
        (parseColumns stod st).2.error_section = Section.NONE)) ∧
    (∀ st, ((parseRhs stof inf st).1 = Section.FAIL ∧
        (parseRhs stof inf st).2.error_section = Section.RHS) ∨
      ((parseRhs stof inf st).1 = Section.BOUNDS ∧
        (parseRhs stof inf st).2.error_section = Section.NONE)) ∧
    (∀ st, ((parseBounds stof inf st).1 = Section.FAIL ∧
        (parseBounds stof inf st).2.error_section = Section.BOUNDS) ∨
      ((parseBounds stof inf st).1 = Section.END ∧
        (parseBounds stof inf st).2.error_section = Section.NONE)) ∧
    (∀ (file : List String) (filename : String),
      ((parse.loop stod stof inf 5 Section.NAME (parse.start file)).1 = Section.END ∧
        parse.failedIn stod stof inf 5 Section.NAME (parse.start file) = none ∧
        (parse.loop stod stof inf 5 Section.NAME (parse.start file)).2.error_section =
          Section.NONE) ∨
      ((parse.loop stod stof inf 5 Section.NAME (parse.start file)).1 = Section.FAIL ∧
        ∃ failed,
          failed ∈ [Section.NAME, Section.ROWS, Section.COLUMNS, Section.RHS,
            Section.BOUNDS] ∧
          parse.failedIn stod stof inf 5 Section.NAME (parse.start file) = some failed ∧
          (parse.loop stod stof inf 5 Section.NAME (parse.start file)).2.error_section =
            failed ∧
          parse.what filename (parse.loop stod stof inf 5 Section.NAME (parse.start file)).2 =
            "unable to parse file: " ++ filename ++ "\n" ++ getErrorStr failed)) ∧
    getErrorStr Section.NAME = "Failed to parse mps file, error in section: NAME\n" ∧
    getErrorStr Section.ROWS = "Failed to parse mps file, error in section: ROWS\n" ∧
    getErrorStr Section.COLUMNS = "Failed to parse mps file, error in section: COLUMNS\n" ∧
    getErrorStr Section.RHS = "Failed to parse mps file, error in section: RHS\n" ∧
    getErrorStr Section.BOUNDS = "Failed to parse mps file, error in section: BOUNDS\n" := by
  refine ⟨parseName_section, parseRows_section, parseColumns_section stod,
    parseRhs_section stof inf, parseBounds_section stof inf, ?_, by decide, by decide,
    by decide, by decide, by decide⟩
  intro file filename
  rcases parseOutcome_start stod stof inf (parse.start file) with h | ⟨h1, failed, h2, h3, h4⟩
  · exact Or.inl h
  · refine Or.inr ⟨h1, failed, h2, h3, h4, ?_⟩
    unfold parse.what
    rw [h4]

/-- An instance of C21: the file `fileBad` fails in its COLUMNS section (the row `r9` is
not declared), and the message names `COLUMNS`. -/
theorem parse_fileBad_fails_in_columns :
    (parse.loop decimal decimal infval 5 Section.NAME (parse.start fileBad)).1 =
      Section.FAIL ∧
    parse.failedIn decimal decimal infval 5 Section.NAME (parse.start fileBad) =
      some Section.COLUMNS ∧
    parse.what "mip.mps"
        (parse.loop decimal decimal infval 5 Section.NAME (parse.start fileBad)).2 =
      "unable to parse file: mip.mps\nFailed to parse mps file, error in section: COLUMNS\n" := by
  decide!


/-! ## Theorems on `main` and on the constructor of `Search` -/

/-- C22 (code bug): when parsing succeeds and the LP solver throws (in its construction
or in `solve`), `main` prints `Solver raised an exception` and returns 0, whatever the MIP
is; so it does on the file `fileZ`. A parse failure returns 1. -/
theorem main_returns_zero_on_solver_exception :
    (∀ mip : MIP,
      main (Except.ok mip) (fun _ => none) =
        { exitCode := 0, output := [MainOutput.solverException] }) ∧
    (main (parse.outcome decimal decimal infval "mip.mps" (some fileZ))
      (fun _ => none)).exitCode = 0 ∧
    (main (parse.outcome decimal decimal infval "mip.mps" (some fileBad))
      (fun _ => none)).exitCode = 1 ∧
    (main (parse.outcome decimal decimal infval "mip.mps" none) (fun _ => none)).exitCode = 1 := by
  refine ⟨fun _ => rfl, by decide!, by decide!, by decide!⟩

/-- The exit code of `main`: 1 when parsing throws, 0 otherwise. -/
theorem main_exitCode (parsed : Except String MIP) (solver : MIP → Option LPResult) :
    (main parsed solver).exitCode = match parsed with
      | Except.error _ => 1
      | Except.ok _ => 0 := by
  unfold main
  cases parsed with
  | error e => rfl
  | ok mip =>
    simp only
    cases solver mip <;> rfl

theorem lookup_cons_eq (map : List (String × Nat)) (name h : String) (size : Nat) :
    List.lookup h ((name, size) :: map) = if h = name then some size else List.lookup h map := by
  rw [List.lookup_cons]
  by_cases hh : h = name
  · rw [if_pos hh, hh]
    simp
  · rw [if_neg hh]
    have : (h == name) = false := by simpa using hh
    rw [this]

/-- The map that the registration loop builds sends a name to the index of a registered
heuristic of that name, and has no entry exactly for the names of no registered
heuristic. -/
theorem nameToId_spec (names : List String) :
    ∀ (pre : List String) (map : List (String × Nat)),
      (∀ h id, List.lookup h map = some id → id < pre.length ∧ pre.getD id "" = h) →
      (∀ h, List.lookup h map = none → h ∉ pre) →
      (∀ h id, List.lookup h (nameToId names map pre.length) = some id →
        id < (pre ++ names).length ∧ (pre ++ names).getD id "" = h) ∧
      ∀ h, List.lookup h (nameToId names map pre.length) = none → h ∉ pre ++ names := by
  induction names with
  | nil =>
    intro pre map h1 h2
    rw [nameToId, List.append_nil]
    exact ⟨h1, h2⟩
  | cons name rest ih =>
    intro pre map h1 h2
    rw [nameToId]
    have hlen : (pre ++ [name]).length = pre.length + 1 := by simp
    have key := ih (pre ++ [name]) ((name, pre.length) :: map) (by
      intro h id hl
      rw [lookup_cons_eq] at hl
      by_cases hh : h = name
      · rw [if_pos hh] at hl
        have hid : pre.length = id := Option.some.inj hl
        rw [← hid, hh]
        refine ⟨by simp, ?_⟩
        rw [List.getD_append_right _ _ _ _ (le_refl _)]
        simp
      · rw [if_neg hh] at hl
        obtain ⟨a, b⟩ := h1 h id hl
        refine ⟨by rw [hlen]; omega, ?_⟩
        rw [List.getD_append _ _ _ _ a]
        exact b) (by
      intro h hl
      rw [lookup_cons_eq] at hl
      by_cases hh : h = name
      · rw [if_pos hh] at hl
        exact absurd hl (by simp)
      · rw [if_neg hh] at hl
        have := h2 h hl
        simp only [List.mem_append, List.mem_singleton, not_or]
        exact ⟨this, hh⟩)
    rw [hlen, List.append_assoc] at key
    exact key

theorem nameToId_lookup (names : List String) (h : String) :
    (∀ id, List.lookup h (nameToId names [] 0) = some id →
      id < names.length ∧ names.getD id "" = h) ∧
    (List.lookup h (nameToId names [] 0) = none ↔ h ∉ names) := by
  have key := nameToId_spec names [] [] (by intro h id hl; simp at hl) (by intro h _; simp)
  simp only [List.length_nil, List.nil_append] at key
  refine ⟨fun id hl => key.1 h id hl, key.2 h, ?_⟩
  intro hn
  cases hl : List.lookup h (nameToId names [] 0) with
  | none => rfl
  | some id =>
    obtain ⟨a, b⟩ := key.1 h id hl
    exfalso
    apply hn
    rw [← b, List.getD_eq_getElem _ _ a]
    exact List.getElem_mem _


/-- The loop over the configuration makes the calls that the triples of a prefix of the
configuration are routed to: of the whole configuration when no call throws, and up to
the first call that throws otherwise. -/
theorem route_spec {Value : Type} (accepts : SetParamCall Value → Bool)
    (feas_names impr_names : List String) (config : List (String × String × Value)) :
    ∀ calls : List (SetParamCall Value),
      ((Search.route accepts (nameToId feas_names [] 0) (nameToId impr_names [] 0) config
          calls).2 = false →
        (Search.route accepts (nameToId feas_names [] 0) (nameToId impr_names [] 0) config
          calls).1 = calls ++ config.filterMap (Search.target feas_names impr_names)) ∧
      (∃ n,
        (Search.route accepts (nameToId feas_names [] 0) (nameToId impr_names [] 0) config
          calls).1 = calls ++ (config.take n).filterMap (Search.target feas_names impr_names)) ∧
      ((Search.route accepts (nameToId feas_names [] 0) (nameToId impr_names [] 0) config
          calls).2 = true →
        ∃ pre t c post, config = pre ++ t :: post ∧
          Search.target feas_names impr_names t = some c ∧ accepts c = false ∧
          (Search.route accepts (nameToId feas_names [] 0) (nameToId impr_names [] 0) config
            calls).1 =
            calls ++ (pre ++ [t]).filterMap (Search.target feas_names impr_names)) := by
  induction config with
  | nil =>
    intro calls
    rw [Search.route]
    refine ⟨fun _ => by simp, ⟨0, by simp⟩, fun h => absurd h Bool.false_ne_true⟩
  | cons t rest ih =>
    intro calls
    obtain ⟨heur_name, param_name, value⟩ := t
    rw [Search.route]
    cases hf : List.lookup heur_name (nameToId feas_names [] 0) with
    | some id =>
      have ht : Search.target feas_names impr_names (heur_name, param_name, value) =
          some { feas := true, id := id, param := param_name, value := value } := by
        unfold Search.target
        simp only [hf]
      simp only
      by_cases hacc : accepts { feas := true, id := id, param := param_name, value := value }
          = true
      · rw [if_pos hacc]
        obtain ⟨a, ⟨n, b⟩, d⟩ := ih
          (calls ++ [{ feas := true, id := id, param := param_name, value := value }])
        refine ⟨?_, ⟨n + 1, ?_⟩, ?_⟩
        · intro h
          rw [a h, List.filterMap_cons, ht]
          simp
        · rw [b, List.take_succ_cons, List.filterMap_cons, ht]
          simp
        · intro h
          obtain ⟨pre, t2, c, post, e1, e2, e3, e4⟩ := d h
          refine ⟨(heur_name, param_name, value) :: pre, t2, c, post, by rw [e1]; rfl, e2, e3,
            ?_⟩
          rw [e4, List.cons_append, List.filterMap_cons, ht]
          simp
      · rw [if_neg hacc]
        have hacc2 : accepts { feas := true, id := id, param := param_name, value := value }
            = false := by simpa using hacc
        refine ⟨fun h => absurd h (by simp), ⟨1, ?_⟩, ?_⟩
        · rw [List.take_succ_cons, List.take_zero, List.filterMap_cons, ht]
          simp
        · intro _
          refine ⟨[], (heur_name, param_name, value), _, rest, rfl, ht, hacc2, ?_⟩
          simp [List.filterMap_cons, ht]
    | none =>
      simp only
      cases hi : List.lookup heur_name (nameToId impr_names [] 0) with
      | some id =>
        have ht : Search.target feas_names impr_names (heur_name, param_name, value) =
            some { feas := false, id := id, param := param_name, value := value } := by
          unfold Search.target
          simp only [hf, hi]
        simp only
        by_cases hacc : accepts { feas := false, id := id, param := param_name, value := value }
            = true
        · rw [if_pos hacc]
          obtain ⟨a, ⟨n, b⟩, d⟩ := ih
            (calls ++ [{ feas := false, id := id, param := param_name, value := value }])
          refine ⟨?_, ⟨n + 1, ?_⟩, ?_⟩
          · intro h
            rw [a h, List.filterMap_cons, ht]
            simp
          · rw [b, List.take_succ_cons, List.filterMap_cons, ht]
            simp
          · intro h
            obtain ⟨pre, t2, c, post, e1, e2, e3, e4⟩ := d h
            refine ⟨(heur_name, param_name, value) :: pre, t2, c, post, by rw [e1]; rfl, e2,
              e3, ?_⟩
            rw [e4, List.cons_append, List.filterMap_cons, ht]
            simp
        · rw [if_neg hacc]
          have hacc2 : accepts
              { feas := false, id := id, param := param_name, value := value } = false := by
            simpa using hacc
          refine ⟨fun h => absurd h (by simp), ⟨1, ?_⟩, ?_⟩
          · rw [List.take_succ_cons, List.take_zero, List.filterMap_cons, ht]
            simp
          · intro _
            refine ⟨[], (heur_name, param_name, value), _, rest, rfl, ht, hacc2, ?_⟩
            simp [List.filterMap_cons, ht]
      | none =>
        have ht : Search.target feas_names impr_names (heur_name, param_name, value) =
            none := by
          unfold Search.target
          simp only [hf, hi]
        simp only
        obtain ⟨a, ⟨n, b⟩, d⟩ := ih calls
        refine ⟨?_, ⟨n + 1, ?_⟩, ?_⟩
        · intro h
          rw [a h, List.filterMap_cons, ht]
        · rw [b, List.take_succ_cons, List.filterMap_cons, ht]
        · intro h
          obtain ⟨pre, t2, c2, post, e1, e2, e3, e4⟩ := d h
          refine ⟨(heur_name, param_name, value) :: pre, t2, c2, post, by rw [e1]; rfl, e2,
            e3, ?_⟩
          rw [e4, List.cons_append, List.filterMap_cons, ht]


/-- C23 (counterexample): with one feasibility heuristic `A` whose `setParam` throws on
the value 0, the configuration `(A, p, 0), (A, q, 1)` makes the constructor call
`setParam(p, 0)` and throw; the second triple, whose name is that of the registered
heuristic `A`, causes no call of `setParam`. -/
theorem construct_skips_triple_after_throw :
    Search.target ["A"] [] ("A", "q", 1) =
      some { feas := true, id := 0, param := "q", value := 1 } ∧
    (Search.construct (fun c : SetParamCall Nat => c.value != 0) ["A"] []
        [("A", "p", 0), ("A", "q", 1)]).calls =
      [{ feas := true, id := 0, param := "p", value := 0 }] ∧
    (Search.construct (fun c : SetParamCall Nat => c.value != 0) ["A"] []
        [("A", "p", 0), ("A", "q", 1)]).throws = true := by
  decide

/-- C23 (amended): the constructor creates one pool per feasibility heuristic plus one,
and one pool per improvement heuristic. A configuration triple is routed to a call
`setParam(param_name, value)` on a registered heuristic whose name equals `heur_name`, a
feasibility heuristic when there is one of that name and an improvement heuristic
otherwise, and to no call exactly when no registered heuristic has that name. The calls
made are those of the triples of a prefix of the configuration, one call per triple with
a registered name: of the whole configuration when the constructor returns, and up to the
first triple whose call throws when the constructor throws; a triple of no registered name
never makes construction fail. -/
theorem construct_routes_config {Value : Type} (accepts : SetParamCall Value → Bool)
    (feas_names impr_names : List String) (config : List (String × String × Value)) :
    (Search.construct accepts feas_names impr_names config).nFeasPools =
      feas_names.length + 1 ∧
    (Search.construct accepts feas_names impr_names config).nImprPools = impr_names.length ∧
    ((Search.construct accepts feas_names impr_names config).throws = false →
      (Search.construct accepts feas_names impr_names config).calls =
        config.filterMap (Search.target feas_names impr_names)) ∧
    ((Search.construct accepts feas_names impr_names config).throws = true →
      ∃ pre t c post, config = pre ++ t :: post ∧
        Search.target feas_names impr_names t = some c ∧ accepts c = false ∧
        (Search.construct accepts feas_names impr_names config).calls =
          (pre ++ [t]).filterMap (Search.target feas_names impr_names)) ∧
    (∀ (triple : String × String × Value) (c : SetParamCall Value),
      Search.target feas_names impr_names triple = some c →
      c.param = triple.2.1 ∧ c.value = triple.2.2 ∧
        (c.feas = true → c.id < feas_names.length ∧ feas_names.getD c.id "" = triple.1) ∧
        (c.feas = false → triple.1 ∉ feas_names ∧ c.id < impr_names.length ∧
          impr_names.getD c.id "" = triple.1)) ∧
    ∀ triple : String × String × Value,
      Search.target feas_names impr_names triple = none ↔
        triple.1 ∉ feas_names ∧ triple.1 ∉ impr_names := by
  obtain ⟨r1, _, r3⟩ := route_spec accepts feas_names impr_names config []
  refine ⟨rfl, rfl, ?_, ?_, ?_, ?_⟩
  · intro h
    have := r1 h
    rw [List.nil_append] at this
    exact this
  · intro h
    obtain ⟨pre, t, c, post, e1, e2, e3, e4⟩ := r3 h
    rw [List.nil_append] at e4
    exact ⟨pre, t, c, post, e1, e2, e3, e4⟩
  · intro triple c ht
    unfold Search.target at ht
    cases hf : List.lookup triple.1 (nameToId feas_names [] 0) with
    | some id =>
      rw [hf] at ht
      have hc := Option.some.inj ht
      rw [← hc]
      obtain ⟨a, b⟩ := (nameToId_lookup feas_names triple.1).1 id hf
      exact ⟨rfl, rfl, fun _ => ⟨a, b⟩, fun h => absurd h (by simp)⟩
    | none =>
      rw [hf] at ht
      simp only at ht
      cases hi : List.lookup triple.1 (nameToId impr_names [] 0) with
      | some id =>
        rw [hi] at ht
        have hc := Option.some.inj ht
        rw [← hc]
        obtain ⟨a, b⟩ := (nameToId_lookup impr_names triple.1).1 id hi
        exact ⟨rfl, rfl, fun h => absurd h (by simp),
          fun _ => ⟨(nameToId_lookup feas_names triple.1).2.mp hf, a, b⟩⟩
      | none =>
        rw [hi] at ht
        exact absurd ht (by simp)
  · intro triple
    unfold Search.target
    constructor
    · intro ht
      cases hf : List.lookup triple.1 (nameToId feas_names [] 0) with
      | some id =>
        rw [hf] at ht
        exact absurd ht (by simp)
      | none =>
        rw [hf] at ht
        simp only at ht
        cases hi : List.lookup triple.1 (nameToId impr_names [] 0) with
        | some id =>
          rw [hi] at ht
          exact absurd ht (by simp)
        | none =>
          exact ⟨(nameToId_lookup feas_names triple.1).2.mp hf,
            (nameToId_lookup impr_names triple.1).2.mp hi⟩
    · rintro ⟨h1, h2⟩
      rw [(nameToId_lookup feas_names triple.1).2.mpr h1]
      simp only
      rw [(nameToId_lookup impr_names triple.1).2.mpr h2]


/-! ## `checkFeasibility` and the order of the rows -/

theorem rowSum_congr (v w : VectorView) (sol : List ℚ) (hsize : v.size = w.size)
    (hent : ∀ id, id < v.size →
      v.coefs.getD id 0 = w.coefs.getD id 0 ∧ v.indices.getD id 0 = w.indices.getD id 0) :
    rowSum v sol = rowSum w sol := by
  unfold rowSum
  rw [← hsize]
  congr 1
  apply List.map_congr_left
  intro id hid
  obtain ⟨h1, h2⟩ := hent id (List.mem_range.mp hid)
  rw [h1, h2]

theorem rowViolated_permuted (mip mip2 : MIP) (perm : List Nat)
    (h : RowsPermuted mip mip2 perm) (sol : List ℚ) (constol : ℚ) (i : Nat)
    (hi : i < mip.getNRows) :
    rowViolated mip2 sol constol i = rowViolated mip sol constol (perm.getD i 0) := by
  obtain ⟨_, _, _, _, _, _, hrows⟩ := h
  obtain ⟨h1, h2, h3, h4⟩ := hrows i hi
  unfold rowViolated
  simp only
  rw [rowActivity_eq_rowSum, rowActivity_eq_rowSum,
    rowSum_congr (mip2.getRow i) (mip.getRow (perm.getD i 0)) sol h1 h2, h3, h4]

/-- C24: `checkFeasibility` is a function of its arguments (it takes the MIP and the
solution by const reference and writes to neither), so a second call on the same
arguments returns the same result; and its result is unchanged when the rows of the MIP,
with their `lhs` and `rhs`, are permuted. -/
theorem checkFeasibility_rows_permuted (LP : Bool) (isFeasInt : ℚ → Bool) (mip mip2 : MIP)
    (perm : List Nat) (sol : List ℚ) (boundtol constol : ℚ)
    (h : RowsPermuted mip mip2 perm) :
    checkFeasibility LP isFeasInt mip2 sol boundtol constol =
      checkFeasibility LP isFeasInt mip sol boundtol constol := by
  have hperm := h.2.2.2.2.2.1
  have hlen : perm.length = mip.getNRows := by
    rw [hperm.length_eq, List.length_range]
  have hrow := rowViolated_permuted mip mip2 perm h sol constol
  obtain ⟨hc, hr, hlb, hub, hst, _, _⟩ := h
  rw [Bool.eq_iff_iff, checkFeasibility_eq_true, checkFeasibility_eq_true, hc, hr]
  have hcol : ∀ c, boundViolated mip2 sol boundtol c = boundViolated mip sol boundtol c ∧
      intViolated LP isFeasInt mip2 sol c = intViolated LP isFeasInt mip sol c := by
    intro c
    unfold boundViolated intViolated
    rw [hlb, hub, hst]
    exact ⟨rfl, rfl⟩
  constructor
  · rintro ⟨h1, h2⟩
    refine ⟨fun c hcn => by rw [← (hcol c).1, ← (hcol c).2]; exact h1 c hcn, ?_⟩
    intro r hrn
    have hmem : r ∈ perm := hperm.mem_iff.mpr (List.mem_range.mpr hrn)
    obtain ⟨i, hi, hie⟩ := List.getElem_of_mem hmem
    have hin : i < mip.getNRows := by omega
    have := h2 i hin
    rw [hrow i hin, List.getD_eq_getElem _ _ hi, hie] at this
    exact this
  · rintro ⟨h1, h2⟩
    refine ⟨fun c hcn => by rw [(hcol c).1, (hcol c).2]; exact h1 c hcn, ?_⟩
    intro i hin
    rw [hrow i hin]
    apply h2
    have hi : i < perm.length := by omega
    rw [List.getD_eq_getElem _ _ hi]
    exact List.mem_range.mp (hperm.mem_iff.mp (List.getElem_mem _))

/-- C24 witness: `mipA2` is `mipA` with its two rows swapped, and the check of the point
`(1, 0)` gives the same result on both. -/
theorem checkFeasibility_rows_permuted_witness :
    RowsPermuted mipA mipA2 [1, 0] ∧
    checkFeasibility false isInt mipA2 [1, 0] (1/1000000000) (1/1000000) =
      checkFeasibility false isInt mipA [1, 0] (1/1000000000) (1/1000000) :=
  have hp : RowsPermuted mipA mipA2 [1, 0] :=
    ⟨rfl, rfl, rfl, rfl, rfl, List.Perm.swap 0 1 [], by decide!⟩
  ⟨hp, checkFeasibility_rows_permuted false isInt mipA mipA2 [1, 0] [1, 0] (1/1000000000)
    (1/1000000) hp⟩


/-! ## The derivation of the locks -/

/-- C25 (counterexample): the MIP `mipEq` has the single row `x = 1`. With the locks
defined as in the data model, the row counts for `downLocks[0]` (its `lhs` is finite and
the coefficient is positive) and for `upLocks[0]` (its `rhs` is finite and the coefficient
is positive), so `downLocks[0] + upLocks[0] = 2`, while one row has a nonzero coefficient
in the column. -/
theorem locks_exceed_nonzero_rows_on_equality :
    derivedDownLocks specNum mipEq 0 = 1 ∧ derivedUpLocks specNum mipEq 0 = 1 ∧
    nonzeroRows mipEq 0 = 1 ∧
    ¬ derivedDownLocks specNum mipEq 0 + derivedUpLocks specNum mipEq 0 ≤
      nonzeroRows mipEq 0 := by
  decide!

theorem filter_length_add_le (p q n : Nat → Bool) (l : List Nat)
    (hp : ∀ r ∈ l, p r = true → n r = true) (hq : ∀ r ∈ l, q r = true → n r = true) :
    (l.filter p).length + (l.filter q).length ≤ 2 * (l.filter n).length ∧
      ((∀ r ∈ l, ¬ (p r = true ∧ q r = true)) →
        (l.filter p).length + (l.filter q).length ≤ (l.filter n).length) := by
  induction l with
  | nil => exact ⟨le_refl _, fun _ => le_refl _⟩
  | cons r l ih =>
    obtain ⟨i1, i2⟩ := ih (fun x hx => hp x (List.mem_cons_of_mem _ hx))
      (fun x hx => hq x (List.mem_cons_of_mem _ hx))
    have hpr := hp r (List.mem_cons_self _ _)
    have hqr := hq r (List.mem_cons_self _ _)
    have key : ∀ (b : Bool) (f : Nat → Bool), f r = b →
        ((r :: l).filter f).length = (l.filter f).length + if b then 1 else 0 := by
      intro b f hf
      rw [List.filter_cons, hf]
      cases b <;> simp
    cases hP : p r <;> cases hQ : q r <;> cases hN : n r <;>
      simp only [hP, hQ, hN, Bool.false_eq_true, imp_false, not_true_eq_false,
        forall_true_left, true_implies] at hpr hqr <;>
      rw [key _ p hP, key _ q hQ, key _ n hN] <;>
      refine ⟨by simp only [if_true, if_false, Bool.false_eq_true]; omega, ?_⟩ <;>
      intro hno <;>
      have i3 := i2 (fun x hx => hno x (List.mem_cons_of_mem _ hx)) <;>
      have hno2 := hno r (List.mem_cons_self _ _) <;>
      simp only [hP, hQ, and_self, not_true_eq_false, if_true, if_false,
        Bool.false_eq_true] at hno2 ⊢ <;>
      omega

/-- C25 (amended): with the locks defined as in the data model, every column `c` of every
MIP satisfies `downLocks[c] + upLocks[c] <= 2 * |{r : A[r,c] != 0}|`, and
`downLocks[c] + upLocks[c] <= |{r : A[r,c] != 0}|` when no row with a nonzero coefficient
in the column has both sides finite. -/
theorem locks_le_twice_nonzero_rows (num : Num) (mip : MIP) (c : Nat) :
    derivedDownLocks num mip c + derivedUpLocks num mip c ≤ 2 * nonzeroRows mip c ∧
    ((∀ r, r < mip.getNRows → mip.coef r c ≠ 0 →
        num.isMinusInf (mip.lhs.getD r 0) = true ∨ num.isInf (mip.rhs.getD r 0) = true) →
      derivedDownLocks num mip c + derivedUpLocks num mip c ≤ nonzeroRows mip c) := by
  have hp : ∀ r ∈ List.range mip.getNRows, downLockRow num mip c r = true →
      (fun r => decide (mip.coef r c ≠ 0)) r = true := by
    intro r _ h
    unfold downLockRow at h
    simp only [Bool.or_eq_true, Bool.and_eq_true, decide_eq_true_eq] at h
    simp only [decide_eq_true_eq]
    rcases h with ⟨_, h⟩ | ⟨_, h⟩
    · exact ne_of_gt h
    · exact ne_of_lt h
  have hq : ∀ r ∈ List.range mip.getNRows, upLockRow num mip c r = true →
      (fun r => decide (mip.coef r c ≠ 0)) r = true := by
    intro r _ h
    unfold upLockRow at h
    simp only [Bool.or_eq_true, Bool.and_eq_true, decide_eq_true_eq] at h
    simp only [decide_eq_true_eq]
    rcases h with ⟨_, h⟩ | ⟨_, h⟩
    · exact ne_of_gt h
    · exact ne_of_lt h
  obtain ⟨k1, k2⟩ := filter_length_add_le (downLockRow num mip c) (upLockRow num mip c)
    (fun r => decide (mip.coef r c ≠ 0)) (List.range mip.getNRows) hp hq
  refine ⟨k1, ?_⟩
  intro hfin
  apply k2
  intro r hr ⟨hd, hu⟩
  have hnz : mip.coef r c ≠ 0 := by
    have := hp r hr hd
    simpa using this
  unfold downLockRow at hd
  unfold upLockRow at hu
  simp only [Bool.or_eq_true, Bool.and_eq_true, decide_eq_true_eq, Bool.not_eq_true'] at hd hu
  rcases hfin r (List.mem_range.mp hr) hnz with hinf | hinf
  · rcases hd with ⟨h1, _⟩ | ⟨_, h2⟩
    · rw [hinf] at h1
      exact absurd h1 (by decide)
    · rcases hu with ⟨_, h3⟩ | ⟨h4, _⟩
      · exact absurd h2 (not_lt.mpr (le_of_lt h3))
      · rw [hinf] at h4
        exact absurd h4 (by decide)
  · rcases hu with ⟨h1, _⟩ | ⟨_, h2⟩
    · rw [hinf] at h1
      exact absurd h1 (by decide)
    · rcases hd with ⟨_, h3⟩ | ⟨h4, _⟩
      · exact absurd h2 (not_lt.mpr (le_of_lt h3))
      · rw [hinf] at h4
        exact absurd h4 (by decide)


/-! ## The repair loop of `MinLockRounding::search`: work list and budget -/

/-- C26 (divergence): on `mipR` at `lpR` the rounding of column 0 to 1 violates both rows
and puts them on the work list. The pass for `j = 0` clears the list and corrects row 0 by
moving column 1, which is not in row 1; it ends with `row_corrected = true`. The test of the
loop for `j = 1` then fails on the emptied list although the budget is not exhausted
(`ncontchanges = 1 <= 2 * ncont = 4`): the loop ends with `nviolated = 1`, row 1 still
carries its violation bit with activity `1 > 1/2`, its column 2 was never moved, and the
ordering fails. -/
theorem repair_loop_ends_with_violated_row_unvisited :
    (roundStart specNum mipR lpR (computeSolActivities mipR lpR) 0).solution = [1, 0, 0] ∧
    (roundStart specNum mipR lpR (computeSolActivities mipR lpR) 0).violatedRows = [0, 1] ∧
    (roundStart specNum mipR lpR (computeSolActivities mipR lpR) 0).nviolated = 2 ∧
    (repairAt specNum mipR mipR.lb mipR.ub
        (roundStart specNum mipR lpR (computeSolActivities mipR lpR) 0) 0).2 = true ∧
    (repairAt specNum mipR mipR.lb mipR.ub
        (roundStart specNum mipR lpR (computeSolActivities mipR lpR) 0) 0).1.violatedRows = [] ∧
    repairRows specNum mipR mipR.lb mipR.ub (repairFuel mipR) 0
        (roundStart specNum mipR lpR (computeSolActivities mipR lpR) 0) =
      some { solution := [1, 1/2, 0], solActivity := [1/2, 1], violatedRows := [],
             isviolated := [false, true], nviolated := 1, ncontchanges := 1 } ∧
    1 ≤ 2 * mipR.stats.ncont ∧
    rowViolated mipR [1, 1/2, 0] (1/1000000) 1 = true ∧
    roundColumns specNum mipR mipR.lb mipR.ub [0] lpR (computeSolActivities mipR lpR) =
      some { failed := true, solution := [1, 1/2, 0], solActivity := [1/2, 1] } := by
  refine ⟨?_, ?_, ?_, ?_, ?_, ?_, ?_, ?_, ?_⟩ <;> decide!

/-- C27 (counterexample): on `mipS` at `lpS` (one continuous column, budget `2 * ncont = 2`)
the repair loop that follows the rounding of column 0 moves the continuous column three
times (`0 -> 1/2 -> 3/10 -> 1/2`): the test `ncontchanges <= 2 * ncont` still passes with
`ncontchanges = 2`, and the third pass brings the final count to 3. -/
theorem repairRows_exceeds_budget :
    2 * mipS.stats.ncont = 2 ∧
    (repairRows specNum mipS mipS.lb mipS.ub (repairFuel mipS) 0
        (roundStart specNum mipS lpS (computeSolActivities mipS lpS) 0)).map
      RoundState.ncontchanges = some 3 := by
  refine ⟨?_, ?_⟩ <;> decide!

/-- A call of `updateSolActivity` leaves `ncontchanges` as it is. -/
theorem update_ncontchanges (num : Num) (mip : MIP) (st : RoundState) (col : Nat) (delta : ℚ) :
    (RoundState.update num mip st col delta).ncontchanges = st.ncontchanges := rfl

/-- A repair move counts at most one change of a continuous column. -/
theorem moveColumn_ncontchanges_le (num : Num) (mip : MIP) (ncol : Nat) (newval : ℚ)
    (st : RoundState) :
    (moveColumn num mip ncol newval st).ncontchanges ≤ st.ncontchanges + 1 := by
  unfold moveColumn
  split
  · rw [update_ncontchanges]
    simp only
    split <;> omega
  · simp

/-- One pass of the loop over the columns of a row counts at most one change. -/
theorem repairColumn_ncontchanges_le (num : Num) (mip : MIP) (lb ub : List ℚ) (row k : Nat)
    (st : RoundState) :
    (repairColumn num mip lb ub row k st).1.ncontchanges ≤ st.ncontchanges + 1 := by
  unfold repairColumn
  split_ifs
  · simp
  · exact moveColumn_ncontchanges_le num mip _ _ _

/-- The loop over the columns of a row counts at most one change per position. -/
theorem repairRow_ncontchanges_le (num : Num) (mip : MIP) (lb ub : List ℚ) (row : Nat)
    (ks : List Nat) (st : RoundState) :
    (repairRow num mip lb ub row ks st).1.ncontchanges ≤ st.ncontchanges + ks.length := by
  induction ks generalizing st with
  | nil => simp [repairRow]
  | cons k ks ih =>
    have h1 := repairColumn_ncontchanges_le num mip lb ub row k st
    simp only [repairRow, List.length_cons]
    split_ifs
    · omega
    · have h2 := ih (repairColumn num mip lb ub row k st).1
      omega

/-- A member of a list of numbers is at most the largest of them. -/
theorem le_foldl_max_of_mem (l : List Nat) (a x : Nat) (h : x ∈ l) : x ≤ l.foldl max a := by
  obtain ⟨k, hk, rfl⟩ := List.getElem_of_mem h
  have := getD_le_foldl_max l k a
  rwa [List.getD_eq_getElem l 0 hk] at this

/-- The largest of a list of numbers is the start value or a member of the list. -/
theorem foldl_max_mem (l : List Nat) (a : Nat) : l.foldl max a = a ∨ l.foldl max a ∈ l := by
  induction l generalizing a with
  | nil => left; rfl
  | cons x xs ih =>
    simp only [List.foldl_cons, List.mem_cons]
    rcases ih (max a x) with h | h
    · rw [h]
      rcases le_total a x with hax | hax
      · right; left; exact max_eq_right hax
      · left; exact max_eq_left hax
    · right; right; exact h

/-- No row view has more entries than `maxRowSize`. -/
theorem getRow_size_le_maxRowSize (m : SparseMatrix) (i : Nat) :
    (m.getRow i).size ≤ m.maxRowSize := by
  by_cases hi : i < m.rowStart.length
  · unfold SparseMatrix.maxRowSize
    apply le_foldl_max_of_mem
    exact List.mem_map.mpr ⟨i, List.mem_range.mpr hi, rfl⟩
  · have h1 : m.rowStart.getD (i + 1) 0 = 0 := by
      rw [List.getD_eq_default]
      omega
    have h0 : (m.getRow i).size = 0 := by
      unfold SparseMatrix.getRow
      simp only [h1]
      omega
    omega

/-- Some row view has exactly `maxRowSize` entries. -/
theorem maxRowSize_attained (m : SparseMatrix) : ∃ i, (m.getRow i).size = m.maxRowSize := by
  unfold SparseMatrix.maxRowSize
  rcases foldl_max_mem ((List.range m.rowStart.length).map (fun i => (m.getRow i).size)) 0
    with h | h
  · rw [h]
    refine ⟨m.rowStart.length, ?_⟩
    unfold SparseMatrix.getRow
    simp only
    rw [List.getD_eq_default _ _ (by omega : m.rowStart.length ≤ m.rowStart.length + 1)]
    omega
  · obtain ⟨i, _, hi⟩ := List.mem_map.mp h
    exact ⟨i, hi⟩

/-- The repair of one row counts at most as many changes as the largest row has
entries. -/
theorem repairAt_ncontchanges_le_maxRowSize (num : Num) (mip : MIP) (lb ub : List ℚ)
    (st : RoundState) (j : Nat) :
    (repairAt num mip lb ub st j).1.ncontchanges ≤
      st.ncontchanges + mip.constMatrix.maxRowSize := by
  have h1 := repairRow_ncontchanges_le num mip lb ub (st.violatedRows.getD j 0)
    (List.range (mip.getRow (st.violatedRows.getD j 0)).size) { st with violatedRows := [] }
  have h2 : (mip.getRow (st.violatedRows.getD j 0)).size ≤ mip.constMatrix.maxRowSize :=
    getRow_size_le_maxRowSize _ _
  simp only [List.length_range] at h1
  unfold repairAt
  omega

/-- The repair loop from a state within the budget plus the largest row size: the final
count stays within the budget plus the largest row size. -/
theorem repairRows_ncontchanges_le_maxRowSize (num : Num) (mip : MIP) (lb ub : List ℚ)
    (fuel : Nat) :
    ∀ (j : Nat) (st st2 : RoundState),
      st.ncontchanges ≤ 2 * mip.stats.ncont + mip.constMatrix.maxRowSize →
      repairRows num mip lb ub fuel j st = some st2 →
        st2.ncontchanges ≤ 2 * mip.stats.ncont + mip.constMatrix.maxRowSize := by
  induction fuel with
  | zero => intro j st st2 _ h; simp [repairRows] at h
  | succ fuel ih =>
    intro j st st2 h0 h
    rw [repairRows] at h
    split_ifs at h with hhead hskip hbreak
    · exact ih (j + 1) st st2 h0 h
    · have hat := repairAt_ncontchanges_le_maxRowSize num mip lb ub st j
      have heq : (repairAt num mip lb ub st j).1 = st2 := Option.some.inj h
      rw [← heq]
      omega
    · have hat := repairAt_ncontchanges_le_maxRowSize num mip lb ub st j
      exact ih (j + 1) _ st2 (by omega) h
    · have heq : st = st2 := Option.some.inj h
      rw [← heq]
      exact h0

/-- The rounding of a column starts the count of changes at zero. -/
theorem roundStart_ncontchanges (num : Num) (mip : MIP) (solution solActivity : List ℚ)
    (col : Nat) : (roundStart num mip solution solActivity col).ncontchanges = 0 := rfl

/-- C27 (amended): for every MIP and every column rounding the repair loop ends, and the
final number of changes of continuous columns is at most `2 * ncont` plus the largest
number of entries of a row, `maxRowSize` of the row-major matrix: the budget is tested
only before a row is taken for repair, and the repair of that row may move every column of
the row. `maxRowSize` is the size of a row view and no row view is larger. -/
theorem repairRows_ncontchanges_bound (num : Num) (mip : MIP) (lb ub : List ℚ)
    (solution solActivity : List ℚ) (col : Nat) :
    (∃ st2, repairRows num mip lb ub (repairFuel mip) 0
        (roundStart num mip solution solActivity col) = some st2 ∧
      st2.ncontchanges ≤ 2 * mip.stats.ncont + mip.constMatrix.maxRowSize) ∧
    (∀ row, (mip.getRow row).size ≤ mip.constMatrix.maxRowSize) ∧
    (∃ row, (mip.getRow row).size = mip.constMatrix.maxRowSize) := by
  refine ⟨?_, fun row => getRow_size_le_maxRowSize _ row, maxRowSize_attained _⟩
  have hsome := repairRows_fuel_isSome num mip lb ub _
    (roundStart_length num mip solution solActivity col)
  cases hr : repairRows num mip lb ub (repairFuel mip) 0
      (roundStart num mip solution solActivity col) with
  | none => rw [hr] at hsome; simp at hsome
  | some st2 =>
    refine ⟨st2, rfl, ?_⟩
    refine repairRows_ncontchanges_le_maxRowSize num mip lb ub (repairFuel mip) 0 _ st2 ?_ hr
    rw [roundStart_ncontchanges]
    omega

/-- On `mipS` the largest row has two entries. -/
theorem mipS_maxRowSize : mipS.constMatrix.maxRowSize = 2 := by decide


/-! ## The direction of a repair move -/

theorem specNum_isFeasGE_false (a b : ℚ) (h : specNum.isFeasGE a b = false) : a < b := by
  have h2 : ¬ (a ≥ b - 1/1000000) := by simpa [specNum] using h
  linarith [not_le.mp h2]

theorem specNum_isFeasLE_false (a b : ℚ) (h : specNum.isFeasLE a b = false) : b < a := by
  have h2 : ¬ (a ≤ b + 1/1000000) := by simpa [specNum] using h
  linarith [not_le.mp h2]

theorem ratFloor_le (x : ℚ) : ((Rat.floor x : ℤ) : ℚ) ≤ x := by
  have h : Rat.floor x = ⌊x⌋ := by rw [Rat.floor_def', Rat.floor_def]
  rw [h]
  exact Int.floor_le x

theorem le_ratCeil (x : ℚ) : x ≤ ((Rat.ceil x : ℤ) : ℚ) := by
  unfold Rat.ceil
  split_ifs with hden
  · exact le_of_eq ((Rat.den_eq_one_iff x).mp hden).symm
  · have h : x.num / (x.den : ℤ) = ⌊x⌋ := Rat.floor_def.symm
    rw [h]
    push_cast
    exact le_of_lt (Int.lt_floor_add_one x)

theorem specNum_floor_le_ceil (x : ℚ) (h : specNum.isIntegral x = false) :
    specNum.floor x ≤ x ∧ x ≤ specNum.ceil x := by
  have h2 : ¬ (|x - cround x| ≤ 1/1000000) := by simpa [specNum] using h
  constructor
  · show (if |x - cround x| ≤ 1/1000000 then cround x else ((Rat.floor x : ℤ) : ℚ)) ≤ x
    rw [if_neg h2]
    exact ratFloor_le x
  · show x ≤ (if |x - cround x| ≤ 1/1000000 then cround x else ((Rat.ceil x : ℤ) : ℚ))
    rw [if_neg h2]
    exact le_ratCeil x

theorem getD_set_eq_ite (l : List ℚ) (i : Nat) (v : ℚ) :
    (l.set i v).getD i 0 = if i < l.length then v else l.getD i 0 := by
  by_cases hlen : i < l.length
  · rw [if_pos hlen, getD_set_self _ _ _ _ hlen]
  · rw [if_neg hlen, List.set_eq_of_length_le (by omega)]

theorem update_solution (num : Num) (mip : MIP) (st : RoundState) (col : Nat) (delta : ℚ) :
    (RoundState.update num mip st col delta).solution = st.solution := rfl

/-- A repair move writes the new value into `solution[ncol]` and nothing else into
`solution`. -/
theorem moveColumn_solution (num : Num) (mip : MIP) (ncol : Nat) (newval : ℚ)
    (st : RoundState) :
    (moveColumn num mip ncol newval st).solution = st.solution.set ncol newval := by
  unfold moveColumn
  split
  · rw [update_solution]
  · rfl

/-- The new value of a repair move against the old one: with a nonzero coefficient `a`, the
change `delta` has `a * delta >= 0` when the activity is below the lhs and `a * delta <= 0`
when it is above the rhs, for an integer column that is not integral and for a continuous
column within its bounds. -/
theorem repairValue_direction (num : Num) (mip : MIP) (lb ub : List ℚ) (row ncol : Nat)
    (ncoef : ℚ) (st : RoundState)
    (hGE : ∀ a b, num.isFeasGE a b = false → a < b)
    (hLE : ∀ a b, num.isFeasLE a b = false → b < a)
    (hround : ∀ x, num.isIntegral x = false → num.floor x ≤ x ∧ x ≤ num.ceil x)
    (hne : ncoef ≠ 0)
    (hint : mip.integer.getD ncol false = true →
      num.isIntegral (st.solution.getD ncol 0) = false)
    (hcont : mip.integer.getD ncol false = false →
      lb.getD ncol 0 ≤ st.solution.getD ncol 0 ∧ st.solution.getD ncol 0 ≤ ub.getD ncol 0) :
    (num.isFeasGE (st.solActivity.getD row 0) (mip.lhs.getD row 0) = false →
      0 ≤ ncoef * (repairValue num mip lb ub row ncol ncoef st - st.solution.getD ncol 0)) ∧
    (num.isFeasGE (st.solActivity.getD row 0) (mip.lhs.getD row 0) = true →
      num.isFeasLE (st.solActivity.getD row 0) (mip.rhs.getD row 0) = false →
      ncoef * (repairValue num mip lb ub row ncol ncoef st - st.solution.getD ncol 0) ≤ 0) := by
  constructor
  · intro hlhs
    have hact := hGE _ _ hlhs
    unfold repairValue
    simp only [hlhs, Bool.not_false, if_true]
    cases hi : mip.integer.getD ncol false with
    | true =>
      have hr := hround _ (hint hi)
      simp only [if_true]
      by_cases hpos : ncoef > 0
      · rw [if_pos hpos]
        exact mul_nonneg (le_of_lt hpos) (by linarith [hr.2])
      · rw [if_neg hpos]
        exact mul_nonneg_of_nonpos_of_nonpos (le_of_lt (lt_of_le_of_ne (not_lt.mp hpos) hne)) (by linarith [hr.1])
    | false =>
      have hb := hcont hi
      simp only [Bool.false_eq_true, if_false]
      by_cases hpos : ncoef > 0
      · rw [if_pos hpos]
        refine mul_nonneg (le_of_lt hpos) ?_
        have hq : 0 ≤ (mip.lhs.getD row 0 - st.solActivity.getD row 0) / ncoef :=
          div_nonneg (by linarith) (le_of_lt hpos)
        have hmin := le_min hq (by linarith [hb.2] :
          0 ≤ ub.getD ncol 0 - st.solution.getD ncol 0)
        linarith
      · rw [if_neg hpos]
        refine mul_nonneg_of_nonpos_of_nonpos (le_of_lt (lt_of_le_of_ne (not_lt.mp hpos) hne)) ?_
        have hq : (mip.lhs.getD row 0 - st.solActivity.getD row 0) / ncoef ≤ 0 :=
          div_nonpos_of_nonneg_of_nonpos (by linarith) (le_of_lt (lt_of_le_of_ne (not_lt.mp hpos) hne))
        have hmax := max_le hq (by linarith [hb.1] :
          lb.getD ncol 0 - st.solution.getD ncol 0 ≤ 0)
        linarith
  · intro hlhs hrhs
    have hact := hLE _ _ hrhs
    unfold repairValue
    simp only [hlhs, Bool.not_true, Bool.false_eq_true, if_false]
    cases hi : mip.integer.getD ncol false with
    | true =>
      have hr := hround _ (hint hi)
      simp only [if_true]
      by_cases hpos : ncoef > 0
      · rw [if_pos hpos]
        exact mul_nonpos_of_nonneg_of_nonpos (le_of_lt hpos) (by linarith [hr.1])
      · rw [if_neg hpos]
        exact mul_nonpos_of_nonpos_of_nonneg (le_of_lt (lt_of_le_of_ne (not_lt.mp hpos) hne)) (by linarith [hr.2])
    | false =>
      have hb := hcont hi
      simp only [Bool.false_eq_true, if_false]
      by_cases hpos : ncoef > 0
      · rw [if_pos hpos]
        refine mul_nonpos_of_nonneg_of_nonpos (le_of_lt hpos) ?_
        have hq : (mip.rhs.getD row 0 - st.solActivity.getD row 0) / ncoef ≤ 0 :=
          div_nonpos_of_nonpos_of_nonneg (by linarith) (le_of_lt hpos)
        have hmax := max_le hq (by linarith [hb.1] :
          lb.getD ncol 0 - st.solution.getD ncol 0 ≤ 0)
        linarith
      · rw [if_neg hpos]
        refine mul_nonpos_of_nonpos_of_nonneg (le_of_lt (lt_of_le_of_ne (not_lt.mp hpos) hne)) ?_
        have hq : 0 ≤ (mip.rhs.getD row 0 - st.solActivity.getD row 0) / ncoef :=
          div_nonneg_of_nonpos (by linarith) (le_of_lt (lt_of_le_of_ne (not_lt.mp hpos) hne))
        have hmin := le_min hq (by linarith [hb.2] :
          0 ≤ ub.getD ncol 0 - st.solution.getD ncol 0)
        linarith

/-- C28: in the repair of a row, the pass for position `k` (column `n = rowindices[k]`,
coefficient `a = rowcoefs[k]`, nonzero) changes `solution[n]` by a `delta` with
`a * delta >= 0` when the row is violated on the lhs (`!isFeasGE(act, lhs)`, which means
`act < lhs`) and with `a * delta <= 0` when it is violated on the rhs, for an integer column
(`floor`/`ceil` bracket a value that is not integral) and for a continuous column whose
value is within `[lb[n], ub[n]]` before the pass. -/
theorem repair_move_direction (num : Num) (mip : MIP) (lb ub : List ℚ) (row k : Nat)
    (st : RoundState)
    (hGE : ∀ a b, num.isFeasGE a b = false → a < b)
    (hLE : ∀ a b, num.isFeasLE a b = false → b < a)
    (hround : ∀ x, num.isIntegral x = false → num.floor x ≤ x ∧ x ≤ num.ceil x)
    (hne : (mip.getRow row).coefs.getD k 0 ≠ 0)
    (hcont : mip.integer.getD ((mip.getRow row).indices.getD k 0) false = false →
      lb.getD ((mip.getRow row).indices.getD k 0) 0 ≤
          st.solution.getD ((mip.getRow row).indices.getD k 0) 0 ∧
        st.solution.getD ((mip.getRow row).indices.getD k 0) 0 ≤
          ub.getD ((mip.getRow row).indices.getD k 0) 0) :
    (num.isFeasGE (st.solActivity.getD row 0) (mip.lhs.getD row 0) = false →
      0 ≤ (mip.getRow row).coefs.getD k 0 *
        ((repairColumn num mip lb ub row k st).1.solution.getD
            ((mip.getRow row).indices.getD k 0) 0 -
          st.solution.getD ((mip.getRow row).indices.getD k 0) 0)) ∧
    (num.isFeasGE (st.solActivity.getD row 0) (mip.lhs.getD row 0) = true →
      num.isFeasLE (st.solActivity.getD row 0) (mip.rhs.getD row 0) = false →
      (mip.getRow row).coefs.getD k 0 *
        ((repairColumn num mip lb ub row k st).1.solution.getD
            ((mip.getRow row).indices.getD k 0) 0 -
          st.solution.getD ((mip.getRow row).indices.getD k 0) 0) ≤ 0) := by
  by_cases hskip : (mip.integer.getD ((mip.getRow row).indices.getD k 0) false &&
      num.isIntegral (st.solution.getD ((mip.getRow row).indices.getD k 0) 0)) = true
  · have hsame : (repairColumn num mip lb ub row k st).1 = st := by
      unfold repairColumn
      rw [if_pos hskip]
    rw [hsame]
    simp
  · have hmove : (repairColumn num mip lb ub row k st).1.solution =
        st.solution.set ((mip.getRow row).indices.getD k 0)
          (repairValue num mip lb ub row ((mip.getRow row).indices.getD k 0)
            ((mip.getRow row).coefs.getD k 0) st) := by
      unfold repairColumn
      rw [if_neg hskip]
      exact moveColumn_solution num mip _ _ st
    rw [hmove, getD_set_eq_ite]
    by_cases hlen : (mip.getRow row).indices.getD k 0 < st.solution.length
    · rw [if_pos hlen]
      refine repairValue_direction num mip lb ub row _ _ st hGE hLE hround hne ?_ hcont
      intro hi
      rw [hi, Bool.true_and] at hskip
      exact Bool.eq_false_iff.mpr hskip
    · rw [if_neg hlen]
      simp

/-- C28 witness: in the repair of row 0 of `mipR` after the rounding of column 0, the row
is violated on the rhs and the pass for the continuous column 1 (coefficient `-1`, value 0
within `[0, 10]`) changes it by a `delta` with `a * delta <= 0`. -/
theorem repair_move_direction_witness :
    (mipR.getRow 0).coefs.getD 1 0 ≠ 0 ∧
    (0 : ℚ) ≤ ([1, 0, 0] : List ℚ).getD ((mipR.getRow 0).indices.getD 1 0) 0 ∧
    specNum.isFeasGE
        ((roundStart specNum mipR lpR (computeSolActivities mipR lpR) 0).solActivity.getD 0 0)
        (mipR.lhs.getD 0 0) = true ∧
    specNum.isFeasLE
        ((roundStart specNum mipR lpR (computeSolActivities mipR lpR) 0).solActivity.getD 0 0)
        (mipR.rhs.getD 0 0) = false ∧
    (mipR.getRow 0).coefs.getD 1 0 *
        ((repairColumn specNum mipR mipR.lb mipR.ub 0 1
              (roundStart specNum mipR lpR (computeSolActivities mipR lpR) 0)).1.solution.getD
            ((mipR.getRow 0).indices.getD 1 0) 0 -
          (roundStart specNum mipR lpR (computeSolActivities mipR lpR) 0).solution.getD
            ((mipR.getRow 0).indices.getD 1 0) 0) ≤ 0 :=
  ⟨by decide!, by decide!, by decide!, by decide!,
    (repair_move_direction specNum mipR mipR.lb mipR.ub 0 1
      (roundStart specNum mipR lpR (computeSolActivities mipR lpR) 0)
      specNum_isFeasGE_false specNum_isFeasLE_false specNum_floor_le_ceil (by decide!)
      (fun _ => by decide!)).2 (by decide!) (by decide!)⟩


/-! ## Continuous repair moves: bounds and the repaired activity -/

/-- The new value of a repair move of a continuous column stays within `[lb, ub]` when the
old value is within `[lb, ub]`, the coefficient is nonzero and the row is violated on the
side the branch was chosen for. -/
theorem repairValue_within_bounds (num : Num) (mip : MIP) (lb ub : List ℚ) (row ncol : Nat)
    (ncoef : ℚ) (st : RoundState)
    (hGE : ∀ a b, num.isFeasGE a b = false → a < b)
    (hLE : ∀ a b, num.isFeasLE a b = false → b < a)
    (hne : ncoef ≠ 0)
    (hcont : mip.integer.getD ncol false = false)
    (hviol : num.isFeasGE (st.solActivity.getD row 0) (mip.lhs.getD row 0) = true →
      num.isFeasLE (st.solActivity.getD row 0) (mip.rhs.getD row 0) = false)
    (hlb : lb.getD ncol 0 ≤ st.solution.getD ncol 0)
    (hub : st.solution.getD ncol 0 ≤ ub.getD ncol 0) :
    lb.getD ncol 0 ≤ repairValue num mip lb ub row ncol ncoef st ∧
      repairValue num mip lb ub row ncol ncoef st ≤ ub.getD ncol 0 := by
  unfold repairValue
  cases hlhs : num.isFeasGE (st.solActivity.getD row 0) (mip.lhs.getD row 0) with
  | false =>
    have hact := hGE _ _ hlhs
    simp only [hlhs, hcont, Bool.not_false, Bool.false_eq_true, if_true, if_false]
    by_cases hpos : ncoef > 0
    · rw [if_pos hpos]
      have hq : 0 ≤ (mip.lhs.getD row 0 - st.solActivity.getD row 0) / ncoef :=
        div_nonneg (by linarith) (le_of_lt hpos)
      have hmin := le_min hq (by linarith :
        0 ≤ ub.getD ncol 0 - st.solution.getD ncol 0)
      have hmin2 := min_le_right ((mip.lhs.getD row 0 - st.solActivity.getD row 0) / ncoef)
        (ub.getD ncol 0 - st.solution.getD ncol 0)
      constructor <;> linarith
    · rw [if_neg hpos]
      have hneg : ncoef < 0 := lt_of_le_of_ne (not_lt.mp hpos) hne
      have hq : (mip.lhs.getD row 0 - st.solActivity.getD row 0) / ncoef ≤ 0 :=
        div_nonpos_of_nonneg_of_nonpos (by linarith) (le_of_lt hneg)
      have hmax := max_le hq (by linarith :
        lb.getD ncol 0 - st.solution.getD ncol 0 ≤ 0)
      have hmax2 := le_max_right ((mip.lhs.getD row 0 - st.solActivity.getD row 0) / ncoef)
        (lb.getD ncol 0 - st.solution.getD ncol 0)
      constructor <;> linarith
  | true =>
    have hact := hLE _ _ (hviol hlhs)
    simp only [hlhs, hcont, Bool.not_true, Bool.false_eq_true, if_false]
    by_cases hpos : ncoef > 0
    · rw [if_pos hpos]
      have hq : (mip.rhs.getD row 0 - st.solActivity.getD row 0) / ncoef ≤ 0 :=
        div_nonpos_of_nonpos_of_nonneg (by linarith) (le_of_lt hpos)
      have hmax := max_le hq (by linarith :
        lb.getD ncol 0 - st.solution.getD ncol 0 ≤ 0)
      have hmax2 := le_max_right ((mip.rhs.getD row 0 - st.solActivity.getD row 0) / ncoef)
        (lb.getD ncol 0 - st.solution.getD ncol 0)
      constructor <;> linarith
    · rw [if_neg hpos]
      have hneg : ncoef < 0 := lt_of_le_of_ne (not_lt.mp hpos) hne
      have hq : 0 ≤ (mip.rhs.getD row 0 - st.solActivity.getD row 0) / ncoef :=
        div_nonneg_of_nonpos (by linarith) (le_of_lt hneg)
      have hmin := le_min hq (by linarith :
        0 ≤ ub.getD ncol 0 - st.solution.getD ncol 0)
      have hmin2 := min_le_right ((mip.rhs.getD row 0 - st.solActivity.getD row 0) / ncoef)
        (ub.getD ncol 0 - st.solution.getD ncol 0)
      constructor <;> linarith

/-- An unclipped repair move of a continuous column closes the gap between the maintained
activity `solActivity[row]` and the violated side: `a * delta` is `lhs - solActivity[row]`
or `rhs - solActivity[row]`. -/
theorem repairValue_unclipped (num : Num) (mip : MIP) (lb ub : List ℚ) (row ncol : Nat)
    (ncoef : ℚ) (st : RoundState) (hne : ncoef ≠ 0)
    (hcont : mip.integer.getD ncol false = false) :
    (num.isFeasGE (st.solActivity.getD row 0) (mip.lhs.getD row 0) = false →
      (if ncoef > 0 then
          (mip.lhs.getD row 0 - st.solActivity.getD row 0) / ncoef ≤
            ub.getD ncol 0 - st.solution.getD ncol 0
        else lb.getD ncol 0 - st.solution.getD ncol 0 ≤
          (mip.lhs.getD row 0 - st.solActivity.getD row 0) / ncoef) →
      ncoef * (repairValue num mip lb ub row ncol ncoef st - st.solution.getD ncol 0) =
        mip.lhs.getD row 0 - st.solActivity.getD row 0) ∧
    (num.isFeasGE (st.solActivity.getD row 0) (mip.lhs.getD row 0) = true →
      (if ncoef > 0 then
          lb.getD ncol 0 - st.solution.getD ncol 0 ≤
            (mip.rhs.getD row 0 - st.solActivity.getD row 0) / ncoef
        else (mip.rhs.getD row 0 - st.solActivity.getD row 0) / ncoef ≤
          ub.getD ncol 0 - st.solution.getD ncol 0) →
      ncoef * (repairValue num mip lb ub row ncol ncoef st - st.solution.getD ncol 0) =
        mip.rhs.getD row 0 - st.solActivity.getD row 0) := by
  constructor
  · intro hlhs hclip
    unfold repairValue
    simp only [hlhs, hcont, Bool.not_false, Bool.false_eq_true, if_true, if_false]
    by_cases hpos : ncoef > 0
    · rw [if_pos hpos] at hclip
      rw [if_pos hpos, min_eq_left hclip]
      field_simp
      ring
    · rw [if_neg hpos] at hclip
      rw [if_neg hpos, max_eq_left hclip]
      field_simp
      ring
  · intro hlhs hclip
    unfold repairValue
    simp only [hlhs, hcont, Bool.not_true, Bool.false_eq_true, if_false]
    by_cases hpos : ncoef > 0
    · rw [if_pos hpos] at hclip
      rw [if_pos hpos, max_eq_left hclip]
      field_simp
      ring
    · rw [if_neg hpos] at hclip
      rw [if_neg hpos, min_eq_left hclip]
      field_simp
      ring

/-- C29 (code bug, the defect of C13): on `mipH` at its LP optimum `(1/2, 0, 0)` the
rounding of column 0 down to 0 violates row 0 on the lhs. In the repair of row 0 the pass
for column 1 moves it by `1/5000000`, not more than `1e-6`, so the maintained activity of
the row stays 0. The next pass moves the continuous column 2 (coefficient 1, value 0
within `[0, 10]`) by `(lhs - solActivity) / a = 1/50000`, which no bound clips, and the row
counts as corrected; the value stays within `[0, 10]`, but the activity of row 0 computed
from the new solution is `1/25000`, not the violated side `lhs = 1/50000`. -/
theorem repair_move_unclipped_misses_violated_side :
    roundStart specNum mipH lpH (computeSolActivities mipH lpH) 0 =
      { solution := [0, 0, 0], solActivity := [0, 0, 0], violatedRows := [0],
        isviolated := [true, false, false], nviolated := 1, ncontchanges := 0 } ∧
    repairColumn specNum mipH mipH.lb mipH.ub 0 1
        { solution := [0, 0, 0], solActivity := [0, 0, 0], violatedRows := [],
          isviolated := [true, false, false], nviolated := 1, ncontchanges := 0 } =
      ({ solution := [0, 1/5000000, 0], solActivity := [0, 0, 0], violatedRows := [],
         isviolated := [true, false, false], nviolated := 1, ncontchanges := 0 }, false) ∧
    (mipH.getRow 0).indices.getD 2 0 = 2 ∧ (mipH.getRow 0).coefs.getD 2 0 = 1 ∧
    mipH.integer.getD 2 false = false ∧ mipH.lb.getD 2 0 = 0 ∧ mipH.ub.getD 2 0 = 10 ∧
    specNum.isFeasGE 0 (mipH.lhs.getD 0 0) = false ∧
    (mipH.lhs.getD 0 0 - 0) / 1 < mipH.ub.getD 2 0 - 0 ∧
    repairColumn specNum mipH mipH.lb mipH.ub 0 2
        { solution := [0, 1/5000000, 0], solActivity := [0, 0, 0], violatedRows := [],
          isviolated := [true, false, false], nviolated := 1, ncontchanges := 0 } =
      ({ solution := [0, 1/5000000, 1/50000], solActivity := [1/50000, 0, 0],
         violatedRows := [], isviolated := [false, false, false], nviolated := 0,
         ncontchanges := 1 }, true) ∧
    (repairAt specNum mipH mipH.lb mipH.ub
        (roundStart specNum mipH lpH (computeSolActivities mipH lpH) 0) 0).1.solution =
      [0, 1/5000000, 1/50000] ∧
    rowActivity (mipH.getRow 0) [0, 1/5000000, 1/50000] = 1/25000 ∧
    mipH.lhs.getD 0 0 = 1/50000 := by
  refine ⟨?_, ?_, ?_, ?_, ?_, ?_, ?_, ?_, ?_, ?_, ?_, ?_, ?_⟩ <;> decide!


/-! ## The integer columns during the orderings of `MinLockRounding::search` -/

theorem ratCeil_le_add_one (x : ℚ) : ((Rat.ceil x : ℤ) : ℚ) ≤ x + 1 := by
  unfold Rat.ceil
  split_ifs with hden
  · have hx : (x.num : ℚ) = x := (Rat.den_eq_one_iff x).mp hden
    rw [hx]
    linarith
  · have h : x.num / (x.den : ℤ) = ⌊x⌋ := Rat.floor_def.symm
    rw [h]
    push_cast
    linarith [Int.floor_le x]

theorem cround_intCast (m : ℤ) : cround (m : ℚ) = (m : ℚ) := by
  unfold cround
  split_ifs with h
  · have hf : Rat.floor ((m : ℚ) + 1/2) = ⌊(m : ℚ) + 1/2⌋ := by
      rw [Rat.floor_def', Rat.floor_def]
    rw [hf]
    have : ⌊(m : ℚ) + 1/2⌋ = m := by
      rw [Int.floor_eq_iff]
      constructor <;> linarith
    rw [this]
  · have h1 := le_ratCeil ((m : ℚ) - 1/2)
    have h2 := ratCeil_le_add_one ((m : ℚ) - 1/2)
    have h3 : ((m - 1 : ℤ) : ℚ) < ((Rat.ceil ((m : ℚ) - 1/2) : ℤ) : ℚ) := by
      push_cast
      linarith
    have h4 : ((Rat.ceil ((m : ℚ) - 1/2) : ℤ) : ℚ) < ((m + 1 : ℤ) : ℚ) := by
      push_cast
      linarith
    have h3i : m - 1 < Rat.ceil ((m : ℚ) - 1/2) := by exact_mod_cast h3
    have h4i : Rat.ceil ((m : ℚ) - 1/2) < m + 1 := by exact_mod_cast h4
    have : Rat.ceil ((m : ℚ) - 1/2) = m := by omega
    rw [this]

theorem cround_isInt (x : ℚ) : ∃ m : ℤ, cround x = (m : ℚ) := by
  unfold cround
  split_ifs
  · exact ⟨_, rfl⟩
  · exact ⟨_, rfl⟩

theorem specNum_isIntegral_intCast (m : ℤ) : specNum.isIntegral (m : ℚ) = true := by
  show decide (|(m : ℚ) - cround (m : ℚ)| ≤ 1/1000000) = true
  rw [cround_intCast]
  simp

theorem specNum_isIntegral_floor (v : ℚ) : specNum.isIntegral (specNum.floor v) = true := by
  show specNum.isIntegral
    (if |v - cround v| ≤ 1/1000000 then cround v else ((Rat.floor v : ℤ) : ℚ)) = true
  split_ifs
  · obtain ⟨m, hm⟩ := cround_isInt v
    rw [hm]
    exact specNum_isIntegral_intCast m
  · exact specNum_isIntegral_intCast _

theorem specNum_isIntegral_ceil (v : ℚ) : specNum.isIntegral (specNum.ceil v) = true := by
  show specNum.isIntegral
    (if |v - cround v| ≤ 1/1000000 then cround v else ((Rat.ceil v : ℤ) : ℚ)) = true
  split_ifs
  · obtain ⟨m, hm⟩ := cround_isInt v
    rw [hm]
    exact specNum_isIntegral_intCast m
  · exact specNum_isIntegral_intCast _

/-- A write of the floor or the ceil into an integer column that is not integral keeps
the state of the integer columns. -/
theorem roundedInv_set (num : Num) (mip : MIP) (x sol : List ℚ) (col : Nat) (v : ℚ)
    (hfloor : ∀ v, num.isIntegral (num.floor v) = true)
    (hceil : ∀ v, num.isIntegral (num.ceil v) = true)
    (hinv : RoundedInv num mip x sol)
    (hv : mip.integer.getD col false = true →
      num.isIntegral (sol.getD col 0) = false ∧
        (v = num.floor (sol.getD col 0) ∨ v = num.ceil (sol.getD col 0))) :
    RoundedInv num mip x (sol.set col v) := by
  intro c hc
  by_cases hcc : col = c
  · subst hcc
    by_cases hlen : col < sol.length
    · rw [getD_set_self _ _ _ _ hlen]
      obtain ⟨hni, hval⟩ := hv hc
      rcases hinv col hc with h | ⟨hint, _⟩
      · rw [h] at hval
        right
        rcases hval with hval | hval
        · exact ⟨by rw [hval]; exact hfloor _, Or.inl hval⟩
        · exact ⟨by rw [hval]; exact hceil _, Or.inr hval⟩
      · rw [hni] at hint
        exact absurd hint Bool.false_ne_true
    · rw [List.set_eq_of_length_le (by omega)]
      exact hinv col hc
  · rw [getD_set_of_ne _ _ _ _ _ hcc]
    exact hinv c hc

/-- The rounding step writes `Num::floor(solution[col])` when `downLocks[col] <
upLocks[col]` and `Num::ceil(solution[col])` otherwise, into `solution[col]` only. -/
theorem roundStart_solution (num : Num) (mip : MIP) (solution solActivity : List ℚ)
    (col : Nat) :
    (roundStart num mip solution solActivity col).solution =
      if mip.downLocks.getD col 0 < mip.upLocks.getD col 0 then
        solution.set col (num.floor (solution.getD col 0))
      else solution.set col (num.ceil (solution.getD col 0)) := rfl

theorem roundStart_inv (num : Num) (mip : MIP) (x solution solActivity : List ℚ) (col : Nat)
    (hfloor : ∀ v, num.isIntegral (num.floor v) = true)
    (hceil : ∀ v, num.isIntegral (num.ceil v) = true)
    (hinv : RoundedInv num mip x solution)
    (hfrac : num.isIntegral (solution.getD col 0) = false) :
    RoundedInv num mip x (roundStart num mip solution solActivity col).solution := by
  rw [roundStart_solution]
  split_ifs
  · exact roundedInv_set num mip x solution col _ hfloor hceil hinv
      (fun _ => ⟨hfrac, Or.inl rfl⟩)
  · exact roundedInv_set num mip x solution col _ hfloor hceil hinv
      (fun _ => ⟨hfrac, Or.inr rfl⟩)

/-- The new value a repair move gives to an integer column is the floor or the ceil of
the old one. -/
theorem repairValue_integer (num : Num) (mip : MIP) (lb ub : List ℚ) (row ncol : Nat)
    (ncoef : ℚ) (st : RoundState) (hi : mip.integer.getD ncol false = true) :
    repairValue num mip lb ub row ncol ncoef st = num.floor (st.solution.getD ncol 0) ∨
      repairValue num mip lb ub row ncol ncoef st = num.ceil (st.solution.getD ncol 0) := by
  unfold repairValue
  simp only [hi, if_true]
  split_ifs
  · exact Or.inr rfl
  · exact Or.inl rfl
  · exact Or.inl rfl
  · exact Or.inr rfl

/-- The solution after one pass of the loop over the columns of a row: unchanged when
the column is skipped, the written new value otherwise. -/
theorem repairColumn_solution (num : Num) (mip : MIP) (lb ub : List ℚ) (row k : Nat)
    (st : RoundState) :
    (repairColumn num mip lb ub row k st).1.solution =
      if (mip.integer.getD ((mip.getRow row).indices.getD k 0) false &&
          num.isIntegral (st.solution.getD ((mip.getRow row).indices.getD k 0) 0)) = true
      then st.solution
      else st.solution.set ((mip.getRow row).indices.getD k 0)
        (repairValue num mip lb ub row ((mip.getRow row).indices.getD k 0)
          ((mip.getRow row).coefs.getD k 0) st) := by
  unfold repairColumn
  split_ifs
  · rfl
  · exact moveColumn_solution num mip _ _ st

theorem repairColumn_inv (num : Num) (mip : MIP) (lb ub x : List ℚ) (row k : Nat)
    (st : RoundState)
    (hfloor : ∀ v, num.isIntegral (num.floor v) = true)
    (hceil : ∀ v, num.isIntegral (num.ceil v) = true)
    (hinv : RoundedInv num mip x st.solution) :
    RoundedInv num mip x (repairColumn num mip lb ub row k st).1.solution := by
  rw [repairColumn_solution]
  split_ifs with hskip
  · exact hinv
  · refine roundedInv_set num mip x st.solution _ _ hfloor hceil hinv ?_
    intro hi
    rw [hi, Bool.true_and] at hskip
    exact ⟨Bool.eq_false_iff.mpr hskip, repairValue_integer num mip lb ub row _ _ st hi⟩

/-- One pass of the loop over the columns of a row leaves an integer column whose value
is integral as it is. -/
theorem repairColumn_keeps (num : Num) (mip : MIP) (lb ub : List ℚ) (row k : Nat)
    (st : RoundState) (c : Nat) (hc : mip.integer.getD c false = true)
    (hint : num.isIntegral (st.solution.getD c 0) = true) :
    (repairColumn num mip lb ub row k st).1.solution.getD c 0 = st.solution.getD c 0 := by
  rw [repairColumn_solution]
  split_ifs with hskip
  · rfl
  · by_cases hcc : (mip.getRow row).indices.getD k 0 = c
    · rw [hcc, hc, hint] at hskip
      exact absurd rfl hskip
    · exact getD_set_of_ne _ _ _ _ _ hcc

theorem repairRow_inv (num : Num) (mip : MIP) (lb ub x : List ℚ) (row : Nat)
    (hfloor : ∀ v, num.isIntegral (num.floor v) = true)
    (hceil : ∀ v, num.isIntegral (num.ceil v) = true) (ks : List Nat) :
    ∀ st : RoundState, RoundedInv num mip x st.solution →
      RoundedInv num mip x (repairRow num mip lb ub row ks st).1.solution := by
  induction ks with
  | nil => intro st hinv; exact hinv
  | cons k ks ih =>
    intro st hinv
    have h1 := repairColumn_inv num mip lb ub x row k st hfloor hceil hinv
    simp only [repairRow]
    split_ifs
    · exact h1
    · exact ih _ h1

theorem repairRow_keeps (num : Num) (mip : MIP) (lb ub : List ℚ) (row : Nat) (c : Nat)
    (hc : mip.integer.getD c false = true) (ks : List Nat) :
    ∀ st : RoundState, num.isIntegral (st.solution.getD c 0) = true →
      (repairRow num mip lb ub row ks st).1.solution.getD c 0 = st.solution.getD c 0 := by
  induction ks with
  | nil => intro st _; rfl
  | cons k ks ih =>
    intro st hint
    have h1 := repairColumn_keeps num mip lb ub row k st c hc hint
    simp only [repairRow]
    split_ifs
    · exact h1
    · rw [ih _ (by rw [h1]; exact hint), h1]

theorem repairAt_inv (num : Num) (mip : MIP) (lb ub x : List ℚ) (st : RoundState) (j : Nat)
    (hfloor : ∀ v, num.isIntegral (num.floor v) = true)
    (hceil : ∀ v, num.isIntegral (num.ceil v) = true)
    (hinv : RoundedInv num mip x st.solution) :
    RoundedInv num mip x (repairAt num mip lb ub st j).1.solution :=
  repairRow_inv num mip lb ub x _ hfloor hceil _ { st with violatedRows := [] } hinv

theorem repairAt_keeps (num : Num) (mip : MIP) (lb ub : List ℚ) (st : RoundState) (j c : Nat)
    (hc : mip.integer.getD c false = true)
    (hint : num.isIntegral (st.solution.getD c 0) = true) :
    (repairAt num mip lb ub st j).1.solution.getD c 0 = st.solution.getD c 0 :=
  repairRow_keeps num mip lb ub _ c hc _ { st with violatedRows := [] } hint

theorem repairRows_inv (num : Num) (mip : MIP) (lb ub x : List ℚ)
    (hfloor : ∀ v, num.isIntegral (num.floor v) = true)
    (hceil : ∀ v, num.isIntegral (num.ceil v) = true) (fuel : Nat) :
    ∀ (j : Nat) (st st2 : RoundState), RoundedInv num mip x st.solution →
      repairRows num mip lb ub fuel j st = some st2 → RoundedInv num mip x st2.solution := by
  induction fuel with
  | zero => intro j st st2 _ h; simp [repairRows] at h
  | succ fuel ih =>
    intro j st st2 hinv h
    rw [repairRows] at h
    have hat := repairAt_inv num mip lb ub x st j hfloor hceil hinv
    split_ifs at h
    · exact ih (j + 1) st st2 hinv h
    · rw [← Option.some.inj h]
      exact hat
    · exact ih (j + 1) _ st2 hat h
    · rw [← Option.some.inj h]
      exact hinv

theorem repairRows_keeps (num : Num) (mip : MIP) (lb ub : List ℚ) (c : Nat)
    (hc : mip.integer.getD c false = true) (fuel : Nat) :
    ∀ (j : Nat) (st st2 : RoundState), num.isIntegral (st.solution.getD c 0) = true →
      repairRows num mip lb ub fuel j st = some st2 →
        st2.solution.getD c 0 = st.solution.getD c 0 := by
  induction fuel with
  | zero => intro j st st2 _ h; simp [repairRows] at h
  | succ fuel ih =>
    intro j st st2 hint h
    rw [repairRows] at h
    have hat := repairAt_keeps num mip lb ub st j c hc hint
    split_ifs at h
    · exact ih (j + 1) st st2 hint h
    · rw [← Option.some.inj h]
      exact hat
    · rw [ih (j + 1) _ st2 (by rw [hat]; exact hint) h, hat]
    · rw [← Option.some.inj h]

/-- The rounding step leaves every column whose value is integral as it is, when the
rounded column is not integral. -/
theorem roundStart_keeps (num : Num) (mip : MIP) (solution solActivity : List ℚ)
    (col c : Nat) (hfrac : num.isIntegral (solution.getD col 0) = false)
    (hint : num.isIntegral (solution.getD c 0) = true) :
    (roundStart num mip solution solActivity col).solution.getD c 0 = solution.getD c 0 := by
  have hcc : col ≠ c := by
    intro h
    rw [h, hint] at hfrac
    exact absurd hfrac.symm Bool.false_ne_true
  rw [roundStart_solution]
  split_ifs
  · exact getD_set_of_ne _ _ _ _ _ hcc
  · exact getD_set_of_ne _ _ _ _ _ hcc

/-- The loop over the fractional columns from a solution in the state `RoundedInv`: it
ends, the final solution is in that state, and every integer column that was integral
holds its value. -/
theorem roundColumns_inv (num : Num) (mip : MIP) (lb ub x : List ℚ)
    (hfloor : ∀ v, num.isIntegral (num.floor v) = true)
    (hceil : ∀ v, num.isIntegral (num.ceil v) = true) (cols : List Nat) :
    ∀ (solution solActivity : List ℚ), RoundedInv num mip x solution →
      ∃ out, roundColumns num mip lb ub cols solution solActivity = some out ∧
        RoundedInv num mip x out.solution ∧
        ∀ c, mip.integer.getD c false = true →
          num.isIntegral (solution.getD c 0) = true →
            out.solution.getD c 0 = solution.getD c 0 := by
  induction cols with
  | nil =>
    intro solution solActivity hinv
    exact ⟨_, rfl, hinv, fun _ _ _ => rfl⟩
  | cons col rest ih =>
    intro solution solActivity hinv
    rw [roundColumns]
    by_cases hcol : num.isIntegral (solution.getD col 0) = true
    · rw [if_pos hcol]
      exact ih solution solActivity hinv
    · rw [if_neg hcol]
      have hfrac : num.isIntegral (solution.getD col 0) = false := Bool.eq_false_iff.mpr hcol
      have hst := roundStart_inv num mip x solution solActivity col hfloor hceil hinv hfrac
      have hkeep := fun c hint =>
        roundStart_keeps num mip solution solActivity col c hfrac hint
      split_ifs with hnv
      · obtain ⟨out, hout, hoinv, hokeep⟩ := ih _
          (roundStart num mip solution solActivity col).solActivity hst
        refine ⟨out, hout, hoinv, ?_⟩
        intro c hc hint
        rw [hokeep c hc (by rw [hkeep c hint]; exact hint), hkeep c hint]
      · have hsome := repairRows_fuel_isSome num mip lb ub _
          (roundStart_length num mip solution solActivity col)
        cases hr : repairRows num mip lb ub (repairFuel mip) 0
            (roundStart num mip solution solActivity col) with
        | none => rw [hr] at hsome; simp at hsome
        | some st2 =>
          have h2inv := repairRows_inv num mip lb ub x hfloor hceil _ _ _ st2 hst hr
          have h2keep := fun c (hc : mip.integer.getD c false = true)
              (hint : num.isIntegral (solution.getD c 0) = true) =>
            repairRows_keeps num mip lb ub c hc _ _ _ st2
              (by rw [hkeep c hint]; exact hint) hr
          simp only
          split_ifs
          · refine ⟨_, rfl, h2inv, ?_⟩
            intro c hc hint
            show st2.solution.getD c 0 = solution.getD c 0
            rw [h2keep c hc hint, hkeep c hint]
          · obtain ⟨out, hout, hoinv, hokeep⟩ := ih st2.solution st2.solActivity h2inv
            refine ⟨out, hout, hoinv, ?_⟩
            intro c hc hint
            have h3 : st2.solution.getD c 0 = solution.getD c 0 := by
              rw [h2keep c hc hint, hkeep c hint]
            rw [hokeep c hc (by rw [h3]; exact hint), h3]

/-- C30: with a `Num` whose `floor` and `ceil` return values that `isIntegral` accepts,
every ordering of `MinLockRounding::search` ends, and in its final solution each integer
column `c` holds the root LP value `x[c]`, `Num::floor(x[c])` or `Num::ceil(x[c])`, an
integer column that was integral in `x` holding `x[c]`. The same holds from every solution
met on the way (`RoundedInv`): the rounding step writes the floor when `downLocks[col] <
upLocks[col]` and the ceil otherwise, into a column that is not integral; a pass of the
repair loop keeps `RoundedInv` and leaves an integer column whose value is integral as it
is; and the rest of the loop over the fractional columns does so too. -/
theorem rounding_keeps_integer_columns (num : Num) (mip : MIP) (lb ub : List ℚ)
    (hfloor : ∀ v, num.isIntegral (num.floor v) = true)
    (hceil : ∀ v, num.isIntegral (num.ceil v) = true) :
    (∀ (sort : (Nat → Nat → Bool) → List Nat → List Nat) (result : LPResult)
        (solAct : List ℚ) (fractional : List Nat) (ordering : Nat),
      ∃ out, tryOrdering num sort mip lb ub result solAct fractional ordering = some out ∧
        (∀ c, mip.integer.getD c false = true →
          out.solution.getD c 0 = result.primalSolution.getD c 0 ∨
            out.solution.getD c 0 = num.floor (result.primalSolution.getD c 0) ∨
            out.solution.getD c 0 = num.ceil (result.primalSolution.getD c 0)) ∧
        ∀ c, mip.integer.getD c false = true →
          num.isIntegral (result.primalSolution.getD c 0) = true →
            out.solution.getD c 0 = result.primalSolution.getD c 0) ∧
    (∀ (solution solActivity : List ℚ) (col : Nat),
      (roundStart num mip solution solActivity col).solution =
        if mip.downLocks.getD col 0 < mip.upLocks.getD col 0 then
          solution.set col (num.floor (solution.getD col 0))
        else solution.set col (num.ceil (solution.getD col 0))) ∧
    (∀ (x solution solActivity : List ℚ) (col : Nat), RoundedInv num mip x solution →
      num.isIntegral (solution.getD col 0) = false →
        RoundedInv num mip x (roundStart num mip solution solActivity col).solution) ∧
    (∀ (x : List ℚ) (row k : Nat) (st : RoundState), RoundedInv num mip x st.solution →
      RoundedInv num mip x (repairColumn num mip lb ub row k st).1.solution) ∧
    (∀ (row k : Nat) (st : RoundState) (c : Nat), mip.integer.getD c false = true →
      num.isIntegral (st.solution.getD c 0) = true →
        (repairColumn num mip lb ub row k st).1.solution.getD c 0 = st.solution.getD c 0) ∧
    ∀ (x : List ℚ) (cols : List Nat) (solution solActivity : List ℚ),
      RoundedInv num mip x solution →
        ∃ out, roundColumns num mip lb ub cols solution solActivity = some out ∧
          RoundedInv num mip x out.solution ∧
          ∀ c, mip.integer.getD c false = true →
            num.isIntegral (solution.getD c 0) = true →
              out.solution.getD c 0 = solution.getD c 0 := by
  refine ⟨?_, ?_, ?_, ?_, ?_, ?_⟩
  · intro sort result solAct fractional ordering
    obtain ⟨out, hout, hinv, hkeep⟩ := roundColumns_inv num mip lb ub result.primalSolution
      hfloor hceil (orderedColumns sort mip ordering fractional) result.primalSolution solAct
      (fun _ _ => Or.inl rfl)
    refine ⟨out, hout, ?_, hkeep⟩
    intro c hc
    rcases hinv c hc with h | ⟨_, h | h⟩
    · exact Or.inl h
    · exact Or.inr (Or.inl h)
    · exact Or.inr (Or.inr h)
  · intro solution solActivity col
    exact roundStart_solution num mip solution solActivity col
  · intro x solution solActivity col hinv hfrac
    exact roundStart_inv num mip x solution solActivity col hfloor hceil hinv hfrac
  · intro x row k st hinv
    exact repairColumn_inv num mip lb ub x row k st hfloor hceil hinv
  · intro row k st c hc hint
    exact repairColumn_keeps num mip lb ub row k st c hc hint
  · intro x cols solution solActivity hinv
    exact roundColumns_inv num mip lb ub x hfloor hceil cols solution solActivity hinv

/-- C30 witness: `specNum` satisfies the two hypotheses, and ordering 0 on `mipH` from its
LP optimum ends with every integer column at its LP value, its floor or its ceil. -/
theorem rounding_keeps_integer_columns_witness :
    (∀ v, specNum.isIntegral (specNum.floor v) = true) ∧
    (∀ v, specNum.isIntegral (specNum.ceil v) = true) ∧
    ∃ out, tryOrdering specNum insertionSort mipH mipH.lb mipH.ub
        { status := LPStatus.OPTIMAL, obj := 1/2, primalSolution := lpH, dualSolution := [] }
        (computeSolActivities mipH lpH) [0] 0 = some out ∧
      (∀ c, mipH.integer.getD c false = true →
        out.solution.getD c 0 = lpH.getD c 0 ∨
          out.solution.getD c 0 = specNum.floor (lpH.getD c 0) ∨
          out.solution.getD c 0 = specNum.ceil (lpH.getD c 0)) ∧
      ∀ c, mipH.integer.getD c false = true →
        specNum.isIntegral (lpH.getD c 0) = true →
          out.solution.getD c 0 = lpH.getD c 0 :=
  ⟨specNum_isIntegral_floor, specNum_isIntegral_ceil,
    (rounding_keeps_integer_columns specNum mipH mipH.lb mipH.ub specNum_isIntegral_floor
      specNum_isIntegral_ceil).1 insertionSort
      { status := LPStatus.OPTIMAL, obj := 1/2, primalSolution := lpH, dualSolution := [] }
      (computeSolActivities mipH lpH) [0] 0⟩


/-! ## Reads and assertions of the reader -/

/-- C37 (code bug): `parseName` reads outside its data on two of the inputs the claim
names. When the second loop stops at a line without tokens (the empty line that `getline`
leaves at the end of the input, or a line of tabs), `tokens.size() > 1` is false and
`tokens[0]` is read from the empty token list: so it is on the input that ends right after
the NAME line. On a line of spaces `find_first_not_of(" ")` is `npos` and `line[npos]` is
read. On the input `NAME x`, `ROWS` every read is in range. -/
theorem parseName_reads_out_of_range :
    (∀ st : ReaderState, (split (skipLines st.file).1).length = 2 →
      (split (skipLines st.file).1).getD 0 "" = "NAME" →
      (split (skipLines (skipLines st.file).2).1).length = 0 →
        parseName.inRange st = false) ∧
    (∀ (line : String) (file : List String) (st : ReaderState), st.file = line :: file →
      line.toList ≠ [] → firstNotSpace line = none → parseName.inRange st = false) ∧
    skipLines ["NAME x"] = ("NAME x", []) ∧ skipLines [] = ("", []) ∧ split "" = [] ∧
    parseName.inRange (parse.start ["NAME x"]) = false ∧
    (parseName (parse.start ["NAME x"])).1 = Section.FAIL ∧
    firstNotSpace "   " = none ∧
    parseName.inRange (parse.start ["   ", "NAME x", "ROWS"]) = false ∧
    parseName.inRange (parse.start ["NAME x", "\t", "ROWS"]) = false ∧
    parseName.inRange (parse.start ["NAME x", "ROWS"]) = true := by
  refine ⟨?_, ?_, by decide!, rfl, by decide!, by decide!, by decide!, by decide!, by decide!,
    by decide!, by decide!⟩
  · intro st h2 hname h0
    unfold parseName.inRange
    have hcond : ¬ ((split (skipLines st.file).1).length ≠ 2 ∨
        (split (skipLines st.file).1).getD 0 "" ≠ "NAME") := by
      intro h
      rcases h with h | h
      · exact h h2
      · exact h hname
    rw [if_neg hcond, h0]
    simp
  · intro line file st hfile hne hnone
    unfold parseName.inRange
    rw [hfile]
    have hr : isSkipped.inRange line = false := by
      unfold isSkipped.inRange
      rw [hnone]
      cases hl : line.toList with
      | nil => exact absurd hl hne
      | cons c cs => rfl
    simp only [skipLines.inRange, hr, Bool.false_and]

/-- C38 (code bug): the map `rows` holds the constraint rows only (`parseRows` does not
insert the objective row), so for every model with exactly one constraint the condition of
`assert(rows.size() > 1)` at the start of `parseRhs` is false. On the trivial LP `fileT`
the reader reaches the RHS section with `rows = {c1}`; the assertion fails there, while
without it `parseRhs` returns `BOUNDS` with one entry in `lhs` and one in `rhs`. -/
theorem parseRhs_rowCountAssert_fails_on_single_constraint :
    (∀ st : ReaderState, st.rows.length = 1 → parseRhs.rowCountAssert st = false) ∧
    (parse.loop decimal decimal infval 3 Section.NAME (parse.start fileT)).1 = Section.RHS ∧
    (parse.loop decimal decimal infval 3 Section.NAME (parse.start fileT)).2.rows =
      [("c1", ConsType.GREATER, 0)] ∧
    (parse.loop decimal decimal infval 3 Section.NAME (parse.start fileT)).2.objName = "obj" ∧
    parseRhs.rowCountAssert
      (parse.loop decimal decimal infval 3 Section.NAME (parse.start fileT)).2 = false ∧
    (parseRhs decimal infval
      (parse.loop decimal decimal infval 3 Section.NAME (parse.start fileT)).2).1 =
      Section.BOUNDS ∧
    (parseRhs decimal infval
      (parse.loop decimal decimal infval 3 Section.NAME (parse.start fileT)).2).2.lhs = [1] ∧
    (parseRhs decimal infval
      (parse.loop decimal decimal infval 3 Section.NAME (parse.start fileT)).2).2.rhs =
      [infval] ∧
    (parse.loop decimal decimal infval 5 Section.NAME (parse.start fileT)).1 = Section.END := by
  refine ⟨?_, by decide!, by decide!, by decide!, by decide!, by decide!, by decide!,
    by decide!, by decide!⟩
  intro st h
  unfold parseRhs.rowCountAssert
  rw [h]
  rfl

/-! ## The second pass of the bound trials and `propagate` -/

/-- C32 (code bug): in the second loop of `tryUBSolution` a deferred column whose lower
bound is no longer minus infinity gets `localub[col] = locallb[col]` and the loop goes on
without a call of `propagate`, whatever `propagate` is; `tryLBSolution` does the same for a
deferred column whose upper bound is no longer infinite. On `mipG` the first loop defers
column 0 and the propagation of column 1 raises its lower bound to 2; the second loop
changes its upper bound from 5 to 2 and the trial returns true with a kernel that rejects
every call for column 0. On `mipL` the same happens in `tryLBSolution`, where the lower
bound of column 0 goes from 0 to 6. -/
theorem secondPass_changes_bound_without_propagate :
    (∀ (num : Num) (propagate : Propagate) (mip : MIP) (col : Nat) (rest : List Nat)
        (b : TrialBounds), num.isMinusInf (b.lb.getD col 0) = false →
      tryUBSolution.secondPass num propagate mip (col :: rest) b =
        tryUBSolution.secondPass num propagate mip rest (b.fixToLower col)) ∧
    (∀ (num : Num) (propagate : Propagate) (mip : MIP) (col : Nat) (rest : List Nat)
        (b : TrialBounds), num.isInf (b.ub.getD col 0) = false →
      tryLBSolution.secondPass num propagate mip (col :: rest) b =
        tryLBSolution.secondPass num propagate mip rest (b.fixToUpper col)) ∧
    (∀ (mip : MIP) (b : TrialBounds) (oldlb oldub : ℚ),
      (propagateG0 mip b 0 oldlb oldub).1 = false ∧
        (propagateL0 mip b 0 oldlb oldub).1 = false) ∧
    tryUBSolution.firstPass specNum propagateG0 mipG (List.range mipG.getNCols)
        { lb := [-infval, 0], ub := [5, 3], activities := [] } [] =
      (true, { lb := [2, 0], ub := [5, 0], activities := [] }, [0]) ∧
    tryUBSolution specNum propagateG0 mipG
        { lb := [-infval, 0], ub := [5, 3], activities := [] } =
      (true, { lb := [2, 0], ub := [2, 0], activities := [] }) ∧
    tryLBSolution.firstPass specNum propagateL0 mipL (List.range mipL.getNCols)
        { lb := [0, 1], ub := [infval, 4], activities := [] } [] =
      (true, { lb := [0, 4], ub := [6, 4], activities := [] }, [0]) ∧
    tryLBSolution specNum propagateL0 mipL
        { lb := [0, 1], ub := [infval, 4], activities := [] } =
      (true, { lb := [6, 4], ub := [6, 4], activities := [] }) := by
  refine ⟨?_, ?_, ?_, by decide!, by decide!, by decide!, by decide!⟩
  · intro num propagate mip col rest b h
    rw [tryUBSolution.secondPass]
    simp only [h, Bool.not_false, if_true]
  · intro num propagate mip col rest b h
    rw [tryLBSolution.secondPass]
    simp only [h, Bool.not_false, if_true]
  · intro mip b oldlb oldub
    exact ⟨rfl, rfl⟩


/-! ## The orderings of `MinLockRounding::search` -/

/-- A comparator that compares a key with `<` is a strict weak ordering. -/
theorem strictWeakOrder_of_key {α : Type} [LinearOrder α] (comp : Nat → Nat → Bool)
    (f : Nat → α) (hcomp : ∀ a b, comp a b = true ↔ f a < f b) : StrictWeakOrder comp := by
  have hfalse : ∀ a b, comp a b = false ↔ f b ≤ f a := by
    intro a b
    rw [← not_lt, ← hcomp, Bool.not_eq_true]
  refine ⟨?_, ?_, ?_⟩
  · intro a
    exact (hfalse a a).mpr (le_refl _)
  · intro a b c h1 h2
    exact (hcomp a c).mpr (lt_trans ((hcomp a b).mp h1) ((hcomp b c).mp h2))
  · intro a b c h1 h2 h3 h4
    rw [hfalse] at h1 h2 h3 h4 ⊢
    rw [hfalse]
    exact ⟨le_trans h3 h1, le_trans h2 h4⟩

/-- A range sorted by a comparator that compares a key with `<` is non-decreasing in the
key. -/
theorem pairwise_key_of_sorted {α : Type} [LinearOrder α] (comp : Nat → Nat → Bool)
    (f : Nat → α) (hcomp : ∀ a b, comp a b = true ↔ f a < f b) (l : List Nat)
    (h : l.Pairwise (fun a b => comp b a = false)) : l.Pairwise (fun a b => f a ≤ f b) := by
  refine h.imp ?_
  intro a b hba
  rw [← not_lt, ← hcomp, Bool.not_eq_true]
  exact hba

theorem insertBy_perm (comp : Nat → Nat → Bool) (x : Nat) (l : List Nat) :
    (insertBy comp x l).Perm (x :: l) := by
  induction l with
  | nil => exact List.Perm.refl _
  | cons y ys ih =>
    rw [insertBy]
    split_ifs
    · exact List.Perm.refl _
    · exact (List.Perm.cons y ih).trans (List.Perm.swap x y ys)

theorem insertBy_sorted (comp : Nat → Nat → Bool) (hc : StrictWeakOrder comp) (x : Nat)
    (l : List Nat) (h : l.Pairwise (fun a b => comp b a = false)) :
    (insertBy comp x l).Pairwise (fun a b => comp b a = false) := by
  obtain ⟨hirr, htrans, _⟩ := hc
  induction l with
  | nil => exact List.pairwise_singleton _ _
  | cons y ys ih =>
    obtain ⟨hy, hys⟩ := List.pairwise_cons.mp h
    rw [insertBy]
    split_ifs with hxy
    · refine List.pairwise_cons.mpr ⟨?_, h⟩
      intro z hz
      apply Bool.eq_false_iff.mpr
      intro hzx
      rcases List.mem_cons.mp hz with hzy | hzs
      · rw [hzy] at hzx
        have := htrans x y x hxy hzx
        rw [hirr x] at this
        exact Bool.false_ne_true this
      · have := htrans z x y hzx hxy
        rw [hy z hzs] at this
        exact Bool.false_ne_true this
    · refine List.pairwise_cons.mpr ⟨?_, ih hys⟩
      intro z hz
      rcases List.mem_cons.mp ((insertBy_perm comp x ys).mem_iff.mp hz) with hzx | hzs
      · rw [hzx]
        exact Bool.eq_false_iff.mpr hxy
      · exact hy z hzs

/-- The insertion sort of the development is an admissible `std::sort`. -/
theorem insertionSort_contract : SortContract insertionSort := by
  intro comp l hc
  have key : ∀ (l acc : List Nat), acc.Pairwise (fun a b => comp b a = false) →
      (l.foldl (fun sorted x => insertBy comp x sorted) acc).Perm (l ++ acc) ∧
        (l.foldl (fun sorted x => insertBy comp x sorted) acc).Pairwise
          (fun a b => comp b a = false) := by
    intro l
    induction l with
    | nil => intro acc hacc; exact ⟨List.Perm.refl _, hacc⟩
    | cons x xs ih =>
      intro acc hacc
      obtain ⟨h1, h2⟩ := ih (insertBy comp x acc) (insertBy_sorted comp hc x acc hacc)
      refine ⟨?_, h2⟩
      rw [List.foldl_cons]
      refine h1.trans ?_
      refine (List.Perm.append_left xs (insertBy_perm comp x acc)).trans ?_
      exact List.perm_middle
  obtain ⟨h1, h2⟩ := key l [] List.Pairwise.nil
  rw [List.append_nil] at h1
  exact ⟨h1, h2⟩

theorem map_range_getD (l : List Nat) :
    (List.range l.length).map (fun i => l.getD i 0) = l := by
  apply List.ext_getElem
  · simp
  · intro i h1 h2
    simp only [List.getElem_map, List.getElem_range]
    exact List.getD_eq_getElem _ _ h2

/-- The columns an ordering walks through are the sorted range itself. -/
theorem orderedColumns_eq (sort : (Nat → Nat → Bool) → List Nat → List Nat) (mip : MIP)
    (ordering : Nat) (fractional : List Nat)
    (hperm : (sortFractional sort mip ordering fractional).Perm fractional) :
    orderedColumns sort mip ordering fractional =
      sortFractional sort mip ordering fractional := by
  unfold orderedColumns
  rw [← hperm.length_eq]
  exact map_range_getD _

/-- C31: with a `std::sort` that meets its contract, for each ordering `k` in
`{0, 1, 2, 3}` the sequence `fracPermutation[0], fracPermutation[1], ...` that the loop of
`MinLockRounding::search` walks through is a permutation of the input list `fractional`,
non-decreasing in `min(downLocks, upLocks)` for `k = 0`, in `max(downLocks, upLocks)` for
`k = 1` and in the column size for `k = 2`, and non-increasing in the column size for
`k = 3`; the comparators of the four orderings are strict weak orderings. -/
theorem orderedColumns_sorted_permutation
    (sort : (Nat → Nat → Bool) → List Nat → List Nat) (mip : MIP) (fractional : List Nat)
    (hsort : SortContract sort) :
    (∀ k, k < 4 → (orderedColumns sort mip k fractional).Perm fractional) ∧
    (orderedColumns sort mip 0 fractional).Pairwise
      (fun a b => min (mip.downLocks.getD a 0) (mip.upLocks.getD a 0) ≤
        min (mip.downLocks.getD b 0) (mip.upLocks.getD b 0)) ∧
    (orderedColumns sort mip 1 fractional).Pairwise
      (fun a b => max (mip.downLocks.getD a 0) (mip.upLocks.getD a 0) ≤
        max (mip.downLocks.getD b 0) (mip.upLocks.getD b 0)) ∧
    (orderedColumns sort mip 2 fractional).Pairwise
      (fun a b => mip.getColSize a ≤ mip.getColSize b) ∧
    (orderedColumns sort mip 3 fractional).Pairwise
      (fun a b => mip.getColSize b ≤ mip.getColSize a) ∧
    ∀ (num : Num) (lb ub : List ℚ) (result : LPResult) (solAct : List ℚ) (k : Nat),
      tryOrdering num sort mip lb ub result solAct fractional k =
        roundColumns num mip lb ub (orderedColumns sort mip k fractional)
          result.primalSolution solAct := by
  have h0 : ∀ a b, (fun left right =>
      decide (min (mip.downLocks.getD left 0) (mip.upLocks.getD left 0) <
        min (mip.downLocks.getD right 0) (mip.upLocks.getD right 0))) a b = true ↔
      min (mip.downLocks.getD a 0) (mip.upLocks.getD a 0) <
        min (mip.downLocks.getD b 0) (mip.upLocks.getD b 0) :=
    fun a b => decide_eq_true_iff
  have h1 : ∀ a b, (fun left right =>
      decide (max (mip.downLocks.getD left 0) (mip.upLocks.getD left 0) <
        max (mip.downLocks.getD right 0) (mip.upLocks.getD right 0))) a b = true ↔
      max (mip.downLocks.getD a 0) (mip.upLocks.getD a 0) <
        max (mip.downLocks.getD b 0) (mip.upLocks.getD b 0) :=
    fun a b => decide_eq_true_iff
  have h2 : ∀ a b, (fun left right =>
      decide (mip.getColSize left < mip.getColSize right)) a b = true ↔
      mip.getColSize a < mip.getColSize b :=
    fun a b => decide_eq_true_iff
  have h3 : ∀ a b, (fun left right =>
      decide (mip.getColSize left > mip.getColSize right)) a b = true ↔
      (fun c => -(mip.getColSize c : ℤ)) a < (fun c => -(mip.getColSize c : ℤ)) b := by
    intro a b
    simp only [decide_eq_true_iff]
    omega
  have s0 := hsort _ fractional (strictWeakOrder_of_key _ _ h0)
  have s1 := hsort _ fractional (strictWeakOrder_of_key _ _ h1)
  have s2 := hsort _ fractional (strictWeakOrder_of_key _ _ h2)
  have s3 := hsort _ fractional (strictWeakOrder_of_key _ _ h3)
  have e0 := orderedColumns_eq sort mip 0 fractional s0.1
  have e1 := orderedColumns_eq sort mip 1 fractional s1.1
  have e2 := orderedColumns_eq sort mip 2 fractional s2.1
  have e3 := orderedColumns_eq sort mip 3 fractional s3.1
  refine ⟨?_, ?_, ?_, ?_, ?_, fun _ _ _ _ _ _ => rfl⟩
  · intro k hk
    have hk4 : k = 0 ∨ k = 1 ∨ k = 2 ∨ k = 3 := by omega
    rcases hk4 with h | h | h | h <;> subst h
    · rw [e0]; exact s0.1
    · rw [e1]; exact s1.1
    · rw [e2]; exact s2.1
    · rw [e3]; exact s3.1
  · rw [e0]
    exact pairwise_key_of_sorted _ _ h0 _ s0.2
  · rw [e1]
    exact pairwise_key_of_sorted _ _ h1 _ s1.2
  · rw [e2]
    exact pairwise_key_of_sorted _ _ h2 _ s2.2
  · rw [e3]
    refine (pairwise_key_of_sorted _ _ h3 _ s3.2).imp ?_
    intro a b hab
    simp only at hab
    omega

/-- C31 witness: the insertion sort meets the contract, and on `mipH` with the list
`[1, 0, 2]` ordering 3 walks through a permutation of the list that is non-increasing in
the column size. -/
theorem orderedColumns_sorted_permutation_witness :
    SortContract insertionSort ∧
    (orderedColumns insertionSort mipH 3 [1, 0, 2]).Perm [1, 0, 2] ∧
    (orderedColumns insertionSort mipH 3 [1, 0, 2]).Pairwise
      (fun a b => mipH.getColSize b ≤ mipH.getColSize a) :=
  ⟨insertionSort_contract,
    (orderedColumns_sorted_permutation insertionSort mipH [1, 0, 2]
      insertionSort_contract).1 3 (by decide),
    (orderedColumns_sorted_permutation insertionSort mipH [1, 0, 2]
      insertionSort_contract).2.2.2.2.1⟩


/-! ## The lines that `parseBounds` accepts -/

/-- In a run in which `std::stof` returns on every token, the body of the loop of
`parseBounds` accepts exactly the lines that `boundLineAccepted` describes, whatever the
state. -/
theorem parseBounds_line_isSome (stof : String → ℚ) (inf : ℚ) (cols : Cols)
    (s : BoundsState) (tokens : List String) :
    (parseBounds.line stof inf cols s tokens).isSome = boundLineAccepted cols tokens := by
  unfold parseBounds.line boundLineAccepted
  cases hlook : cols.lookup (tokens.getD 2 "") with
  | none => split_ifs <;> simp
  | some colid =>
    simp only [Option.isSome_some, Bool.true_and]
    by_cases hlen : tokens.length < 3
    · rw [if_pos hlen]
      have h4 : ¬ tokens.length = 4 := by omega
      have h3 : ¬ tokens.length = 3 := by omega
      simp [h4, h3]
    · rw [if_neg hlen]
      split_ifs <;> simp_all

/-- In a run in which `std::stof` returns on every token, the loop of `parseBounds`
returns `FAIL` exactly when one of the data lines it would read is not accepted. -/
theorem parseBounds_loop_none_iff (stof : String → ℚ) (inf : ℚ) (cols : Cols)
    (file : List String) :
    ∀ s : BoundsState, parseBounds.loop stof inf cols file s = none ↔
      ∃ tokens ∈ boundLines file, boundLineAccepted cols tokens = false := by
  induction file with
  | nil =>
    intro s
    simp [parseBounds.loop, boundLines]
  | cons line file ih =>
    intro s
    rw [parseBounds.loop, boundLines]
    by_cases hskip : isSkipped line = true
    · rw [if_pos hskip, if_pos hskip]
      exact ih s
    · rw [if_neg hskip, if_neg hskip]
      by_cases hone : (split line).length = 1
      · rw [if_pos hone, if_pos hone]
        simp
      · rw [if_neg hone, if_neg hone]
        have hacc := parseBounds_line_isSome stof inf cols { s with tokens := split line }
          (split line)
        cases hline : parseBounds.line stof inf cols { s with tokens := split line }
            (split line) with
        | none =>
          rw [hline] at hacc
          simp only [true_iff]
          exact ⟨split line, List.mem_cons_self _ _, hacc.symm⟩
        | some s2 =>
          rw [hline] at hacc
          simp only
          rw [ih s2]
          constructor
          · rintro ⟨t, ht, hf⟩
            exact ⟨t, List.mem_cons_of_mem _ ht, hf⟩
          · rintro ⟨t, ht, hf⟩
            rcases List.mem_cons.mp ht with h | h
            · rw [h, ← hacc] at hf
              exact absurd hf (by simp)
            · exact ⟨t, h, hf⟩

/-- An accepted `BV` line has three tokens and sets the bit of its column in `integer`. -/
theorem parseBounds_line_BV (stof : String → ℚ) (inf : ℚ) (cols : Cols)
    (s s2 : BoundsState) (tokens : List String) (colid : Nat)
    (h : parseBounds.line stof inf cols s tokens = some s2)
    (hlook : cols.lookup (tokens.getD 2 "") = some colid)
    (hBV : tokens.getD 0 "" = "BV") : s2.integer = s.integer.set colid true := by
  unfold parseBounds.line at h
  by_cases hlen : tokens.length < 3
  · rw [if_pos hlen] at h
    exact absurd h (by simp)
  rw [if_neg hlen, hlook] at h
  simp only at h
  by_cases h4 : tokens.length = 4
  · rw [if_pos h4, hBV, if_neg (by decide), if_neg (by decide), if_neg (by decide),
      if_neg (by decide), if_neg (by decide)] at h
    exact absurd h (by simp)
  · rw [if_neg h4] at h
    by_cases h3 : tokens.length = 3
    · rw [if_pos h3, hBV, if_neg (by decide), if_pos rfl] at h
      rw [← Option.some.inj h]
    · rw [if_neg h3] at h
      exact absurd h (by simp)

/-- The pass of the body with a conversion that can throw ends in exactly one of the three
ways, by the spec-side tests of the line. -/
theorem parseBounds_lineOutcome_cases (stof : String → Option ℚ) (inf : ℚ) (cols : Cols)
    (s : BoundsState) (tokens : List String) :
    (parseBounds.lineOutcome stof inf cols s tokens).isNext =
        boundLineConverted stof cols tokens ∧
      (parseBounds.lineOutcome stof inf cols s tokens).isThrows =
        boundLineThrows stof cols tokens := by
  unfold parseBounds.lineOutcome boundLineConverted boundLineThrows
  cases hlook : cols.lookup (tokens.getD 2 "") with
  | none => split_ifs <;> simp [Outcome.isNext, Outcome.isThrows]
  | some colid =>
    simp only [Option.isSome_some, Bool.true_and]
    by_cases hlen : tokens.length < 3
    · rw [if_pos hlen]
      have h4 : ¬ tokens.length = 4 := by omega
      have h3 : ¬ tokens.length = 3 := by omega
      simp [h4, h3, Outcome.isNext, Outcome.isThrows]
    · rw [if_neg hlen]
      by_cases h4 : tokens.length = 4
      · have h3 : ¬ tokens.length = 3 := by omega
        rw [if_pos h4]
        cases hconv : stof (tokens.getD 3 "") with
        | none => simp [h4, h3, Outcome.isNext, Outcome.isThrows]
        | some bound =>
          simp only [h4, h3]
          split_ifs <;> simp_all [Outcome.isNext, Outcome.isThrows]
      · rw [if_neg h4]
        split_ifs <;> simp_all [Outcome.isNext, Outcome.isThrows]

/-- A pass that neither goes on nor throws ends with `return FAIL`. -/
theorem outcome_isFail_eq {α : Type} (o : Outcome α) :
    o.isFail = (!o.isNext && !o.isThrows) := by
  cases o <;> rfl

/-- When the conversion returns on the token it is given, the body with the exception
goes on with the state that the body with a total conversion gives. -/
theorem parseBounds_lineOutcome_line (stof : String → Option ℚ) (inf : ℚ) (cols : Cols)
    (s s2 : BoundsState) (tokens : List String)
    (h : parseBounds.lineOutcome stof inf cols s tokens = Outcome.next s2) :
    parseBounds.line (fun t => (stof t).getD 0) inf cols s tokens = some s2 := by
  unfold parseBounds.lineOutcome at h
  unfold parseBounds.line
  by_cases hlen : tokens.length < 3
  · rw [if_pos hlen] at h
    cases h
  rw [if_neg hlen] at h
  rw [if_neg hlen]
  cases hlook : cols.lookup (tokens.getD 2 "") with
  | none =>
    rw [hlook] at h
    cases h
  | some colid =>
    rw [hlook] at h
    simp only at h ⊢
    by_cases h4 : tokens.length = 4
    · rw [if_pos h4] at h
      rw [if_pos h4]
      rcases Option.eq_none_or_eq_some (stof (tokens.getD 3 "")) with hconv | ⟨bound, hconv⟩
      · rw [hconv] at h
        cases h
      · rw [hconv] at h
        simp only [hconv, Option.getD_some] at h ⊢
        split_ifs at h ⊢ <;> (injection h with h; rw [h])
    · rw [if_neg h4] at h
      rw [if_neg h4]
      split_ifs at h ⊢ <;> (injection h with h; rw [h])

/-- With a conversion that returns on every token the body with the exception is the
body with a total conversion. -/
theorem parseBounds_lineOutcome_total (stof : String → ℚ) (inf : ℚ) (cols : Cols)
    (s : BoundsState) (tokens : List String) :
    parseBounds.lineOutcome (fun t => some (stof t)) inf cols s tokens =
      match parseBounds.line stof inf cols s tokens with
      | some s2 => Outcome.next s2
      | none => Outcome.fail := by
  unfold parseBounds.lineOutcome parseBounds.line
  by_cases hlen : tokens.length < 3
  · rw [if_pos hlen, if_pos hlen]
  rw [if_neg hlen, if_neg hlen]
  cases hlook : cols.lookup (tokens.getD 2 "") with
  | none => rfl
  | some colid =>
    simp only
    split_ifs <;> rfl

/-- With a conversion that returns on every token the loop with the exception is the loop
with a total conversion. -/
theorem parseBounds_loopOutcome_total (stof : String → ℚ) (inf : ℚ) (cols : Cols)
    (file : List String) :
    ∀ s : BoundsState,
      parseBounds.loopOutcome (fun t => some (stof t)) inf cols file s =
        match parseBounds.loop stof inf cols file s with
        | some r => Outcome.next r
        | none => Outcome.fail := by
  induction file with
  | nil => intro s; rfl
  | cons line file ih =>
    intro s
    rw [parseBounds.loopOutcome, parseBounds.loop]
    by_cases hskip : isSkipped line = true
    · rw [if_pos hskip, if_pos hskip]
      exact ih s
    · rw [if_neg hskip, if_neg hskip]
      by_cases hone : (split line).length = 1
      · rw [if_pos hone, if_pos hone]
      · rw [if_neg hone, if_neg hone, parseBounds_lineOutcome_total]
        cases hline : parseBounds.line stof inf cols { s with tokens := split line }
            (split line) with
        | none => rfl
        | some s2 => exact ih s2

/-- With a conversion that returns on every token `parseBounds` with the exception
returns what `parseBounds` with a total conversion returns. -/
theorem parseBounds_outcome_total (stof : String → ℚ) (inf : ℚ) (st : ReaderState) :
    parseBounds.outcome (fun t => some (stof t)) inf st = some (parseBounds stof inf st) := by
  unfold parseBounds.outcome parseBounds
  rw [parseBounds_loopOutcome_total]
  cases hloop : parseBounds.loop stof inf st.cols st.file (parseBounds.start inf st) with
  | none => rfl
  | some r =>
    obtain ⟨s, file⟩ := r
    simp only
    split_ifs <;> rfl

/-- A list with a line that is not accepted has a first such line. -/
theorem exists_first_not_converted (stof : String → Option ℚ) (cols : Cols)
    (l : List (List String)) (h : ∃ t ∈ l, boundLineConverted stof cols t = false) :
    ∃ pre t post, l = pre ++ t :: post ∧
      (∀ u ∈ pre, boundLineConverted stof cols u = true) ∧
      boundLineConverted stof cols t = false := by
  induction l with
  | nil =>
    obtain ⟨t, ht, _⟩ := h
    cases ht
  | cons x xs ih =>
    by_cases hx : boundLineConverted stof cols x = true
    · obtain ⟨t, ht, hf⟩ := h
      rcases List.mem_cons.mp ht with e | hmem
      · rw [e, hx] at hf
        cases hf
      · obtain ⟨pre, t2, post, hl, hpre, ht2⟩ := ih ⟨t, hmem, hf⟩
        refine ⟨x :: pre, t2, post, by rw [hl]; rfl, ?_, ht2⟩
        intro u hu
        rcases List.mem_cons.mp hu with e | hmem2
        · rw [e]; exact hx
        · exact hpre u hmem2
    · exact ⟨[], x, xs, rfl, by simp, Bool.eq_false_iff.mpr hx⟩

/-- The loop with the exception goes on to the end of the section when every data line is
accepted, and ends at the first data line that is not: with the exception when
`std::stof` throws on it, with `return FAIL` otherwise. -/
theorem parseBounds_loopOutcome_spec (stof : String → Option ℚ) (inf : ℚ) (cols : Cols)
    (file : List String) :
    ∀ s : BoundsState,
      ((∀ t ∈ boundLines file, boundLineConverted stof cols t = true) →
        (parseBounds.loopOutcome stof inf cols file s).isNext = true) ∧
      (∀ pre t post, boundLines file = pre ++ t :: post →
        (∀ u ∈ pre, boundLineConverted stof cols u = true) →
        boundLineConverted stof cols t = false →
          (parseBounds.loopOutcome stof inf cols file s).isNext = false ∧
          (parseBounds.loopOutcome stof inf cols file s).isThrows =
            boundLineThrows stof cols t) := by
  induction file with
  | nil =>
    intro s
    refine ⟨fun _ => rfl, ?_⟩
    intro pre t post h
    simp [boundLines] at h
  | cons line file ih =>
    intro s
    rw [parseBounds.loopOutcome, boundLines]
    by_cases hskip : isSkipped line = true
    · rw [if_pos hskip, if_pos hskip]
      exact ih s
    · rw [if_neg hskip, if_neg hskip]
      by_cases hone : (split line).length = 1
      · rw [if_pos hone, if_pos hone]
        refine ⟨fun _ => rfl, ?_⟩
        intro pre t post h
        simp at h
      · rw [if_neg hone, if_neg hone]
        obtain ⟨hn, hth⟩ := parseBounds_lineOutcome_cases stof inf cols
          { s with tokens := split line } (split line)
        cases hline : parseBounds.lineOutcome stof inf cols { s with tokens := split line }
            (split line) with
        | next s2 =>
          rw [hline] at hn hth
          simp only
          constructor
          · intro hall
            exact (ih s2).1 (fun t ht => hall t (List.mem_cons_of_mem _ ht))
          · intro pre t post hl hpre ht
            cases pre with
            | nil =>
              have e : split line = t := (List.cons.inj hl).1
              rw [← e, ← hn] at ht
              cases ht
            | cons u pre2 =>
              have e := List.cons.inj hl
              exact (ih s2).2 pre2 t post e.2
                (fun w hw => hpre w (List.mem_cons_of_mem _ hw)) ht
        | fail =>
          rw [hline] at hn hth
          simp only
          constructor
          · intro hall
            have := hall (split line) (List.mem_cons_self _ _)
            rw [← hn] at this
            cases this
          · intro pre t post hl hpre ht
            cases pre with
            | nil =>
              have e : split line = t := (List.cons.inj hl).1
              rw [← e]
              exact ⟨rfl, hth⟩
            | cons u pre2 =>
              have e := List.cons.inj hl
              have hu := hpre u (List.mem_cons_self _ _)
              rw [← e.1, ← hn] at hu
              cases hu
        | throws =>
          rw [hline] at hn hth
          simp only
          constructor
          · intro hall
            have := hall (split line) (List.mem_cons_self _ _)
            rw [← hn] at this
            cases this
          · intro pre t post hl hpre ht
            cases pre with
            | nil =>
              have e : split line = t := (List.cons.inj hl).1
              rw [← e]
              exact ⟨rfl, hth⟩
            | cons u pre2 =>
              have e := List.cons.inj hl
              have hu := hpre u (List.mem_cons_self _ _)
              rw [← e.1, ← hn] at hu
              cases hu

theorem outcome_isNext_iff {α : Type} (o : Outcome α) :
    o.isNext = true ↔ ∃ a, o = Outcome.next a := by
  cases o <;> simp [Outcome.isNext]

theorem outcome_isThrows_iff {α : Type} (o : Outcome α) :
    o.isThrows = true ↔ o = Outcome.throws := by
  cases o <;> simp [Outcome.isThrows]

theorem outcome_isFail_iff {α : Type} (o : Outcome α) :
    o.isFail = true ↔ o = Outcome.fail := by
  cases o <;> simp [Outcome.isFail]

/-- C34 (counterexample): the line ` MI bnd x abc` of `stateMI` names the declared column
`x` and has four tokens with the type `MI`, the condition under which the claim says the
line is accepted. `std::stof` throws on its fourth token, and the conversion is made
before the type is tested: the pass of the body neither accepts the line nor returns
`FAIL`, and the exception leaves `parseBounds`. -/
theorem parseBounds_throws_on_four_token_MI_line :
    boundLines stateMI.file = [["MI", "bnd", "x", "abc"]] ∧
    boundLineAccepted stateMI.cols ["MI", "bnd", "x", "abc"] = true ∧
    stofAbc "abc" = none ∧
    (parseBounds.lineOutcome stofAbc infval stateMI.cols (parseBounds.start infval stateMI)
      ["MI", "bnd", "x", "abc"]).isThrows = true ∧
    (parseBounds.lineOutcome stofAbc infval stateMI.cols (parseBounds.start infval stateMI)
      ["MI", "bnd", "x", "abc"]).isNext = false ∧
    (parseBounds.lineOutcome stofAbc infval stateMI.cols (parseBounds.start infval stateMI)
      ["MI", "bnd", "x", "abc"]).isFail = false ∧
    (parseBounds.outcome stofAbc infval stateMI).isNone = true := by
  refine ⟨?_, ?_, ?_, ?_, ?_, ?_, ?_⟩ <;> decide!

/-- C34 (amended): with a conversion `std::stof` that can throw, `parseBounds` accepts a
data line of the BOUNDS section if and only if its third token names a declared column and
it has four tokens with the type `UP`, `LO`, `FX`, `MI` or `PL` and a fourth token that
`std::stof` converts, or three tokens with the type `FR` or `BV`. The pass for a line ends
with the exception of `std::stof` if and only if the third token names a declared column,
the line has four tokens and `std::stof` throws on the fourth, whatever the type. Every
other data line, and in particular a three-token `MI` or `PL` line, gives `FAIL`.
`parseBounds` ends at the first data line that is not accepted, with the exception or
with `FAIL` as that line decides; when it returns `END` every data line was accepted, and
when the exception leaves it some data line throws. An accepted line sets, in the column
it names, `lb` to the converted value for `LO`, `lb = ub` to it for `FX`, `lb = -inf` for
`MI`, `ub = inf` for `PL`, both for `FR`, and `lb = 0`, `ub = 1` and the bit `integer` for
`BV`. -/
theorem parseBounds_accepts_or_throws (stof : String → Option ℚ) (inf : ℚ) (cols : Cols) :
    (∀ (s : BoundsState) (tokens : List String),
      (∃ s2, parseBounds.lineOutcome stof inf cols s tokens = Outcome.next s2) ↔
        (cols.lookup (tokens.getD 2 "")).isSome = true ∧
          ((tokens.length = 4 ∧ tokens.getD 0 "" ∈ ["UP", "LO", "FX", "MI", "PL"] ∧
              (stof (tokens.getD 3 "")).isSome = true) ∨
            (tokens.length = 3 ∧ tokens.getD 0 "" ∈ ["FR", "BV"]))) ∧
    (∀ (s : BoundsState) (tokens : List String),
      parseBounds.lineOutcome stof inf cols s tokens = Outcome.throws ↔
        (cols.lookup (tokens.getD 2 "")).isSome = true ∧ tokens.length = 4 ∧
          stof (tokens.getD 3 "") = none) ∧
    (∀ (s : BoundsState) (tokens : List String),
      parseBounds.lineOutcome stof inf cols s tokens = Outcome.fail ↔
        boundLineConverted stof cols tokens = false ∧
          boundLineThrows stof cols tokens = false) ∧
    (∀ (s : BoundsState) (t1 t2 : String),
      parseBounds.lineOutcome stof inf cols s ["MI", t1, t2] = Outcome.fail ∧
        parseBounds.lineOutcome stof inf cols s ["PL", t1, t2] = Outcome.fail) ∧
    (∀ st : ReaderState, st.cols = cols →
      (∀ pre tokens post, boundLines st.file = pre ++ tokens :: post →
        (∀ u ∈ pre, boundLineConverted stof cols u = true) →
        boundLineConverted stof cols tokens = false →
          (boundLineThrows stof cols tokens = true →
            parseBounds.outcome stof inf st = none) ∧
          (boundLineThrows stof cols tokens = false →
            (parseBounds.outcome stof inf st).map Prod.fst = some Section.FAIL)) ∧
      ((parseBounds.outcome stof inf st).map Prod.fst = some Section.END →
        ∀ tokens ∈ boundLines st.file, boundLineConverted stof cols tokens = true) ∧
      (parseBounds.outcome stof inf st = none →
        ∃ tokens ∈ boundLines st.file, boundLineThrows stof cols tokens = true)) ∧
    ∀ (s s2 : BoundsState) (tokens : List String) (colid : Nat),
      parseBounds.lineOutcome stof inf cols s tokens = Outcome.next s2 →
      cols.lookup (tokens.getD 2 "") = some colid →
      colid < s.lbs.length → colid < s.ubs.length → colid < s.lb_changed.length →
      colid < s.integer.length →
        (tokens.getD 0 "" = "LO" → stof (tokens.getD 3 "") = some (s2.lbs.getD colid 0) ∧
          s2.ubs.getD colid 0 = s.ubs.getD colid 0) ∧
        (tokens.getD 0 "" = "FX" → stof (tokens.getD 3 "") = some (s2.lbs.getD colid 0) ∧
          s2.ubs.getD colid 0 = s2.lbs.getD colid 0) ∧
        (tokens.getD 0 "" = "MI" → s2.lbs.getD colid 0 = -inf ∧
          s2.ubs.getD colid 0 = s.ubs.getD colid 0) ∧
        (tokens.getD 0 "" = "PL" → s2.ubs.getD colid 0 = inf ∧
          s2.lbs.getD colid 0 = s.lbs.getD colid 0) ∧
        (tokens.getD 0 "" = "FR" → s2.lbs.getD colid 0 = -inf ∧ s2.ubs.getD colid 0 = inf) ∧
        (tokens.getD 0 "" = "BV" → s2.lbs.getD colid 0 = 0 ∧ s2.ubs.getD colid 0 = 1 ∧
          s2.integer.getD colid false = true) := by
  refine ⟨?_, ?_, ?_, ?_, ?_, ?_⟩
  · intro s tokens
    rw [← outcome_isNext_iff, (parseBounds_lineOutcome_cases stof inf cols s tokens).1]
    unfold boundLineConverted
    simp [and_assoc]
  · intro s tokens
    rw [← outcome_isThrows_iff, (parseBounds_lineOutcome_cases stof inf cols s tokens).2]
    unfold boundLineThrows
    simp [and_assoc]
  · intro s tokens
    rw [← outcome_isFail_iff, outcome_isFail_eq,
      (parseBounds_lineOutcome_cases stof inf cols s tokens).1,
      (parseBounds_lineOutcome_cases stof inf cols s tokens).2]
    simp
  · intro s t1 t2
    constructor
    · rw [← outcome_isFail_iff, outcome_isFail_eq,
        (parseBounds_lineOutcome_cases stof inf cols s _).1,
        (parseBounds_lineOutcome_cases stof inf cols s _).2]
      simp [boundLineConverted, boundLineThrows]
    · rw [← outcome_isFail_iff, outcome_isFail_eq,
        (parseBounds_lineOutcome_cases stof inf cols s _).1,
        (parseBounds_lineOutcome_cases stof inf cols s _).2]
      simp [boundLineConverted, boundLineThrows]
  · intro st hcols
    have hspec := parseBounds_loopOutcome_spec stof inf cols st.file (parseBounds.start inf st)
    refine ⟨?_, ?_, ?_⟩
    · intro pre tokens post hl hpre hconv
      obtain ⟨hn, hth⟩ := hspec.2 pre tokens post hl hpre hconv
      constructor
      · intro hthrows
        rw [hthrows] at hth
        unfold parseBounds.outcome
        rw [hcols, (outcome_isThrows_iff _).mp hth]
      · intro hthrows
        rw [hthrows] at hth
        have hfail : (parseBounds.loopOutcome stof inf cols st.file
            (parseBounds.start inf st)).isFail = true := by
          rw [outcome_isFail_eq, hn, hth]
          rfl
        unfold parseBounds.outcome
        rw [hcols, (outcome_isFail_iff _).mp hfail]
        rfl
    · intro hend tokens ht
      by_contra hacc
      obtain ⟨pre, t, post, hl, hpre, hconv⟩ := exists_first_not_converted stof cols
        (boundLines st.file) ⟨tokens, ht, Bool.eq_false_iff.mpr hacc⟩
      obtain ⟨hn, _⟩ := hspec.2 pre t post hl hpre hconv
      unfold parseBounds.outcome at hend
      rw [hcols] at hend
      cases hloop : parseBounds.loopOutcome stof inf cols st.file
          (parseBounds.start inf st) with
      | next r =>
        rw [hloop] at hn
        cases hn
      | fail =>
        rw [hloop] at hend
        simp at hend
      | throws =>
        rw [hloop] at hend
        simp at hend
    · intro hnone
      by_cases hall : ∀ t ∈ boundLines st.file, boundLineConverted stof cols t = true
      · have hn := hspec.1 hall
        obtain ⟨r, hr⟩ := (outcome_isNext_iff _).mp hn
        unfold parseBounds.outcome at hnone
        rw [hcols, hr] at hnone
        simp only at hnone
        split_ifs at hnone
      · have hex : ∃ t ∈ boundLines st.file, boundLineConverted stof cols t = false := by
          by_contra hno
          apply hall
          intro t ht
          by_contra hf
          exact hno ⟨t, ht, Bool.eq_false_iff.mpr hf⟩
        obtain ⟨pre, t, post, hl, hpre, hconv⟩ := exists_first_not_converted stof cols
          (boundLines st.file) hex
        obtain ⟨hn, hth⟩ := hspec.2 pre t post hl hpre hconv
        refine ⟨t, by rw [hl]; simp, ?_⟩
        rw [← hth]
        unfold parseBounds.outcome at hnone
        rw [hcols] at hnone
        cases hloop : parseBounds.loopOutcome stof inf cols st.file
            (parseBounds.start inf st) with
        | next r =>
          rw [hloop] at hn
          cases hn
        | fail =>
          rw [hloop] at hnone
          simp at hnone
        | throws => rfl
  · intro s s2 tokens colid h hlook h1 h2 h3 h4
    have hconv : boundLineConverted stof cols tokens = true := by
      rw [← (parseBounds_lineOutcome_cases stof inf cols s tokens).1, h]
      rfl
    have hline := parseBounds_lineOutcome_line stof inf cols s s2 tokens h
    obtain ⟨colid2, hlook2, _, _, _, _, heff⟩ :=
      parseBounds_line_spec (fun t => (stof t).getD 0) inf cols s s2 tokens hline
    rw [hlook] at hlook2
    have hcc : colid2 = colid := (Option.some.inj hlook2).symm
    subst hcc
    have hcol := heff h1 h2 h3
    have hl : s2.lbs.getD colid2 0 = (s2.column colid2).1 := rfl
    have hu : s2.ubs.getD colid2 0 = (s2.column colid2).2.1 := rfl
    have hval : ∀ ty ∈ ["LO", "FX"], tokens.getD 0 "" = ty →
        stof (tokens.getD 3 "") = some ((stof (tokens.getD 3 "")).getD 0) := by
      intro ty hty ht
      unfold boundLineConverted at hconv
      rw [ht] at hconv
      have h3n : (["FR", "BV"].contains ty) = false := by
        simp only [List.mem_cons, List.mem_singleton, List.not_mem_nil, or_false] at hty
        rcases hty with e | e <;> rw [e] <;> decide
      simp only [h3n, Bool.and_false, Bool.or_false, Bool.and_eq_true] at hconv
      obtain ⟨v, hv⟩ := Option.isSome_iff_exists.mp hconv.2.2
      rw [hv]
      rfl
    rw [hl, hu, hcol]
    refine ⟨?_, ?_, ?_, ?_, ?_, ?_⟩
    · intro ht
      rw [hval "LO" (by simp) ht]
      unfold boundEffect
      rw [ht, if_neg (by decide), if_pos rfl]
      exact ⟨rfl, rfl⟩
    · intro ht
      rw [hval "FX" (by simp) ht]
      unfold boundEffect
      rw [ht, if_neg (by decide), if_neg (by decide), if_pos rfl]
      exact ⟨rfl, rfl⟩
    · intro ht
      unfold boundEffect
      rw [ht, if_neg (by decide), if_neg (by decide), if_neg (by decide), if_pos rfl]
      exact ⟨rfl, rfl⟩
    · intro ht
      unfold boundEffect
      rw [ht, if_neg (by decide), if_neg (by decide), if_neg (by decide), if_neg (by decide),
        if_pos rfl]
      exact ⟨rfl, rfl⟩
    · intro ht
      unfold boundEffect
      rw [ht, if_neg (by decide), if_neg (by decide), if_neg (by decide), if_neg (by decide),
        if_neg (by decide), if_pos rfl]
      exact ⟨rfl, rfl⟩
    · intro ht
      unfold boundEffect
      rw [ht, if_neg (by decide), if_neg (by decide), if_neg (by decide), if_neg (by decide),
        if_neg (by decide), if_neg (by decide), if_pos rfl]
      refine ⟨rfl, rfl, ?_⟩
      rw [parseBounds_line_BV (fun t => (stof t).getD 0) inf cols s s2 tokens colid2 hline
        hlook ht]
      simp [h4]

/-- C34 witness: in `stateMI` the first data line is the line ` MI bnd x abc`, on which
`std::stof` throws, and the exception leaves `parseBounds`; the line `LO bnd x -2`, whose
fourth token `std::stof` converts, is accepted. -/
theorem parseBounds_accepts_or_throws_witness :
    parseBounds.outcome stofAbc infval stateMI = none ∧
    ∃ s2, parseBounds.lineOutcome stofAbc infval stateMI.cols
      (parseBounds.start infval stateMI) ["LO", "bnd", "x", "-2"] = Outcome.next s2 :=
  ⟨(((parseBounds_accepts_or_throws stofAbc infval stateMI.cols).2.2.2.2.1 stateMI rfl).1
      [] ["MI", "bnd", "x", "abc"] [] (by decide!) (by simp) (by decide!)).1 (by decide!),
    ((parseBounds_accepts_or_throws stofAbc infval stateMI.cols).1
      (parseBounds.start infval stateMI) ["LO", "bnd", "x", "-2"]).mpr
      ⟨by decide!, Or.inl ⟨by decide, by decide!, by decide!⟩⟩⟩


/-! ## The sides that `parseRhs` produces -/

theorem lookup_mem {α : Type} (l : List (String × α)) (name : String) (v : α)
    (h : l.lookup name = some v) : (name, v) ∈ l := by
  induction l with
  | nil => simp at h
  | cons p l ih =>
    obtain ⟨k, w⟩ := p
    rw [List.lookup_cons] at h
    by_cases hk : name == k
    · rw [hk] at h
      simp only at h
      have hkk : name = k := by simpa using hk
      have hv : w = v := Option.some.inj h
      rw [hkk, hv]
      exact List.mem_cons_self _ _
    · have hk2 : (name == k) = false := Bool.eq_false_iff.mpr hk
      rw [hk2] at h
      exact List.mem_cons_of_mem _ (ih h)

theorem lookup_eq_none_iff {α : Type} (l : List (String × α)) (name : String) :
    l.lookup name = none ↔ name ∉ l.map (fun p => p.1) := by
  induction l with
  | nil => simp
  | cons p l ih =>
    obtain ⟨k, w⟩ := p
    rw [List.lookup_cons]
    by_cases hk : name == k
    · rw [hk]
      have hkk : name = k := by simpa using hk
      simp [hkk]
    · have hk2 : (name == k) = false := Bool.eq_false_iff.mpr hk
      rw [hk2]
      have hne : name ≠ k := by simpa using hk
      simp only [List.map_cons, List.mem_cons, not_or]
      rw [ih]
      exact ⟨fun h => ⟨hne, h⟩, fun h => h.2⟩

/-- In a well-formed map of rows every id is below the number of rows, and two entries
with the same id are the same entry. -/
theorem rowsWF_id_lt (rows : Rows) (hwf : RowsWF rows) (r : String × ConsType × Nat)
    (hr : r ∈ rows) : r.2.2 < rows.length := by
  have h : r.2.2 ∈ rows.map (fun r => r.2.2) := List.mem_map_of_mem _ hr
  rw [hwf.2] at h
  exact List.mem_range.mp h

theorem rowsWF_id_inj (rows : Rows) (hwf : RowsWF rows) (r1 r2 : String × ConsType × Nat)
    (h1 : r1 ∈ rows) (h2 : r2 ∈ rows) (hid : r1.2.2 = r2.2.2) : r1 = r2 := by
  have hnd : (rows.map (fun r => r.2.2)).Nodup := by
    rw [hwf.2]
    exact List.nodup_range _
  exact List.inj_on_of_nodup_map hnd h1 h2 hid

theorem default_length (inf : ℚ) (sides : List ℚ × List ℚ) (row : String × ConsType × Nat) :
    (parseRhs.default inf sides row).1.length = sides.1.length ∧
      (parseRhs.default inf sides row).2.length = sides.2.length := by
  unfold parseRhs.default
  cases row.2.1 <;> simp

theorem default_fold_length (inf : ℚ) (l : Rows) :
    ∀ sides : List ℚ × List ℚ,
      (l.foldl (parseRhs.default inf) sides).1.length = sides.1.length ∧
        (l.foldl (parseRhs.default inf) sides).2.length = sides.2.length := by
  induction l with
  | nil => intro sides; exact ⟨rfl, rfl⟩
  | cons r l ih =>
    intro sides
    rw [List.foldl_cons]
    have h1 := ih (parseRhs.default inf sides r)
    have h2 := default_length inf sides r
    exact ⟨h1.1.trans h2.1, h1.2.trans h2.2⟩

theorem default_keeps (inf : ℚ) (sides : List ℚ × List ℚ) (row : String × ConsType × Nat)
    (j : Nat) (hj : row.2.2 ≠ j) :
    (parseRhs.default inf sides row).1.getD j 0 = sides.1.getD j 0 ∧
      (parseRhs.default inf sides row).2.getD j 0 = sides.2.getD j 0 := by
  unfold parseRhs.default
  cases row.2.1
  · exact ⟨getD_set_of_ne _ _ _ _ _ hj, getD_set_of_ne _ _ _ _ _ hj⟩
  · exact ⟨getD_set_of_ne _ _ _ _ _ hj, getD_set_of_ne _ _ _ _ _ hj⟩
  · exact ⟨getD_set_of_ne _ _ _ _ _ hj, getD_set_of_ne _ _ _ _ _ hj⟩
  · exact ⟨rfl, rfl⟩

theorem default_fold_keeps (inf : ℚ) (l : Rows) (j : Nat) (hj : ∀ r ∈ l, r.2.2 ≠ j) :
    ∀ sides : List ℚ × List ℚ,
      (l.foldl (parseRhs.default inf) sides).1.getD j 0 = sides.1.getD j 0 ∧
        (l.foldl (parseRhs.default inf) sides).2.getD j 0 = sides.2.getD j 0 := by
  induction l with
  | nil => intro sides; exact ⟨rfl, rfl⟩
  | cons r l ih =>
    intro sides
    rw [List.foldl_cons]
    have h1 := ih (fun x hx => hj x (List.mem_cons_of_mem _ hx)) (parseRhs.default inf sides r)
    have h2 := default_keeps inf sides r j (hj r (List.mem_cons_self _ _))
    exact ⟨h1.1.trans h2.1, h1.2.trans h2.2⟩

theorem default_sets (inf : ℚ) (sides : List ℚ × List ℚ) (row : String × ConsType × Nat)
    (h1 : row.2.2 < sides.1.length) (h2 : row.2.2 < sides.2.length)
    (ht : row.2.1 ≠ ConsType.OBJECTIVE) :
    ((parseRhs.default inf sides row).1.getD row.2.2 0,
      (parseRhs.default inf sides row).2.getD row.2.2 0) = rowSides inf row.2.1 0 := by
  unfold parseRhs.default rowSides
  cases hty : row.2.1 with
  | OBJECTIVE => exact absurd hty ht
  | LESS => simp only; rw [getD_set_self _ _ _ _ h1, getD_set_self _ _ _ _ h2]
  | GREATER => simp only; rw [getD_set_self _ _ _ _ h1, getD_set_self _ _ _ _ h2]
  | EQUAL => simp only; rw [getD_set_self _ _ _ _ h1, getD_set_self _ _ _ _ h2]

/-- A pass of default initialisation over rows with pairwise distinct ids leaves at every
constraint row the default sides of its kind. -/
theorem default_fold_spec (inf : ℚ) (l : Rows) (hnd : (l.map (fun r => r.2.2)).Nodup) :
    ∀ sides : List ℚ × List ℚ,
      (∀ r ∈ l, r.2.2 < sides.1.length ∧ r.2.2 < sides.2.length) →
      ∀ r ∈ l, r.2.1 ≠ ConsType.OBJECTIVE →
        ((l.foldl (parseRhs.default inf) sides).1.getD r.2.2 0,
          (l.foldl (parseRhs.default inf) sides).2.getD r.2.2 0) = rowSides inf r.2.1 0 := by
  induction l with
  | nil => intro sides _ r hr; exact absurd hr (List.not_mem_nil _)
  | cons r0 l ih =>
    intro sides hlen r hr ht
    rw [List.foldl_cons]
    rw [List.map_cons, List.nodup_cons] at hnd
    have hl0 := default_length inf sides r0
    rcases List.mem_cons.mp hr with h | h
    · rw [h]
      have hk := default_fold_keeps inf l r0.2.2
        (fun x hx hxe => hnd.1 (hxe ▸ List.mem_map_of_mem (fun r => r.2.2) hx))
        (parseRhs.default inf sides r0)
      rw [hk.1, hk.2]
      rw [h] at ht
      exact default_sets inf sides r0 (hlen r0 (List.mem_cons_self _ _)).1
        (hlen r0 (List.mem_cons_self _ _)).2 ht
    · refine ih hnd.2 (parseRhs.default inf sides r0) ?_ r h ht
      intro x hx
      rw [hl0.1, hl0.2]
      exact hlen x (List.mem_cons_of_mem _ hx)

theorem default_obj (inf : ℚ) (sides : List ℚ × List ℚ) (row : String × ConsType × Nat)
    (h : row.2.1 = ConsType.OBJECTIVE) : parseRhs.default inf sides row = sides := by
  unfold parseRhs.default
  rw [h]

theorem default_overwrite (inf : ℚ) (sides : List ℚ × List ℚ)
    (r r0 : String × ConsType × Nat) (hid : r0.2.2 = r.2.2)
    (h0 : r0.2.1 ≠ ConsType.OBJECTIVE) :
    parseRhs.default inf (parseRhs.default inf sides r) r0 = parseRhs.default inf sides r0 := by
  unfold parseRhs.default
  rw [← hid]
  cases h0c : r0.2.1 <;> cases r.2.1 <;>
    first
    | exact absurd h0c h0
    | rfl
    | exact Prod.ext (List.set_set _ _ _ _) (List.set_set _ _ _ _)

theorem default_comm (inf : ℚ) (sides : List ℚ × List ℚ) (r r0 : String × ConsType × Nat)
    (hid : r0.2.2 ≠ r.2.2) :
    parseRhs.default inf (parseRhs.default inf sides r) r0 =
      parseRhs.default inf (parseRhs.default inf sides r0) r := by
  unfold parseRhs.default
  cases r0.2.1 <;> cases r.2.1 <;>
    first
    | rfl
    | exact Prod.ext (List.set_comm _ _ _ (Ne.symm hid)) (List.set_comm _ _ _ (Ne.symm hid))

/-- A write of the default sides of a row that is in the list, made before a pass of
default initialisation over the list, does not change the result of the pass. -/
theorem default_fold_absorb (inf : ℚ) (l : Rows) (r : String × ConsType × Nat) (hr : r ∈ l) :
    ∀ sides : List ℚ × List ℚ,
      l.foldl (parseRhs.default inf) (parseRhs.default inf sides r) =
        l.foldl (parseRhs.default inf) sides := by
  induction l with
  | nil => exact absurd hr (List.not_mem_nil _)
  | cons r0 l ih =>
    intro sides
    rw [List.foldl_cons, List.foldl_cons]
    by_cases hobj : r.2.1 = ConsType.OBJECTIVE
    · rw [default_obj inf sides r hobj]
    · by_cases hid : r0.2.2 = r.2.2
      · by_cases hobj0 : r0.2.1 = ConsType.OBJECTIVE
        · have hmem : r ∈ l := by
            rcases List.mem_cons.mp hr with h | h
            · rw [h] at hobj
              exact absurd hobj0 hobj
            · exact h
          rw [default_obj inf _ r0 hobj0, default_obj inf _ r0 hobj0]
          exact ih hmem sides
        · rw [default_overwrite inf sides r r0 hid hobj0]
      · have hmem : r ∈ l := by
          rcases List.mem_cons.mp hr with h | h
          · rw [h] at hid
            exact absurd rfl hid
          · exact h
        rw [default_comm inf sides r r0 hid]
        exact ih hmem (parseRhs.default inf sides r0)

/-- A second pass of default initialisation changes nothing. -/
theorem default_fold_twice (inf : ℚ) (rows : Rows) (sides : List ℚ × List ℚ) :
    rows.foldl (parseRhs.default inf) (rows.foldl (parseRhs.default inf) sides) =
      rows.foldl (parseRhs.default inf) sides := by
  have key : ∀ (l : Rows), (∀ r ∈ l, r ∈ rows) → ∀ sides : List ℚ × List ℚ,
      rows.foldl (parseRhs.default inf) (l.foldl (parseRhs.default inf) sides) =
        rows.foldl (parseRhs.default inf) sides := by
    intro l
    induction l with
    | nil => intro _ sides; rfl
    | cons r l ih =>
      intro hsub sides
      rw [List.foldl_cons, ih (fun x hx => hsub x (List.mem_cons_of_mem _ hx))]
      exact default_fold_absorb inf rows r (hsub r (List.mem_cons_self _ _)) sides
  exact key rows (fun _ h => h) sides

/-- The function `parseRhs` gives the result of the function with a single pass of
default initialisation. -/
theorem parseRhs_eq_single (stof : String → ℚ) (inf : ℚ) (st : ReaderState) :
    parseRhs stof inf st = parseRhs.single stof inf st := by
  unfold parseRhs parseRhs.single
  rw [default_fold_twice]

theorem lookup_of_mem_nodup {α : Type} (l : List (String × α))
    (hnd : (l.map (fun p => p.1)).Nodup) (name : String) (v : α) (h : (name, v) ∈ l) :
    l.lookup name = some v := by
  induction l with
  | nil => exact absurd h (List.not_mem_nil _)
  | cons p l ih =>
    obtain ⟨k, w⟩ := p
    rw [List.map_cons, List.nodup_cons] at hnd
    rw [List.lookup_cons]
    rcases List.mem_cons.mp h with h1 | h1
    · have hk : name = k := (Prod.mk.inj h1).1
      have hv : v = w := (Prod.mk.inj h1).2
      rw [hk, hv]
      simp
    · have hne : name ≠ k := by
        intro hk
        apply hnd.1
        rw [← hk]
        exact List.mem_map_of_mem (fun p => p.1) h1
      have hk2 : (name == k) = false := by simpa using hne
      rw [hk2]
      exact ih hnd.2 h1

theorem rhsValue_append (stof : String → ℚ) (done : List (String × String))
    (e : String × String) (name : String) :
    rhsValue stof (done ++ [e]) name =
      if e.1 = name then stof e.2 else rhsValue stof done name := by
  unfold rhsValue
  rw [List.foldl_append]
  rfl

/-- Two declared rows with different names have different ids. -/
theorem rowsWF_lookup_ne (rows : Rows) (hwf : RowsWF rows) (n1 n2 : String)
    (t1 t2 : ConsType) (i1 i2 : Nat) (h1 : rows.lookup n1 = some (t1, i1))
    (h2 : rows.lookup n2 = some (t2, i2)) (hne : n1 ≠ n2) : i1 ≠ i2 := by
  intro hi
  have m1 := lookup_mem rows n1 (t1, i1) h1
  have m2 := lookup_mem rows n2 (t2, i2) h2
  have := rowsWF_id_inj rows hwf (n1, t1, i1) (n2, t2, i2) m1 m2 hi
  exact hne (Prod.mk.inj this).1

/-- An entry of the RHS section for a declared constraint row writes the sides of the kind
of the row with the value of the entry, and keeps the state `RhsInv`. -/
theorem rhsInv_step (stof : String → ℚ) (inf : ℚ) (rows : Rows) (hwf : RowsWF rows)
    (sides : List ℚ × List ℚ) (done : List (String × String)) (rowname value : String)
    (t : ConsType) (i : Nat) (a b : ℚ) (hinv : RhsInv stof inf rows sides done)
    (hlook : rows.lookup rowname = some (t, i))
    (hab : (a, b) = rowSides inf t (stof value)) :
    RhsInv stof inf rows (sides.1.set i a, sides.2.set i b) (done ++ [(rowname, value)]) := by
  obtain ⟨hl1, hl2, hval⟩ := hinv
  have hi : i < rows.length := rowsWF_id_lt rows hwf (rowname, t, i) (lookup_mem rows _ _ hlook)
  refine ⟨by simp [hl1], by simp [hl2], ?_⟩
  intro name type id hn hty
  rw [rhsValue_append]
  by_cases hname : rowname = name
  · rw [if_pos hname]
    rw [hname, hn] at hlook
    have ht : type = t := (Prod.mk.inj (Option.some.inj hlook)).1
    have hid : id = i := (Prod.mk.inj (Option.some.inj hlook)).2
    rw [hid, ht]
    simp only
    rw [getD_set_self _ _ _ _ (by omega), getD_set_self _ _ _ _ (by omega)]
    exact hab
  · rw [if_neg hname]
    have hne := rowsWF_lookup_ne rows hwf rowname name t type i id hlook hn hname
    simp only
    rw [getD_set_of_ne _ _ _ _ _ hne, getD_set_of_ne _ _ _ _ _ hne]
    exact hval name type id hn hty

/-- An entry of the RHS section for a row of the kind `OBJECTIVE` keeps the state. -/
theorem rhsInv_skip (stof : String → ℚ) (inf : ℚ) (rows : Rows)
    (sides : List ℚ × List ℚ) (done : List (String × String)) (rowname value : String)
    (i : Nat) (hinv : RhsInv stof inf rows sides done)
    (hlook : rows.lookup rowname = some (ConsType.OBJECTIVE, i)) :
    RhsInv stof inf rows sides (done ++ [(rowname, value)]) := by
  obtain ⟨hl1, hl2, hval⟩ := hinv
  refine ⟨hl1, hl2, ?_⟩
  intro name type id hn hty
  rw [rhsValue_append]
  by_cases hname : rowname = name
  · rw [hname, hn] at hlook
    exact absurd (Prod.mk.inj (Option.some.inj hlook)).1 hty
  · rw [if_neg hname]
    exact hval name type id hn hty

theorem parseRhs_entries_inv (stof : String → ℚ) (inf : ℚ) (rows : Rows) (hwf : RowsWF rows) :
    ∀ (n : Nat) (toks : List String), toks.length ≤ n →
      ∀ (sides sides2 : List ℚ × List ℚ) (done : List (String × String)),
        RhsInv stof inf rows sides done →
        parseRhs.entries stof inf rows toks sides = some sides2 →
          RhsInv stof inf rows sides2 (done ++ rhsEntries.ofTokens toks) := by
  intro n
  induction n with
  | zero =>
    intro toks hlen sides sides2 done hinv h
    have : toks = [] := List.length_eq_zero.mp (by omega)
    subst this
    have e : parseRhs.entries stof inf rows [] sides = some sides := rfl
    rw [e] at h
    rw [← Option.some.inj h]
    simpa [rhsEntries.ofTokens] using hinv
  | succ n ih =>
    intro toks hlen sides sides2 done hinv h
    match toks, hlen, h with
    | [], _, h =>
      have e : parseRhs.entries stof inf rows [] sides = some sides := rfl
      rw [e] at h
      rw [← Option.some.inj h]
      simpa [rhsEntries.ofTokens] using hinv
    | [x], _, h =>
      have e : parseRhs.entries stof inf rows [x] sides = some sides := rfl
      rw [e] at h
      rw [← Option.some.inj h]
      simpa [rhsEntries.ofTokens] using hinv
    | rowname :: value :: rest, hlen, h =>
      rw [parseRhs.entries] at h
      have hrest : rest.length ≤ n := by
        simp only [List.length_cons] at hlen
        omega
      have happ : done ++ rhsEntries.ofTokens (rowname :: value :: rest) =
          (done ++ [(rowname, value)]) ++ rhsEntries.ofTokens rest := by
        simp [rhsEntries.ofTokens]
      rw [happ]
      cases hlook : rows.lookup rowname with
      | none =>
        rw [hlook] at h
        simp at h
      | some row =>
        obtain ⟨t, i⟩ := row
        rw [hlook] at h
        cases t with
        | LESS =>
          exact ih rest hrest _ sides2 _
            (rhsInv_step stof inf rows hwf sides done rowname value _ i _ _ hinv hlook rfl) h
        | GREATER =>
          exact ih rest hrest _ sides2 _
            (rhsInv_step stof inf rows hwf sides done rowname value _ i _ _ hinv hlook rfl) h
        | EQUAL =>
          exact ih rest hrest _ sides2 _
            (rhsInv_step stof inf rows hwf sides done rowname value _ i _ _ hinv hlook rfl) h
        | OBJECTIVE =>
          exact ih rest hrest _ sides2 _
            (rhsInv_skip stof inf rows sides done rowname value i hinv hlook) h

theorem parseRhs_loop_inv (stof : String → ℚ) (inf : ℚ) (rows : Rows) (hwf : RowsWF rows)
    (file : List String) :
    ∀ (s : (List ℚ × List ℚ) × List String)
      (r : ((List ℚ × List ℚ) × List String) × List String) (done : List (String × String)),
      RhsInv stof inf rows s.1 done → parseRhs.loop stof inf rows file s = some r →
        RhsInv stof inf rows r.1.1 (done ++ rhsEntries file) := by
  induction file with
  | nil =>
    intro s r done hinv h
    rw [parseRhs.loop] at h
    rw [← Option.some.inj h]
    simpa [rhsEntries] using hinv
  | cons line file ih =>
    intro s r done hinv h
    rw [parseRhs.loop] at h
    rw [rhsEntries]
    by_cases hskip : isSkipped line = true
    · rw [if_pos hskip] at h ⊢
      exact ih s r done hinv h
    · rw [if_neg hskip] at h ⊢
      by_cases hone : (split line).length = 1
      · rw [if_pos hone] at h ⊢
        rw [← Option.some.inj h]
        simpa using hinv
      · rw [if_neg hone] at h ⊢
        by_cases heven : (split line).length % 2 = 0
        · rw [if_pos heven] at h
          simp at h
        · rw [if_neg heven] at h
          cases hent : parseRhs.entries stof inf rows (split line).tail s.1 with
          | none =>
            rw [hent] at h
            simp at h
          | some sides =>
            rw [hent] at h
            simp only at h
            have h1 := parseRhs_entries_inv stof inf rows hwf _ (split line).tail (le_refl _)
              s.1 sides done hinv hent
            have h2 := ih (sides, split line) r _ h1 h
            rw [List.append_assoc] at h2
            exact h2

/-- The state from which the loop of `parseRhs` starts: after the passes of default
initialisation every declared constraint row has the sides of its kind with the value 0. -/
theorem parseRhs_start_inv (stof : String → ℚ) (inf : ℚ) (rows : Rows) (hwf : RowsWF rows) :
    RhsInv stof inf rows
      (rows.foldl (parseRhs.default inf)
        (rows.foldl (parseRhs.default inf)
          (List.replicate rows.length 0, List.replicate rows.length 0))) [] := by
  rw [default_fold_twice]
  have hlen := default_fold_length inf rows
    (List.replicate rows.length 0, List.replicate rows.length 0)
  simp only [List.length_replicate] at hlen
  refine ⟨hlen.1, hlen.2, ?_⟩
  intro name type id hn hty
  have hmem := lookup_mem rows name (type, id) hn
  have hnd : (rows.map (fun r => r.2.2)).Nodup := by
    rw [hwf.2]
    exact List.nodup_range _
  have := default_fold_spec inf rows hnd
    (List.replicate rows.length 0, List.replicate rows.length 0)
    (fun r hr => by
      have := rowsWF_id_lt rows hwf r hr
      simp only [List.length_replicate]
      exact ⟨this, this⟩)
    (name, type, id) hmem hty
  exact this

/-- A successful `parseRhs` stores the sides that its loop leaves. -/
theorem parseRhs_result (stof : String → ℚ) (inf : ℚ) (st : ReaderState)
    (hret : (parseRhs stof inf st).1 = Section.BOUNDS) :
    ∃ r, parseRhs.loop stof inf st.rows st.file
        (st.rows.foldl (parseRhs.default inf)
          (st.rows.foldl (parseRhs.default inf)
            (List.replicate st.rows.length 0, List.replicate st.rows.length 0)), []) = some r ∧
      (parseRhs stof inf st).2.lhs = r.1.1.1 ∧ (parseRhs stof inf st).2.rhs = r.1.1.2 := by
  unfold parseRhs at hret ⊢
  cases hloop : parseRhs.loop stof inf st.rows st.file
      (st.rows.foldl (parseRhs.default inf)
        (st.rows.foldl (parseRhs.default inf)
          (List.replicate st.rows.length 0, List.replicate st.rows.length 0)), []) with
  | none =>
    rw [hloop] at hret
    simp at hret
  | some r =>
    obtain ⟨s, file⟩ := r
    rw [hloop] at hret
    simp only at hret ⊢
    by_cases hb : s.2.getD 0 "" ≠ "BOUNDS"
    · rw [if_pos hb] at hret
      simp at hret
    · rw [if_neg hb]
      exact ⟨(s, file), rfl, rfl, rfl⟩

theorem rhsValue_bounds (stof : String → ℚ) (inf : ℚ)
    (hinf : ∀ t, -inf ≤ stof t ∧ stof t ≤ inf) (entries : List (String × String))
    (name : String) :
    -inf ≤ rhsValue stof entries name ∧ rhsValue stof entries name ≤ inf := by
  have h0 : -inf ≤ (0 : ℚ) ∧ (0 : ℚ) ≤ inf := by
    have := hinf ""
    constructor <;> linarith
  unfold rhsValue
  have key : ∀ (l : List (String × String)) (v : ℚ), (-inf ≤ v ∧ v ≤ inf) →
      -inf ≤ l.foldl (fun v e => if e.1 = name then stof e.2 else v) v ∧
        l.foldl (fun v e => if e.1 = name then stof e.2 else v) v ≤ inf := by
    intro l
    induction l with
    | nil => intro v hv; exact hv
    | cons e l ih =>
      intro v hv
      rw [List.foldl_cons]
      apply ih
      split_ifs
      · exact hinf _
      · exact hv
  exact key entries 0 h0

/-- The sides after a successful `parseRhs` on rows as `parseRows` declares them, in terms
of the numbers that `std::stof` returns: `lhs` and `rhs` have one entry per row and every
index is the id of a declared row; a row declared `L` has `lhs = -inf` and `rhs = w`, a
row declared `G` has `lhs = w` and `rhs = inf`, a row declared `E` has `lhs = rhs = w`,
where `w` is the number that `std::stof` returns on the token of the last entry for the
row, or 0 if there is none: the `float` nearest to the value written, not the value
itself. When every number that `std::stof` returns lies between `-inf` and `inf`,
`lhs <= rhs` holds for every constraint row. The result is the one of the function with a
single pass of default initialisation. -/
theorem parseRhs_sides (stof : String → ℚ) (inf : ℚ) (st : ReaderState)
    (hwf : RowsWF st.rows) (hret : (parseRhs stof inf st).1 = Section.BOUNDS) :
    (parseRhs stof inf st).2.lhs.length = st.rows.length ∧
    (parseRhs stof inf st).2.rhs.length = st.rows.length ∧
    (∀ id, id < st.rows.length → ∃ name type, st.rows.lookup name = some (type, id)) ∧
    (∀ name type id, st.rows.lookup name = some (type, id) →
      (type = ConsType.LESS →
        (parseRhs stof inf st).2.lhs.getD id 0 = -inf ∧
          (parseRhs stof inf st).2.rhs.getD id 0 =
            rhsValue stof (rhsEntries st.file) name) ∧
      (type = ConsType.GREATER →
        (parseRhs stof inf st).2.lhs.getD id 0 = rhsValue stof (rhsEntries st.file) name ∧
          (parseRhs stof inf st).2.rhs.getD id 0 = inf) ∧
      (type = ConsType.EQUAL →
        (parseRhs stof inf st).2.lhs.getD id 0 = rhsValue stof (rhsEntries st.file) name ∧
          (parseRhs stof inf st).2.rhs.getD id 0 =
            rhsValue stof (rhsEntries st.file) name)) ∧
    ((∀ t, -inf ≤ stof t ∧ stof t ≤ inf) →
      ∀ name type id, st.rows.lookup name = some (type, id) → type ≠ ConsType.OBJECTIVE →
        (parseRhs stof inf st).2.lhs.getD id 0 ≤ (parseRhs stof inf st).2.rhs.getD id 0) ∧
    parseRhs stof inf st = parseRhs.single stof inf st := by
  obtain ⟨r, hloop, hl, hr⟩ := parseRhs_result stof inf st hret
  have hinv := parseRhs_loop_inv stof inf st.rows hwf st.file _ r []
    (parseRhs_start_inv stof inf st.rows hwf) hloop
  rw [List.nil_append] at hinv
  obtain ⟨hl1, hl2, hval⟩ := hinv
  rw [hl, hr]
  have hsides : ∀ name type id, st.rows.lookup name = some (type, id) →
      type ≠ ConsType.OBJECTIVE →
      r.1.1.1.getD id 0 = (rowSides inf type (rhsValue stof (rhsEntries st.file) name)).1 ∧
        r.1.1.2.getD id 0 =
          (rowSides inf type (rhsValue stof (rhsEntries st.file) name)).2 := by
    intro name type id hn hty
    have := hval name type id hn hty
    exact ⟨(Prod.mk.inj this).1, (Prod.mk.inj this).2⟩
  refine ⟨hl1, hl2, ?_, ?_, ?_, parseRhs_eq_single stof inf st⟩
  · intro id hid
    have hmem : id ∈ st.rows.map (fun r => r.2.2) := by
      rw [hwf.2]
      exact List.mem_range.mpr hid
    obtain ⟨row, hrow, hrid⟩ := List.mem_map.mp hmem
    obtain ⟨name, type, id2⟩ := row
    simp only at hrid
    subst hrid
    exact ⟨name, type, lookup_of_mem_nodup st.rows hwf.1 name (type, id2) hrow⟩
  · intro name type id hn
    refine ⟨?_, ?_, ?_⟩
    · intro ht
      have := hsides name type id hn (by rw [ht]; decide)
      rw [ht] at this
      exact this
    · intro ht
      have := hsides name type id hn (by rw [ht]; decide)
      rw [ht] at this
      exact this
    · intro ht
      have := hsides name type id hn (by rw [ht]; decide)
      rw [ht] at this
      exact this
  · intro hinf name type id hn hty
    obtain ⟨e1, e2⟩ := hsides name type id hn hty
    have hb := rhsValue_bounds stof inf hinf (rhsEntries st.file) name
    rw [e1, e2]
    cases type with
    | OBJECTIVE => exact absurd rfl hty
    | LESS => exact hb.1
    | GREATER => exact hb.2
    | EQUAL => exact le_refl _

/-- An instance on the file `fileZ`, whose values are all of type `float`: the reader
reaches the RHS section with the rows `r1` (an `L` row, id 0) and `r2`; `parseRhs`
succeeds and leaves `lhs[0] = -inf` and `rhs[0]` equal to the last value given for
`r1`. -/
theorem parseRhs_sides_witness :
    RowsWF (parse.loop decimal decimal infval 3 Section.NAME (parse.start fileZ)).2.rows ∧
    (parseRhs decimal infval
      (parse.loop decimal decimal infval 3 Section.NAME (parse.start fileZ)).2).1 =
        Section.BOUNDS ∧
    (parseRhs decimal infval
      (parse.loop decimal decimal infval 3 Section.NAME (parse.start fileZ)).2).2.lhs.getD 0 0
        = -infval ∧
    (parseRhs decimal infval
      (parse.loop decimal decimal infval 3 Section.NAME (parse.start fileZ)).2).2.rhs.getD 0 0
        = rhsValue decimal
          (rhsEntries (parse.loop decimal decimal infval 3 Section.NAME
            (parse.start fileZ)).2.file) "r1" :=
  have hwf : RowsWF
      (parse.loop decimal decimal infval 3 Section.NAME (parse.start fileZ)).2.rows := by
    unfold RowsWF
    decide!
  ⟨hwf, by decide!,
    ((parseRhs_sides decimal infval _ hwf (by decide!)).2.2.2.1 "r1" ConsType.LESS 0
      (by decide!)).1 rfl⟩

/-! ## The rows that `parseRows` declares -/

theorem parseRows_emplace_wf (s s2 : RowsState) (tokens : List String) (type : ConsType)
    (hwf : RowsWF s.rows) (hcnt : s.rowcounter = s.rows.length)
    (h : parseRows.emplace s tokens type = some s2) :
    RowsWF s2.rows ∧ s2.rowcounter = s2.rows.length := by
  unfold parseRows.emplace at h
  by_cases hdup : (s.rows.lookup (tokens.getD 1 "")).isSome = true
  · rw [if_pos hdup] at h
    simp at h
  · rw [if_neg hdup] at h
    have hs2 := Option.some.inj h
    rw [← hs2]
    have hnone : s.rows.lookup (tokens.getD 1 "") = none := by
      cases hl : s.rows.lookup (tokens.getD 1 "") with
      | none => rfl
      | some v => rw [hl] at hdup; simp at hdup
    have hnot := (lookup_eq_none_iff s.rows _).mp hnone
    refine ⟨⟨?_, ?_⟩, ?_⟩
    · simp only [List.map_append, List.map_cons, List.map_nil]
      refine List.Nodup.append hwf.1 (List.nodup_singleton _) ?_
      intro x hx hx2
      rw [List.mem_singleton] at hx2
      rw [hx2] at hx
      exact hnot hx
    · simp only [List.map_append, List.map_cons, List.map_nil, List.length_append,
        List.length_singleton]
      rw [hwf.2, List.range_succ, hcnt]
    · simp only [List.length_append, List.length_singleton]
      rw [hcnt]

theorem parseRows_line_wf (s s2 : RowsState) (tokens : List String)
    (hwf : RowsWF s.rows) (hcnt : s.rowcounter = s.rows.length)
    (h : parseRows.line s tokens = some s2) :
    RowsWF s2.rows ∧ s2.rowcounter = s2.rows.length := by
  unfold parseRows.line at h
  split_ifs at h
  · rw [← Option.some.inj h]
    exact ⟨hwf, hcnt⟩
  · exact parseRows_emplace_wf s s2 tokens _ hwf hcnt h
  · exact parseRows_emplace_wf s s2 tokens _ hwf hcnt h
  · exact parseRows_emplace_wf s s2 tokens _ hwf hcnt h

theorem parseRows_loop_wf (file : List String) :
    ∀ (s : RowsState) (r : RowsState × List String), RowsWF s.rows →
      s.rowcounter = s.rows.length → parseRows.loop file s = some r → RowsWF r.1.rows := by
  induction file with
  | nil =>
    intro s r hwf _ h
    rw [parseRows.loop] at h
    rw [← Option.some.inj h]
    exact hwf
  | cons line file ih =>
    intro s r hwf hcnt h
    rw [parseRows.loop] at h
    by_cases hskip : isSkipped line = true
    · rw [if_pos hskip] at h
      exact ih s r hwf hcnt h
    · rw [if_neg hskip] at h
      by_cases hone : (split line).length = 1
      · rw [if_pos hone] at h
        rw [← Option.some.inj h]
        exact hwf
      · rw [if_neg hone] at h
        cases hline : parseRows.line { s with tokens := split line } (split line) with
        | none =>
          rw [hline] at h
          simp at h
        | some s2 =>
          rw [hline] at h
          simp only at h
          obtain ⟨h1, h2⟩ := parseRows_line_wf { s with tokens := split line } s2 (split line)
            hwf hcnt hline
          exact ih s2 r h1 h2 h

/-- The map `rows` that a successful `parseRows` leaves, when it starts from the empty
map, is well formed: distinct names, and the ids `0, 1, ...` in the order of declaration. -/
theorem parseRows_rowsWF (st : ReaderState) (hempty : st.rows = [])
    (hret : (parseRows st).1 = Section.COLUMNS) : RowsWF (parseRows st).2.rows := by
  unfold parseRows at hret ⊢
  cases hloop : parseRows.loop st.file
      { rows := st.rows, objName := "", rowcounter := 0, tokens := [] } with
  | none =>
    rw [hloop] at hret
    simp at hret
  | some r =>
    obtain ⟨s, file⟩ := r
    rw [hloop] at hret
    simp only at hret ⊢
    have hwf := parseRows_loop_wf st.file
      { rows := st.rows, objName := "", rowcounter := 0, tokens := [] } (s, file)
      (by simp only [hempty]; exact ⟨List.nodup_nil, rfl⟩) (by simp only [hempty]; rfl) hloop
    by_cases hb : s.tokens.getD 0 "" ≠ "COLUMNS"
    · rw [if_pos hb] at hret
      simp at hret
    · rw [if_neg hb]
      exact hwf


/-! ## The arrays that `parseColumns` produces -/

theorem split_tokens_ne_empty (cs : List Char) :
    ∀ cur : List Char, ∀ t ∈ split.tokens cs cur, t ≠ "" := by
  induction cs with
  | nil =>
    intro cur t ht
    rw [split.tokens] at ht
    split_ifs at ht with hcur
    · exact absurd ht (List.not_mem_nil _)
    · rw [List.mem_singleton] at ht
      rw [ht]
      intro h
      exact hcur (by simpa using congrArg String.data h)
  | cons c cs ih =>
    intro cur t ht
    rw [split.tokens] at ht
    split_ifs at ht with hsp hcur
    · exact ih [] t ht
    · rcases List.mem_cons.mp ht with h | h
      · rw [h]
        intro h2
        exact hcur (by simpa using congrArg String.data h2)
      · exact ih [] t h
    · exact ih _ t ht

/-- The first token of a line with at least one token is not the empty string. -/
theorem split_head_ne_empty (line : String) (h : 0 < (split line).length) :
    (split line).getD 0 "" ≠ "" := by
  have hmem : (split line).getD 0 "" ∈ split line := by
    rw [List.getD_eq_getElem _ _ h]
    exact List.getElem_mem _
  exact split_tokens_ne_empty line.toList [] _ hmem

theorem getD_zero_append_singleton (l : List Nat) (d : Nat) :
    (l ++ [d]).getD 0 d = l.getD 0 d := by
  cases l <;> rfl

theorem getD_zero_of_ne_nil (l : List Nat) (d d2 : Nat) (h : l ≠ []) :
    l.getD 0 d = l.getD 0 d2 := by
  cases l with
  | nil => exact absurd rfl h
  | cons a l => rfl

theorem firstAppearances_append (seen : List String) (x : String) :
    firstAppearances (seen ++ [x]) =
      if x ∈ firstAppearances seen then firstAppearances seen
      else firstAppearances seen ++ [x] := by
  unfold firstAppearances
  rw [List.foldl_append]
  rfl

/-- The block `if (curCol != prevCol) { ... }` keeps the state `ColumnsInv`, for a column
name that is not empty, and leaves at least one column. -/
theorem newColumn_inv (rows : Rows) (s s2 : ColumnsState) (emitted seen : List String)
    (curCol : String) (hinv : ColumnsInv rows s emitted seen) (hne : curCol ≠ "")
    (h : parseColumns.newColumn s curCol = some s2) :
    ColumnsInv rows s2 emitted (seen ++ [curCol]) ∧ s2.prevCol = curCol ∧ s2.cols ≠ [] := by
  unfold parseColumns.newColumn at h
  have hvl : s.varNames.length = s.cols.length := by
    rw [← hinv.cols_names, List.length_map]
  by_cases hnew : curCol ≠ s.prevCol
  · rw [if_pos hnew] at h
    by_cases hdup : s.colset.contains curCol = true
    · rw [if_pos hdup] at h
      simp at h
    · rw [if_neg hdup] at h
      have hnotset : curCol ∉ s.colset := by simpa using hdup
      have hnot : curCol ∉ s.varNames := fun hm => hnotset ((hinv.colset_mem curCol).mpr hm)
      have hlook : s.cols.lookup curCol = none := by
        rw [lookup_eq_none_iff, hinv.cols_names]
        exact hnot
      have hid : (s.colId + 1).toNat = s.cols.length := by
        rw [hinv.colId_eq]
        exact Int.toNat_natCast _
      rw [hlook, hid] at h
      simp only [Option.isSome_none, Bool.false_eq_true, if_false] at h
      have hs2 := Option.some.inj h
      rw [← hs2]
      refine ⟨?_, rfl, by simp⟩
      refine
        { colId_eq := ?_, rstart_length := ?_, integer_length := ?_, cols_names := ?_,
          cols_ids := ?_, colset_mem := ?_, names_nodup := ?_, names_seen := ?_,
          prevCol_last := ?_, idxT_length := hinv.idxT_length, rstart_sorted := ?_,
          rstart_le := ?_, rstart_head := ?_, rowSize_length := hinv.rowSize_length,
          rowSize_count := hinv.rowSize_count, idxT_declared := hinv.idxT_declared,
          objective_le := ?_, objective_full := ?_ }
      · simp only [List.length_append, List.length_singleton]
        rw [hinv.colId_eq]
        push_cast
        ring
      · simp only [List.length_append, List.length_singleton]
        rw [hinv.rstart_length]
      · simp only [List.length_append, List.length_singleton]
        rw [hinv.integer_length]
      · simp only [List.map_append, List.map_cons, List.map_nil]
        rw [hinv.cols_names]
      · simp only [List.map_append, List.map_cons, List.map_nil, List.length_append,
          List.length_singleton]
        rw [hinv.cols_ids, List.range_succ]
      · intro x
        simp only [List.mem_cons, List.mem_append, List.not_mem_nil, or_false]
        rw [hinv.colset_mem x]
        exact or_comm
      · simp only
        refine List.Nodup.append hinv.names_nodup (List.nodup_singleton _) ?_
        intro x hx hx2
        rw [List.mem_singleton] at hx2
        rw [hx2] at hx
        exact hnot hx
      · simp only
        rw [firstAppearances_append, ← hinv.names_seen, if_neg hnot]
      · simp only
        rw [List.getLast?_concat]
        rfl
      · simp only
        rw [List.pairwise_append]
        refine ⟨hinv.rstart_sorted, List.pairwise_singleton _ _, ?_⟩
        intro a ha b hb
        rw [List.mem_singleton] at hb
        rw [hb]
        exact hinv.rstart_le a ha
      · intro x hx
        simp only [List.mem_append, List.mem_singleton] at hx
        rcases hx with hx | hx
        · exact hinv.rstart_le x hx
        · rw [hx]
      · simp only
        rw [getD_zero_append_singleton]
        exact hinv.rstart_head
      · simp only [List.length_append, List.length_singleton]
        have := hinv.objective_le
        omega
      · intro _ hlen
        simp only [List.length_append, List.length_singleton] at hlen
        have := hinv.objective_le
        omega
  · rw [if_neg hnew] at h
    have hprev : curCol = s.prevCol := not_not.mp hnew
    have hs2 := Option.some.inj h
    rw [← hs2]
    have hcols : s.cols ≠ [] := by
      intro hc
      have hv : s.varNames = [] := by
        rw [← hinv.cols_names, hc]
        rfl
      have := hinv.prevCol_last
      rw [hv] at this
      exact hne (hprev.trans this.symm)
    have hmem : curCol ∈ s.varNames := by
      have hl := hinv.prevCol_last
      cases hgl : s.varNames.getLast? with
      | none =>
        rw [hgl] at hl
        exact absurd (hprev.trans hl.symm) hne
      | some x =>
        rw [hgl] at hl
        have hx : x = curCol := by
          rw [hprev]
          exact hl
        rw [← hx]
        exact List.mem_of_getLast?_eq_some hgl
    refine ⟨?_, hprev.symm, hcols⟩
    have hseen : s.varNames = firstAppearances (seen ++ [curCol]) := by
      rw [firstAppearances_append, ← hinv.names_seen, if_pos hmem]
    exact { hinv with names_seen := hseen }

/-- The loop over the entries of a data line keeps the state `ColumnsInv`, when the
objective entries of the line are new for their column. -/
theorem columns_entries_inv (stod : String → ℚ) (rows : Rows) (objName : String)
    (hrows : ∀ name t r, rows.lookup name = some (t, r) → r < rows.length) :
    ∀ (n : Nat) (toks : List String), toks.length ≤ n →
      ∀ (s s2 : ColumnsState) (emitted seen : List String),
        ColumnsInv rows s emitted seen → s.cols ≠ [] →
        (emitted ++ objectiveEntries.ofTokens objName s.prevCol toks).Nodup →
        parseColumns.entries stod rows objName toks s = some s2 →
          ColumnsInv rows s2 (emitted ++ objectiveEntries.ofTokens objName s.prevCol toks)
            seen := by
  intro n
  induction n with
  | zero =>
    intro toks hlen s s2 emitted seen hinv _ _ h
    have : toks = [] := List.length_eq_zero.mp (by omega)
    subst this
    have e : parseColumns.entries stod rows objName [] s = some s := rfl
    rw [e] at h
    rw [← Option.some.inj h]
    simpa [objectiveEntries.ofTokens] using hinv
  | succ n ih =>
    intro toks hlen s s2 emitted seen hinv hcols hnd h
    match toks, hlen, hnd, h with
    | [], _, _, h =>
      have e : parseColumns.entries stod rows objName [] s = some s := rfl
      rw [e] at h
      rw [← Option.some.inj h]
      simpa [objectiveEntries.ofTokens] using hinv
    | [x], _, _, h =>
      have e : parseColumns.entries stod rows objName [x] s = some s := rfl
      rw [e] at h
      rw [← Option.some.inj h]
      simpa [objectiveEntries.ofTokens] using hinv
    | rowname :: value :: rest, hlen, hnd, h =>
      rw [parseColumns.entries] at h
      have hrest : rest.length ≤ n := by
        simp only [List.length_cons] at hlen
        omega
      have hpos : 0 < s.cols.length := List.length_pos.mpr hcols
      by_cases hobj : rowname = objName
      · rw [if_pos hobj] at h
        have hof : objectiveEntries.ofTokens objName s.prevCol (rowname :: value :: rest) =
            s.prevCol :: objectiveEntries.ofTokens objName s.prevCol rest := by
          rw [objectiveEntries.ofTokens, if_pos hobj]
        rw [hof] at hnd ⊢
        have happ : emitted ++ s.prevCol :: objectiveEntries.ofTokens objName s.prevCol rest =
            (emitted ++ [s.prevCol]) ++ objectiveEntries.ofTokens objName s.prevCol rest := by
          simp
        rw [happ] at hnd ⊢
        have hnotin : s.prevCol ∉ emitted := by
          intro hm
          have hnd2 := (List.nodup_append.mp hnd).1
          have := (List.nodup_append.mp hnd2).2.2
          exact this hm (List.mem_singleton_self _)
        have hlt : s.objective.length < s.cols.length := by
          rcases Nat.lt_or_ge s.objective.length s.cols.length with hl | hl
          · exact hl
          · have heq : s.objective.length = s.cols.length :=
              le_antisymm hinv.objective_le hl
            exact absurd (hinv.objective_full hcols heq) hnotin
        have hcid : s.colId.toNat = s.cols.length - 1 := by
          have := hinv.colId_eq
          omega
        refine ih rest hrest
          { s with
            objective :=
              s.objective ++ List.replicate (s.colId.toNat - s.objective.length) 0 ++
                [stod value] } s2 _ seen ?_ hcols hnd h
        refine { hinv with objective_le := ?_, objective_full := ?_ }
        · simp only [List.length_append, List.length_replicate, List.length_singleton]
          omega
        · intro _ _
          exact List.mem_append_right _ (List.mem_singleton_self _)
      · rw [if_neg hobj] at h
        have hof : objectiveEntries.ofTokens objName s.prevCol (rowname :: value :: rest) =
            objectiveEntries.ofTokens objName s.prevCol rest := by
          rw [objectiveEntries.ofTokens, if_neg hobj]
        rw [hof] at hnd ⊢
        cases hlook : rows.lookup rowname with
        | none =>
          rw [hlook] at h
          simp at h
        | some row =>
          obtain ⟨t, r⟩ := row
          rw [hlook] at h
          simp only at h
          have hr : r < rows.length := hrows rowname t r hlook
          refine ih rest hrest
            { s with
              coefs := s.coefs ++ [stod value]
              idxT := s.idxT ++ [r]
              rowSize := s.rowSize.set r (s.rowSize.getD r 0 + 1) } s2 _ seen ?_ hcols hnd h
          refine
            { hinv with
              idxT_length := ?_, rstart_le := ?_, rstart_head := ?_, rowSize_length := ?_,
              rowSize_count := ?_, idxT_declared := ?_ }
          · simp only [List.length_append, List.length_singleton]
            rw [hinv.idxT_length]
          · intro x hx
            have := hinv.rstart_le x hx
            simp only [List.length_append, List.length_singleton]
            omega
          · have hne : s.rstart ≠ [] := by
              intro hnil
              have := hinv.rstart_length
              rw [hnil] at this
              simp only [List.length_nil] at this
              omega
            simp only
            rw [getD_zero_of_ne_nil s.rstart _ s.coefs.length hne]
            exact hinv.rstart_head
          · simp only [List.length_set]
            exact hinv.rowSize_length
          · intro q hq
            simp only
            by_cases hqr : r = q
            · subst hqr
              rw [getD_set_self _ _ _ _ (by rw [hinv.rowSize_length]; exact hr),
                hinv.rowSize_count r hr, List.count_append]
              simp
            · rw [getD_set_of_ne _ _ _ _ _ hqr, hinv.rowSize_count q hq, List.count_append]
              have : List.count q [r] = 0 := by
                rw [List.count_eq_zero]
                intro hm
                rw [List.mem_singleton] at hm
                exact hqr hm.symm
              rw [this]
              rfl
          · intro q hq
            simp only [List.mem_append, List.mem_singleton] at hq
            rcases hq with hq | hq
            · exact hinv.idxT_declared q hq
            · rw [hq]
              exact ⟨rowname, t, hlook⟩

/-- The body of the loop of `parseColumns` keeps the state `ColumnsInv`: a marker line
changes neither the arrays nor the ghost lists, a data line adds its first token to the
tokens seen and its objective entries to the entries emitted. -/
theorem columns_line_inv (stod : String → ℚ) (rows : Rows) (objName : String)
    (hrows : ∀ name t r, rows.lookup name = some (t, r) → r < rows.length)
    (s s2 : ColumnsState) (emitted seen : List String) (tokens : List String)
    (htok : ∀ t ∈ tokens, t ≠ "") (hinv : ColumnsInv rows s emitted seen)
    (h : parseColumns.line stod rows objName s tokens = some s2) :
    (tokens.length = 3 ∧ tokens.getD 1 "" = "'MARKER'" → ColumnsInv rows s2 emitted seen) ∧
    (¬ (tokens.length = 3 ∧ tokens.getD 1 "" = "'MARKER'") →
      (emitted ++ objectiveEntries.ofTokens objName (tokens.getD 0 "") tokens.tail).Nodup →
      ColumnsInv rows s2
        (emitted ++ objectiveEntries.ofTokens objName (tokens.getD 0 "") tokens.tail)
        (seen ++ [tokens.getD 0 ""])) := by
  unfold parseColumns.line at h
  constructor
  · intro hm
    rw [if_pos hm] at h
    split_ifs at h
    · rw [← Option.some.inj h]
      exact { hinv with }
    · rw [← Option.some.inj h]
      exact { hinv with }
  · intro hm hnd
    rw [if_neg hm] at h
    by_cases heven : tokens.length ≠ 3 ∧ tokens.length % 2 = 0
    · rw [if_pos heven] at h
      simp at h
    · rw [if_neg heven] at h
      have hpos : 0 < tokens.length := by
        by_contra hz
        apply heven
        have : tokens.length = 0 := by omega
        rw [this]
        exact ⟨by decide, rfl⟩
      have hne : tokens.getD 0 "" ≠ "" := by
        apply htok
        rw [List.getD_eq_getElem _ _ hpos]
        exact List.getElem_mem _
      cases hnew : parseColumns.newColumn s (tokens.getD 0 "") with
      | none =>
        rw [hnew] at h
        simp at h
      | some s1 =>
        rw [hnew] at h
        simp only at h
        obtain ⟨h1, hprev, hcols⟩ := newColumn_inv rows s s1 emitted seen _ hinv hne hnew
        have := columns_entries_inv stod rows objName hrows _ tokens.tail (le_refl _) s1 s2
          emitted _ h1 hcols (by rw [hprev]; exact hnd) h
        rw [hprev] at this
        exact this

theorem columns_loop_inv (stod : String → ℚ) (rows : Rows) (objName : String)
    (hrows : ∀ name t r, rows.lookup name = some (t, r) → r < rows.length)
    (file : List String) :
    ∀ (s : ColumnsState) (r : ColumnsState × List String) (emitted seen : List String),
      ColumnsInv rows s emitted seen →
      (emitted ++ objectiveEntries objName file).Nodup →
      parseColumns.loop stod rows objName file s = some r →
        ColumnsInv rows r.1 (emitted ++ objectiveEntries objName file)
          (seen ++ columnTokens file) := by
  induction file with
  | nil =>
    intro s r emitted seen hinv _ h
    rw [parseColumns.loop] at h
    rw [← Option.some.inj h]
    simpa [objectiveEntries, columnTokens] using hinv
  | cons line file ih =>
    intro s r emitted seen hinv hnd h
    rw [parseColumns.loop] at h
    rw [objectiveEntries] at hnd ⊢
    rw [columnTokens]
    by_cases hskip : isSkipped line = true
    · rw [if_pos hskip] at h hnd ⊢
      rw [if_pos hskip]
      exact ih s r emitted seen hinv hnd h
    · rw [if_neg hskip] at h hnd ⊢
      rw [if_neg hskip]
      by_cases hone : (split line).length = 1
      · rw [if_pos hone] at h ⊢
        rw [if_pos hone]
        rw [← Option.some.inj h]
        simp only [List.append_nil]
        exact { hinv with }
      · rw [if_neg hone] at h hnd ⊢
        rw [if_neg hone]
        cases hline : parseColumns.line stod rows objName { s with tokens := split line }
            (split line) with
        | none =>
          rw [hline] at h
          simp at h
        | some s2 =>
          rw [hline] at h
          simp only at h
          have hl := columns_line_inv stod rows objName hrows { s with tokens := split line }
            s2 emitted seen (split line) (split_tokens_ne_empty line.toList [])
            { hinv with } hline
          by_cases hm : (split line).length = 3 ∧ (split line).getD 1 "" = "'MARKER'"
          · rw [if_pos hm] at hnd ⊢
            rw [if_pos hm]
            exact ih s2 r emitted seen (hl.1 hm) hnd h
          · rw [if_neg hm] at hnd ⊢
            rw [if_neg hm]
            rw [← List.append_assoc] at hnd ⊢
            have h2 := hl.2 hm (List.nodup_append.mp hnd).1
            have h3 := ih s2 r _ _ h2 hnd h
            rw [List.append_assoc seen] at h3
            exact h3

/-- A successful `parseColumns` stores the arrays that its loop leaves, with the last row
ended and the objective padded. -/
theorem parseColumns_result (stod : String → ℚ) (st : ReaderState)
    (hret : (parseColumns stod st).1 = Section.RHS) :
    ∃ r, parseColumns.loop stod st.rows st.objName st.file
        { colId := -1, prevCol := "", colset := [], integerSection := false, tokens := []
          cols := st.cols, coefs := st.coefsT, idxT := st.idxT, rstart := st.rstartT
          objective := st.objective, integer := st.integer
          rowSize := List.replicate st.rows.length 0, varNames := st.varNames } = some r ∧
      (parseColumns stod st).2.rows = st.rows ∧
      (parseColumns stod st).2.cols = r.1.cols ∧
      (parseColumns stod st).2.coefsT = r.1.coefs ∧
      (parseColumns stod st).2.idxT = r.1.idxT ∧
      (parseColumns stod st).2.rstartT = r.1.rstart ++ [r.1.coefs.length] ∧
      (parseColumns stod st).2.objective =
        r.1.objective ++ List.replicate ((r.1.colId + 1).toNat - r.1.objective.length) 0 ∧
      (parseColumns stod st).2.integer = r.1.integer ∧
      (parseColumns stod st).2.rowSize = r.1.rowSize ∧
      (parseColumns stod st).2.varNames = r.1.varNames := by
  unfold parseColumns at hret ⊢
  cases hloop : parseColumns.loop stod st.rows st.objName st.file
      { colId := -1, prevCol := "", colset := [], integerSection := false, tokens := []
        cols := st.cols, coefs := st.coefsT, idxT := st.idxT, rstart := st.rstartT
        objective := st.objective, integer := st.integer
        rowSize := List.replicate st.rows.length 0, varNames := st.varNames } with
  | none =>
    rw [hloop] at hret
    simp at hret
  | some r =>
    obtain ⟨s, file⟩ := r
    rw [hloop] at hret
    simp only at hret ⊢
    by_cases hb : s.tokens.getD 0 "" ≠ "RHS"
    · rw [if_pos hb] at hret
      simp at hret
    · rw [if_neg hb]
      exact ⟨(s, file), rfl, rfl, rfl, rfl, rfl, rfl, rfl, rfl, rfl, rfl⟩

theorem pairwise_getD_le (l : List Nat) (h : l.Pairwise (fun a b => a ≤ b)) (i j : Nat)
    (hij : i ≤ j) (hj : j < l.length) : l.getD i 0 ≤ l.getD j 0 := by
  rcases Nat.lt_or_ge i j with hlt | hge
  · rw [List.getD_eq_getElem _ _ (by omega), List.getD_eq_getElem _ _ hj]
    exact List.pairwise_iff_getElem.mp h i j (by omega) hj hlt
  · have : i = j := le_antisymm hij hge
    rw [this]

/-- C36: when `parseColumns` returns `RHS`, starting from empty output vectors and from
rows as `parseRows` declares them, on input in which no column repeats its objective
entry, the arrays `rstart`, `idxT`, `coefs` form a well-formed column-major matrix with
`cols.size()` rows and `rows.size()` columns (`rstart` has `ncols + 1` entries, starts at
0, is non-decreasing and ends at `coefs.size()`; `idxT` and `coefs` have equal length and
every entry of `idxT` is the id of a declared row); `rowSize[r]` is the number of entries
of `idxT` equal to `r`, so that the sizes sum to the number of stored entries;
`objective`, `integer` and `varNames` have one entry per column; and the columns have the
ids `0, 1, ...` in the order of the first appearance of their names. -/
theorem parseColumns_wellFormed (stod : String → ℚ) (st : ReaderState)
    (hempty : st.cols = [] ∧ st.coefsT = [] ∧ st.idxT = [] ∧ st.rstartT = [] ∧
      st.objective = [] ∧ st.integer = [] ∧ st.varNames = [])
    (hwf : RowsWF st.rows) (hobj : (objectiveEntries st.objName st.file).Nodup)
    (hret : (parseColumns stod st).1 = Section.RHS) :
    (columnMatrix (parseColumns stod st).2).WellFormed ∧
    (parseColumns stod st).2.rowSize.length = st.rows.length ∧
    (∀ r, r < st.rows.length →
      (parseColumns stod st).2.rowSize.getD r 0 = (parseColumns stod st).2.idxT.count r) ∧
    (parseColumns stod st).2.coefsT.length =
      prefixSum (parseColumns stod st).2.rowSize st.rows.length ∧
    (∀ r ∈ (parseColumns stod st).2.idxT, ∃ name t, st.rows.lookup name = some (t, r)) ∧
    (parseColumns stod st).2.objective.length = (parseColumns stod st).2.cols.length ∧
    (parseColumns stod st).2.integer.length = (parseColumns stod st).2.cols.length ∧
    (parseColumns stod st).2.varNames.length = (parseColumns stod st).2.cols.length ∧
    (parseColumns stod st).2.cols.map (fun p => p.1) = (parseColumns stod st).2.varNames ∧
    (parseColumns stod st).2.cols.map (fun p => p.2) =
      List.range (parseColumns stod st).2.cols.length ∧
    (parseColumns stod st).2.varNames = firstAppearances (columnTokens st.file) ∧
    (parseColumns stod st).2.varNames.Nodup := by
  obtain ⟨hc, hco, hid, hrs, hob, hin, hvn⟩ := hempty
  obtain ⟨r, hloop, orows, ocols, ocoefs, oidx, orstart, oobj, oint, orow, ovar⟩ :=
    parseColumns_result stod st hret
  rw [hc, hco, hid, hrs, hob, hin, hvn] at hloop
  have hrows : ∀ name t i, st.rows.lookup name = some (t, i) → i < st.rows.length :=
    fun name t i h => rowsWF_id_lt st.rows hwf (name, t, i) (lookup_mem st.rows _ _ h)
  have hstart : ColumnsInv st.rows
      { colId := -1, prevCol := "", colset := [], integerSection := false, tokens := []
        cols := [], coefs := [], idxT := [], rstart := [], objective := [], integer := []
        rowSize := List.replicate st.rows.length 0, varNames := [] } [] [] :=
    { colId_eq := rfl, rstart_length := rfl, integer_length := rfl, cols_names := rfl,
      cols_ids := rfl, colset_mem := fun _ => Iff.rfl, names_nodup := List.nodup_nil,
      names_seen := rfl, prevCol_last := rfl, idxT_length := rfl,
      rstart_sorted := List.Pairwise.nil,
      rstart_le := fun _ hx => absurd hx (List.not_mem_nil _), rstart_head := rfl,
      rowSize_length := List.length_replicate _ _,
      rowSize_count := fun q hq => by
        simp [List.getD_eq_getElem?_getD, List.getElem?_replicate, hq],
      idxT_declared := fun _ hx => absurd hx (List.not_mem_nil _),
      objective_le := le_refl _, objective_full := fun h => absurd rfl h }
  have hinv := columns_loop_inv stod st.rows st.objName hrows st.file _ r [] [] hstart
    (by rw [List.nil_append]; exact hobj) hloop
  rw [List.nil_append, List.nil_append] at hinv
  have hvl : r.1.varNames.length = r.1.cols.length := by
    rw [← hinv.cols_names, List.length_map]
  have hM : (columnMatrix (parseColumns stod st).2).WellFormed := by
    refine
      { rowStart_length := ?_, rowStart_zero := ?_, rowStart_mono := ?_, rowStart_last := ?_,
        coefficients_length := ?_, index_lt := ?_ }
    · show (parseColumns stod st).2.rstartT.length = (parseColumns stod st).2.cols.length + 1
      rw [orstart, ocols, List.length_append, List.length_singleton, hinv.rstart_length]
    · show (parseColumns stod st).2.rstartT.getD 0 0 = 0
      rw [orstart]
      have h1 := getD_zero_append_singleton r.1.rstart r.1.coefs.length
      have h2 : (r.1.rstart ++ [r.1.coefs.length]).getD 0 0 =
          (r.1.rstart ++ [r.1.coefs.length]).getD 0 r.1.coefs.length :=
        getD_zero_of_ne_nil _ _ _ (by simp)
      rw [h2, h1]
      exact hinv.rstart_head
    · intro q hq
      show (parseColumns stod st).2.rstartT.getD q 0 ≤
        (parseColumns stod st).2.rstartT.getD (q + 1) 0
      have hq2 : q < r.1.cols.length := by
        have : q < (parseColumns stod st).2.cols.length := hq
        rw [ocols] at this
        exact this
      rw [orstart]
      refine pairwise_getD_le _ ?_ q (q + 1) (by omega) ?_
      · rw [List.pairwise_append]
        refine ⟨hinv.rstart_sorted, List.pairwise_singleton _ _, ?_⟩
        intro a ha b hb
        rw [List.mem_singleton] at hb
        rw [hb]
        exact hinv.rstart_le a ha
      · rw [List.length_append, List.length_singleton, hinv.rstart_length]
        omega
    · show (parseColumns stod st).2.rstartT.getD (parseColumns stod st).2.cols.length 0 =
        (parseColumns stod st).2.idxT.length
      rw [orstart, ocols, oidx, ← hinv.rstart_length, hinv.idxT_length]
      rw [List.getD_eq_getElem?_getD, List.getElem?_append_right (le_refl _)]
      simp
    · show (parseColumns stod st).2.coefsT.length = (parseColumns stod st).2.idxT.length
      rw [ocoefs, oidx, hinv.idxT_length]
    · intro p hp
      show (parseColumns stod st).2.idxT.getD p 0 < (parseColumns stod st).2.rows.length
      have hp2 : p < r.1.idxT.length := by
        have : p < (parseColumns stod st).2.idxT.length := hp
        rw [oidx] at this
        exact this
      rw [oidx, orows, List.getD_eq_getElem _ _ hp2]
      obtain ⟨name, t, hl⟩ := hinv.idxT_declared _ (List.getElem_mem hp2)
      exact hrows name t _ hl
  have hcount : ∀ q, q < st.rows.length →
      (parseColumns stod st).2.rowSize.getD q 0 = (parseColumns stod st).2.idxT.count q := by
    intro q hq
    rw [orow, oidx]
    exact hinv.rowSize_count q hq
  have hsum := (transpose_hyps (columnMatrix (parseColumns stod st).2)
    (parseColumns stod st).2.rowSize hM (by
      intro j hj
      have hj2 : j < st.rows.length := by
        have : j < (parseColumns stod st).2.rows.length := hj
        rw [orows] at this
        exact this
      exact hcount j hj2)).2
  have hsum2 : (parseColumns stod st).2.coefsT.length =
      prefixSum (parseColumns stod st).2.rowSize st.rows.length := by
    have : (columnMatrix (parseColumns stod st).2).ncols = st.rows.length := by
      show (parseColumns stod st).2.rows.length = st.rows.length
      rw [orows]
    rw [← this]
    exact hsum
  refine ⟨hM, ?_, hcount, hsum2, ?_, ?_, ?_, ?_, ?_, ?_, ?_, ?_⟩
  · rw [orow]
    exact hinv.rowSize_length
  · intro q hq
    rw [oidx] at hq
    exact hinv.idxT_declared q hq
  · rw [oobj, ocols, List.length_append, List.length_replicate]
    have h1 := hinv.objective_le
    have h2 := hinv.colId_eq
    omega
  · rw [oint, ocols]
    exact hinv.integer_length
  · rw [ovar, ocols]
    exact hvl
  · rw [ocols, ovar]
    exact hinv.cols_names
  · rw [ocols]
    exact hinv.cols_ids
  · rw [ovar]
    exact hinv.names_seen
  · rw [ovar]
    exact hinv.names_nodup

/-- C36 witness: on the trivial LP `fileT` the reader reaches the COLUMNS section with
empty output vectors and the row `c1`; both columns give their objective entry once,
`parseColumns` returns `RHS`, and its arrays form a well-formed column-major matrix. -/
theorem parseColumns_wellFormed_witness :
    RowsWF (parse.loop decimal decimal infval 2 Section.NAME (parse.start fileT)).2.rows ∧
    (objectiveEntries
      (parse.loop decimal decimal infval 2 Section.NAME (parse.start fileT)).2.objName
      (parse.loop decimal decimal infval 2 Section.NAME (parse.start fileT)).2.file).Nodup ∧
    (parseColumns decimal
      (parse.loop decimal decimal infval 2 Section.NAME (parse.start fileT)).2).1 =
        Section.RHS ∧
    (columnMatrix (parseColumns decimal
      (parse.loop decimal decimal infval 2 Section.NAME (parse.start fileT)).2).2).WellFormed :=
  have hwf : RowsWF
      (parse.loop decimal decimal infval 2 Section.NAME (parse.start fileT)).2.rows := by
    unfold RowsWF
    decide!
  have hobj : (objectiveEntries
      (parse.loop decimal decimal infval 2 Section.NAME (parse.start fileT)).2.objName
      (parse.loop decimal decimal infval 2 Section.NAME (parse.start fileT)).2.file).Nodup := by
    decide!
  ⟨hwf, hobj, by decide!,
    (parseColumns_wellFormed decimal _
      ⟨by decide!, by decide!, by decide!, by decide!, by decide!, by decide!, by decide!⟩ hwf
      hobj (by decide!)).1⟩


/-! ## The precision of the values that `parseBounds` and `parseRhs` store -/

/-- C20 (code bug): `parseBounds` converts the value of a bound line with `std::stof`, to
single precision, and stores the `float` in a `double`, while `parseColumns` converts
with `std::stod`. On `filePrec` the reader reaches `END`. The only bound line of column
`x` is `UP bnd x 16777217`, whose value is a `double`: `std::stod` returns 16777217 and
`parseColumns` stores 16777217 for the coefficient written with the same token; the
successful `parseBounds` stores `ub = 16777216` for `x`, which is not the value of the
line. The only bound line of column `y` is `UP bnd y 0.1`, and the `ub` stored for `y` is
the `float` nearest to 0.1, not the `double` that `std::stod` returns and `parseColumns`
stores as the objective coefficient of `y`. -/
theorem parseBounds_stores_single_precision :
    (parse.loop stodDecimal stofDecimal infval 4 Section.NAME (parse.start filePrec)).1 =
      Section.BOUNDS ∧
    (parseBounds stofDecimal infval statePrecBounds).1 = Section.END ∧
    (parse.loop stodDecimal stofDecimal infval 5 Section.NAME (parse.start filePrec)).1 =
      Section.END ∧
    boundLinesOf statePrecBounds.cols 0 statePrecBounds.file =
      [["UP", "bnd", "x", "16777217"]] ∧
    boundLinesOf statePrecBounds.cols 1 statePrecBounds.file = [["UP", "bnd", "y", "0.1"]] ∧
    decimal "16777217" = 16777217 ∧ stodDecimal "16777217" = 16777217 ∧
    statePrecBounds.coefsT = [16777217, 1] ∧
    (parseBounds stofDecimal infval statePrecBounds).2.ubs.getD 0 0 = 16777216 ∧
    (parseBounds stofDecimal infval statePrecBounds).2.ubs.getD 0 0 ≠
      stodDecimal "16777217" ∧
    decimal "0.1" = 1/10 ∧ stodDecimal "0.1" = 3602879701896397/36028797018963968 ∧
    statePrecBounds.objective = [1, 3602879701896397/36028797018963968] ∧
    (parseBounds stofDecimal infval statePrecBounds).2.ubs.getD 1 0 = 13421773/134217728 ∧
    (parseBounds stofDecimal infval statePrecBounds).2.ubs.getD 1 0 ≠ stodDecimal "0.1" ∧
    (parseBounds stofDecimal infval statePrecBounds).2.lbs = [0, 0] := by
  refine ⟨?_, ?_, ?_, ?_, ?_, ?_, ?_, ?_, ?_, ?_, ?_, ?_, ?_, ?_, ?_, ?_⟩ <;> decide!

/-- C35 (code bug): `parseRhs` converts the value of an entry with `std::stof`, to single
precision, and stores the `float` in a `double`, while `parseColumns` converts with
`std::stod`. On `filePrec` the RHS section gives the value 16777217 for the `L` row `r1`
and the value 0.1 for the `G` row `r2`, once each. 16777217 is a `double`: `std::stod`
returns it and `parseColumns` stores it for the coefficient written with the same token;
the successful `parseRhs` stores `rhs[r1] = 16777216`, and for `lhs[r2]` the `float`
nearest to 0.1, not the `double` that `std::stod` returns. -/
theorem parseRhs_stores_single_precision :
    (parse.loop stodDecimal stofDecimal infval 3 Section.NAME (parse.start filePrec)).1 =
      Section.RHS ∧
    statePrecRhs.rows = [("r1", ConsType.LESS, 0), ("r2", ConsType.GREATER, 1)] ∧
    (parseRhs stofDecimal infval statePrecRhs).1 = Section.BOUNDS ∧
    rhsEntries statePrecRhs.file = [("r1", "16777217"), ("r2", "0.1")] ∧
    rhsValue decimal (rhsEntries statePrecRhs.file) "r1" = 16777217 ∧
    rhsValue stodDecimal (rhsEntries statePrecRhs.file) "r1" = 16777217 ∧
    statePrecRhs.coefsT = [16777217, 1] ∧
    (parseRhs stofDecimal infval statePrecRhs).2.rhs.getD 0 0 = 16777216 ∧
    (parseRhs stofDecimal infval statePrecRhs).2.rhs.getD 0 0 ≠
      rhsValue stodDecimal (rhsEntries statePrecRhs.file) "r1" ∧
    (parseRhs stofDecimal infval statePrecRhs).2.lhs.getD 0 0 = -infval ∧
    rhsValue decimal (rhsEntries statePrecRhs.file) "r2" = 1/10 ∧
    rhsValue stodDecimal (rhsEntries statePrecRhs.file) "r2" =
      3602879701896397/36028797018963968 ∧
    (parseRhs stofDecimal infval statePrecRhs).2.lhs.getD 1 0 = 13421773/134217728 ∧
    (parseRhs stofDecimal infval statePrecRhs).2.lhs.getD 1 0 ≠
      rhsValue stodDecimal (rhsEntries statePrecRhs.file) "r2" ∧
    (parseRhs stofDecimal infval statePrecRhs).2.rhs.getD 1 0 = infval := by
  refine ⟨?_, ?_, ?_, ?_, ?_, ?_, ?_, ?_, ?_, ?_, ?_, ?_, ?_, ?_, ?_⟩ <;> decide!

end GPH
